import Mathlib

/-!
# OTUI editor: markup engine

A shallow embedding of the markup engine of the OTUI editor:

* `src/thirdparty/otui/otui_parser.c`: the line parser, the node tree and the
  explicit inheritance resolver;
* `src/otui/parser.cpp`: typed property extraction, the widget builder and
  `resolveAnchors`;
* `src/otui/widget.cpp`: anchor bindings, `fillTarget` and `applyAnchors`.

Conventions of the embedding.

* Text (`QString`, C strings) is a list of characters. The content of a file
  is the list of its bytes, one character for every byte; of a buffer that
  `fgets` has filled the C code sees the bytes before the first NUL
  (`cString`).
* `int` is `Int`; signed overflow (undefined in C++) is outside the model.
  `QString::toInt` checks the 32-bit range explicitly.
* A pointer to a widget is an index into the widget list, a pointer to a node
  is a path from the root of the node tree.
* A loop that may run forever in the source (parent chain, base-style chain)
  returns `none` when it does.
-/

namespace OTUI

/-- Text: a `QString` or a C string, as its sequence of characters. -/
abbrev Str := List Char

/-! ## Text helpers (Qt and libc) -/

/-- The C `isspace` in the "C" locale: space, `\t`, `\n`, `\v`, `\f`, `\r`. -/
def isspace (c : Char) : Bool :=
  c = ' ' || c = '\t' || c = '\n' || c = Char.ofNat 11 || c = Char.ofNat 12 || c = '\r'

/-- Case-insensitive comparison `a.compare(b, Qt::CaseInsensitive) == 0`
(letters of the ASCII range). -/
def compareCI (a b : Str) : Bool :=
  a.map Char.toLower == b.map Char.toLower

/-- Drop the leading white space of a text. -/
def trimLeft : Str → Str
  | [] => []
  | c :: cs => if isspace c then trimLeft cs else c :: cs

/-- The text without leading and trailing white space: `trim` of
`otui_parser.c` (lines 102-108), and `QString::trimmed` on the white space of
the ASCII range. -/
def trim (s : Str) : Str :=
  (trimLeft (trimLeft s).reverse).reverse

/-! ## Geometry (Qt value types) -/

/-- A `QPoint`. -/
structure QPoint where
  x : Int
  y : Int
  deriving DecidableEq, Repr

/-- A `QRect`, by its left, top, width and height (`QRect(x, y, w, h)`). -/
structure QRect where
  x : Int
  y : Int
  w : Int
  h : Int
  deriving DecidableEq, Repr

/-- `QRect::moveLeft`: move horizontally, keeping the width. -/
def QRect.moveLeft (r : QRect) (pos : Int) : QRect := { r with x := pos }

/-- `QRect::moveTop`: move vertically, keeping the height. -/
def QRect.moveTop (r : QRect) (pos : Int) : QRect := { r with y := pos }

/-- `QRect::setWidth`. -/
def QRect.setWidth (r : QRect) (w : Int) : QRect := { r with w := w }

/-- `QRect::setHeight`. -/
def QRect.setHeight (r : QRect) (h : Int) : QRect := { r with h := h }

/-- `OTUI::EdgeGroup<int>`: one integer per edge. -/
structure EdgeGroup where
  top : Int := 0
  right : Int := 0
  bottom : Int := 0
  left : Int := 0
  deriving DecidableEq, Repr

/-! ## Widgets (`widget.cpp`) -/

/-- The edges of `OTUI::AnchorEdge`. -/
inductive AnchorEdge where
  | None
  | Left
  | Right
  | Top
  | Bottom
  | HorizontalCenter
  | VerticalCenter
  deriving DecidableEq, Repr

/-- An `OTUI::AnchorBinding`: the target widget id and the target edge. A
default-constructed binding has edge `None` and an empty id. -/
structure AnchorBinding where
  edge : AnchorEdge := AnchorEdge.None
  targetId : Str := []
  deriving DecidableEq, Repr

/-- Modelled from the spec: `AnchorBinding::isValid` is declared in `widget.h`,
which is not among the sources; a binding is valid iff its target edge is not
`None`. -/
def AnchorBinding.isValid (b : AnchorBinding) : Bool :=
  b.edge != AnchorEdge.None

/-- The widget classes that `createWidgetForNode` instantiates. -/
inductive WidgetKind where
  | Generic
  | MainWindow
  | Button
  | Label
  | Image
  | Item
  | Creature
  deriving DecidableEq, Repr

/-- Modelled from the spec: the class `OTUI::Widget` is declared in `widget.h`,
which is not among the sources; the fields are those that `widget.cpp` and
`parser.cpp` read and write (opacity, font and colour, which are floating point
or Qt objects, are left out). `m_parent` is a pointer into the widget list. -/
structure Widget where
  m_id : Str
  kind : WidgetKind := WidgetKind.Generic
  m_parent : Option Nat := none
  m_rect : QRect := ⟨0, 0, 0, 0⟩
  m_margin : EdgeGroup := {}
  m_padding : EdgeGroup := {}
  m_anchorLeft : AnchorBinding := {}
  m_anchorRight : AnchorBinding := {}
  m_anchorTop : AnchorBinding := {}
  m_anchorBottom : AnchorBinding := {}
  m_anchorHorizontalCenter : AnchorBinding := {}
  m_anchorVerticalCenter : AnchorBinding := {}
  m_visible : Bool := true
  m_phantom : Bool := false
  m_text : Str := []
  m_textOffset : QPoint := ⟨0, 0⟩
  m_textWrap : Bool := false
  m_textAutoResize : Bool := false
  m_imageSource : Str := []
  m_imageCrop : QRect := ⟨0, 0, 0, 0⟩
  m_imageBorder : QRect := ⟨0, 0, 0, 0⟩
  deriving DecidableEq, Repr

/-- `Widget::getPos`: the top-left corner of the rect. -/
def Widget.getPos (w : Widget) : QPoint := ⟨w.m_rect.x, w.m_rect.y⟩

/-- `Widget::width`. -/
def Widget.width (w : Widget) : Int := w.m_rect.w

/-- `Widget::height`. -/
def Widget.height (w : Widget) : Int := w.m_rect.h

/-- `Widget::setAnchorBinding` (widget.cpp 168-197). -/
def Widget.setAnchorBinding (w : Widget) (edge : AnchorEdge) (targetId : Str)
    (targetEdge : AnchorEdge) : Widget :=
  let binding : AnchorBinding := { edge := targetEdge, targetId := targetId }
  match edge with
  | AnchorEdge.Left => { w with m_anchorLeft := binding }
  | AnchorEdge.Right => { w with m_anchorRight := binding }
  | AnchorEdge.Top => { w with m_anchorTop := binding }
  | AnchorEdge.Bottom => { w with m_anchorBottom := binding }
  | AnchorEdge.HorizontalCenter => { w with m_anchorHorizontalCenter := binding }
  | AnchorEdge.VerticalCenter => { w with m_anchorVerticalCenter := binding }
  | AnchorEdge.None => w

/-- `Widget::clearAnchorBinding` (widget.cpp 199-202). -/
def Widget.clearAnchorBinding (w : Widget) (edge : AnchorEdge) : Widget :=
  w.setAnchorBinding edge [] AnchorEdge.None

/-- `Widget::clearAnchors` (widget.cpp 158-166). -/
def Widget.clearAnchors (w : Widget) : Widget :=
  { w with
    m_anchorLeft := {}
    m_anchorRight := {}
    m_anchorTop := {}
    m_anchorBottom := {}
    m_anchorHorizontalCenter := {}
    m_anchorVerticalCenter := {} }

/-- `Widget::fillTarget` (widget.cpp 327-345). -/
def Widget.fillTarget (w : Widget) : Str :=
  if !w.m_anchorLeft.isValid || !w.m_anchorRight.isValid ||
     !w.m_anchorTop.isValid || !w.m_anchorBottom.isValid then []
  else if w.m_anchorLeft.edge != AnchorEdge.Left ||
     w.m_anchorRight.edge != AnchorEdge.Right ||
     w.m_anchorTop.edge != AnchorEdge.Top ||
     w.m_anchorBottom.edge != AnchorEdge.Bottom then []
  else if w.m_anchorLeft.targetId != w.m_anchorRight.targetId ||
     w.m_anchorLeft.targetId != w.m_anchorTop.targetId ||
     w.m_anchorLeft.targetId != w.m_anchorBottom.targetId then []
  else w.m_anchorLeft.targetId

/-- `Widget::centerInTarget` (widget.cpp 300-311). -/
def Widget.centerInTarget (w : Widget) : Str :=
  if !w.m_anchorHorizontalCenter.isValid || !w.m_anchorVerticalCenter.isValid then []
  else if w.m_anchorHorizontalCenter.edge != AnchorEdge.HorizontalCenter then []
  else if w.m_anchorVerticalCenter.edge != AnchorEdge.VerticalCenter then []
  else if w.m_anchorHorizontalCenter.targetId != w.m_anchorVerticalCenter.targetId then []
  else w.m_anchorHorizontalCenter.targetId

/-- The `while(parent)` loop of `absolutePosition` (widget.cpp 372-376): add the
position of every ancestor. The fuel bounds the number of ancestors visited. -/
def absLoop (heap : List Widget) : Nat → QPoint → Option Nat → Option QPoint
  | _, pos, none => some pos
  | 0, _, some _ => none
  | fuel + 1, pos, some p =>
    match heap[p]? with
    | none => none
    | some pw => absLoop heap fuel ⟨pos.x + pw.getPos.x, pos.y + pw.getPos.y⟩ pw.m_parent

/-- `absolutePosition` (widget.cpp 366-378). A chain of distinct ancestors in a
list of `n` widgets has fewer than `n` links, so the fuel `n` is exhausted only
on a cyclic parent chain, where the source loops forever: the result is then
`none`. -/
def absolutePosition (heap : List Widget) (widget : Option Nat) : Option QPoint :=
  match widget with
  | none => some ⟨0, 0⟩
  | some i =>
    match heap[i]? with
    | none => none
    | some w => absLoop heap heap.length w.getPos w.m_parent

/-- `edgeCoordinate` (widget.cpp 380-402); `/` of C++ truncates toward zero. -/
def edgeCoordinate (heap : List Widget) (widget : Option Nat) (edge : AnchorEdge) :
    Option Int :=
  match widget with
  | none => some 0
  | some i =>
    match heap[i]?, absolutePosition heap (some i) with
    | some w, some abs =>
      match edge with
      | AnchorEdge.Left => some abs.x
      | AnchorEdge.Right => some (abs.x + w.width)
      | AnchorEdge.Top => some abs.y
      | AnchorEdge.Bottom => some (abs.y + w.height)
      | AnchorEdge.HorizontalCenter => some (abs.x + Int.tdiv w.width 2)
      | AnchorEdge.VerticalCenter => some (abs.y + Int.tdiv w.height 2)
      | AnchorEdge.None => some 0
    | _, _ => none

/-- The lambda `resolveTarget` of `applyAnchors` (widget.cpp 407-415). The
resolver is a `std::function`, which may be empty. -/
def resolveTarget (w : Widget) (resolver : Option (Str → Option Nat))
    (binding : AnchorBinding) : Option Nat :=
  if !binding.isValid then none
  else if compareCI binding.targetId "parent".toList then w.m_parent
  else
    match resolver with
    | none => none
    | some r => r binding.targetId

/-- The lambda `applyHorizontal` of `applyAnchors` (widget.cpp 420-446). -/
def applyHorizontal (heap : List Widget) (w : Widget) (resolver : Option (Str → Option Nat))
    (parentAbs : QPoint) (forRight : Bool) (rect : QRect) : Option QRect :=
  let binding := if forRight then w.m_anchorRight else w.m_anchorLeft
  match resolveTarget w resolver binding with
  | none => some rect
  | some target =>
    match edgeCoordinate heap (some target) binding.edge with
    | none => none
    | some ec =>
      let targetCoord := ec - parentAbs.x
      if forRight then
        let rightPos := targetCoord - w.m_margin.right
        if binding.isValid then
          if w.m_anchorLeft.isValid then
            some (rect.setWidth (max 1 (rightPos - rect.x)))
          else
            some (rect.moveLeft (rightPos - rect.w))
        else some rect
      else
        some (rect.moveLeft (targetCoord + w.m_margin.left))

/-- The lambda `applyVertical` of `applyAnchors` (widget.cpp 448-473). -/
def applyVertical (heap : List Widget) (w : Widget) (resolver : Option (Str → Option Nat))
    (parentAbs : QPoint) (forBottom : Bool) (rect : QRect) : Option QRect :=
  let binding := if forBottom then w.m_anchorBottom else w.m_anchorTop
  match resolveTarget w resolver binding with
  | none => some rect
  | some target =>
    match edgeCoordinate heap (some target) binding.edge with
    | none => none
    | some ec =>
      let targetCoord := ec - parentAbs.y
      if forBottom then
        let bottomPos := targetCoord - w.m_margin.bottom
        if binding.isValid then
          if w.m_anchorTop.isValid then
            some (rect.setHeight (max 1 (bottomPos - rect.y)))
          else
            some (rect.moveTop (bottomPos - rect.h))
        else some rect
      else
        some (rect.moveTop (targetCoord + w.m_margin.top))

/-- The lambda `applyCenter` of `applyAnchors` (widget.cpp 475-491). -/
def applyCenter (heap : List Widget) (w : Widget) (resolver : Option (Str → Option Nat))
    (parentAbs : QPoint) (horizontal : Bool) (rect : QRect) : Option QRect :=
  let binding := if horizontal then w.m_anchorHorizontalCenter else w.m_anchorVerticalCenter
  match resolveTarget w resolver binding with
  | none => some rect
  | some target =>
    match edgeCoordinate heap (some target) binding.edge with
    | none => none
    | some targetCoord =>
      if horizontal then
        let localCenter := targetCoord - parentAbs.x
        some (rect.moveLeft (localCenter - Int.tdiv rect.w 2))
      else
        let localCenter := targetCoord - parentAbs.y
        some (rect.moveTop (localCenter - Int.tdiv rect.h 2))

/-- The rect that `Widget::applyAnchors` computes and passes to `setRect`
(widget.cpp 405-500): the six steps act on a local copy of the rect, and every
coordinate they read comes from the widget list as it is before the call. -/
def applyAnchorsRect (heap : List Widget) (w : Widget)
    (resolver : Option (Str → Option Nat)) : Option QRect :=
  (absolutePosition heap w.m_parent).bind fun parentAbs =>
  (applyHorizontal heap w resolver parentAbs false w.m_rect).bind fun r1 =>
  (applyHorizontal heap w resolver parentAbs true r1).bind fun r2 =>
  (applyVertical heap w resolver parentAbs false r2).bind fun r3 =>
  (applyVertical heap w resolver parentAbs true r3).bind fun r4 =>
  (applyCenter heap w resolver parentAbs true r4).bind fun r5 =>
  applyCenter heap w resolver parentAbs false r5

/-- `Widget::applyAnchors` on the widget at index `i` of the list: the new list,
in which only the rect of that widget has changed. -/
def applyAnchors (heap : List Widget) (i : Nat)
    (resolver : Option (Str → Option Nat)) : Option (List Widget) :=
  match heap[i]? with
  | none => none
  | some w =>
    match applyAnchorsRect heap w resolver with
    | none => none
    | some r => some (heap.set i { w with m_rect := r })

/-- The coordinate that a step of `applyAnchors` reads for a binding is
defined: if the binding resolves to a widget, the parent chain of that widget
ends. -/
def CoordDefined (heap : List Widget) (w : Widget) (resolver : Option (Str → Option Nat))
    (binding : AnchorBinding) : Prop :=
  ∀ t, resolveTarget w resolver binding = some t →
    ∃ c, edgeCoordinate heap (some t) binding.edge = some c

/-- All four edges are bound to the widget `t`, each to the edge of the same
name: the condition under which `fillTarget` reports `t`. -/
def Widget.boundToFill (w : Widget) (t : Str) : Prop :=
  w.m_anchorLeft.isValid = true ∧ w.m_anchorRight.isValid = true ∧
  w.m_anchorTop.isValid = true ∧ w.m_anchorBottom.isValid = true ∧
  w.m_anchorLeft.edge = AnchorEdge.Left ∧ w.m_anchorRight.edge = AnchorEdge.Right ∧
  w.m_anchorTop.edge = AnchorEdge.Top ∧ w.m_anchorBottom.edge = AnchorEdge.Bottom ∧
  w.m_anchorLeft.targetId = t ∧ w.m_anchorRight.targetId = t ∧
  w.m_anchorTop.targetId = t ∧ w.m_anchorBottom.targetId = t

/-- Bind the four edges of a widget to the edges of the same name of `t`, as
`setFillTarget` and the `anchors.fill` property do. -/
def Widget.bindFill (w : Widget) (t : Str) : Widget :=
  (((w.setAnchorBinding AnchorEdge.Left t AnchorEdge.Left).setAnchorBinding
    AnchorEdge.Right t AnchorEdge.Right).setAnchorBinding
    AnchorEdge.Top t AnchorEdge.Top).setAnchorBinding AnchorEdge.Bottom t AnchorEdge.Bottom

/-- A window at (10, 20) of size 100 x 50 and a child of size 30 x 10 bound to
the left and right edges of its parent, with left margin 3 and right margin 5. -/
def exampleStretchHeap : List Widget :=
  [ { m_id := "MainWindow".toList, kind := WidgetKind.MainWindow, m_rect := ⟨10, 20, 100, 50⟩ },
    { m_id := "Button".toList, kind := WidgetKind.Button, m_parent := some 0,
      m_rect := ⟨0, 0, 30, 10⟩,
      m_margin := { top := 1, right := 5, bottom := 2, left := 3 },
      m_anchorLeft := { edge := AnchorEdge.Left, targetId := "parent".toList },
      m_anchorRight := { edge := AnchorEdge.Right, targetId := "parent".toList } } ]

/-- The loop of `splitWhitespace`: `cur` is the token being read, reversed. -/
def splitWhitespaceAux : Str → Str → List Str
  | cur, [] => if cur = [] then [] else [cur.reverse]
  | cur, c :: cs =>
    if isspace c then
      (if cur = [] then splitWhitespaceAux [] cs else cur.reverse :: splitWhitespaceAux [] cs)
    else splitWhitespaceAux (c :: cur) cs

/-- `value.split(QRegularExpression("\\s+"), Qt::SkipEmptyParts)`: the maximal
runs of characters that are not white space. -/
def splitWhitespace (value : Str) : List Str :=
  splitWhitespaceAux [] value

/-- The value of a run of decimal digits, `none` when a character is not a
digit. -/
def parseDigits : Str → Nat → Option Nat
  | [], acc => some acc
  | c :: cs, acc =>
    if '0' ≤ c ∧ c ≤ '9' then parseDigits cs (acc * 10 + (c.toNat - '0'.toNat)) else none

/-- `QString::toInt(&ok)` (Qt, base 10, "C" locale): surrounding white space is
skipped, an optional sign is followed by at least one decimal digit, and the
value must fit a 32-bit `int`; `none` stands for `ok == false`. -/
def toInt (s : Str) : Option Int :=
  match trim s with
  | [] => none
  | '-' :: ds =>
    if ds = [] then none
    else (parseDigits ds 0).bind fun n => if n ≤ 2147483648 then some (-(n : Int)) else none
  | '+' :: ds =>
    if ds = [] then none
    else (parseDigits ds 0).bind fun n => if n ≤ 2147483647 then some (n : Int) else none
  | ds => (parseDigits ds 0).bind fun n => if n ≤ 2147483647 then some (n : Int) else none

/-- `tryParseInt` (parser.cpp 531-539): `none` when the text is not an `int`. -/
def tryParseInt (value : Str) : Option Int :=
  toInt value

/-- `parseInt` (parser.cpp 524-529). -/
def parseInt (value : Str) (fallback : Int) : Int :=
  match toInt value with
  | some r => r
  | none => fallback

/-- The group of `enum class EdgeGroupType` (parser.cpp 541-545). -/
inductive EdgeGroupType where
  | Margin
  | Padding
  deriving DecidableEq, Repr

/-- The record `struct EdgeValues` (parser.cpp 547-553). -/
structure EdgeValues where
  top : Int := 0
  right : Int := 0
  bottom : Int := 0
  left : Int := 0
  deriving DecidableEq, Repr

/-- The `for` loop of `parseEdgeValues` (parser.cpp 563-569): convert the parts
in order and stop at the first that is not an `int`. -/
def parseEdgeParts : List Str → Option (List Int)
  | [] => some []
  | p :: ps =>
    match toInt p with
    | none => none
    | some v =>
      match parseEdgeParts ps with
      | none => none
      | some vs => some (v :: vs)

/-- `parseEdgeValues` (parser.cpp 555-594): the success flag and the value of
`out` after the call. The array `parsed` starts as four zeros. -/
def parseEdgeValues (value : Str) (out : EdgeValues) : Bool × EdgeValues :=
  let parts := splitWhitespace value
  let count := parts.length
  if count < 1 ∨ count > 4 then (false, out)
  else
    match parseEdgeParts parts with
    | none => (false, out)
    | some parsed =>
      match count with
      | 1 => (true, { top := parsed.getD 0 0, right := parsed.getD 0 0,
                      bottom := parsed.getD 0 0, left := parsed.getD 0 0 })
      | 2 => (true, { top := parsed.getD 0 0, bottom := parsed.getD 0 0,
                      right := parsed.getD 1 0, left := parsed.getD 1 0 })
      | 3 => (true, { top := parsed.getD 0 0, right := parsed.getD 1 0,
                      left := parsed.getD 1 0, bottom := parsed.getD 2 0 })
      | 4 => (true, { top := parsed.getD 0 0, right := parsed.getD 1 0,
                      bottom := parsed.getD 2 0, left := parsed.getD 3 0 })
      | _ => (false, out)

/-- `parseImageBorderRect` (parser.cpp 596-602). -/
def parseImageBorderRect (value : Str) (fallback : QRect) : QRect :=
  match parseEdgeValues value {} with
  | (true, values) => ⟨values.left, values.top, values.right, values.bottom⟩
  | (false, _) => fallback

/-- `assignEdgeValue` (parser.cpp 604-650); the setters `setMarginLeft` ...
`setPaddingBottom` of `widget.h` store the value in the named edge. -/
def assignEdgeValue (widget : Widget) (type : EdgeGroupType) (edge : AnchorEdge)
    (value : Int) : Widget :=
  match type, edge with
  | EdgeGroupType.Margin, AnchorEdge.Left =>
    { widget with m_margin := { widget.m_margin with left := value } }
  | EdgeGroupType.Margin, AnchorEdge.Right =>
    { widget with m_margin := { widget.m_margin with right := value } }
  | EdgeGroupType.Margin, AnchorEdge.Top =>
    { widget with m_margin := { widget.m_margin with top := value } }
  | EdgeGroupType.Margin, AnchorEdge.Bottom =>
    { widget with m_margin := { widget.m_margin with bottom := value } }
  | EdgeGroupType.Padding, AnchorEdge.Left =>
    { widget with m_padding := { widget.m_padding with left := value } }
  | EdgeGroupType.Padding, AnchorEdge.Right =>
    { widget with m_padding := { widget.m_padding with right := value } }
  | EdgeGroupType.Padding, AnchorEdge.Top =>
    { widget with m_padding := { widget.m_padding with top := value } }
  | EdgeGroupType.Padding, AnchorEdge.Bottom =>
    { widget with m_padding := { widget.m_padding with bottom := value } }
  | _, _ => widget

/-- `applyEdgeGroupProperty` (parser.cpp 652-662). -/
def applyEdgeGroupProperty (widget : Widget) (type : EdgeGroupType) (value : Str) : Widget :=
  match parseEdgeValues value {} with
  | (false, _) => widget
  | (true, values) =>
    let w1 := assignEdgeValue widget type AnchorEdge.Top values.top
    let w2 := assignEdgeValue w1 type AnchorEdge.Right values.right
    let w3 := assignEdgeValue w2 type AnchorEdge.Bottom values.bottom
    assignEdgeValue w3 type AnchorEdge.Left values.left

/-- `applyEdgeComponentProperty` (parser.cpp 664-673). -/
def applyEdgeComponentProperty (widget : Widget) (type : EdgeGroupType) (edge : AnchorEdge)
    (value : Str) : Widget :=
  match tryParseInt value with
  | none => widget
  | some parsed => assignEdgeValue widget type edge parsed

/-- The four values of a margin or padding group of a widget. -/
def edgeGroupOf (widget : Widget) (type : EdgeGroupType) : EdgeGroup :=
  match type with
  | EdgeGroupType.Margin => widget.m_margin
  | EdgeGroupType.Padding => widget.m_padding

/-! ## The node tree (`otui_parser.h`, `otui_parser.c`) -/

/-- An `OTUIProp`: key, value and the optional inline comment (`NULL` is
`none`). -/
structure OTUIProp where
  key : Str
  value : Str
  comment : Option Str := none
  deriving DecidableEq, Repr

/-- An `OTUIState`: a condition block with its own properties. -/
structure OTUIState where
  condition : Str
  negated : Bool
  props : List OTUIProp := []
  deriving DecidableEq, Repr

/-- An `OTUIEvent`: an opaque code text. -/
structure OTUIEvent where
  name : Str
  code : Str
  multiline : Bool
  deriving DecidableEq, Repr

/-- An `OTUINode` with the children it owns. -/
inductive OTUINode where
  | mk (name : Str) (base_style : Option Str) (indent : Int)
      (comment_before : Option Str) (comment_inline : Option Str)
      (props : List OTUIProp) (states : List OTUIState) (events : List OTUIEvent)
      (children : List OTUINode)
  deriving Repr

/-- The field `name`. -/
def OTUINode.name : OTUINode → Str
  | .mk n _ _ _ _ _ _ _ _ => n

/-- The field `base_style` (`NULL` is `none`). -/
def OTUINode.base_style : OTUINode → Option Str
  | .mk _ b _ _ _ _ _ _ _ => b

/-- The field `indent`. -/
def OTUINode.indent : OTUINode → Int
  | .mk _ _ i _ _ _ _ _ _ => i

/-- The field `comment_before`. -/
def OTUINode.comment_before : OTUINode → Option Str
  | .mk _ _ _ c _ _ _ _ _ => c

/-- The field `comment_inline`. -/
def OTUINode.comment_inline : OTUINode → Option Str
  | .mk _ _ _ _ c _ _ _ _ => c

/-- The array `props`. -/
def OTUINode.props : OTUINode → List OTUIProp
  | .mk _ _ _ _ _ p _ _ _ => p

/-- The array `states`. -/
def OTUINode.states : OTUINode → List OTUIState
  | .mk _ _ _ _ _ _ s _ _ => s

/-- The array `events`. -/
def OTUINode.events : OTUINode → List OTUIEvent
  | .mk _ _ _ _ _ _ _ e _ => e

/-- The array `children`. -/
def OTUINode.children : OTUINode → List OTUINode
  | .mk _ _ _ _ _ _ _ _ c => c

/-- The node with another array of properties. -/
def OTUINode.withProps : OTUINode → List OTUIProp → OTUINode
  | .mk n b i cb ci _ s e c, p => .mk n b i cb ci p s e c

/-- The node with another array of children. -/
def OTUINode.withChildren : OTUINode → List OTUINode → OTUINode
  | .mk n b i cb ci p s e _, c => .mk n b i cb ci p s e c

/-- `node_new` (otui_parser.c 14-28). -/
def node_new (name : Str) (indent : Int) : OTUINode :=
  .mk name none indent none none [] [] [] []

/-- A pointer to a node of a tree: the child indices from the root down. -/
abbrev NodePath := List Nat

/-- The node that a pointer designates. -/
def OTUINode.get : OTUINode → NodePath → Option OTUINode
  | n, [] => some n
  | n, i :: p =>
    match n.children[i]? with
    | none => none
    | some c => c.get p

/-- An update in place of the node that a pointer designates. -/
def OTUINode.modify (f : OTUINode → OTUINode) : OTUINode → NodePath → OTUINode
  | n, [] => f n
  | n, i :: p =>
    match n.children[i]? with
    | none => n
    | some c => n.withChildren (n.children.set i (OTUINode.modify f c p))

/-- `node_add_prop` (otui_parser.c 41-53): append a property without comment. -/
def node_add_prop (node : OTUINode) (key value : Str) : OTUINode :=
  node.withProps (node.props ++ [{ key := key, value := value, comment := none }])

/-- The search loop shared by `otui_prop_get` and `otui_state_prop_get`: the
value of the first property with the key. -/
def propsGet : List OTUIProp → Str → Option Str
  | [], _ => none
  | p :: ps, key => if p.key = key then some p.value else propsGet ps key

/-- `otui_prop_get` (otui_parser.c 114-118); `NULL` is `none`. -/
def otui_prop_get (node : OTUINode) (key : Str) : Option Str :=
  propsGet node.props key

/-- The replacement loop of `otui_prop_set`: overwrite the value of the first
property with the key, `none` when there is none. -/
def propsReplace : List OTUIProp → Str → Str → Option (List OTUIProp)
  | [], _, _ => none
  | p :: ps, key, value =>
    if p.key = key then some ({ p with value := value } :: ps)
    else (propsReplace ps key value).map (p :: ·)

/-- `otui_prop_set` (otui_parser.c 120-133): define or replace a property. -/
def otui_prop_set (node : OTUINode) (key value : Str) : OTUINode :=
  match propsReplace node.props key value with
  | some ps => node.withProps ps
  | none => node_add_prop node key value

mutual
/-- `otui_find_node` (otui_parser.c 734-744): the first node with the name, in
depth-first pre-order, as a pointer. -/
def otui_find_node : OTUINode → Str → Option NodePath
  | .mk n _ _ _ _ _ _ _ children, name =>
    if n = name then some [] else otui_find_node_children children name 0
/-- The `for` loop of `otui_find_node` over the children, from index `i`. -/
def otui_find_node_children : List OTUINode → Str → Nat → Option NodePath
  | [], _, _ => none
  | c :: cs, name, i =>
    match otui_find_node c name with
    | some p => some (i :: p)
    | none => otui_find_node_children cs name (i + 1)
end

/-- The `for` loop of `otui_resolve_inheritance` (otui_parser.c 754-759): copy
the properties of the base that the node does not define. -/
def inheritLoop : OTUINode → List OTUIProp → OTUINode
  | node, [] => node
  | node, bp :: rest =>
    if (otui_prop_get node bp.key).isNone then
      inheritLoop (node_add_prop node bp.key bp.value) rest
    else inheritLoop node rest

/-- `otui_resolve_inheritance` (otui_parser.c 746-760) on the node `node` of the
tree `root`: the tree after the call. The recursion follows the base-style
chain without any guard; the fuel bounds its depth, and `none` means that the
fuel did not suffice. -/
def otui_resolve_inheritance : Nat → OTUINode → NodePath → Option OTUINode
  | 0, _, _ => none
  | fuel + 1, root, node =>
    match root.get node with
    | none => some root
    | some n =>
      match n.base_style with
      | none => some root
      | some bs =>
        match otui_find_node root bs with
        | none => some root
        | some base =>
          match otui_resolve_inheritance fuel root base with
          | none => none
          | some root1 =>
            match root1.get base with
            | none => some root1
            | some b => some (root1.modify (fun nd => inheritLoop nd b.props) node)

/-- The `for` loop of `otui_resolve_all_inheritance` (otui_parser.c 765-771),
from child `i`, `k` children remaining. `resolve` is the call for one child,
`recurse` the recursive call on the child as the new root. -/
def resolveAllLoop (resolve : OTUINode → NodePath → Option OTUINode)
    (recurse : OTUINode → Option OTUINode) : Nat → Nat → OTUINode → Option OTUINode
  | 0, _, root => some root
  | k + 1, i, root =>
    match root.children[i]? with
    | none => some root
    | some child =>
      match (if child.base_style.isSome then resolve root [i] else some root) with
      | none => none
      | some root1 =>
        match root1.children[i]? with
        | none => some root1
        | some child1 =>
          match recurse child1 with
          | none => none
          | some child2 =>
            resolveAllLoop resolve recurse k (i + 1)
              (root1.withChildren (root1.children.set i child2))

/-- `otui_resolve_all_inheritance` (otui_parser.c 762-772). Each child with a
base style is resolved against the node given as `root`, then the call recurses
into the child, which becomes the root of the lookups below it. The fuel bounds
the depth of both recursions. -/
def otui_resolve_all_inheritance : Nat → OTUINode → Option OTUINode
  | 0, _ => none
  | fuel + 1, root =>
    resolveAllLoop (fun r p => otui_resolve_inheritance (fuel + 1) r p)
      (fun c => otui_resolve_all_inheritance fuel c) root.children.length 0 root

/-- The base of a node: the node that `otui_find_node` returns for its
`base_style`, if it has one and the name is found. -/
def baseOf (root : OTUINode) (p : NodePath) : Option NodePath :=
  match root.get p with
  | none => none
  | some n =>
    match n.base_style with
    | none => none
    | some bs => otui_find_node root bs

/-- The base-style chain from `p` ends within `n` links: after at most `n` steps
from a node to its base, a node without base (or whose base name is not found)
is reached. A chain ends iff it is acyclic. -/
def chainEndsWithin (root : OTUINode) : Nat → NodePath → Bool
  | 0, p => (baseOf root p).isNone
  | n + 1, p =>
    match baseOf root p with
    | none => true
    | some b => chainEndsWithin root n b

/-- An update that touches nothing but the properties of a node. -/
def PropOnly (f : OTUINode → OTUINode) : Prop :=
  ∀ n, (f n).name = n.name ∧ (f n).base_style = n.base_style ∧ (f n).children = n.children

/-- Two trees have the same skeleton: the same nodes with the same base styles,
and the same result of every search by name. Updates of properties keep it. -/
def SameSkeleton (root root2 : OTUINode) : Prop :=
  (∀ q, (root2.get q).map OTUINode.base_style = (root.get q).map OTUINode.base_style) ∧
  (∀ nm, otui_find_node root2 nm = otui_find_node root nm)

/-- The base-style chain from `p` has exactly `n` links. -/
def ExactRank (root : OTUINode) (n : Nat) (p : NodePath) : Prop :=
  chainEndsWithin root n p = true ∧ ∀ m, m < n → chainEndsWithin root m p = false

/-! ## The line parser (`otui_parse_file`) -/

/-- `node_add_child` (otui_parser.c 30-39): append a child. -/
def node_add_child (parent child : OTUINode) : OTUINode :=
  parent.withChildren (parent.children ++ [child])

/-- The node with another array of states. -/
def OTUINode.withStates : OTUINode → List OTUIState → OTUINode
  | .mk n b i cb ci p _ e c, s => .mk n b i cb ci p s e c

/-- The node with another array of events. -/
def OTUINode.withEvents : OTUINode → List OTUIEvent → OTUINode
  | .mk n b i cb ci p s _ c, e => .mk n b i cb ci p s e c

/-- The node with a base style and the two comments set (otui_parser.c
496-506). -/
def OTUINode.withHeader : OTUINode → Option Str → Option Str → Option Str → OTUINode
  | .mk n _ i _ _ p s e c, b, cb, ci => .mk n b i cb ci p s e c

/-- `state_add_prop` (otui_parser.c 55-67). -/
def state_add_prop (state : OTUIState) (key value : Str) : OTUIState :=
  { state with props := state.props ++ [{ key := key, value := value, comment := none }] }

/-- `node_add_state` (otui_parser.c 69-83): the node, and the index of the new
state (the returned pointer). -/
def node_add_state (node : OTUINode) (condition : Str) (negated : Bool) : OTUINode × Nat :=
  (node.withStates (node.states ++ [{ condition := condition, negated := negated }]),
   node.states.length)

/-- `node_add_event` (otui_parser.c 85-100). -/
def node_add_event (node : OTUINode) (name code : Str) (multiline : Bool) : OTUINode :=
  node.withEvents (node.events ++ [{ name := name, code := code, multiline := multiline }])

/-- Set the comment of the last property of a list (`props[nprops-1].comment`). -/
def setLastComment : List OTUIProp → Str → List OTUIProp
  | [], _ => []
  | [p], c => [{ p with comment := some c }]
  | p :: q :: ps, c => p :: setLastComment (q :: ps) c

/-- `count_indent` (otui_parser.c 110-112): a space counts 1, a tab 4. -/
def count_indent : Str → Nat
  | [] => 0
  | c :: cs => if c = ' ' then count_indent cs + 1 else if c = '\t' then count_indent cs + 4 else 0

/-- The loop `while(*p == ' ' || *p == '\t') p++`. -/
def skipBlanks : Str → Str
  | [] => []
  | c :: cs => if c = ' ' ∨ c = '\t' then skipBlanks cs else c :: cs

/-- A hexadecimal digit, as tested in otui_parser.c 251-253. -/
def isHexDigit (c : Char) : Bool :=
  ('0' ≤ c && c ≤ '9') || ('a' ≤ c && c ≤ 'f') || ('A' ≤ c && c ≤ 'F')

/-- The loop that skips hexadecimal digits (otui_parser.c 251-255). -/
def skipHex : Str → Str
  | [] => []
  | c :: cs => if isHexDigit c then skipHex cs else c :: cs

/-- `strchr(s, ch)`: the text before the first `ch` and the text after it, or
`none` when `ch` does not occur. -/
def splitAtChar (ch : Char) : Str → Option (Str × Str)
  | [] => none
  | c :: cs =>
    if c = ch then some ([], cs)
    else
      match splitAtChar ch cs with
      | none => none
      | some (a, b) => some (c :: a, b)

/-- The index `search_start` of the comment search (otui_parser.c 239-258): 0
for a line without colon; otherwise the index of the first character after the
colon that is neither space nor tab, moved past a `#` and the hexadecimal digits
that follow it. -/
def searchStart (line : Str) : Nat :=
  match splitAtChar ':' line with
  | none => 0
  | some (_, afterColon) =>
    match skipBlanks afterColon with
    | '#' :: r => line.length - (skipHex r).length
    | v => line.length - v.length

/-- The comment search loop (otui_parser.c 260-265), from `i` downward: the
index of the rightmost `#` at or after `search_start` that starts the line or
follows a space or a tab. -/
def findHash (buf : Str) (search_start : Nat) : Nat → Option Nat
  | 0 => none
  | i + 1 =>
    if i + 1 > search_start then
      if buf[i]? = some '#' ∧
          (i = 0 ∨ buf[i - 1]? = some ' ' ∨ buf[i - 1]? = some '\t') then some i
      else findHash buf search_start i
    else none

/-- Comment extraction (otui_parser.c 235-271): the line cut at the comment
mark, and the trimmed comment text (`NULL` is `none`). -/
def extractComment (line : Str) : Str × Option Str :=
  match findHash line (searchStart line) line.length with
  | none => (line, none)
  | some h => (line.take h, some (trim (line.drop (h + 1))))

/-- The loop that strips `\n` and `\r` from the end of a line (otui_parser.c
230). -/
def stripNewlines (line : Str) : Str :=
  (line.reverse.dropWhile fun c => c = '\n' || c = '\r').reverse

/-- The text of the C string that a buffer holds: the bytes before the first
NUL, which is what `strlen`, `strchr`, `strcpy` and the loops over a line see. -/
def cString (buf : Str) : Str :=
  buf.takeWhile fun c => c != Char.ofNat 0

/-- The bytes that one `fgets` call stores: at most `n`, ending after the first
`\n`; and the rest of the file. The file is opened in binary mode (otui_parser.c
208-210), so the input is the list of its bytes, one `Char` for every byte. -/
def fgetsAux : Nat → Str → Str × Str
  | 0, rest => ([], rest)
  | _ + 1, [] => ([], [])
  | n + 1, c :: cs =>
    if c = '\n' then ([c], cs)
    else ((c :: (fgetsAux n cs).1), (fgetsAux n cs).2)

/-- `fgets(line, 4096, f)`: the bytes stored in the buffer of 4096 bytes before
the terminating NUL, and the rest of the file; `none` at the end of the file. A
NUL byte of the file is stored like any other byte, and ends the C string that
the caller then reads (`cString`). -/
def fgets (input : Str) : Option (Str × Str) :=
  match input with
  | [] => none
  | _ => some (fgetsAux 4095 input)

/-- The failures of `otui_parse_file`, with the 1-based line number that the
message carries. `outOfBounds` is no message of the source: it marks a run that
leaves the bounds of one of the fixed buffers, which the source does not check
(the array `stack[256]` of open nodes at otui_parser.c 508, the string in
`next_line` at 348-353, the code buffer at 371-387); C gives such a run no
defined result. Failures of `malloc` are outside the model. -/
inductive ParseError where
  | cannotOpen
  | eventOutsideNode (lineno : Nat)
  | stateOutsideNode (lineno : Nat)
  | propertyOutsideNode (lineno : Nat)
  | indentError (lineno : Nat)
  | outOfBounds
  deriving DecidableEq, Repr

/-- The local variables of `otui_parse_file` between two iterations of its main
loop. The stack holds pointers to the open nodes, the top first; its length is
`stack_top`, and the array of the source has 256 slots. `current_state` points
to a state of a node by its index. -/
structure ParseState where
  root : OTUINode
  stack : List NodePath
  current_state : Option (NodePath × Nat) := none
  line_ready : Bool := false
  line : Str := []
  pending_comment : Option Str := none
  lineno : Nat := 0
  input : Str

/-- The outcome of one iteration of the main loop. -/
inductive StepResult where
  | next (st : ParseState)
  | done (root : OTUINode)
  | fail (e : ParseError)

/-- The new pending comment when a comment-only line is read (otui_parser.c
277-291). -/
def appendPending (pending : Option Str) (comment_text : Option Str) : Option Str :=
  match comment_text with
  | none => pending
  | some c =>
    match pending with
    | some p => some (p ++ '\n' :: c)
    | none => some c

/-- The loop that pops the stack while the top is not less indented than the
new node (otui_parser.c 480-484). -/
def popStack (root : OTUINode) (indent : Int) : List NodePath → List NodePath
  | [] => []
  | top :: rest =>
    match root.get top with
    | none => top :: rest
    | some prev => if prev.indent < indent then top :: rest else popStack root indent rest

/-- The node-header branch (otui_parser.c 457-508). The push
`stack[stack_top++] = node` has no bound check: with all 256 slots in use after
the pop loop it writes behind the array. -/
def handleNode (st : ParseState) (content : Str) (indent : Nat)
    (comment_text : Option Str) : StepResult :=
  let name_base : Str × Option Str :=
    match splitAtChar '<' content with
    | none => (trim content, none)
    | some (nm, bs) => (trim nm, some (trim bs))
  let stack := popStack st.root (indent : Int) st.stack
  match stack with
  | [] => StepResult.fail (ParseError.indentError st.lineno)
  | parent :: rest =>
    match st.root.get parent with
    | none => StepResult.fail (ParseError.indentError st.lineno)
    | some pn =>
      let node := (node_new name_base.1 (indent : Int)).withHeader name_base.2
        st.pending_comment comment_text
      if 256 ≤ (parent :: rest).length then StepResult.fail ParseError.outOfBounds
      else StepResult.next { st with
        root := OTUINode.modify (fun p => node_add_child p node) st.root parent
        stack := (parent ++ [pn.children.length]) :: parent :: rest
        current_state := none
        pending_comment := none
        line_ready := false }

/-- The property branch (otui_parser.c 510-533). -/
def handleProperty (st : ParseState) (keyPart valPart : Str)
    (comment_text : Option Str) : StepResult :=
  let key := trim keyPart
  let val := trim valPart
  match st.stack with
  | [] => StepResult.fail (ParseError.propertyOutsideNode st.lineno)
  | cur :: _ =>
    if cur = [] then StepResult.fail (ParseError.propertyOutsideNode st.lineno)
    else
      match st.current_state with
      | some (sn, si) =>
        let addTo (s : OTUIState) : OTUIState :=
          match comment_text with
          | none => state_add_prop s key val
          | some c => { s with props := setLastComment (state_add_prop s key val).props c }
        StepResult.next { st with
          root := OTUINode.modify (fun n => n.withStates (n.states.modify addTo si)) st.root sn
          line_ready := false }
      | none =>
        let addTo (n : OTUINode) : OTUINode :=
          match comment_text with
          | none => node_add_prop n key val
          | some c => n.withProps (setLastComment (node_add_prop n key val).props c)
        StepResult.next { st with
          root := OTUINode.modify addTo st.root cur
          line_ready := false }

/-- The loop that reads the body of a block event (otui_parser.c 342-388).
`fuel` bounds the number of lines read (every `fgets` consumes a byte, so the
length of the input suffices) and `code_cap` is the size of the code buffer. The
result is the code, the rest of the file, the line counter, and the line pushed
back (`line_ready`), if any. It is `none` when the run leaves a buffer: the test
`*next_content` reads the byte at `next_line + line_indent`, which lies behind
the terminating NUL when the indentation, counted with tabs as 4, exceeds the
length of the line; and the code buffer is doubled at most once for a line, so
a line can be longer than the space that is left. -/
def readBlock (base_indent : Int) :
    Nat → Nat → Str → Nat → Str → Option (Str × Str × Nat × Option Str)
  | 0, _, input, lineno, code => some (code, input, lineno, none)
  | fuel + 1, code_cap, input, lineno, code =>
    match fgets input with
    | none => some (code, input, lineno, none)
    | some (raw, rest) =>
      let next_line := stripNewlines (cString raw)
      let line_indent := count_indent next_line
      if next_line.length < line_indent then none
      else if next_line.drop line_indent = [] then
        readBlock base_indent fuel code_cap rest (lineno + 1) code
      else if (line_indent : Int) ≤ base_indent then
        some (code, rest, lineno + 1, some next_line)
      else
        let needed := code.length + next_line.length + 2
        let cap := if needed > code_cap then code_cap * 2 else code_cap
        let full_code := if code = [] then next_line else code ++ '\n' :: next_line
        if full_code.length + 1 > cap then none
        else readBlock base_indent fuel cap rest (lineno + 1) full_code

/-- The event branch (otui_parser.c 304-418), entered when the content starts
with `@` and contains a colon; `namePart` is the text between `@` and the colon,
`codePart` the text after the colon. -/
def handleEvent (st : ParseState) (namePart codePart : Str) : StepResult :=
  let event_name := trim (namePart.take 255)
  let event_code := trim codePart
  match st.stack with
  | [] => StepResult.fail (ParseError.eventOutsideNode st.lineno)
  | cur :: _ =>
    if cur = [] then StepResult.fail (ParseError.eventOutsideNode st.lineno)
    else
      match event_code with
      | '|' :: _ =>
        match st.root.get cur with
        | none => StepResult.fail (ParseError.eventOutsideNode st.lineno)
        | some widget_node =>
          match readBlock widget_node.indent st.input.length 1024 st.input st.lineno [] with
          | none => StepResult.fail ParseError.outOfBounds
          | some r =>
            let root2 := OTUINode.modify
              (fun n => node_add_event n event_name r.1 true) st.root cur
            match r.2.2.2 with
            | some pushed =>
              StepResult.next { st with
                root := root2, input := r.2.1, lineno := r.2.2.1
                line := pushed, line_ready := true }
            | none =>
              StepResult.next { st with
                root := root2, input := r.2.1, lineno := r.2.2.1, line_ready := false }
      | _ =>
        StepResult.next { st with
          root := OTUINode.modify
            (fun n => node_add_event n event_name event_code false) st.root cur
          line_ready := false }

/-- The state branch (otui_parser.c 422-452), entered when the content starts
with `$` and contains a colon; `condPart` is the text between `$` and the
colon. -/
def handleState (st : ParseState) (condPart : Str) : StepResult :=
  let negated : Bool := match condPart with
    | '!' :: _ => true
    | _ => false
  let cond0 : Str := match condPart with
    | '!' :: r => r
    | c => c
  let cond1 : Str := match splitAtChar ' ' cond0 with
    | some (a, _) => a
    | none => cond0
  let cond := trim cond1
  match st.stack with
  | [] => StepResult.fail (ParseError.stateOutsideNode st.lineno)
  | cur :: _ =>
    if cur = [] then StepResult.fail (ParseError.stateOutsideNode st.lineno)
    else
      match st.root.get cur with
      | none => StepResult.fail (ParseError.stateOutsideNode st.lineno)
      | some n =>
        StepResult.next { st with
          root := OTUINode.modify (fun m => (node_add_state m cond negated).1) st.root cur
          current_state := some (cur, (node_add_state n cond negated).2)
          line_ready := false }

/-- The dispatch of one logical line (otui_parser.c 298-534): `buf` is the line
buffer, `indent` its indentation and `comment_text` the comment cut from it. -/
def processContent (st : ParseState) (buf : Str) (indent : Nat)
    (comment_text : Option Str) : StepResult :=
  let content := skipBlanks buf
  match content, splitAtChar ':' content with
  | '@' :: _, some (beforeColon, afterColon) =>
    handleEvent st (beforeColon.drop 1) afterColon
  | '$' :: _, some (beforeColon, _) =>
    handleState st (beforeColon.drop 1)
  | _, none => handleNode st content indent comment_text
  | _, some (keyPart, valPart) => handleProperty st keyPart valPart comment_text

/-- A line just read, after the removal of the line end (otui_parser.c
232-534): indentation, comment extraction, trimming, then either the buffering
of a pending comment or the dispatch of the line. -/
def processRawLine (st : ParseState) (l0 : Str) : StepResult :=
  let indent := count_indent l0
  let ec := extractComment l0
  let l2 := trim ec.1
  if l2 = [] then
    StepResult.next { st with pending_comment := appendPending st.pending_comment ec.2 }
  else processContent st l2 indent ec.2

/-- One iteration of the main loop of `otui_parse_file` (otui_parser.c
224-535). The field `line` of the state is the line buffer when `line_ready`
holds, and is not read otherwise. -/
def parseStep (st : ParseState) : StepResult :=
  if st.line_ready then
    processContent st st.line (count_indent st.line) none
  else
    match fgets st.input with
    | none => StepResult.done st.root
    | some (raw, rest) =>
      processRawLine { st with lineno := st.lineno + 1, input := rest }
        (stripNewlines (cString raw))

/-- The main loop of `otui_parse_file`; `none` when the fuel is exhausted. -/
def parseLoop : Nat → ParseState → Option (Except ParseError OTUINode)
  | 0, _ => none
  | fuel + 1, st =>
    match parseStep st with
    | StepResult.done root => some (Except.ok root)
    | StepResult.fail e => some (Except.error e)
    | StepResult.next st2 => parseLoop fuel st2

/-- The state of `otui_parse_file` when it enters its main loop (otui_parser.c
217-223): the synthetic root of indentation -1 is the only open node. -/
def initialState (input : Str) : ParseState :=
  { root := node_new "__root__".toList (-1), stack := [[]], input := input }

/-- `otui_parse_file` (otui_parser.c 205-539) on the content of the file, `none`
for a file that cannot be opened. An iteration of the main loop either consumes
input or handles a line pushed back by the iteration before, so the fuel
`2 * length + 2` is never exhausted. -/
def otui_parse_file (file : Option Str) : Option (Except ParseError OTUINode) :=
  match file with
  | none => some (Except.error ParseError.cannotOpen)
  | some input => parseLoop (2 * input.length + 2) (initialState input)

/-- The tree that `otui_parse_file` returns for a text, or the bare synthetic
root when the parse fails. -/
def parsedTree (text : String) : OTUINode :=
  match otui_parse_file (some text.toList) with
  | some (Except.ok root) => root
  | _ => node_new "__root__".toList (-1)

/-- The value of a property of the node at `p`, after
`otui_resolve_all_inheritance` with the given fuel. -/
def resolvedProp (fuel : Nat) (root : OTUINode) (p : NodePath) (key : String) : Option Str :=
  match otui_resolve_all_inheritance fuel root with
  | none => none
  | some r =>
    match r.get p with
    | none => none
    | some n => otui_prop_get n key.toList

/-- A parser state in which the node `MainWindow` is open and the rest of the
file is `input`. -/
def insideMainWindow (input : String) : ParseState :=
  { root := node_add_child (node_new "__root__".toList (-1)) (node_new "MainWindow".toList 0)
    stack := [[0], []]
    lineno := 1
    input := input.toList }

/-! ## The widget builder (`parser.cpp`) -/

/-- `nodeProperty` (parser.cpp 222-230): the trimmed value of a property of the
node, or the fallback when the node does not define it. -/
def nodeProperty (node : OTUINode) (key : Str) (fallback : Str) : Str :=
  match otui_prop_get node key with
  | none => fallback
  | some value => trim value

/-- A pointer to a node during widget extraction: a node of the file being
loaded, or a node owned by the style cache (by its index in the cache). -/
inductive NodeRef where
  | file (p : NodePath)
  | style (i : Nat)
  deriving DecidableEq, Repr

/-- The ambient context of a widget extraction: the tree of the file, the
active style cache (`g_activeStyleCache`, its `nodesByName` as the list of
names with their nodes), the local template bindings
(`g_localTemplateBindings`) and the template definitions
(`g_templateDefinitionNodes`). -/
structure BuildContext where
  root : OTUINode
  cache : Option (List (Str × OTUINode)) := none
  bindings : List (NodePath × NodePath) := []
  templateRoots : List NodePath := []

/-- The node that a pointer designates. -/
def BuildContext.deref (ctx : BuildContext) : NodeRef → Option OTUINode
  | NodeRef.file p => ctx.root.get p
  | NodeRef.style i =>
    match ctx.cache with
    | none => none
    | some entries =>
      match entries[i]? with
      | none => none
      | some e => some e.2

/-- `nodesByName.constFind(name)`: the index of the cache entry of a name. -/
def cacheFind : List (Str × OTUINode) → Str → Nat → Option Nat
  | [], _, _ => none
  | e :: es, name, i => if e.1 = name then some i else cacheFind es name (i + 1)

/-- `g_localTemplateBindings.constFind(node)`. -/
def bindingFind : List (NodePath × NodePath) → NodePath → Option NodePath
  | [], _ => none
  | b :: bs, p => if b.1 = p then some b.2 else bindingFind bs p

/-- The explicit-base stage of `inheritedNodeProperty` (parser.cpp 251-266):
`none` is the `break`; otherwise the base node found, if any, and the visited
names. -/
def inheritedBaseStage (ctx : BuildContext) (cur : OTUINode) (visitedNames : List Str) :
    Option (Option NodeRef × List Str) :=
  match cur.base_style with
  | none => some (none, visitedNames)
  | some bs =>
    let baseName := trim bs
    if baseName = [] then some (none, visitedNames)
    else if baseName ∈ visitedNames then none
    else
      match otui_find_node ctx.root bs with
      | some p => some (some (NodeRef.file p), baseName :: visitedNames)
      | none =>
        match ctx.cache with
        | none => some (none, baseName :: visitedNames)
        | some c =>
          match cacheFind c baseName 0 with
          | some i => some (some (NodeRef.style i), baseName :: visitedNames)
          | none => some (none, baseName :: visitedNames)

/-- The local-template stage of `inheritedNodeProperty` (parser.cpp 268-282). -/
def inheritedBindingStage (ctx : BuildContext) (current : NodeRef) (visitedNames : List Str) :
    Option (Option NodeRef × List Str) :=
  match current with
  | NodeRef.style _ => some (none, visitedNames)
  | NodeRef.file p =>
    match bindingFind ctx.bindings p with
    | none => some (none, visitedNames)
    | some t =>
      match ctx.root.get t with
      | none => some (some (NodeRef.file t), visitedNames)
      | some tn =>
        let baseName := trim tn.name
        if baseName = [] then some (some (NodeRef.file t), visitedNames)
        else if baseName ∈ visitedNames then none
        else some (some (NodeRef.file t), baseName :: visitedNames)

/-- The same-name style stage of `inheritedNodeProperty` (parser.cpp 284-296). -/
def inheritedStyleStage (ctx : BuildContext) (current : NodeRef) (cur : OTUINode)
    (visitedNames : List Str) : Option NodeRef × List Str :=
  match ctx.cache with
  | none => (none, visitedNames)
  | some c =>
    let currentName := trim cur.name
    if currentName ≠ [] ∧ currentName ∉ visitedNames then
      match cacheFind c currentName 0 with
      | some i =>
        if NodeRef.style i ≠ current then (some (NodeRef.style i), currentName :: visitedNames)
        else (none, visitedNames)
      | none => (none, visitedNames)
    else (none, visitedNames)

/-- The `while(current)` loop of `inheritedNodeProperty` (parser.cpp 240-301),
with the empty fallback. Every iteration that does not leave the loop adds a
node to `visited`, so the fuel, the number of nodes plus one, is not
exhausted. -/
def inheritedLoop (ctx : BuildContext) (key : Str) :
    Nat → NodeRef → List NodeRef → List Str → Str
  | 0, _, _, _ => []
  | fuel + 1, current, visited, visitedNames =>
    match ctx.deref current with
    | none => []
    | some cur =>
      let value := nodeProperty cur key []
      if value ≠ [] then value
      else if current ∈ visited then []
      else
        match inheritedBaseStage ctx cur visitedNames with
        | none => []
        | some (some b, names) =>
          if b ∈ current :: visited then []
          else inheritedLoop ctx key fuel b (current :: visited) names
        | some (none, names) =>
          match inheritedBindingStage ctx current names with
          | none => []
          | some (some b, names2) =>
            if b ∈ current :: visited then []
            else inheritedLoop ctx key fuel b (current :: visited) names2
          | some (none, names2) =>
            match inheritedStyleStage ctx current cur names2 with
            | (some b, names3) =>
              if b ∈ current :: visited then []
              else inheritedLoop ctx key fuel b (current :: visited) names3
            | (none, _) => []

mutual
/-- The number of nodes of a tree. -/
def nodeCount : OTUINode → Nat
  | .mk _ _ _ _ _ _ _ _ children => nodeCountList children + 1
/-- The number of nodes of a list of trees. -/
def nodeCountList : List OTUINode → Nat
  | [] => 0
  | c :: cs => nodeCount c + nodeCountList cs
end

/-- `inheritedNodeProperty` (parser.cpp 232-303) for a node of the file, with
the empty fallback. -/
def inheritedNodeProperty (ctx : BuildContext) (node : NodePath) (key : Str) : Str :=
  inheritedLoop ctx key
    (nodeCount ctx.root + (match ctx.cache with
      | none => 0
      | some c => c.length) + 1)
    (NodeRef.file node) [] []

/-- The reading of a boolean value shared by `nodeBool` and `inheritedNodeBool`
(parser.cpp 305-330). -/
def parseBool (value : Str) (fallback : Bool) : Bool :=
  if value = [] then fallback
  else if compareCI value "true".toList ∨ value = "1".toList then true
  else if compareCI value "false".toList ∨ value = "0".toList then false
  else fallback

/-- `inheritedNodeBool` (parser.cpp 317-330). -/
def inheritedNodeBool (ctx : BuildContext) (node : NodePath) (key : Str)
    (fallback : Bool) : Bool :=
  parseBool (inheritedNodeProperty ctx node key) fallback

/-- `parsePoint` (parser.cpp 355-367). -/
def parsePoint (value : Str) (fallback : QPoint) : QPoint :=
  match splitWhitespace value with
  | [a, b] =>
    match toInt a, toInt b with
    | some x, some y => ⟨x, y⟩
    | _, _ => fallback
  | _ => fallback

/-- `parseRectFour` (parser.cpp 369-381). -/
def parseRectFour (value : Str) (fallback : QRect) : QRect :=
  match splitWhitespace value with
  | [a, b, c, d] =>
    match toInt a, toInt b, toInt c, toInt d with
    | some x, some y, some w, some h => ⟨x, y, w, h⟩
    | _, _, _, _ => fallback
  | _ => fallback

/-- The loop of `splitChar`: `cur` is the part being read, reversed. -/
def splitCharAux (ch : Char) : Str → Str → List Str
  | cur, [] => if cur = [] then [] else [cur.reverse]
  | cur, c :: cs =>
    if c = ch then
      (if cur = [] then splitCharAux ch [] cs else cur.reverse :: splitCharAux ch [] cs)
    else splitCharAux ch (c :: cur) cs

/-- `value.split(ch, Qt::SkipEmptyParts)`. -/
def splitChar (ch : Char) (value : Str) : List Str :=
  splitCharAux ch [] value

/-- `QString::toLower` (letters of the ASCII range). -/
def toLower (s : Str) : Str :=
  s.map Char.toLower

/-- `parseAnchorEdge` (parser.cpp 675-691). -/
def parseAnchorEdge (name : Str) : AnchorEdge :=
  let edgeName := toLower (trim name)
  if edgeName = "left".toList then AnchorEdge.Left
  else if edgeName = "right".toList then AnchorEdge.Right
  else if edgeName = "top".toList then AnchorEdge.Top
  else if edgeName = "bottom".toList then AnchorEdge.Bottom
  else if edgeName = "horizontalcenter".toList then AnchorEdge.HorizontalCenter
  else if edgeName = "verticalcenter".toList then AnchorEdge.VerticalCenter
  else AnchorEdge.None

/-- `parseAnchorDescriptor` (parser.cpp 693-711): the target id and the edge;
the descriptor is valid when the id is not empty and the edge is not `None`. -/
def parseAnchorDescriptor (value : Str) : Str × AnchorEdge :=
  match splitChar '.' (trim value) with
  | [a, b] => (trim a, parseAnchorEdge b)
  | _ => ([], AnchorEdge.None)

/-- `bindAnchorEdge` (parser.cpp 713-731). -/
def bindAnchorEdge (widget : Widget) (sourceEdge : AnchorEdge) (value : Str) : Widget :=
  if compareCI value "none".toList then
    widget.setAnchorBinding sourceEdge [] AnchorEdge.None
  else
    let d := parseAnchorDescriptor value
    if d.1 = [] ∨ d.2 = AnchorEdge.None then widget
    else widget.setAnchorBinding sourceEdge d.1 d.2

/-- `applyAnchorProperty` (parser.cpp 733-792). -/
def applyAnchorProperty (widget : Widget) (propertyName value : Str) : Widget :=
  let trimmedValue := trim value
  if trimmedValue = [] then widget
  else
    let lowerProp := toLower (trim propertyName)
    if lowerProp = "anchors.fill".toList then
      if compareCI trimmedValue "none".toList then widget.clearAnchors
      else widget.bindFill trimmedValue
    else if lowerProp = "anchors.centerin".toList then
      if compareCI trimmedValue "none".toList then
        (widget.setAnchorBinding AnchorEdge.HorizontalCenter [] AnchorEdge.None).setAnchorBinding
          AnchorEdge.VerticalCenter [] AnchorEdge.None
      else
        (widget.setAnchorBinding AnchorEdge.HorizontalCenter trimmedValue
          AnchorEdge.HorizontalCenter).setAnchorBinding
          AnchorEdge.VerticalCenter trimmedValue AnchorEdge.VerticalCenter
    else if lowerProp = "anchors.left".toList then
      bindAnchorEdge widget AnchorEdge.Left trimmedValue
    else if lowerProp = "anchors.right".toList then
      bindAnchorEdge widget AnchorEdge.Right trimmedValue
    else if lowerProp = "anchors.top".toList then
      bindAnchorEdge widget AnchorEdge.Top trimmedValue
    else if lowerProp = "anchors.bottom".toList then
      bindAnchorEdge widget AnchorEdge.Bottom trimmedValue
    else if lowerProp = "anchors.horizontalcenter".toList then
      bindAnchorEdge widget AnchorEdge.HorizontalCenter trimmedValue
    else if lowerProp = "anchors.verticalcenter".toList then
      bindAnchorEdge widget AnchorEdge.VerticalCenter trimmedValue
    else widget

/-- What the builder reads from outside the markup: the size of the pixmap that
the `Widget` constructor loads for a data path and an image path, the size of
the pixmap that `setImageSource` finds (both (0, 0) when no image loads), the
bounding rect that `QFontMetrics` measures for the text of a widget, and the
style cache of a data path (`ensureStyleCache`). -/
structure Env where
  constructorImage : Str → Str → QPoint
  sourceImage : Str → Str → QPoint
  textBounds : Widget → QRect
  styleCache : Str → Option (List (Str × OTUINode))

/-- The environment without images, fonts and styles. -/
def emptyEnv : Env :=
  { constructorImage := fun _ _ => ⟨0, 0⟩
    sourceImage := fun _ _ => ⟨0, 0⟩
    textBounds := fun _ => ⟨0, 0, 0, 0⟩
    styleCache := fun _ => none }

/-- `QRect::setX`: move the left edge, the right edge stays. -/
def QRect.setX (r : QRect) (v : Int) : QRect := { r with x := v, w := r.w + (r.x - v) }

/-- `QRect::setY`: move the top edge, the bottom edge stays. -/
def QRect.setY (r : QRect) (v : Int) : QRect := { r with y := v, h := r.h + (r.y - v) }

/-- `QRect::isNull`: width and height are both 0. -/
def QRect.isNull (r : QRect) : Bool := r.w = 0 && r.h = 0

/-- Modelled from the spec: `supportsTextProperty` is overridden in `button.h`
and `label.h`; the headers of the other widget classes are not among the
sources, and the base class answers `false`. -/
def Widget.supportsTextProperty (w : Widget) : Bool :=
  w.kind = WidgetKind.Button || w.kind = WidgetKind.Label

/-- `Widget::setPos`: move the rect, keeping its size. -/
def Widget.setPos (w : Widget) (p : QPoint) : Widget :=
  { w with m_rect := { w.m_rect with x := p.x, y := p.y } }

/-- `Widget::getSize` and `getSizeProperty`: width and height as a point. -/
def Widget.getSize (w : Widget) : QPoint := ⟨w.m_rect.w, w.m_rect.h⟩

/-- `Widget::setSizeProperty` (widget.cpp 125-136); `parent` is the parent
widget, if any. `QRect::right()` is `x + width - 1`. -/
def Widget.setSizeProperty (w : Widget) (parent : Option Widget) (size : QPoint) : Widget :=
  let r0 : QRect := { w.m_rect with w := size.x, h := size.y }
  match parent with
  | none => { w with m_rect := r0 }
  | some p =>
    let r1 : QRect :=
      if r0.x + r0.w - 1 > p.width then { r0 with w := p.width - r0.x + 1 } else r0
    let r2 : QRect :=
      if r1.y + r1.h - 1 > p.height then { r1 with h := p.height - r1.y + 1 } else r1
    { w with m_rect := r2 }

/-- `Widget::setImageSource` (widget.cpp 510-614), with POSIX path
separators. -/
def Widget.setImageSource (env : Env) (w : Widget) (source dataPath : Str) : Widget :=
  let normalized0 := trim source
  if normalized0 = [] then { w with m_imageSource := [] }
  else
    let normalized := match normalized0 with
      | '/' :: _ => normalized0
      | _ => '/' :: normalized0
    let size := env.sourceImage normalized dataPath
    let w1 := { w with m_imageSource := normalized }
    if size.x ≤ 0 ∨ size.y ≤ 0 then w1
    else if w1.m_imageCrop.isNull ∨ w1.m_imageCrop.w ≤ 0 ∨ w1.m_imageCrop.h ≤ 0 then
      { w1 with m_imageCrop := ⟨0, 0, size.x, size.y⟩ }
    else w1

/-- `applyTextAutoResize` (parser.cpp 498-522); the widget has no parent yet
when the builder calls it. -/
def applyTextAutoResize (env : Env) (widget : Widget) : Widget :=
  if !widget.supportsTextProperty then widget
  else if !widget.m_textAutoResize then widget
  else if widget.m_text = [] then widget
  else
    let bounds := env.textBounds widget
    let s0 := widget.getSize
    let s1 : QPoint := if bounds.w > 0 then ⟨bounds.w + widget.m_textOffset.x, s0.y⟩ else s0
    let s2 : QPoint := if bounds.h > 0 then ⟨s1.x, bounds.h + widget.m_textOffset.y⟩ else s1
    widget.setSizeProperty none s2

/-- `createWidgetForNode` (parser.cpp 854-879) with the constructor
`Widget(widgetId, dataPath, imagePath)` (widget.cpp 75-95): the class is chosen
by the node name, the rect and the crop take the size of the loaded image. -/
def createWidgetForNode (env : Env) (nodeName widgetId dataPath imageSource : Str) : Widget :=
  let kind : WidgetKind :=
    if compareCI nodeName "MainWindow".toList ∨ compareCI nodeName "UIWindow".toList then
      WidgetKind.MainWindow
    else if compareCI nodeName "Button".toList ∨ compareCI nodeName "UIButton".toList then
      WidgetKind.Button
    else if compareCI nodeName "Label".toList ∨ compareCI nodeName "UILabel".toList then
      WidgetKind.Label
    else if compareCI nodeName "Image".toList ∨ compareCI nodeName "UIImage".toList then
      WidgetKind.Image
    else if compareCI nodeName "Item".toList ∨ compareCI nodeName "UIItem".toList then
      WidgetKind.Item
    else if compareCI nodeName "Creature".toList ∨ compareCI nodeName "UICreature".toList then
      WidgetKind.Creature
    else WidgetKind.Generic
  let size := env.constructorImage dataPath imageSource
  { m_id := widgetId
    kind := kind
    m_parent := none
    m_rect := ⟨0, 0, size.x, size.y⟩
    m_imageSource := imageSource
    m_imageCrop := ⟨0, 0, size.x, size.y⟩
    m_text := match kind with
      | WidgetKind.Button => "Button".toList
      | WidgetKind.Label => "Label".toList
      | _ => [] }

/-- `Widget::setIdProperty` (widget.cpp 110-118): an empty id is ignored. -/
def Widget.setIdProperty (w : Widget) (id : Str) : Widget :=
  if id = [] then w else { w with m_id := id }

/-- One of the four `applyBorderComponent` calls of `applyCommonWidgetProps`
(parser.cpp 936-958). -/
def applyBorderComponent (widget : Widget) (value : Str) (setter : QRect → Int → QRect) :
    Widget :=
  if value = [] then widget
  else
    match tryParseInt value with
    | none => widget
    | some parsed => { widget with m_imageBorder := setter widget.m_imageBorder parsed }

/-- The loop over `anchorProps` of `applyCommonWidgetProps` (parser.cpp
1018-1034). -/
def applyAnchorProps (ctx : BuildContext) (node : NodePath) : List Str → Widget → Widget
  | [], widget => widget
  | anchorName :: rest, widget =>
    let value := inheritedNodeProperty ctx node anchorName
    applyAnchorProps ctx node rest
      (if value ≠ [] then applyAnchorProperty widget anchorName value else widget)

/-- The loops over `marginProps` and `paddingProps` of `applyCommonWidgetProps`
(parser.cpp 993-998, 1011-1016). -/
def applyEdgeProps (ctx : BuildContext) (node : NodePath) (type : EdgeGroupType) :
    List (Str × AnchorEdge) → Widget → Widget
  | [], widget => widget
  | prop :: rest, widget =>
    let value := inheritedNodeProperty ctx node prop.1
    applyEdgeProps ctx node type rest
      (if value ≠ [] then applyEdgeComponentProperty widget type prop.2 value else widget)

/-- `applyCommonWidgetProps` (parser.cpp 881-1045) for the node at `node`, which
is `n`. Font, opacity, text alignment and colour are not part of the widget
model. -/
def applyCommonWidgetProps (env : Env) (ctx : BuildContext) (dataPath : Str)
    (widget : Widget) (node : NodePath) (n : OTUINode) : Widget :=
  let w := widget.setIdProperty (nodeProperty n "id".toList widget.m_id)
  let posValue := inheritedNodeProperty ctx node "position".toList
  let w := if posValue ≠ [] then w.setPos (parsePoint posValue w.getPos) else w
  let sizeValue := inheritedNodeProperty ctx node "size".toList
  let w := if sizeValue ≠ [] then w.setSizeProperty none (parsePoint sizeValue w.getSize) else w
  let w := { w with m_visible := inheritedNodeBool ctx node "visible".toList w.m_visible }
  let textValue := inheritedNodeProperty ctx node "text".toList
  let w := if textValue ≠ [] ∧ w.supportsTextProperty then { w with m_text := textValue } else w
  let textOffsetValue := inheritedNodeProperty ctx node "text-offset".toList
  let w := if textOffsetValue ≠ [] then
      { w with m_textOffset := parsePoint textOffsetValue w.m_textOffset } else w
  let w := { w with m_textWrap := inheritedNodeBool ctx node "text-wrap".toList w.m_textWrap }
  let w := { w with
    m_textAutoResize := inheritedNodeBool ctx node "text-auto-resize".toList w.m_textAutoResize }
  let w := if w.supportsTextProperty then applyTextAutoResize env w else w
  let imageSource := inheritedNodeProperty ctx node "image-source".toList
  let w := if imageSource ≠ [] then w.setImageSource env imageSource dataPath else w
  let cropValue := inheritedNodeProperty ctx node "image-clip".toList
  let w := if cropValue ≠ [] then
      { w with m_imageCrop := parseRectFour cropValue w.m_imageCrop } else w
  let borderValue := inheritedNodeProperty ctx node "image-border".toList
  let w := if borderValue ≠ [] then
      { w with m_imageBorder := parseImageBorderRect borderValue w.m_imageBorder } else w
  let w := applyBorderComponent w (inheritedNodeProperty ctx node "image-border-top".toList)
    QRect.setY
  let w := applyBorderComponent w (inheritedNodeProperty ctx node "image-border-right".toList)
    QRect.setWidth
  let w := applyBorderComponent w (inheritedNodeProperty ctx node "image-border-bottom".toList)
    QRect.setHeight
  let w := applyBorderComponent w (inheritedNodeProperty ctx node "image-border-left".toList)
    QRect.setX
  let positionX := inheritedNodeProperty ctx node "x".toList
  let w := if positionX ≠ [] then w.setPos ⟨parseInt positionX w.getPos.x, w.getPos.y⟩ else w
  let positionY := inheritedNodeProperty ctx node "y".toList
  let w := if positionY ≠ [] then w.setPos ⟨w.getPos.x, parseInt positionY w.getPos.y⟩ else w
  let marginValue := inheritedNodeProperty ctx node "margin".toList
  let w := if marginValue ≠ [] then applyEdgeGroupProperty w EdgeGroupType.Margin marginValue
    else w
  let w := applyEdgeProps ctx node EdgeGroupType.Margin
    [("margin-top".toList, AnchorEdge.Top), ("margin-right".toList, AnchorEdge.Right),
     ("margin-bottom".toList, AnchorEdge.Bottom), ("margin-left".toList, AnchorEdge.Left)] w
  let paddingValue := inheritedNodeProperty ctx node "padding".toList
  let w := if paddingValue ≠ [] then applyEdgeGroupProperty w EdgeGroupType.Padding paddingValue
    else w
  let w := applyEdgeProps ctx node EdgeGroupType.Padding
    [("padding-top".toList, AnchorEdge.Top), ("padding-right".toList, AnchorEdge.Right),
     ("padding-bottom".toList, AnchorEdge.Bottom), ("padding-left".toList, AnchorEdge.Left)] w
  let w := applyAnchorProps ctx node
    ["anchors.left".toList, "anchors.right".toList, "anchors.top".toList,
     "anchors.bottom".toList, "anchors.horizontalCenter".toList,
     "anchors.verticalCenter".toList, "anchors.centerIn".toList, "anchors.fill".toList] w
  { w with m_phantom := inheritedNodeBool ctx node "phantom".toList w.m_phantom }

/-- `isTemplateDefinitionNode` (parser.cpp 214-220). -/
def isTemplateDefinitionNode (node : OTUINode) : Bool :=
  node.base_style.isSome && nodeProperty node "id".toList [] = []

/-- The first loop of `buildLocalTemplateBindings` (parser.cpp 154-172) over the
root-level children, from index `i`: the templates by name (first occurrence
wins) and the template definition nodes. -/
def collectTemplates : List OTUINode → Nat → List (Str × NodePath) → List NodePath →
    List (Str × NodePath) × List NodePath
  | [], _, templates, roots => (templates, roots)
  | child :: rest, i, templates, roots =>
    if child.base_style.isNone then collectTemplates rest (i + 1) templates roots
    else if trim child.name = [] then collectTemplates rest (i + 1) templates roots
    else if nodeProperty child "id".toList [] ≠ [] then
      collectTemplates rest (i + 1) templates roots
    else
      collectTemplates rest (i + 1)
        (if (templates.find? fun t => t.1 = trim child.name).isSome then templates
         else templates ++ [(trim child.name, [i])])
        (roots ++ [[i]])

mutual
/-- The lambda `visit` of `buildLocalTemplateBindings` (parser.cpp 174-186) on
the node at `path`: bind every node without base style to the template of its
name, unless it is that template. -/
def visitBindings (templates : List (Str × NodePath)) :
    OTUINode → NodePath → List (NodePath × NodePath) → List (NodePath × NodePath)
  | .mk name base_style _ _ _ _ _ _ children, path, bindings =>
    let bindings1 :=
      if base_style.isNone ∧ trim name ≠ [] then
        match templates.find? fun t => t.1 = trim name with
        | some t => if t.2 ≠ path then bindings ++ [(path, t.2)] else bindings
        | none => bindings
      else bindings
    visitBindingsChildren templates children path 0 bindings1
/-- The loop of `visit` over the children of the node at `path`, from index
`i`. -/
def visitBindingsChildren (templates : List (Str × NodePath)) :
    List OTUINode → NodePath → Nat → List (NodePath × NodePath) → List (NodePath × NodePath)
  | [], _, _, bindings => bindings
  | c :: cs, path, i, bindings =>
    visitBindingsChildren templates cs path (i + 1)
      (visitBindings templates c (path ++ [i]) bindings)
end

/-- `buildLocalTemplateBindings` (parser.cpp 147-189): the bindings and the
template definition nodes. -/
def buildLocalTemplateBindings (root : OTUINode) :
    List (NodePath × NodePath) × List NodePath :=
  let t := collectTemplates root.children 0 [] []
  (visitBindings t.1 root [] [], t.2)

/-- The context that `ScopedStyleContext` and `ScopedTemplateBindings` set up
for a tree and a data path (parser.cpp 125-212). -/
def makeContext (env : Env) (root : OTUINode) (dataPath : Str) : BuildContext :=
  { root := root
    cache := if dataPath = [] then none else env.styleCache dataPath
    bindings := (buildLocalTemplateBindings root).1
    templateRoots := (buildLocalTemplateBindings root).2 }

mutual
/-- The lambda `visitNode` of `Parser::loadFromFile` (parser.cpp 1111-1146) on
the node at `path`; `parent` is the index of the parent widget in the list and
`out` the list built so far. -/
def visitNode (env : Env) (ctx : BuildContext) (dataPath : Str) :
    OTUINode → NodePath → Option Nat → List Widget → List Widget
  | .mk name base_style indent cb ci props states events children, path, parent, out =>
    let node := OTUINode.mk name base_style indent cb ci props states events children
    if path = [] then visitNodeChildren env ctx dataPath children path 0 none out
    else
      let explicitId := nodeProperty node "id".toList []
      if parent = none ∧ (path ∈ ctx.templateRoots ∨ (explicitId = [] ∧ base_style.isSome)) then
        out
      else
        let widgetId := if explicitId = [] then name else explicitId
        let imageSource := nodeProperty node "image-source".toList []
        let w0 := createWidgetForNode env name widgetId dataPath imageSource
        let w1 := applyCommonWidgetProps env ctx dataPath w0 path node
        let w2 := { w1 with m_parent := parent }
        visitNodeChildren env ctx dataPath children path 0 (some out.length) (out ++ [w2])
/-- The loops of `visitNode` over the children of the node at `path`, from
index `i`. -/
def visitNodeChildren (env : Env) (ctx : BuildContext) (dataPath : Str) :
    List OTUINode → NodePath → Nat → Option Nat → List Widget → List Widget
  | [], _, _, _, out => out
  | c :: cs, path, i, parent, out =>
    visitNodeChildren env ctx dataPath cs path (i + 1) parent
      (visitNode env ctx dataPath c (path ++ [i]) parent out)
end

mutual
/-- `buildWidgetsFromNode` (parser.cpp 1047-1078) on the node at `path`. -/
def buildWidgetsFromNode (env : Env) (ctx : BuildContext) (dataPath : Str)
    (skipTopLevelTemplates : Bool) :
    OTUINode → NodePath → Option Nat → List Widget → List Widget
  | .mk name base_style indent cb ci props states events children, path, parent, out =>
    let node := OTUINode.mk name base_style indent cb ci props states events children
    if parent = none ∧ skipTopLevelTemplates = true ∧
        (path ∈ ctx.templateRoots ∨ isTemplateDefinitionNode node = true) then out
    else
      let widgetId0 := nodeProperty node "id".toList name
      let widgetId := if widgetId0 = [] then name else widgetId0
      let imageSource := nodeProperty node "image-source".toList []
      let w0 := createWidgetForNode env name widgetId dataPath imageSource
      let w1 := applyCommonWidgetProps env ctx dataPath w0 path node
      let w2 := { w1 with m_parent := parent }
      buildWidgetsFromChildren env ctx dataPath skipTopLevelTemplates children path 0
        (some out.length) (out ++ [w2])
/-- The loop of `buildWidgetsFromNode` over the children of the node at `path`,
from index `i`. -/
def buildWidgetsFromChildren (env : Env) (ctx : BuildContext) (dataPath : Str)
    (skipTopLevelTemplates : Bool) :
    List OTUINode → NodePath → Nat → Option Nat → List Widget → List Widget
  | [], _, _, _, out => out
  | c :: cs, path, i, parent, out =>
    buildWidgetsFromChildren env ctx dataPath skipTopLevelTemplates cs path (i + 1) parent
      (buildWidgetsFromNode env ctx dataPath skipTopLevelTemplates c (path ++ [i]) parent out)
end

/-- The table `lookup` of `resolveAnchors` (parser.cpp 796-802, 830): widgets
are inserted in list order and `QHash::insert` replaces the value of a key
already present, so an id finds the last widget that carries it. -/
def lookupId : List Widget → Str → Nat → Option Nat → Option Nat
  | [], _, _, found => found
  | w :: ws, id, i, found => lookupId ws id (i + 1) (if w.m_id = id then some i else found)

/-- The scan of `findPreviousSibling` (parser.cpp 809-816) from index `j`: the
last widget before the target with the parent of the target. -/
def previousSiblingScan (parent : Option Nat) (target : Nat) :
    List Widget → Nat → Option Nat → Option Nat
  | [], _, previous => previous
  | c :: cs, j, previous =>
    if j = target then previous
    else previousSiblingScan parent target cs (j + 1)
      (if c.m_parent = parent then some j else previous)

/-- The lambda `findPreviousSibling` of `resolveAnchors` (parser.cpp 804-818). -/
def findPreviousSibling (heap : List Widget) (target : Nat) : Option Nat :=
  match heap[target]? with
  | none => none
  | some t => previousSiblingScan t.m_parent target heap 0 none

/-- The resolver that `resolveAnchors` passes to `applyAnchors` for the widget
at index `i` (parser.cpp 824-831). -/
def anchorResolver (heap : List Widget) (i : Nat) (id : Str) : Option Nat :=
  if compareCI id "prev".toList ∨ compareCI id "previous".toList then
    findPreviousSibling heap i
  else lookupId heap id 0 none

/-- The second loop of `resolveAnchors` (parser.cpp 820-832), from the widget
at index `i`, `k` widgets remaining. -/
def resolveAnchorsLoop : Nat → Nat → List Widget → Option (List Widget)
  | 0, _, heap => some heap
  | k + 1, i, heap =>
    match applyAnchors heap i (some (anchorResolver heap i)) with
    | none => none
    | some heap2 => resolveAnchorsLoop k (i + 1) heap2

/-- `resolveAnchors` (parser.cpp 794-833): every widget of the list applies its
anchors once, in list order; `none` when a parent chain is cyclic. -/
def resolveAnchors (widgets : List Widget) : Option (List Widget) :=
  resolveAnchorsLoop widgets.length 0 widgets

/-- The failures that `Parser::loadFromFile` and `Parser::instantiateStyle`
report. -/
inductive LoadError where
  | parse (e : ParseError)
  | invalidStyleName
  | styleNotFound
  | failedToInstantiate
  deriving DecidableEq, Repr

/-- `Parser::loadFromFile` (parser.cpp 1086-1151) on the content of the file;
`fuel` bounds the recursion of the inheritance resolution, and `none` means
that the call does not return. -/
def loadFromFile (fuel : Nat) (env : Env) (file : Option Str) (dataPath : Str) :
    Option (Except LoadError (List Widget)) :=
  match otui_parse_file file with
  | none => none
  | some (Except.error e) => some (Except.error (LoadError.parse e))
  | some (Except.ok root0) =>
    match otui_resolve_all_inheritance fuel root0 with
    | none => none
    | some root =>
      let ctx := makeContext env root dataPath
      match resolveAnchors (visitNode env ctx dataPath root [] none []) with
      | none => none
      | some widgets => some (Except.ok widgets)

/-- The search of `Parser::instantiateStyle` for the root-level node with the
style name (parser.cpp 1179-1188), from index `i`. -/
def findStyleNode (targetName : Str) : List OTUINode → Nat → Option (Nat × OTUINode)
  | [], _ => none
  | c :: cs, i => if compareCI c.name targetName then some (i, c) else findStyleNode targetName cs (i + 1)

/-- `Parser::instantiateStyle` (parser.cpp 1153-1210). -/
def instantiateStyle (fuel : Nat) (env : Env) (file : Option Str) (styleName dataPath : Str) :
    Option (Except LoadError (List Widget)) :=
  match otui_parse_file file with
  | none => none
  | some (Except.error e) => some (Except.error (LoadError.parse e))
  | some (Except.ok root0) =>
    match otui_resolve_all_inheritance fuel root0 with
    | none => none
    | some root =>
      let targetName := trim styleName
      if targetName = [] then some (Except.error LoadError.invalidStyleName)
      else
        match findStyleNode targetName root.children 0 with
        | none => some (Except.error LoadError.styleNotFound)
        | some (i, targetNode) =>
          let ctx := makeContext env root dataPath
          let out := buildWidgetsFromNode env ctx dataPath false targetNode [i] none []
          if out = [] then some (Except.error LoadError.failedToInstantiate)
          else
            match resolveAnchors out with
            | none => none
            | some widgets => some (Except.ok widgets)

/-- The ids of the widgets that a load returns, in list order. -/
def loadedIds (r : Option (Except LoadError (List Widget))) : Option (List Str) :=
  match r with
  | some (Except.ok widgets) => some (widgets.map fun w => w.m_id)
  | _ => none

/-- The rects of the widgets that a load returns, in list order. -/
def loadedRects (r : Option (Except LoadError (List Widget))) : Option (List QRect) :=
  match r with
  | some (Except.ok widgets) => some (widgets.map fun w => w.m_rect)
  | _ => none

/-- The widgets that the builder makes, before the anchor pass, for the text
`MainWindow / size: 100 50 / Button / anchors.right: parent.right /
margin-right: 5` with the window moved to (7, 9). -/
def exampleRightHeap : List Widget :=
  [ { m_id := "MainWindow".toList, kind := WidgetKind.MainWindow, m_rect := ⟨7, 9, 100, 50⟩ },
    { m_id := "Button".toList, kind := WidgetKind.Button, m_parent := some 0,
      m_text := "Button".toList,
      m_margin := { right := 5 },
      m_anchorRight := { edge := AnchorEdge.Right, targetId := "parent".toList } } ]

/-! ## Detaching and re-inserting children (otui_parser.c) -/

/-- A node pointer, as the children array of a parent stores it. -/
abbrev NodePtr := Nat

/-- The search loop of `otui_node_detach_child` from index `i` on: at the first
slot holding `child` the later slots are shifted one to the left; the result is
the index found and the remaining array. -/
def detachScan (child : NodePtr) : List NodePtr → Nat → Option (Nat × List NodePtr)
  | [], _ => none
  | c :: cs, i =>
    if c = child then some (i, cs)
    else
      match detachScan child cs (i + 1) with
      | some (k, rest) => some (k, c :: rest)
      | none => none

/-- `otui_node_detach_child(parent, child, outIndex)`: the parent is given by its
children array (`none` for a null parent), `outIndex` by the value the caller's
variable holds before the call.  The result is the return value, the children
array afterwards and the caller's variable afterwards. -/
def otui_node_detach_child (parent : Option (List NodePtr)) (child : Option NodePtr)
    (outIndex : Option Nat) : Int × Option (List NodePtr) × Option Nat :=
  match parent, child with
  | some children, some c =>
    match detachScan c children 0 with
    | some (i, rest) => (1, some rest, outIndex.map (fun _ => i))
    | none => (0, some children, outIndex)
  | _, _ => (0, parent, outIndex)

/-- The shift loop of `otui_node_insert_child`: `child` is stored at `index`, the
slots from there on move one to the right; an index past the end is clamped to
the number of children. -/
def insertShift (child : NodePtr) : Nat → List NodePtr → List NodePtr
  | 0, cs => child :: cs
  | _ + 1, [] => [child]
  | n + 1, c :: cs => c :: insertShift child n cs

/-- `otui_node_insert_child(parent, child, index)`: the return value and the
children array afterwards (allocation is taken to succeed). -/
def otui_node_insert_child (parent : Option (List NodePtr)) (child : Option NodePtr)
    (index : Nat) : Int × Option (List NodePtr) :=
  match parent, child with
  | some children, some c => (1, some (insertShift c index children))
  | _, _ => (0, parent)

/-- `Widget::anchorBinding` (widget.cpp 246-267). -/
def Widget.anchorBinding (w : Widget) (edge : AnchorEdge) : AnchorBinding :=
  match edge with
  | AnchorEdge.Left => w.m_anchorLeft
  | AnchorEdge.Right => w.m_anchorRight
  | AnchorEdge.Top => w.m_anchorTop
  | AnchorEdge.Bottom => w.m_anchorBottom
  | AnchorEdge.HorizontalCenter => w.m_anchorHorizontalCenter
  | AnchorEdge.VerticalCenter => w.m_anchorVerticalCenter
  | AnchorEdge.None => {}

/-- A window of size 100 x 50 and a child with rect (10, 0, 30, 10) whose left
edge is bound to the id `nosuch`, which no widget carries, and whose right edge
is bound to `parent.right`. -/
def exampleUnknownLeftHeap : List Widget :=
  [ { m_id := "MainWindow".toList, kind := WidgetKind.MainWindow, m_rect := ⟨0, 0, 100, 50⟩ },
    { m_id := "Button".toList, kind := WidgetKind.Button, m_parent := some 0,
      m_rect := ⟨10, 0, 30, 10⟩,
      m_anchorLeft := { edge := AnchorEdge.Left, targetId := "nosuch".toList },
      m_anchorRight := { edge := AnchorEdge.Right, targetId := "parent".toList } } ]

/-- The child of `exampleUnknownLeftHeap`. -/
def exampleUnknownLeftChild : Widget :=
  { m_id := "Button".toList, kind := WidgetKind.Button, m_parent := some 0,
    m_rect := ⟨10, 0, 30, 10⟩,
    m_anchorLeft := { edge := AnchorEdge.Left, targetId := "nosuch".toList },
    m_anchorRight := { edge := AnchorEdge.Right, targetId := "parent".toList } }

/-- A window with two children `A` and `B`, where `A` has a child `A1` of its
own; `B` is bound by its left edge to `prev.right`. In list order `A1` stands
between `A` and `B`. -/
def examplePrevHeap : List Widget :=
  [ { m_id := "MainWindow".toList, kind := WidgetKind.MainWindow, m_rect := ⟨0, 0, 100, 50⟩ },
    { m_id := "A".toList, m_parent := some 0, m_rect := ⟨0, 0, 40, 10⟩ },
    { m_id := "A1".toList, m_parent := some 1, m_rect := ⟨0, 0, 20, 5⟩ },
    { m_id := "B".toList, m_parent := some 0, m_rect := ⟨0, 0, 30, 10⟩,
      m_anchorLeft := { edge := AnchorEdge.Right, targetId := "Prev".toList } } ]

/-- The widget `B` of `examplePrevHeap`. -/
def examplePrevWidget : Widget :=
  { m_id := "B".toList, m_parent := some 0, m_rect := ⟨0, 0, 30, 10⟩,
    m_anchorLeft := { edge := AnchorEdge.Right, targetId := "Prev".toList } }

/-! ## The invariant of the main loop of the parser -/

/-- An update of a node that keeps its indentation and every child it has (it
may append children). -/
def KeepsChildren (f : OTUINode → OTUINode) : Prop :=
  ∀ n, (f n).indent = n.indent ∧
    ∀ (i : Nat) (c : OTUINode), n.children[i]? = some c → (f n).children[i]? = some c

/-- The invariant of the main loop of `otui_parse_file`: the root has
indentation -1, the bottom of the stack is the root and no other entry is, and
every entry of the stack points to a node of the tree. -/
def StackInv (st : ParseState) : Prop :=
  st.root.indent = -1 ∧ (∃ init, st.stack = init ++ [[]] ∧ ∀ p, p ∈ init → p ≠ []) ∧
    ∀ p, p ∈ st.stack → ∃ n, st.root.get p = some n

/-- A node is open: the top of the stack is not the root. -/
def InNode (st : ParseState) : Prop :=
  ∃ cur rest, st.stack = cur :: rest ∧ cur ≠ []

/-- A bound on the iterations of the main loop that remain: each iteration
consumes input, or handles the line pushed back by the iteration before. -/
def stepsLeft (st : ParseState) : Nat :=
  2 * st.input.length + (if st.line_ready then 1 else 0)

/-- The error of a line with a colon met outside any node: an event line starts
with `@`, a state line with `$`, any other is a property line. -/
def outsideNodeError (l : Str) (k : Nat) : ParseError :=
  match l with
  | '@' :: _ => ParseError.eventOutsideNode k
  | '$' :: _ => ParseError.stateOutsideNode k
  | _ => ParseError.propertyOutsideNode k

/-! ## Local templates: the specification side -/

/-- A root-level child that `buildLocalTemplateBindings` takes as the template
of the name `nm`: it has a base style, no non-empty `id` property, and its
trimmed name is `nm`. -/
def templateOfName (c : OTUINode) (nm : Str) : Prop :=
  c.base_style.isSome = true ∧ nodeProperty c "id".toList [] = [] ∧ trim c.name = nm

/-- The child at index `i` of the root is the first root-level child that is a
template of the name `nm`. -/
def FirstTemplate (root : OTUINode) (nm : Str) (i : Nat) : Prop :=
  (∃ c, root.children[i]? = some c ∧ templateOfName c nm) ∧
  ∀ j d, j < i → root.children[j]? = some d → ¬ templateOfName d nm

/-- The index of the first node of a list that is a template of the name `nm`;
the list starts at index `i`. -/
def firstTemplateFrom : List OTUINode → Nat → Str → Option Nat
  | [], _, _ => none
  | c :: cs, i, nm =>
    if c.base_style.isSome = true ∧ nodeProperty c "id".toList [] = [] ∧ trim c.name = nm
    then some i
    else firstTemplateFrom cs (i + 1) nm

/-! ## The widget list of a tree: the specification side -/

mutual
/-- The nodes of the subtree of a node in depth-first pre-order, each with its
pointer; `path` is the pointer of the node. -/
def preorder : OTUINode → NodePath → List (NodePath × OTUINode)
  | .mk name base_style indent cb ci props states events children, path =>
    (path, OTUINode.mk name base_style indent cb ci props states events children)
      :: preorderChildren children path 0
/-- The nodes of the subtrees of the children of the node at `path`, from child
`i` on, in depth-first pre-order. -/
def preorderChildren : List OTUINode → NodePath → Nat → List (NodePath × OTUINode)
  | [], _, _ => []
  | c :: cs, path, i => preorder c (path ++ [i]) ++ preorderChildren cs path (i + 1)
end

/-- The node at `p` lies in the subtree of a root-level node that has a base
style and no non-empty `id` property. -/
def inTemplateSubtree (root : OTUINode) (p : NodePath) : Bool :=
  match p with
  | [] => false
  | i :: _ =>
    match root.children[i]? with
    | some c => isTemplateDefinitionNode c
    | none => false

/-- The nodes for which a load is to emit a widget: all nodes but the root and
the nodes in the subtree of a root-level template, in depth-first pre-order. -/
def emittedNodes (root : OTUINode) : List (NodePath × OTUINode) :=
  (preorderChildren root.children [] 0).filter fun pn => !inTemplateSubtree root pn.1

/-- The nodes below the root-level children `cs`, the first of which is child
`i`, without the subtrees of the templates among them. -/
def emittedFrom : List OTUINode → Nat → List (NodePath × OTUINode)
  | [], _ => []
  | c :: cs, i =>
    (if isTemplateDefinitionNode c then [] else preorder c [i]) ++ emittedFrom cs (i + 1)

/-- The widget that the builder makes for the node at `path` (parser.cpp
1127-1139 and 1063-1071), with the parent reference `parent`. -/
def nodeWidget (env : Env) (ctx : BuildContext) (dataPath : Str) (path : NodePath)
    (node : OTUINode) (parent : Option Nat) : Widget :=
  let explicitId := nodeProperty node "id".toList []
  let widgetId := if explicitId = [] then node.name else explicitId
  let imageSource := nodeProperty node "image-source".toList []
  let w0 := createWidgetForNode env node.name widgetId dataPath imageSource
  let w1 := applyCommonWidgetProps env ctx dataPath w0 path node
  { w1 with m_parent := parent }

/-- The widgets `ws`, which stand in a list from index `off` on, are the widgets
of the nodes `L`, one for each in the same order; the parent reference of the
widget of a node for which `top` holds is `par`, that of any other node is the
index of the widget of the parent node, which stands earlier in the list. -/
def EmitsFor (env : Env) (ctx : BuildContext) (dataPath : Str) (top : NodePath → Prop)
    (ws : List Widget) (L : List (NodePath × OTUINode)) (off : Nat) (par : Option Nat) : Prop :=
  ws.length = L.length ∧
  ∀ (k : Nat) (p : NodePath) (n : OTUINode), L[k]? = some (p, n) →
    ∃ pr, ws[k]? = some (nodeWidget env ctx dataPath p n pr) ∧
      ((top p ∧ pr = par) ∨
        ∃ j pn, j < k ∧ L[j]? = some (p.dropLast, pn) ∧ pr = some (off + j))

/-- The widgets `ws` after the anchor pass are the widgets of the nodes `L`:
`EmitsFor` up to the rects, which the anchor pass sets. -/
def LoadsFor (env : Env) (ctx : BuildContext) (dataPath : Str)
    (ws : List Widget) (L : List (NodePath × OTUINode)) : Prop :=
  ws.length = L.length ∧
  ∀ (k : Nat) (p : NodePath) (n : OTUINode), L[k]? = some (p, n) →
    ∃ pr r, ws[k]? = some { nodeWidget env ctx dataPath p n pr with m_rect := r } ∧
      ((p.length = 1 ∧ pr = none) ∨
        ∃ j pn, j < k ∧ L[j]? = some (p.dropLast, pn) ∧ pr = some j)

/-- Every parent reference of the list points to an earlier widget. -/
def WellParented (heap : List Widget) : Prop :=
  ∀ (k : Nat) (w : Widget), heap[k]? = some w → ∀ p, w.m_parent = some p → p < k

/-- A widget without its rect. -/
def Widget.withoutRect (w : Widget) : Widget :=
  { w with m_rect := ⟨0, 0, 0, 0⟩ }
/-- The tree after `otui_resolve_all_inheritance`, or the tree itself when the
fuel does not suffice. -/
def resolvedTree (fuel : Nat) (root : OTUINode) : OTUINode :=
  (otui_resolve_all_inheritance fuel root).getD root

/-- A file with a root-level template `Panel`, which has a child, and a window
with nested children. -/
def exampleTemplateFile : String :=
  "Panel < UIWidget\n  size: 10 10\n  Label\nMainWindow\n  id: main\n  Button\n    Label\n  Button\n"

/-- The parent references of the widgets that a load returns, in list order. -/
def loadedParents (r : Option (Except LoadError (List Widget))) : Option (List (Option Nat)) :=
  match r with
  | some (Except.ok widgets) => some (widgets.map fun w => w.m_parent)
  | _ => none

/-! ## Saving a widget list (`parser.cpp`) -/

/-- The decimal digits of a natural number, most significant first; the fuel
bounds the number of digits. -/
def natDigits : Nat → Nat → Str → Str
  | 0, _, acc => acc
  | fuel + 1, n, acc =>
    if n < 10 then Char.ofNat (48 + n) :: acc
    else natDigits fuel (n / 10) (Char.ofNat (48 + n % 10) :: acc)

/-- The text that `QTextStream` writes for an `int`. -/
def intText (i : Int) : Str :=
  if i < 0 then '-' :: natDigits (i.natAbs + 1) i.natAbs []
  else natDigits (i.natAbs + 1) i.natAbs []

/-- `anchorEdgeName` (widget.cpp 205-225). -/
def anchorEdgeName : AnchorEdge → Str
  | AnchorEdge.Left => "left".toList
  | AnchorEdge.Right => "right".toList
  | AnchorEdge.Top => "top".toList
  | AnchorEdge.Bottom => "bottom".toList
  | AnchorEdge.HorizontalCenter => "horizontalCenter".toList
  | AnchorEdge.VerticalCenter => "verticalCenter".toList
  | AnchorEdge.None => []

/-- `Widget::anchorDescriptor` (widget.cpp 268-277): `target.edge`, or the empty
text for a binding that is not valid. -/
def Widget.anchorDescriptor (w : Widget) (edge : AnchorEdge) : Str :=
  let binding := w.anchorBinding edge
  if !binding.isValid then []
  else
    let token := anchorEdgeName binding.edge
    if token = [] then [] else binding.targetId ++ '.' :: token

/-- The lambda `writeEdgeGroup` of `serializeNode` (parser.cpp 1281-1288). -/
def writeEdgeGroup (name : String) (group : EdgeGroup) : Str :=
  if group.top = 0 ∧ group.right = 0 ∧ group.bottom = 0 ∧ group.left = 0 then []
  else
    "  ".toList ++ name.toList ++ "-top: ".toList ++ intText group.top ++ ['\n'] ++
    "  ".toList ++ name.toList ++ "-right: ".toList ++ intText group.right ++ ['\n'] ++
    "  ".toList ++ name.toList ++ "-bottom: ".toList ++ intText group.bottom ++ ['\n'] ++
    "  ".toList ++ name.toList ++ "-left: ".toList ++ intText group.left ++ ['\n']

/-- The lambda `writeAnchor` of `serializeNode` (parser.cpp 1301-1306). -/
def writeAnchor (w : Widget) (edge : AnchorEdge) (name : String) : Str :=
  let descriptor := w.anchorDescriptor edge
  if descriptor = [] then []
  else "  anchors.".toList ++ name.toList ++ ": ".toList ++ descriptor ++ ['\n']

/-- `serializeNode` (parser.cpp 1243-1323): the block that is written for one
widget. Opacity and colour are not fields of the widget model: `opacity` is the
text the stream writes for the opacity, `color` the value of `colorString()`.
The accessors `x()`, `y()`, `width()`, `height()` of `widget.h` read the rect. -/
def serializeNode (opacity color : Str) (w : Widget) : Str :=
  let fillTarget := w.fillTarget
  let centerTarget := w.centerInTarget
  w.m_id ++ ['\n'] ++
  "  id: ".toList ++ w.m_id ++ ['\n'] ++
  "  position: ".toList ++ intText w.m_rect.x ++ [' '] ++ intText w.m_rect.y ++ ['\n'] ++
  "  size: ".toList ++ intText w.width ++ [' '] ++ intText w.height ++ ['\n'] ++
  "  opacity: ".toList ++ opacity ++ ['\n'] ++
  "  visible: ".toList ++ (if w.m_visible then "true".toList else "false".toList) ++ ['\n'] ++
  (if w.supportsTextProperty ∧ w.m_text ≠ [] then
    "  text: ".toList ++ w.m_text ++ ['\n'] else []) ++
  (if w.m_imageSource ≠ [] then
    "  image-source: ".toList ++ w.m_imageSource ++ ['\n'] else []) ++
  (if !w.m_imageCrop.isNull then
    "  image-clip: ".toList ++ intText w.m_imageCrop.x ++ [' '] ++ intText w.m_imageCrop.y ++
      [' '] ++ intText w.m_imageCrop.w ++ [' '] ++ intText w.m_imageCrop.h ++ ['\n']
   else []) ++
  (if !w.m_imageBorder.isNull then
    "  image-border: ".toList ++ intText w.m_imageBorder.x ++ [' '] ++
      intText w.m_imageBorder.y ++ [' '] ++ intText w.m_imageBorder.w ++ [' '] ++
      intText w.m_imageBorder.h ++ ['\n']
   else []) ++
  (if w.m_phantom then "  phantom: true\n".toList else []) ++
  (if color ≠ [] then "  color: ".toList ++ color ++ ['\n'] else []) ++
  writeEdgeGroup "margin" w.m_margin ++
  writeEdgeGroup "padding" w.m_padding ++
  (if fillTarget ≠ [] then "  anchors.fill: ".toList ++ fillTarget ++ ['\n'] else []) ++
  (if centerTarget ≠ [] then "  anchors.centerIn: ".toList ++ centerTarget ++ ['\n'] else []) ++
  (if fillTarget = [] then
    writeAnchor w AnchorEdge.Left "left" ++ writeAnchor w AnchorEdge.Right "right" ++
    writeAnchor w AnchorEdge.Top "top" ++ writeAnchor w AnchorEdge.Bottom "bottom"
   else []) ++
  (if centerTarget = [] then
    writeAnchor w AnchorEdge.HorizontalCenter "horizontalCenter" ++
    writeAnchor w AnchorEdge.VerticalCenter "verticalCenter"
   else []) ++
  ['\n']

/-- The loop of `Parser::saveToFile` over the widgets (parser.cpp 1346-1351). -/
def serializeAll (opacity color : Widget → Str) : List Widget → Str
  | [] => []
  | w :: ws => serializeNode (opacity w) (color w) w ++ serializeAll opacity color ws

/-- `Parser::saveToFile` (parser.cpp 1325-1354): the text written to the file
(the file is taken to open). A line ends with `\n`; where the text mode of the
file writes `\r\n` instead, the parser strips both. -/
def saveToFile (opacity color : Widget → Str) (widgets : List Widget) : Str :=
  "# OTUIEditor export\n".toList ++ serializeAll opacity color widgets

/-- What the stream writes for `opacity()` of a widget whose opacity no
property has set: every constructor of `widget.cpp` sets `m_opacity = 1.0f`
(lines 45, 57, 72, 94), which `QTextStream` writes as `1`. -/
def defaultOpacityText : Str := "1".toList

/-- `Widget::colorString` (widget.cpp 503-507) of a widget whose colour no
property has set: every constructor of `widget.cpp` sets
`m_color = QColor(223, 223, 223)` (lines 44, 56, 71, 93), a valid colour, whose
name in the format `QColor::HexArgb` is `#ffdfdfdf`. -/
def defaultColorString : Str := "#ffdfdfdf".toList

/-- Load a text, save the widget list and load the saved text again: the first
list and the second load. Opacity and colour are not fields of the widget
model: the save writes the values that the constructors set, `opacity: 1` and
`color: #ffdfdfdf`, which is what the source writes for a text that sets
neither `opacity` nor `color`. -/
def saveAndReload (fuel : Nat) (env : Env) (text : String) :
    Option (Except LoadError (List Widget)) × Option (Except LoadError (List Widget)) :=
  match loadFromFile fuel env (some text.toList) [] with
  | some (Except.ok ws) =>
    (some (Except.ok ws),
      loadFromFile fuel env
        (some (saveToFile (fun _ => defaultOpacityText) (fun _ => defaultColorString) ws)) [])
  | r => (r, none)

/-- The text that a load followed by a save writes, for a text that sets
neither `opacity` nor `color`. -/
def savedText (fuel : Nat) (env : Env) (text : String) : Option Str :=
  match loadFromFile fuel env (some text.toList) [] with
  | some (Except.ok ws) =>
    some (saveToFile (fun _ => defaultOpacityText) (fun _ => defaultColorString) ws)
  | _ => none

/-- A window at (10, 0) with a child whose left edge is bound to the left edge
of the window by the id of the window. -/
def exampleIdAnchorFile : String :=
  "MainWindow\n  id: win\n  position: 10 0\n  size: 100 50\n  Button\n    id: b\n    size: 20 10\n    anchors.left: win.left\n"

/-- A window with a panel that has a child of its own, and a button bound by its
left edge to the right edge of the previous sibling, the panel. -/
def examplePrevAnchorFile : String :=
  "MainWindow\n  size: 100 50\n  Panel\n    size: 40 10\n    Label\n      size: 5 5\n  Button\n    size: 20 10\n    anchors.left: prev.right\n"

/-! ## Views of a parsed tree -/

/-- The fields of a node other than its indent and its children. -/
structure NodeFields where
  name : Str
  base_style : Option Str := none
  comment_before : Option Str := none
  comment_inline : Option Str := none
  props : List OTUIProp := []
  states : List OTUIState := []
  events : List OTUIEvent := []
  deriving DecidableEq, Repr

/-- The fields of a node. -/
def OTUINode.fields (n : OTUINode) : NodeFields :=
  { name := n.name, base_style := n.base_style, comment_before := n.comment_before,
    comment_inline := n.comment_inline, props := n.props, states := n.states,
    events := n.events }

/-- The root-level nodes that `otui_parse_file` returns for a text, each with
its children: the fields of the nodes of the first two levels. `none` when the
parse fails. -/
def parsedOutline (text : String) : Option (List (NodeFields × List NodeFields)) :=
  match otui_parse_file (some text.toList) with
  | some (Except.ok root) =>
    some (root.children.map fun c => (c.fields, c.children.map OTUINode.fields))
  | _ => none

/-- The error with which `otui_parse_file` fails on a text, if it fails. -/
def parseFailure (text : String) : Option ParseError :=
  match otui_parse_file (some text.toList) with
  | some (Except.error e) => some e
  | _ => none

/-! ## Adding widgets in the editor (`openglwidget.h`, `openglwidget.cpp`) -/

/-- A piece of the text that `QString::arg` scans (`findArgEscapes` and
`replaceArgEscapes` of Qt): a character, or a place marker `%N` or `%LN`, with
its number, the flag of the `L` and the text of the marker itself. -/
inductive ArgToken where
  | text (c : Char)
  | marker (escape : Nat) (locale : Bool) (source : Str)
  deriving DecidableEq, Repr

/-- The value of a digit of a place marker, for the digits of the ASCII range
(Qt 5 also takes the other decimal digits of Unicode, Qt 6 these ten). -/
def digitValue (c : Char) : Option Nat :=
  if '0' ≤ c ∧ c ≤ '9' then some (c.toNat - '0'.toNat) else none

/-- The place marker that follows a `%`, if there is one: an optional `L`, then
one digit, or two when a second digit follows. The result is the number of the
marker, the flag of the `L`, and the count of characters that the marker takes
after the `%`. -/
def argMarker (s : Str) : Option (Nat × Bool × Nat) :=
  let locale : Bool := match s with
    | 'L' :: _ => true
    | _ => false
  let t : Str := match s with
    | 'L' :: r => r
    | _ => s
  let k : Nat := if locale then 1 else 0
  match t with
  | [] => none
  | d1 :: t1 =>
    match digitValue d1 with
    | none => none
    | some a =>
      match t1 with
      | [] => some (a, locale, k + 1)
      | d2 :: _ =>
        match digitValue d2 with
        | none => some (a, locale, k + 1)
        | some b => some (10 * a + b, locale, k + 2)

/-- The scan of a text for place markers, from the left; `skip` characters at
the head belong to the marker met before. A `%` that no marker follows is a
character like any other, and the scan goes on behind it. -/
def argScan : Nat → Str → List ArgToken
  | _, [] => []
  | skip + 1, _ :: cs => argScan skip cs
  | 0, c :: cs =>
    if c = '%' then
      match argMarker cs with
      | some (n, locale, len) =>
        ArgToken.marker n locale ('%' :: cs.take len) :: argScan len cs
      | none => ArgToken.text c :: argScan 0 cs
    else ArgToken.text c :: argScan 0 cs

/-- The lowest number among the place markers (`min_escape`); `none` when the
text has no place marker. -/
def argMinEscape : List ArgToken → Option Nat
  | [] => none
  | ArgToken.text _ :: ts => argMinEscape ts
  | ArgToken.marker n _ _ :: ts =>
    match argMinEscape ts with
    | none => some n
    | some m => some (min n m)

/-- What `replaceArgEscapes` writes for a piece: a marker with the lowest number
gives way to the argument (to its locale form when the marker has an `L`), any
other piece is copied. -/
def argRender (m : Nat) (a larg : Str) : ArgToken → Str
  | ArgToken.text c => [c]
  | ArgToken.marker n locale source => if n = m then (if locale then larg else a) else source

/-- `QString::arg`: every place marker with the lowest number is replaced by
the argument `a`, or by `larg` when the marker has an `L`; a text without place
marker is returned as it is (Qt prints a warning). The text that an argument
brings in is not scanned again by the same call, but it is by the next call of
a chain. -/
def qstringArg (s a larg : Str) : Str :=
  match argMinEscape (argScan 0 s) with
  | none => s
  | some m => ((argScan 0 s).map (argRender m a larg)).flatten

/-- The text of `QString("%1_%2").arg(id).arg(n)`: the first call puts the id
in the place of `%1`, the second call replaces the place markers with the
lowest number of the text so built, which are those of the id when it has some.
The number is written in decimal digits, also for a marker with an `L` (the
form of the "C" locale). -/
def suffixedId (id : Str) (n : Nat) : Str :=
  qstringArg (qstringArg "%1_%2".toList id id) (intText (n : Int)) (intText (n : Int))

/-- The loop of `initializeWidget` (openglwidget.h 130-136): the counter `found`
after the widgets of the list; it is a `uint8_t`. -/
def initializeWidgetFound (widgetId : Str) : List Widget → Nat → Nat
  | [], found => found
  | w :: ws, found =>
    if w.m_id = widgetId then initializeWidgetFound widgetId ws ((found + 1) % 256)
    else if w.m_id = suffixedId widgetId found then
      initializeWidgetFound widgetId ws ((found + 1) % 256)
    else initializeWidgetFound widgetId ws found

/-- `OpenGLWidget::initializeWidget` (openglwidget.h 124-145): `made` is the
widget that the constructor `T(widgetId, dataPath, imagePath)` makes. -/
def initializeWidget (m_otuiWidgets : List Widget) (made : Widget) (widgetId : Str) : Widget :=
  let found := initializeWidgetFound widgetId m_otuiWidgets 0
  if found > 0 then { made with m_id := suffixedId widgetId found } else made

/-- `OpenGLWidget::addWidget` (openglwidget.h 31-51): the widget list afterwards. -/
def addWidget (m_otuiWidgets : List Widget) (made : Widget) (widgetId : Str)
    (imageBorder : QRect) : List Widget :=
  m_otuiWidgets ++ [{ initializeWidget m_otuiWidgets made widgetId with
    m_imageBorder := imageBorder }]

/-- The value that `serializeNode` writes after `image-border:` for a border
(parser.cpp 1266-1272). -/
def imageBorderValue (border : QRect) : Str :=
  intText border.x ++ [' '] ++ intText border.y ++ [' '] ++ intText border.w ++ [' '] ++
    intText border.h

/-- The image borders of the widgets that a load returns, in list order. -/
def loadedBorders (r : Option (Except LoadError (List Widget))) : Option (List QRect) :=
  match r with
  | some (Except.ok widgets) => some (widgets.map fun w => w.m_imageBorder)
  | _ => none

/-- A label of size 100 x 50 with the text `Hi` and auto-resize on. -/
def exampleAutoResizeLabel : Widget :=
  { m_id := "Label".toList, kind := WidgetKind.Label, m_rect := ⟨0, 0, 100, 50⟩,
    m_text := "Hi".toList, m_textAutoResize := true }

/-- An environment in which every text measures 10 x 8. -/
def exampleSmallTextEnv : Env :=
  { emptyEnv with textBounds := fun _ => ⟨0, 0, 10, 8⟩ }

/-- The state of the main loop of `otui_parse_file` after `k` iterations; `none`
when the loop has ended before. -/
def stateAfter (input : Str) : Nat → Option ParseState
  | 0 => some (initialState input)
  | k + 1 =>
    match stateAfter input k with
    | none => none
    | some st =>
      match parseStep st with
      | StepResult.next st2 => some st2
      | _ => none

/-- The indentation of the node that a pointer designates. -/
def nodeIndent (root : OTUINode) (p : NodePath) : Option Int :=
  (root.get p).map OTUINode.indent

/-- The indentations of the open nodes, from the top of the stack to its
bottom. -/
def openIndents (st : ParseState) : List (Option Int) :=
  st.stack.map (nodeIndent st.root)

/-- Every node of the tree is more indented than its parent. -/
def IndentsIncrease (root : OTUINode) : Prop :=
  ∀ (q : NodePath) (i : Nat) (a b : Int),
    nodeIndent root q = some a → nodeIndent root (q ++ [i]) = some b → a < b

/-- The open nodes are less and less indented from the top of the stack to its
bottom. -/
def StackIncreasing (st : ParseState) : Prop :=
  st.stack.Pairwise fun p q =>
    ∀ a b : Int, nodeIndent st.root p = some a → nodeIndent st.root q = some b → b < a

/-! ## Targets outside the subtree of a widget -/

/-- The widget at index `a` is met on the parent chain that starts at `start`,
within `fuel` links. -/
def onParentChain (heap : List Widget) (a : Nat) : Nat → Option Nat → Bool
  | _, none => false
  | 0, some _ => false
  | fuel + 1, some p =>
    if p = a then true
    else
      match heap[p]? with
      | none => false
      | some pw => onParentChain heap a fuel pw.m_parent

/-- The widget at index `t` is the widget at index `a` or one of its
descendants: `a` is met on the chain that starts at `t`. A chain without
repetition has at most as many widgets as the list. -/
def inSubtree (heap : List Widget) (a t : Nat) : Bool :=
  onParentChain heap a (heap.length + 1) (some t)

/-- The six anchor bindings of a widget. -/
def Widget.bindings (w : Widget) : List AnchorBinding :=
  [w.m_anchorLeft, w.m_anchorRight, w.m_anchorTop, w.m_anchorBottom,
    w.m_anchorHorizontalCenter, w.m_anchorVerticalCenter]

/-- A binding of the widget at index `i` resolves to a widget that is neither
that widget nor one of its descendants. -/
def resolvesOutside (heap : List Widget) (i : Nat) (w : Widget)
    (resolver : Option (Str → Option Nat)) (binding : AnchorBinding) : Bool :=
  match resolveTarget w resolver binding with
  | none => false
  | some t => !inSubtree heap i t

/-- The child of `exampleStretchHeap`. -/
def exampleStretchButton : Widget :=
  { m_id := "Button".toList, kind := WidgetKind.Button, m_parent := some 0,
    m_rect := ⟨0, 0, 30, 10⟩,
    m_margin := { top := 1, right := 5, bottom := 2, left := 3 },
    m_anchorLeft := { edge := AnchorEdge.Left, targetId := "parent".toList },
    m_anchorRight := { edge := AnchorEdge.Right, targetId := "parent".toList } }

/-! ## Views for the precedence of properties -/

/-- The value of an edge of a margin or padding group; 0 for an edge that a
group does not have. -/
def EdgeGroup.value (g : EdgeGroup) : AnchorEdge → Int
  | AnchorEdge.Top => g.top
  | AnchorEdge.Right => g.right
  | AnchorEdge.Bottom => g.bottom
  | AnchorEdge.Left => g.left
  | _ => 0

/-- What the builder reads of a node besides its children: the name, the base
style and the value of every key. -/
def nodeView (n : OTUINode) : Str × Option Str × (Str → Option Str) :=
  (n.name, n.base_style, otui_prop_get n)

/-- A node that binds its left edge, fills its parent and sets a margin with
the shorthand and with a component. -/
def exampleFillNode : OTUINode :=
  .mk "Panel".toList none 0 none none
    [{ key := "anchors.left".toList, value := "prev.right".toList },
     { key := "anchors.fill".toList, value := "parent".toList },
     { key := "margin".toList, value := "5".toList },
     { key := "margin-left".toList, value := "2".toList }] [] [] []

/-- A tree whose only node is `exampleFillNode`. -/
def exampleFillRoot : OTUINode :=
  .mk "__root__".toList none (-1) none none [] [] [] [exampleFillNode]

/-! ## Nested node headers -/

/-- The text of `n` node headers `N`, one on a line, indented by `k`, `k + 1`,
... spaces: every header is more indented than the one before it, so every node
stays open. -/
def nestedHeadersFrom : Nat → Nat → Str
  | 0, _ => []
  | n + 1, k => List.replicate k ' ' ++ 'N' :: '\n' :: nestedHeadersFrom n (k + 1)

/-- The text of `n` nested node headers, the first at indentation 0. -/
def nestedHeaders (n : Nat) : Str :=
  nestedHeadersFrom n 0

/-! ## Comment stripping: the specification side -/

/-- The loop over the bytes of a text that cuts it into physical lines; `cur`
holds the bytes of the line being read, the last one first. -/
def physicalLinesAux : Str → Str → List Str
  | cur, [] => if cur = [] then [] else [cur.reverse]
  | cur, c :: cs =>
    if c = '\n' then cur.reverse :: physicalLinesAux [] cs
    else physicalLinesAux (c :: cur) cs

/-- The physical lines of a text: the runs of bytes between line feeds; a last
run without line feed is a line when it is not empty. -/
def physicalLines (input : Str) : List Str :=
  physicalLinesAux [] input

/-- The shape `#RRGGBB` or `#AARRGGBB` at the head of a text: a `#` followed by
a run of exactly six or eight hexadecimal digits. -/
def specHexValue (s : Str) : Bool :=
  match s with
  | '#' :: r => (r.takeWhile isHexDigit).length = 6 || (r.takeWhile isHexDigit).length = 8
  | _ => false

/-- The scan for the trailing comment of a line as the specification words it
(section 4.1, step 2), from the left; `before` holds the characters already
passed, the last one first. The comment starts at a `#` that starts the line or
follows a space or a tab, but not at the `#` of a `#RRGGBB` or `#AARRGGBB` value
that immediately follows a `:` (the blanks between the colon and the value
apart). The result is the line without its comment. -/
def specCutComment : Str → Str → Str
  | _, [] => []
  | before, c :: cs =>
    if c = '#' ∧ (before = [] ∨ before.head? = some ' ' ∨ before.head? = some '\t') ∧
        ¬ ((skipBlanks before).head? = some ':' ∧ specHexValue (c :: cs) = true) then []
    else c :: specCutComment (c :: before) cs

/-- A physical line after the comment stripping of the specification: the line
end removed, the comment cut off, the rest trimmed. -/
def specStrippedLine (l : Str) : Str :=
  trim (specCutComment [] (stripNewlines l))

/-- The first of the lines that is not empty after the comment stripping of the
specification, with its number; `k` lines precede the list. -/
def specFirstContentLineAux : List Str → Nat → Option (Nat × Str)
  | [], _ => none
  | l :: ls, k =>
    if specStrippedLine l = [] then specFirstContentLineAux ls (k + 1)
    else some (k + 1, specStrippedLine l)

/-- The first physical line of a text that is not empty after the comment
stripping of the specification, with its 1-based number. -/
def specFirstContentLine (input : Str) : Option (Nat × Str) :=
  specFirstContentLineAux (physicalLines input) 0

/-- A file in which the root-level node `Panel` has a base style and no `id` of
its own, and inherits an `id` from its base. -/
def exampleInheritedIdFile : String :=
  "Base\n  id: base\nPanel < Base\n  Label\n"

/-! ## The end-to-end scenario -/

/-- A node header line: `k` spaces, then the name. -/
def headerLine (k : Nat) (name : Str) : Str :=
  List.replicate k ' ' ++ name

/-- A property line: `k` spaces, then `key: value`. -/
def propertyLine (k : Nat) (key value : Str) : Str :=
  List.replicate k ' ' ++ (key ++ ':' :: ' ' :: value)

/-- A text that the line parser takes as it stands as a name, a key or a
value: it has no `#` and no NUL, its only white space are spaces, and it begins
and ends with a character that is no white space. -/
def PlainText (s : Str) : Prop :=
  (∀ c ∈ s, c ≠ '#' ∧ c ≠ Char.ofNat 0 ∧ (c = ' ' ∨ isspace c = false))
    ∧ s.head?.map isspace = some false ∧ s.getLast?.map isspace = some false

/-- The value of a 32-bit `int`. -/
def IsInt32 (i : Int) : Prop :=
  -2147483648 ≤ i ∧ i ≤ 2147483647

/-- The tree of the scenario: the synthetic root with the node `MainWindow`,
which has the given properties and children. -/
def windowTree (props : List OTUIProp) (children : List OTUINode) : OTUINode :=
  .mk "__root__".toList none (-1) none none [] [] []
    [.mk "MainWindow".toList none 0 none none props [] [] children]

/-- The node `Button` of the scenario, at indentation 2, with the given
properties. -/
def buttonNode (props : List OTUIProp) : OTUINode :=
  .mk "Button".toList none 2 none none props [] [] []

/-- The text of the end-to-end scenario: a `MainWindow` at (`px`, `py`) of size
`W` by `H` with a child `Button` of size `cw` by `ch`, whose only anchor binds
its right edge to the right edge of the parent, with the right margin `m`. The
numbers are written in decimal. -/
def rightAnchorText (px py W H cw ch m : Int) : Str :=
  headerLine 0 "MainWindow".toList ++ '\n' ::
  (propertyLine 2 "position".toList (intText px ++ ' ' :: intText py) ++ '\n' ::
  (propertyLine 2 "size".toList (intText W ++ ' ' :: intText H) ++ '\n' ::
  (headerLine 2 "Button".toList ++ '\n' ::
  (propertyLine 4 "size".toList (intText cw ++ ' ' :: intText ch) ++ '\n' ::
  (propertyLine 4 "anchors.right".toList "parent.right".toList ++ '\n' ::
  (propertyLine 4 "margin-right".toList (intText m) ++ '\n' :: []))))))

/-! ## Base-style chains without cycle -/

mutual
/-- The base-style chain of every child of every node of the tree ends within
`n` links; the chain of a child is followed in its parent, the node in which
`otui_resolve_all_inheritance` looks its base up. -/
def chainsEndWithin (n : Nat) : OTUINode → Bool
  | .mk name base_style indent cb ci props states events children =>
    (List.range children.length).all (fun i =>
      chainEndsWithin (OTUINode.mk name base_style indent cb ci props states events children)
        n [i])
      && chainsEndWithinList n children
/-- The condition `chainsEndWithin` for every tree of a list. -/
def chainsEndWithinList (n : Nat) : List OTUINode → Bool
  | [] => true
  | c :: cs => chainsEndWithin n c && chainsEndWithinList n cs
end

/-- Two trees agree, at every node, in the base style and in the result of
every search by name from that node. Updates of properties keep it. -/
def DeepSame (a b : OTUINode) : Prop :=
  (∀ q, (b.get q).map OTUINode.base_style = (a.get q).map OTUINode.base_style) ∧
  (∀ q nm, (b.get q).map (fun x => otui_find_node x nm)
    = (a.get q).map (fun x => otui_find_node x nm))

/-- The condition `chainsEndWithin` node by node: at every node `M` of the tree
the chain of every child of `M` ends within `n` links. -/
def ChainsEnd (n : Nat) (root : OTUINode) : Prop :=
  ∀ q M i, root.get q = some M → chainEndsWithin M n [i] = true

/-- Every node of the tree lies less than `d` levels below the root. -/
def DepthBelow (d : Nat) (root : OTUINode) : Prop :=
  ∀ q M, root.get q = some M → q.length < d

/-! # Theorems -/

/-! ## Anchors -/

theorem applyHorizontal_defined (heap : List Widget) (w : Widget)
    (resolver : Option (Str → Option Nat)) (P : QPoint) (forRight : Bool) (rect : QRect)
    (hd : CoordDefined heap w resolver (if forRight then w.m_anchorRight else w.m_anchorLeft)) :
    ∃ r, applyHorizontal heap w resolver P forRight rect = some r ∧
      r.y = rect.y ∧ r.h = rect.h := by
  unfold applyHorizontal
  cases forRight
  · simp only [Bool.false_eq_true, if_false] at hd ⊢
    rcases hres : resolveTarget w resolver w.m_anchorLeft with _ | t
    · exact ⟨rect, rfl, rfl, rfl⟩
    · obtain ⟨c, hc⟩ := hd t hres
      simp [hc, QRect.moveLeft]
  · simp only [if_true] at hd ⊢
    rcases hres : resolveTarget w resolver w.m_anchorRight with _ | t
    · exact ⟨rect, rfl, rfl, rfl⟩
    · obtain ⟨c, hc⟩ := hd t hres
      simp only [hc]
      by_cases h1 : w.m_anchorRight.isValid = true
      · by_cases h2 : w.m_anchorLeft.isValid = true <;>
          simp [h1, h2, QRect.moveLeft, QRect.setWidth]
      · simp [h1]

theorem applyVertical_defined (heap : List Widget) (w : Widget)
    (resolver : Option (Str → Option Nat)) (P : QPoint) (forBottom : Bool) (rect : QRect)
    (hd : CoordDefined heap w resolver (if forBottom then w.m_anchorBottom else w.m_anchorTop)) :
    ∃ r, applyVertical heap w resolver P forBottom rect = some r ∧
      r.x = rect.x ∧ r.w = rect.w := by
  unfold applyVertical
  cases forBottom
  · simp only [Bool.false_eq_true, if_false] at hd ⊢
    rcases hres : resolveTarget w resolver w.m_anchorTop with _ | t
    · exact ⟨rect, rfl, rfl, rfl⟩
    · obtain ⟨c, hc⟩ := hd t hres
      simp [hc, QRect.moveTop]
  · simp only [if_true] at hd ⊢
    rcases hres : resolveTarget w resolver w.m_anchorBottom with _ | t
    · exact ⟨rect, rfl, rfl, rfl⟩
    · obtain ⟨c, hc⟩ := hd t hres
      simp only [hc]
      by_cases h1 : w.m_anchorBottom.isValid = true
      · by_cases h2 : w.m_anchorTop.isValid = true <;>
          simp [h1, h2, QRect.moveTop, QRect.setHeight]
      · simp [h1]

theorem applyCenter_vertical_defined (heap : List Widget) (w : Widget)
    (resolver : Option (Str → Option Nat)) (P : QPoint) (rect : QRect)
    (hd : CoordDefined heap w resolver w.m_anchorVerticalCenter) :
    ∃ r, applyCenter heap w resolver P false rect = some r ∧
      r.x = rect.x ∧ r.w = rect.w ∧ r.h = rect.h := by
  unfold applyCenter
  rcases hres : resolveTarget w resolver w.m_anchorVerticalCenter with _ | t
  · exact ⟨rect, by simp [hres], rfl, rfl, rfl⟩
  · obtain ⟨c, hc⟩ := hd t hres
    simp [hres, hc, QRect.moveTop]

theorem applyCenter_horizontal_defined (heap : List Widget) (w : Widget)
    (resolver : Option (Str → Option Nat)) (P : QPoint) (rect : QRect)
    (hd : CoordDefined heap w resolver w.m_anchorHorizontalCenter) :
    ∃ r, applyCenter heap w resolver P true rect = some r ∧
      r.y = rect.y ∧ r.w = rect.w ∧ r.h = rect.h := by
  unfold applyCenter
  rcases hres : resolveTarget w resolver w.m_anchorHorizontalCenter with _ | t
  · exact ⟨rect, by simp [hres], rfl, rfl, rfl⟩
  · obtain ⟨c, hc⟩ := hd t hres
    simp [hres, hc, QRect.moveLeft]

theorem resolveTarget_invalid (w : Widget) (resolver : Option (Str → Option Nat))
    (b : AnchorBinding) (h : b.isValid = false) : resolveTarget w resolver b = none := by
  simp [resolveTarget, h]

theorem resolveTarget_some_valid (w : Widget) (resolver : Option (Str → Option Nat))
    (b : AnchorBinding) (t : Nat) (h : resolveTarget w resolver b = some t) :
    b.isValid = true := by
  cases hv : b.isValid
  · rw [resolveTarget_invalid w resolver b hv] at h
    exact absurd h (by simp)
  · rfl

theorem applyAnchors_of_rect (heap : List Widget) (i : Nat) (w : Widget)
    (resolver : Option (Str → Option Nat)) (r : QRect)
    (hw : heap[i]? = some w) (hr : applyAnchorsRect heap w resolver = some r) :
    applyAnchors heap i resolver = some (heap.set i { w with m_rect := r }) := by
  simp [applyAnchors, hw, hr]

/-- C7: `fillTarget` is a derived view. For a non-empty id `t`, `fillTarget`
returns `t` exactly when the left, right, top and bottom bindings are valid, are
bound to the edges Left, Right, Top, Bottom and all carry the target id `t`;
when this holds for no non-empty id the result is empty. After binding all four
edges to `X` the result is `X`, and giving any one of the four edges a different
target id makes it empty. -/
theorem fillTarget_derived_view (w : Widget) (t : Str) (ht : t ≠ []) :
    (w.fillTarget = t ↔ w.boundToFill t) ∧
    ((∀ u : Str, u ≠ [] → ¬ w.boundToFill u) → w.fillTarget = []) ∧
    (∀ X : Str, (w.bindFill X).fillTarget = X) ∧
    (∀ (X Y : Str) (e te : AnchorEdge), Y ≠ X →
      (e = AnchorEdge.Left ∨ e = AnchorEdge.Right ∨ e = AnchorEdge.Top ∨
        e = AnchorEdge.Bottom) →
      ((w.bindFill X).setAnchorBinding e Y te).fillTarget = []) := by
  have key : ∀ (v : Widget) (u : Str), u ≠ [] → (v.fillTarget = u ↔ v.boundToFill u) := by
    intro v u hu
    unfold Widget.fillTarget Widget.boundToFill
    split_ifs with h1 h2 h3
    · constructor
      · intro h
        exact absurd h.symm hu
      · rintro ⟨a, b, c, d, -⟩
        simp [a, b, c, d] at h1
    · constructor
      · intro h
        exact absurd h.symm hu
      · rintro ⟨-, -, -, -, a, b, c, d, -⟩
        simp [a, b, c, d] at h2
    · constructor
      · intro h
        exact absurd h.symm hu
      · rintro ⟨-, -, -, -, -, -, -, -, a, b, c, d⟩
        simp [a, b, c, d] at h3
    · simp only [Bool.or_eq_true, Bool.not_eq_true', bne_iff_ne, ne_eq, not_or,
        Bool.not_eq_false, not_not] at h1 h2 h3
      obtain ⟨⟨⟨a1, a2⟩, a3⟩, a4⟩ := h1
      obtain ⟨⟨⟨b1, b2⟩, b3⟩, b4⟩ := h2
      obtain ⟨⟨c1, c2⟩, c3⟩ := h3
      constructor
      · intro h
        exact ⟨a1, a2, a3, a4, b1, b2, b3, b4, h, c1 ▸ h, c2 ▸ h, c3 ▸ h⟩
      · intro h
        exact h.2.2.2.2.2.2.2.2.1
  refine ⟨key w t ht, ?_, ?_, ?_⟩
  · intro h
    by_cases he : w.fillTarget = []
    · exact he
    · exact absurd ((key w w.fillTarget he).mp rfl) (h _ he)
  · intro X
    simp [Widget.bindFill, Widget.setAnchorBinding, Widget.fillTarget, AnchorBinding.isValid]
  · intro X Y e te hne he
    have hne2 : ¬ X = Y := fun h => hne h.symm
    rcases he with rfl | rfl | rfl | rfl <;>
      simp [Widget.bindFill, Widget.setAnchorBinding, Widget.fillTarget,
        AnchorBinding.isValid, hne, hne2]

theorem fillTarget_derived_view_witness :
    ("X".toList ≠ []) ∧
    (({ m_id := "w".toList } : Widget).bindFill "X".toList).fillTarget = "X".toList ∧
    ((({ m_id := "w".toList } : Widget).bindFill "X".toList).setAnchorBinding
      AnchorEdge.Top "Y".toList AnchorEdge.Top).fillTarget = [] :=
  ⟨by decide,
   (fillTarget_derived_view { m_id := "w".toList } "X".toList (by decide)).2.2.1 "X".toList,
   (fillTarget_derived_view { m_id := "w".toList } "X".toList (by decide)).2.2.2
     "X".toList "Y".toList AnchorEdge.Top AnchorEdge.Top (by decide) (by simp)⟩

theorem parseEdgeParts_none_iff (parts : List Str) :
    parseEdgeParts parts = none ↔ ∃ t ∈ parts, toInt t = none := by
  induction parts with
  | nil => simp [parseEdgeParts]
  | cons p ps ih =>
    simp only [parseEdgeParts, List.mem_cons, exists_eq_or_imp]
    cases hp : toInt p with
    | none => simp
    | some v =>
      cases hps : parseEdgeParts ps with
      | none => simpa using ih.mp hps
      | some vs =>
        simp only [false_or, reduceCtorEq, false_iff]
        intro h
        rw [ih.mpr h] at hps
        cases hps

theorem parseEdgeValues_fail (value : Str) (out : EdgeValues) :
    (splitWhitespace value = [] ∨ 4 < (splitWhitespace value).length ∨
      ∃ t ∈ splitWhitespace value, toInt t = none) →
    parseEdgeValues value out = (false, out) := by
  intro h
  unfold parseEdgeValues
  simp only
  split_ifs with hc
  · rfl
  · rcases h with h | h | h
    · simp [h] at hc
    · omega
    · rw [(parseEdgeParts_none_iff _).mpr h]

/-- C1: `parseEdgeValues` expands a margin or padding shorthand. A value of one
integer `a` gives top = right = bottom = left = a; two (`a b`) give
top = bottom = a and right = left = b; three (`a b c`) give top = a,
right = left = b, bottom = c; four (`a b c d`) give top, right, bottom, left in
that order. For every other value (no token, more than four tokens, a token that
is not an `int`) the call fails and leaves `out` unchanged, and
`applyEdgeGroupProperty` leaves the widget unchanged; on success
`applyEdgeGroupProperty` stores the four values in the margin or padding. -/
theorem parseEdgeValues_shorthand (value : Str) (out : EdgeValues) :
    (∀ a x, splitWhitespace value = [a] → toInt a = some x →
      parseEdgeValues value out = (true, { top := x, right := x, bottom := x, left := x })) ∧
    (∀ a b x y, splitWhitespace value = [a, b] → toInt a = some x → toInt b = some y →
      parseEdgeValues value out = (true, { top := x, right := y, bottom := x, left := y })) ∧
    (∀ a b c x y z, splitWhitespace value = [a, b, c] →
      toInt a = some x → toInt b = some y → toInt c = some z →
      parseEdgeValues value out = (true, { top := x, right := y, bottom := z, left := y })) ∧
    (∀ a b c d x y z u, splitWhitespace value = [a, b, c, d] →
      toInt a = some x → toInt b = some y → toInt c = some z → toInt d = some u →
      parseEdgeValues value out = (true, { top := x, right := y, bottom := z, left := u })) ∧
    ((splitWhitespace value = [] ∨ 4 < (splitWhitespace value).length ∨
        ∃ t ∈ splitWhitespace value, toInt t = none) →
      parseEdgeValues value out = (false, out) ∧
      ∀ (widget : Widget) (type : EdgeGroupType),
        applyEdgeGroupProperty widget type value = widget) ∧
    (∀ (v : EdgeValues) (widget : Widget) (type : EdgeGroupType),
      parseEdgeValues value {} = (true, v) →
      edgeGroupOf (applyEdgeGroupProperty widget type value) type =
        { top := v.top, right := v.right, bottom := v.bottom, left := v.left }) := by
  refine ⟨?_, ?_, ?_, ?_, ?_, ?_⟩
  · intro a x hs ha
    simp [parseEdgeValues, hs, parseEdgeParts, ha]
  · intro a b x y hs ha hb
    simp [parseEdgeValues, hs, parseEdgeParts, ha, hb]
  · intro a b c x y z hs ha hb hc
    simp [parseEdgeValues, hs, parseEdgeParts, ha, hb, hc]
  · intro a b c d x y z u hs ha hb hc hd
    simp [parseEdgeValues, hs, parseEdgeParts, ha, hb, hc, hd]
  · intro h
    refine ⟨parseEdgeValues_fail value out h, ?_⟩
    intro widget type
    simp [applyEdgeGroupProperty, parseEdgeValues_fail value {} h]
  · intro v widget type hv
    cases type <;> simp [applyEdgeGroupProperty, hv, assignEdgeValue, edgeGroupOf]

theorem parseEdgeValues_shorthand_witness :
    parseEdgeValues "4".toList {} = (true, { top := 4, right := 4, bottom := 4, left := 4 }) ∧
    parseEdgeValues "1 2".toList {} = (true, { top := 1, right := 2, bottom := 1, left := 2 }) ∧
    parseEdgeValues "1 2 3".toList {} =
      (true, { top := 1, right := 2, bottom := 3, left := 2 }) ∧
    parseEdgeValues "1 2 3 4".toList {} =
      (true, { top := 1, right := 2, bottom := 3, left := 4 }) ∧
    parseEdgeValues "1 x".toList { top := 7, right := 7, bottom := 7, left := 7 } =
      (false, { top := 7, right := 7, bottom := 7, left := 7 }) ∧
    (applyEdgeGroupProperty
        { m_id := "w".toList, m_margin := { top := 7, right := 7, bottom := 7, left := 7 } }
        EdgeGroupType.Margin "1 2 3 4 5".toList).m_margin =
      { top := 7, right := 7, bottom := 7, left := 7 } ∧
    edgeGroupOf (applyEdgeGroupProperty { m_id := "w".toList } EdgeGroupType.Padding
        "1 2 3".toList) EdgeGroupType.Padding =
      { top := 1, right := 2, bottom := 3, left := 2 } :=
  ⟨(parseEdgeValues_shorthand "4".toList {}).1 "4".toList 4 (by decide) (by decide),
   (parseEdgeValues_shorthand "1 2".toList {}).2.1 "1".toList "2".toList 1 2
     (by decide) (by decide) (by decide),
   (parseEdgeValues_shorthand "1 2 3".toList {}).2.2.1 "1".toList "2".toList "3".toList 1 2 3
     (by decide) (by decide) (by decide) (by decide),
   (parseEdgeValues_shorthand "1 2 3 4".toList {}).2.2.2.1 "1".toList "2".toList "3".toList
     "4".toList 1 2 3 4 (by decide) (by decide) (by decide) (by decide) (by decide),
   ((parseEdgeValues_shorthand "1 x".toList _).2.2.2.2.1
     (Or.inr (Or.inr ⟨"x".toList, by decide, by decide⟩))).1,
   congrArg Widget.m_margin (((parseEdgeValues_shorthand "1 2 3 4 5".toList {}).2.2.2.2.1
     (Or.inr (Or.inl (by decide)))).2 _ EdgeGroupType.Margin),
   (parseEdgeValues_shorthand "1 2 3".toList {}).2.2.2.2.2
     { top := 1, right := 2, bottom := 3, left := 2 } _ EdgeGroupType.Padding (by decide)⟩

/-! ## Node tree: pointers and updates in place -/

@[simp] theorem withChildren_children (n : OTUINode) (c : List OTUINode) :
    (n.withChildren c).children = c := by cases n; rfl
@[simp] theorem withChildren_props (n : OTUINode) (c : List OTUINode) :
    (n.withChildren c).props = n.props := by cases n; rfl
@[simp] theorem withChildren_name (n : OTUINode) (c : List OTUINode) :
    (n.withChildren c).name = n.name := by cases n; rfl
@[simp] theorem withChildren_base_style (n : OTUINode) (c : List OTUINode) :
    (n.withChildren c).base_style = n.base_style := by cases n; rfl
@[simp] theorem withProps_children (n : OTUINode) (p : List OTUIProp) :
    (n.withProps p).children = n.children := by cases n; rfl
@[simp] theorem withProps_props (n : OTUINode) (p : List OTUIProp) :
    (n.withProps p).props = p := by cases n; rfl
@[simp] theorem withProps_name (n : OTUINode) (p : List OTUIProp) :
    (n.withProps p).name = n.name := by cases n; rfl
@[simp] theorem withProps_base_style (n : OTUINode) (p : List OTUIProp) :
    (n.withProps p).base_style = n.base_style := by cases n; rfl

theorem get_nil (n : OTUINode) : n.get [] = some n := by
  cases n; rfl

theorem get_cons (n : OTUINode) (i : Nat) (p : NodePath) :
    n.get (i :: p) = (match n.children[i]? with
      | none => none
      | some c => c.get p) := by
  cases n; rfl

theorem modify_nil (f : OTUINode → OTUINode) (n : OTUINode) : OTUINode.modify f n [] = f n := by
  cases n; rfl

theorem modify_cons (f : OTUINode → OTUINode) (n : OTUINode) (i : Nat) (p : NodePath) :
    OTUINode.modify f n (i :: p) = (match n.children[i]? with
      | none => n
      | some c => n.withChildren (n.children.set i (OTUINode.modify f c p))) := by
  cases n; rfl

theorem get_modify_same (f : OTUINode → OTUINode) (p : NodePath) :
    ∀ (root n : OTUINode), root.get p = some n → (OTUINode.modify f root p).get p = some (f n) := by
  induction p with
  | nil =>
    intro root n h
    rw [get_nil] at h
    cases h
    rw [modify_nil, get_nil]
  | cons i p ih =>
    intro root n h
    rw [get_cons] at h
    rw [modify_cons]
    cases hc : root.children[i]? with
    | none => simp [hc] at h
    | some c =>
      simp only [hc] at h ⊢
      rw [get_cons]
      have hi : i < root.children.length := by
        rcases lt_or_ge i root.children.length with h1 | h1
        · exact h1
        · rw [List.getElem?_eq_none h1] at hc
          cases hc
      simp [hi, ih c n h]

theorem baseStyle_modify (f : OTUINode → OTUINode) (hf : PropOnly f) (p : NodePath) :
    ∀ (root : OTUINode) (q : NodePath),
      ((OTUINode.modify f root p).get q).map OTUINode.base_style =
        (root.get q).map OTUINode.base_style ∧
      ((OTUINode.modify f root p).get q).map OTUINode.name =
        (root.get q).map OTUINode.name ∧
      (q ≠ p → ((OTUINode.modify f root p).get q).map OTUINode.props =
        (root.get q).map OTUINode.props) := by
  induction p with
  | nil =>
    intro root q
    rw [modify_nil]
    cases q with
    | nil => simp [get_nil, (hf root).1, (hf root).2.1]
    | cons j q => simp [get_cons, (hf root).2.2]
  | cons i p ih =>
    intro root q
    rw [modify_cons]
    cases hc : root.children[i]? with
    | none => simp
    | some c =>
      simp only
      cases q with
      | nil => simp [get_nil]
      | cons j q =>
        rw [get_cons, get_cons]
        simp only [withChildren_children]
        by_cases hji : j = i
        · subst hji
          have hi : j < root.children.length := by
            rcases lt_or_ge j root.children.length with h1 | h1
            · exact h1
            · rw [List.getElem?_eq_none h1] at hc
              cases hc
          simp only [List.getElem?_set_self hi, hc]
          refine ⟨(ih c q).1, (ih c q).2.1, ?_⟩
          intro hne
          exact (ih c q).2.2 (fun h => hne (by rw [h]))
        · rw [List.getElem?_set_ne (Ne.symm hji)]
          simp

theorem find_node_eq (n : OTUINode) (nm : Str) :
    otui_find_node n nm =
      if n.name = nm then some [] else otui_find_node_children n.children nm 0 := by
  cases n; simp [otui_find_node, OTUINode.name, OTUINode.children]

theorem find_children_set (nm : Str) (c c2 : OTUINode)
    (hcc : otui_find_node c2 nm = otui_find_node c nm) :
    ∀ (cs : List OTUINode) (i k : Nat), cs[i]? = some c →
      otui_find_node_children (cs.set i c2) nm k = otui_find_node_children cs nm k := by
  intro cs
  induction cs with
  | nil => intro i k h; simp at h
  | cons d ds ih =>
    intro i k h
    cases i with
    | zero =>
      simp at h
      subst h
      simp [otui_find_node_children, hcc]
    | succ i =>
      simp at h
      simp [otui_find_node_children, ih i (k + 1) h]

theorem find_node_modify (f : OTUINode → OTUINode) (hf : PropOnly f) (nm : Str)
    (p : NodePath) :
    ∀ root : OTUINode, otui_find_node (OTUINode.modify f root p) nm = otui_find_node root nm := by
  induction p with
  | nil =>
    intro root
    rw [modify_nil, find_node_eq, find_node_eq, (hf root).1, (hf root).2.2]
  | cons i p ih =>
    intro root
    rw [modify_cons]
    cases hc : root.children[i]? with
    | none => rfl
    | some c =>
      simp only
      rw [find_node_eq, find_node_eq (n := root)]
      simp only [withChildren_name, withChildren_children]
      rw [find_children_set nm c _ (ih c) root.children i 0 hc]

theorem find_children_some (nm : Str) :
    ∀ (cs : List OTUINode) (k : Nat) (q : NodePath),
      otui_find_node_children cs nm k = some q →
      ∃ j q2 c, q = (k + j) :: q2 ∧ cs[j]? = some c ∧ otui_find_node c nm = some q2 := by
  intro cs
  induction cs with
  | nil => intro k q h; simp [otui_find_node_children] at h
  | cons d ds ih =>
    intro k q h
    simp only [otui_find_node_children] at h
    cases hd : otui_find_node d nm with
    | some q2 =>
      simp only [hd] at h
      cases h
      exact ⟨0, q2, d, by simp, by simp, hd⟩
    | none =>
      simp only [hd] at h
      obtain ⟨j, q2, c, hq, hc, hf⟩ := ih (k + 1) q h
      refine ⟨j + 1, q2, c, ?_, by simpa using hc, hf⟩
      rw [hq]
      congr 1
      omega

theorem find_node_get (nm : Str) (b : NodePath) :
    ∀ root : OTUINode, otui_find_node root nm = some b →
      ∃ B, root.get b = some B ∧ B.name = nm := by
  induction b with
  | nil =>
    intro root h
    refine ⟨root, get_nil root, ?_⟩
    rw [find_node_eq] at h
    by_cases hn : root.name = nm
    · exact hn
    · simp only [hn, if_false] at h
      obtain ⟨j, q2, c, hq, -, -⟩ := find_children_some nm _ _ _ h
      cases hq
  | cons i b ih =>
    intro root h
    rw [find_node_eq] at h
    by_cases hn : root.name = nm
    · simp [hn] at h
    · simp only [hn, if_false] at h
      obtain ⟨j, q2, c, hq, hc, hf⟩ := find_children_some nm _ _ _ h
      simp only [Nat.zero_add, List.cons.injEq] at hq
      obtain ⟨rfl, rfl⟩ := hq
      rw [get_cons, hc]
      exact ih c hf

/-! ## Explicit inheritance -/

theorem propsGet_append_single (xs : List OTUIProp) (a : OTUIProp) (k : Str) :
    propsGet (xs ++ [a]) k =
      (match propsGet xs k with
        | some v => some v
        | none => if a.key = k then some a.value else none) := by
  induction xs with
  | nil => simp [propsGet]
  | cons x xs ih =>
    simp only [List.cons_append, propsGet]
    by_cases h : x.key = k
    · simp [h]
    · simp only [h, if_false]
      exact ih

theorem inheritLoop_propOnly (bps : List OTUIProp) :
    PropOnly (fun nd => inheritLoop nd bps) := by
  induction bps with
  | nil => intro n; simp [inheritLoop]
  | cons bp rest ih =>
    intro n
    simp only [inheritLoop]
    split_ifs with h
    · have := ih (node_add_prop n bp.key bp.value)
      simpa [node_add_prop] using this
    · exact ih n

theorem inheritLoop_props (bps : List OTUIProp) :
    ∀ node : OTUINode, ∃ added : List OTUIProp,
      (inheritLoop node bps).props = node.props ++ added ∧
      (∀ k, otui_prop_get (inheritLoop node bps) k =
        (match otui_prop_get node k with
          | some v => some v
          | none => propsGet bps k)) ∧
      List.Sublist (added.map fun a => (a.key, a.value))
        (bps.map fun a => (a.key, a.value)) ∧
      (∀ a ∈ added, otui_prop_get node a.key = none ∧ a.comment = none) := by
  induction bps with
  | nil =>
    intro node
    refine ⟨[], by simp [inheritLoop], ?_, by simp, by simp⟩
    intro k
    simp only [inheritLoop, propsGet]
    cases otui_prop_get node k <;> rfl
  | cons bp rest ih =>
    intro node
    simp only [inheritLoop]
    cases hg : otui_prop_get node bp.key with
    | none =>
      simp only [Option.isNone_none, if_true]
      obtain ⟨added, h1, h2, h3, h4⟩ := ih (node_add_prop node bp.key bp.value)
      refine ⟨{ key := bp.key, value := bp.value, comment := none } :: added, ?_, ?_, ?_, ?_⟩
      · rw [h1]; simp [node_add_prop]
      · intro k
        rw [h2 k]
        simp only [otui_prop_get, node_add_prop, withProps_props, propsGet_append_single,
          propsGet]
        cases hk : propsGet node.props k with
        | some v => rfl
        | none =>
          simp only
          split_ifs <;> rfl
      · simpa using h3
      · intro a ha
        rcases List.mem_cons.mp ha with rfl | ha
        · exact ⟨hg, rfl⟩
        · have := h4 a ha
          refine ⟨?_, this.2⟩
          have h5 := this.1
          simp only [otui_prop_get, node_add_prop, withProps_props,
            propsGet_append_single] at h5
          unfold otui_prop_get
          cases hk : propsGet node.props a.key with
          | some v => rw [hk] at h5; cases h5
          | none => rfl
    | some v0 =>
      simp only [Option.isNone_some, Bool.false_eq_true, if_false]
      obtain ⟨added, h1, h2, h3, h4⟩ := ih node
      refine ⟨added, h1, ?_, ?_, h4⟩
      · intro k
        rw [h2 k]
        cases hk : otui_prop_get node k with
        | some v => rfl
        | none =>
          simp only [propsGet]
          have : ¬ bp.key = k := by
            intro h
            rw [h] at hg
            rw [hg] at hk
            cases hk
          simp [this]
      · exact List.Sublist.cons _ h3

theorem baseOf_congr (root root2 : OTUINode) (h : SameSkeleton root root2) (p : NodePath) :
    baseOf root2 p = baseOf root p := by
  unfold baseOf
  have h1 := h.1 p
  cases hr : root.get p with
  | none =>
    cases hr2 : root2.get p with
    | none => rfl
    | some n2 => rw [hr, hr2] at h1; cases h1
  | some n =>
    cases hr2 : root2.get p with
    | none => rw [hr, hr2] at h1; cases h1
    | some n2 =>
      rw [hr, hr2] at h1
      simp only [Option.map_some', Option.some.injEq] at h1
      simp only [h1]
      cases n.base_style with
      | none => rfl
      | some bs => exact h.2 bs

theorem chainEndsWithin_succ (root : OTUINode) (n : Nat) :
    ∀ p, chainEndsWithin root n p = true → chainEndsWithin root (n + 1) p = true := by
  induction n with
  | zero =>
    intro p h
    simp only [chainEndsWithin] at h ⊢
    cases hb : baseOf root p with
    | none => rfl
    | some b => rw [hb] at h; cases h
  | succ n ih =>
    intro p h
    rw [chainEndsWithin] at h ⊢
    cases hb : baseOf root p with
    | none => rfl
    | some b =>
      simp only [hb] at h ⊢
      exact ih b h

theorem chainEndsWithin_mono (root : OTUINode) (p : NodePath) (n m : Nat) (hnm : n ≤ m)
    (h : chainEndsWithin root n p = true) : chainEndsWithin root m p = true := by
  induction hnm with
  | refl => exact h
  | step _ ih => exact chainEndsWithin_succ root _ p ih

theorem resolve_fuel_succ (f : Nat) :
    ∀ (root : OTUINode) (p : NodePath) (r : OTUINode),
      otui_resolve_inheritance f root p = some r →
      otui_resolve_inheritance (f + 1) root p = some r := by
  induction f with
  | zero => intro root p r h; simp [otui_resolve_inheritance] at h
  | succ f ih =>
    intro root p r h
    rw [otui_resolve_inheritance] at h ⊢
    cases hg : root.get p with
    | none => simpa [hg] using h
    | some N =>
      simp only [hg] at h ⊢
      cases hbs : N.base_style with
      | none => simpa [hbs] using h
      | some bs =>
        simp only [hbs] at h ⊢
        cases hf : otui_find_node root bs with
        | none => simpa [hf] using h
        | some b =>
          simp only [hf] at h ⊢
          cases hr : otui_resolve_inheritance f root b with
          | none => simp [hr] at h
          | some root1 =>
            rw [ih root b root1 hr]
            simpa [hr] using h

theorem resolve_fuel_mono (f g : Nat) (hfg : f ≤ g) (root : OTUINode) (p : NodePath)
    (r : OTUINode) (h : otui_resolve_inheritance f root p = some r) :
    otui_resolve_inheritance g root p = some r := by
  induction hfg with
  | refl => exact h
  | step _ ih => exact resolve_fuel_succ _ root p r ih

theorem inheritLoop_props_congr (bps : List OTUIProp) :
    ∀ n1 n2 : OTUINode, n1.props = n2.props →
      (inheritLoop n1 bps).props = (inheritLoop n2 bps).props := by
  induction bps with
  | nil => intro n1 n2 h; simpa [inheritLoop] using h
  | cons bp rest ih =>
    intro n1 n2 h
    simp only [inheritLoop, otui_prop_get, h]
    split_ifs
    · exact ih _ _ (by simp [node_add_prop, h])
    · exact ih _ _ h

theorem resolve_of_baseOf_none (root : OTUINode) (p : NodePath) (f : Nat)
    (h : baseOf root p = none) : otui_resolve_inheritance (f + 1) root p = some root := by
  rw [otui_resolve_inheritance]
  unfold baseOf at h
  cases hg : root.get p with
  | none => rfl
  | some N =>
    simp only [hg] at h ⊢
    cases hbs : N.base_style with
    | none => rfl
    | some bs =>
      simp only [hbs] at h ⊢
      rw [h]

theorem baseOf_some (root : OTUINode) (p b : NodePath) (h : baseOf root p = some b) :
    ∃ N bs, root.get p = some N ∧ N.base_style = some bs ∧ otui_find_node root bs = some b := by
  unfold baseOf at h
  cases hg : root.get p with
  | none => simp [hg] at h
  | some N =>
    simp only [hg] at h
    cases hbs : N.base_style with
    | none => simp [hbs] at h
    | some bs =>
      simp only [hbs] at h
      exact ⟨N, bs, rfl, hbs, h⟩

theorem resolve_exact (n : Nat) :
    ∀ (root : OTUINode) (p : NodePath), ExactRank root n p →
      ∃ root2, otui_resolve_inheritance (n + 1) root p = some root2 ∧
        SameSkeleton root root2 ∧
        (∀ q, chainEndsWithin root n q = false →
          (root2.get q).map OTUINode.props = (root.get q).map OTUINode.props) ∧
        (∀ N b, root.get p = some N → baseOf root p = some b →
          ∃ N2 B2 root1 B1, root2.get p = some N2 ∧ root2.get b = some B2 ∧
            N2.props = (inheritLoop N B2.props).props ∧
            otui_resolve_inheritance n root b = some root1 ∧
            root1.get b = some B1 ∧ B1.props = B2.props) := by
  induction n with
  | zero =>
    intro root p h
    have hb : baseOf root p = none := by
      have := h.1
      simp only [chainEndsWithin] at this
      cases hb : baseOf root p with
      | none => rfl
      | some b => rw [hb] at this; cases this
    refine ⟨root, resolve_of_baseOf_none root p 0 hb, ⟨fun _ => rfl, fun _ => rfl⟩,
      fun _ _ => rfl, ?_⟩
    intro N b _ hb2
    rw [hb] at hb2
    cases hb2
  | succ n ih =>
    intro root p h
    have hn : chainEndsWithin root n p = false := h.2 n (Nat.lt_succ_self n)
    have h1 := h.1
    rw [chainEndsWithin] at h1
    cases hb : baseOf root p with
    | none =>
      exfalso
      have : chainEndsWithin root 0 p = true := by simp [chainEndsWithin, hb]
      have := chainEndsWithin_mono root p 0 n (Nat.zero_le n) this
      rw [hn] at this
      cases this
    | some b =>
      simp only [hb] at h1
      have hbrank : ExactRank root n b := by
        refine ⟨h1, ?_⟩
        intro m hm
        cases hcm : chainEndsWithin root m b with
        | false => rfl
        | true =>
          exfalso
          have hp : chainEndsWithin root (m + 1) p = true := by
            rw [chainEndsWithin]
            simp only [hb]
            exact hcm
          have := chainEndsWithin_mono root p (m + 1) n hm hp
          rw [hn] at this
          cases this
      obtain ⟨root1, hr1, hskel1, hframe1, -⟩ := ih root b hbrank
      obtain ⟨N, bs, hN, hbs, hfind⟩ := baseOf_some root p b hb
      obtain ⟨B, hB, -⟩ := find_node_get bs b root hfind
      have hB1 : ∃ B1, root1.get b = some B1 := by
        have := hskel1.1 b
        rw [hB] at this
        cases hg : root1.get b with
        | none => rw [hg] at this; cases this
        | some B1 => exact ⟨B1, rfl⟩
      obtain ⟨B1, hB1⟩ := hB1
      have hNp : (root1.get p).map OTUINode.props = some N.props := by
        rw [hframe1 p hn, hN]; rfl
      have hN1 : ∃ N1, root1.get p = some N1 ∧ N1.props = N.props := by
        cases hg : root1.get p with
        | none => rw [hg] at hNp; cases hNp
        | some N1 =>
          rw [hg] at hNp
          simp only [Option.map_some', Option.some.injEq] at hNp
          exact ⟨N1, rfl, hNp⟩
      obtain ⟨N1, hN1, hN1p⟩ := hN1
      have hpo := inheritLoop_propOnly B1.props
      have hbp : b ≠ p := by
        intro hbp
        rw [hbp] at h1
        rw [hn] at h1
        cases h1
      refine ⟨OTUINode.modify (fun nd => inheritLoop nd B1.props) root1 p, ?_, ?_, ?_, ?_⟩
      · rw [otui_resolve_inheritance]
        simp only [hN, hbs, hfind, hr1, hB1]
      · constructor
        · intro q
          rw [(baseStyle_modify _ hpo p root1 q).1]
          exact hskel1.1 q
        · intro nm
          rw [find_node_modify _ hpo nm p root1]
          exact hskel1.2 nm
      · intro q hq
        have hq1 : chainEndsWithin root n q = false := by
          cases hc : chainEndsWithin root n q with
          | false => rfl
          | true =>
            rw [chainEndsWithin_succ root n q hc] at hq
            cases hq
        have hqp : q ≠ p := by
          intro hqp
          rw [hqp, h.1] at hq
          cases hq
        rw [(baseStyle_modify _ hpo p root1 q).2.2 hqp]
        exact hframe1 q hq1
      · intro N0 b0 hN0 hb0
        rw [hN] at hN0
        cases hN0
        cases hb0
        have hprops := (baseStyle_modify _ hpo p root1 b).2.2 hbp
        rw [hB1] at hprops
        cases hg : (OTUINode.modify (fun nd => inheritLoop nd B1.props) root1 p).get b with
        | none => rw [hg] at hprops; cases hprops
        | some B2 =>
          rw [hg] at hprops
          simp only [Option.map_some', Option.some.injEq] at hprops
          refine ⟨inheritLoop N1 B1.props, B2, root1, B1, get_modify_same _ p root1 N1 hN1,
            rfl, ?_, hr1, hB1, hprops.symm⟩
          rw [hprops]
          exact inheritLoop_props_congr B1.props N1 N hN1p

theorem exactRank_exists (root : OTUINode) (p : NodePath) (n : Nat) :
    chainEndsWithin root n p = true → ∃ m, m ≤ n ∧ ExactRank root m p := by
  induction n with
  | zero =>
    intro h
    exact ⟨0, le_refl 0, h, fun m hm => absurd hm (Nat.not_lt_zero m)⟩
  | succ n ih =>
    intro h
    cases hc : chainEndsWithin root n p with
    | true =>
      obtain ⟨m, hm, hr⟩ := ih hc
      exact ⟨m, Nat.le_succ_of_le hm, hr⟩
    | false =>
      refine ⟨n + 1, le_refl _, h, ?_⟩
      intro m hm
      cases hcm : chainEndsWithin root m p with
      | false => rfl
      | true =>
        have := chainEndsWithin_mono root p m n (Nat.lt_succ_iff.mp hm) hcm
        rw [hc] at this
        cases this

/-- C2: explicit inheritance is "derived wins". For a node `N` (at `p`) whose
base-style chain ends (is acyclic) and whose base `B` (at `b`) is found by
`otui_find_node`, `otui_resolve_inheritance` returns with every fuel above the
chain length; afterwards `otui_prop_get N k` is the original value of `N` when
`N` defined `k` and the value of `k` in the resolved base otherwise; the
original properties of `N` are an unchanged prefix and the inherited ones are
appended in the order of the base, without comment. The base is resolved first,
by the recursive call. -/
theorem resolve_inheritance_derived_wins (root : OTUINode) (p b : NodePath) (N : OTUINode)
    (bs : Str) (n : Nat)
    (hN : root.get p = some N) (hbs : N.base_style = some bs)
    (hb : otui_find_node root bs = some b)
    (hacyc : chainEndsWithin root n p = true) :
    ∃ (root2 N2 B2 : OTUINode) (added : List OTUIProp),
      (∀ fuel, n < fuel → otui_resolve_inheritance fuel root p = some root2) ∧
      root2.get p = some N2 ∧ root2.get b = some B2 ∧
      (∀ k, otui_prop_get N2 k =
        (match otui_prop_get N k with
          | some v => some v
          | none => otui_prop_get B2 k)) ∧
      N2.props = N.props ++ added ∧
      List.Sublist (added.map fun a => (a.key, a.value))
        (B2.props.map fun a => (a.key, a.value)) ∧
      (∀ a ∈ added, otui_prop_get N a.key = none ∧ a.comment = none) ∧
      (∃ root1 B1, (∀ fuel, n ≤ fuel → otui_resolve_inheritance fuel root b = some root1) ∧
        root1.get b = some B1 ∧ B1.props = B2.props) := by
  obtain ⟨m, hmn, hrank⟩ := exactRank_exists root p n hacyc
  obtain ⟨root2, hres, -, -, hspec⟩ := resolve_exact m root p hrank
  have hbase : baseOf root p = some b := by
    unfold baseOf
    simp only [hN, hbs, hb]
  obtain ⟨N2, B2, root1, B1, hN2, hB2, hprops, hres1, hB1, hB1p⟩ := hspec N b hN hbase
  obtain ⟨added, ha1, ha2, ha3, ha4⟩ := inheritLoop_props B2.props N
  refine ⟨root2, N2, B2, added, ?_, hN2, hB2, ?_, ?_, ha3, ha4, root1, B1, ?_, hB1, hB1p⟩
  · intro fuel hf
    exact resolve_fuel_mono (m + 1) fuel (by omega) root p root2 hres
  · intro k
    have := ha2 k
    unfold otui_prop_get at this ⊢
    rw [hprops]
    exact this
  · rw [hprops]
    exact ha1
  · intro fuel hf
    exact resolve_fuel_mono m fuel (by omega) root b root1 hres1

theorem resolve_inheritance_derived_wins_witness :
    (∃ (root2 N2 B2 : OTUINode) (added : List OTUIProp),
      (∀ fuel, 1 < fuel →
        otui_resolve_inheritance fuel (parsedTree "A\n  color: red\nB < A\n  size: 1 2\n") [1] =
          some root2) ∧
      root2.get [1] = some N2 ∧ root2.get [0] = some B2 ∧
      (∀ k, otui_prop_get N2 k =
        (match otui_prop_get
            (.mk "B".toList (some "A".toList) 0 none none
              [{ key := "size".toList, value := "1 2".toList }] [] [] []) k with
          | some v => some v
          | none => otui_prop_get B2 k)) ∧
      N2.props = [{ key := "size".toList, value := "1 2".toList }] ++ added) ∧
    resolvedProp 2 (parsedTree "A\n  color: red\nB < A\n") [1] "color" = some "red".toList ∧
    resolvedProp 2 (parsedTree "A\n  color: red\nB < A\n  color: blue\n") [1] "color" =
      some "blue".toList := by
  refine ⟨?_, by decide, by decide⟩
  obtain ⟨root2, N2, B2, added, h1, h2, h3, h4, h5, -⟩ :=
    resolve_inheritance_derived_wins (parsedTree "A\n  color: red\nB < A\n  size: 1 2\n")
      [1] [0]
      (.mk "B".toList (some "A".toList) 0 none none
        [{ key := "size".toList, value := "1 2".toList }] [] [] [])
      "A".toList 1 (by rfl) (by rfl) (by rfl) (by rfl)
  exact ⟨root2, N2, B2, added, h1, h2, h3, h4, h5⟩

theorem resolve_cycle_none :
    ∀ fuel,
      otui_resolve_inheritance fuel (parsedTree "A < B\nB < A\n") [0] = none ∧
      otui_resolve_inheritance fuel (parsedTree "A < B\nB < A\n") [1] = none := by
  intro fuel
  induction fuel with
  | zero => exact ⟨rfl, rfl⟩
  | succ f ih =>
    constructor
    · rw [otui_resolve_inheritance]
      have h1 : (parsedTree "A < B\nB < A\n").get [0] =
          some (.mk "A".toList (some "B".toList) 0 none none [] [] [] []) := by rfl
      have h2 : otui_find_node (parsedTree "A < B\nB < A\n") "B".toList = some [1] := by rfl
      simp only [h1, OTUINode.base_style, h2, ih.2]
    · rw [otui_resolve_inheritance]
      have h1 : (parsedTree "A < B\nB < A\n").get [1] =
          some (.mk "B".toList (some "A".toList) 0 none none [] [] [] []) := by rfl
      have h2 : otui_find_node (parsedTree "A < B\nB < A\n") "A".toList = some [0] := by rfl
      simp only [h1, OTUINode.base_style, h2, ih.1]

theorem resolve_self_none :
    ∀ fuel, otui_resolve_inheritance fuel (parsedTree "A < A\n") [0] = none := by
  intro fuel
  induction fuel with
  | zero => rfl
  | succ f ih =>
    rw [otui_resolve_inheritance]
    have h1 : (parsedTree "A < A\n").get [0] =
        some (.mk "A".toList (some "A".toList) 0 none none [] [] [] []) := by rfl
    have h2 : otui_find_node (parsedTree "A < A\n") "A".toList = some [0] := by rfl
    simp only [h1, OTUINode.base_style, h2, ih]

/-- C3: inheritance resolution is not cycle-safe. On the tree of `A < B`,
`B < A` and on the tree of `A < A`, `otui_resolve_all_inheritance` returns with
no amount of fuel: the recursion of `otui_resolve_inheritance` has no guard and
never ends. (With an acyclic chain, `A` and `B < A`, fuel 2 suffices.) -/
theorem resolve_all_inheritance_cycle_diverges :
    (∀ fuel, otui_resolve_all_inheritance fuel (parsedTree "A < B\nB < A\n") = none) ∧
    (∀ fuel, otui_resolve_all_inheritance fuel (parsedTree "A < A\n") = none) ∧
    (otui_resolve_all_inheritance 2 (parsedTree "A\nB < A\n")).isSome = true := by
  refine ⟨?_, ?_, by decide⟩
  · intro fuel
    cases fuel with
    | zero => rfl
    | succ f =>
      rw [otui_resolve_all_inheritance]
      have hl : (parsedTree "A < B\nB < A\n").children.length = 2 := by rfl
      have hc : (parsedTree "A < B\nB < A\n").children[0]? =
          some (.mk "A".toList (some "B".toList) 0 none none [] [] [] []) := by rfl
      rw [hl, resolveAllLoop]
      simp only [hc, OTUINode.base_style, Option.isSome_some, if_true,
        (resolve_cycle_none (f + 1)).1]
  · intro fuel
    cases fuel with
    | zero => rfl
    | succ f =>
      rw [otui_resolve_all_inheritance]
      have hl : (parsedTree "A < A\n").children.length = 1 := by rfl
      have hc : (parsedTree "A < A\n").children[0]? =
          some (.mk "A".toList (some "A".toList) 0 none none [] [] [] []) := by rfl
      rw [hl, resolveAllLoop]
      simp only [hc, OTUINode.base_style, Option.isSome_some, if_true,
        resolve_self_none (f + 1)]

/-! ## The line parser -/

theorem setLastComment_append (xs : List OTUIProp) (a : OTUIProp) (c : Str) :
    setLastComment (xs ++ [a]) c = xs ++ [{ a with comment := some c }] := by
  induction xs with
  | nil => rfl
  | cons x xs ih =>
    cases xs with
    | nil => rfl
    | cons y ys =>
      show x :: setLastComment ((y :: ys) ++ [a]) c = _
      rw [ih]
      rfl

theorem handleProperty_node (st : ParseState) (cur : NodePath) (rest : List NodePath)
    (n : OTUINode) (keyPart valPart : Str) (comment_text : Option Str)
    (hstack : st.stack = cur :: rest) (hcur : cur ≠ [])
    (hstate : st.current_state = none) (hn : st.root.get cur = some n) :
    ∃ st2 n2, handleProperty st keyPart valPart comment_text = StepResult.next st2 ∧
      st2.root.get cur = some n2 ∧
      n2.props = n.props ++
        [{ key := trim keyPart, value := trim valPart, comment := comment_text }] ∧
      st2.stack = st.stack ∧ st2.current_state = none := by
  cases comment_text with
  | none =>
    refine ⟨{ st with
        root := OTUINode.modify (fun m => node_add_prop m (trim keyPart) (trim valPart))
          st.root cur
        line_ready := false }, _, ?_, get_modify_same _ cur st.root n hn, ?_, ?_, ?_⟩
    · simp only [handleProperty, hstack, hcur, hstate, if_false]
    · simp [node_add_prop]
    · rfl
    · exact hstate
  | some c =>
    refine ⟨{ st with
        root := OTUINode.modify (fun m => m.withProps
          (setLastComment (node_add_prop m (trim keyPart) (trim valPart)).props c))
          st.root cur
        line_ready := false }, _, ?_, get_modify_same _ cur st.root n hn, ?_, ?_, ?_⟩
    · simp only [handleProperty, hstack, hcur, hstate, if_false]
    · simp [node_add_prop, setLastComment_append]
    · rfl
    · exact hstate

/-- C5: property keys of a parsed node are not unique. For a node with the
lines `color: red` and `color: blue` the parser keeps two properties with the
key `color`, in line order, and `otui_prop_get` returns the first value, `red`.
In general the property branch appends the new property whatever the keys
already present are, and a lookup of a key already present still returns the
earlier value. -/
theorem parse_duplicate_key_keeps_both :
    (match otui_parse_file (some "MainWindow\n  color: red\n  color: blue\n".toList) with
      | some (Except.ok root) => (root.get [0]).map OTUINode.props
      | _ => none) =
      some [{ key := "color".toList, value := "red".toList },
            { key := "color".toList, value := "blue".toList }] ∧
    (match otui_parse_file (some "MainWindow\n  color: red\n  color: blue\n".toList) with
      | some (Except.ok root) => (root.get [0]).bind fun n => otui_prop_get n "color".toList
      | _ => none) = some "red".toList ∧
    (∀ (st : ParseState) (cur : NodePath) (rest : List NodePath) (n : OTUINode)
        (k v1 v2 : Str) (c : Option Str),
      st.stack = cur :: rest → cur ≠ [] → st.current_state = none →
      st.root.get cur = some n → otui_prop_get n (trim k) = some v1 →
      ∃ st2 n2, handleProperty st k v2 c = StepResult.next st2 ∧
        st2.root.get cur = some n2 ∧
        n2.props = n.props ++ [{ key := trim k, value := trim v2, comment := c }] ∧
        otui_prop_get n2 (trim k) = some v1) := by
  refine ⟨by decide, by decide, ?_⟩
  intro st cur rest n k v1 v2 c hstack hcur hstate hn hget
  obtain ⟨st2, n2, h1, h2, h3, -, -⟩ :=
    handleProperty_node st cur rest n k v2 c hstack hcur hstate hn
  refine ⟨st2, n2, h1, h2, h3, ?_⟩
  unfold otui_prop_get at hget ⊢
  rw [h3, propsGet_append_single, hget]

theorem isspace_cases (c : Char) (h : isspace c = true) :
    c = ' ' ∨ c = '\t' ∨ c = '\n' ∨ c = Char.ofNat 11 ∨ c = Char.ofNat 12 ∨ c = '\r' := by
  simpa [isspace, or_assoc] using h

theorem isHexDigit_not_space (c : Char) (h : isHexDigit c = true) : isspace c = false := by
  cases hs : isspace c with
  | false => rfl
  | true =>
    exfalso
    rcases isspace_cases c hs with rfl | rfl | rfl | rfl | rfl | rfl <;>
      exact absurd h (by decide)

theorem splitAtChar_append (ch : Char) (a r : Str) (h : ch ∉ a) :
    splitAtChar ch (a ++ ch :: r) = some (a, r) := by
  induction a with
  | nil => simp [splitAtChar]
  | cons x xs ih =>
    have hx : ¬ x = ch := fun e => h (by simp [e])
    have hxs : ch ∉ xs := fun e => h (by simp [e])
    simp [splitAtChar, hx, ih hxs]

theorem trimLeft_append_nonspace (a r : Str) (c : Char) (hc : isspace c = false) :
    trimLeft (a ++ c :: r) = trimLeft a ++ c :: r := by
  induction a with
  | nil => simp [trimLeft, hc]
  | cons x xs ih =>
    simp only [List.cons_append, trimLeft]
    split_ifs
    · exact ih
    · rfl

theorem trimLeft_idem (s : Str) : trimLeft (trimLeft s) = trimLeft s := by
  induction s with
  | nil => rfl
  | cons x xs ih =>
    simp only [trimLeft]
    by_cases h : isspace x = true
    · simp [h, ih]
    · simp [h, trimLeft]

theorem trimLeft_nonspace_head (c : Char) (r : Str) (hc : isspace c = false) :
    trimLeft (c :: r) = c :: r := by
  simp [trimLeft, hc]

theorem mem_trimLeft (s : Str) (c : Char) (h : c ∈ trimLeft s) : c ∈ s := by
  induction s with
  | nil => simp [trimLeft] at h
  | cons x xs ih =>
    simp only [trimLeft] at h
    split_ifs at h
    · exact List.mem_cons_of_mem _ (ih h)
    · exact h

/-- A text that ends with a `#` followed by hexadecimal digits has no trailing
white space. -/
theorem trimLeft_reverse_hex (a H : Str) (hH : ∀ c ∈ H, isHexDigit c = true) :
    trimLeft (a ++ '#' :: H).reverse = (a ++ '#' :: H).reverse := by
  rw [List.reverse_append, List.reverse_cons]
  cases hr : H.reverse with
  | nil =>
    have h0 : isspace '#' = false := by decide
    simp [trimLeft, h0]
  | cons c cs =>
    have hc : c ∈ H := by
      have : c ∈ H.reverse := by rw [hr]; simp
      simpa using this
    simp [trimLeft, isHexDigit_not_space c (hH c hc)]

theorem trim_key_hex (keyPart H : Str) (hH : ∀ c ∈ H, isHexDigit c = true) :
    trim (keyPart ++ ':' :: ' ' :: '#' :: H) = trimLeft keyPart ++ ':' :: ' ' :: '#' :: H := by
  unfold trim
  rw [trimLeft_append_nonspace keyPart _ ':' (by decide)]
  have : trimLeft keyPart ++ ':' :: ' ' :: '#' :: H =
      (trimLeft keyPart ++ [':', ' ']) ++ '#' :: H := by simp
  rw [this, trimLeft_reverse_hex _ H hH, List.reverse_reverse]

theorem trim_key_hex_space (keyPart H : Str) (hH : ∀ c ∈ H, isHexDigit c = true) :
    trim (keyPart ++ ':' :: ' ' :: '#' :: (H ++ [' '])) =
      trimLeft keyPart ++ ':' :: ' ' :: '#' :: H := by
  unfold trim
  rw [trimLeft_append_nonspace keyPart _ ':' (by decide)]
  have : trimLeft keyPart ++ ':' :: ' ' :: '#' :: (H ++ [' ']) =
      ((trimLeft keyPart ++ [':', ' ']) ++ '#' :: H) ++ [' '] := by simp
  rw [this, List.reverse_append]
  have h2 : trimLeft ([' '].reverse ++ ((trimLeft keyPart ++ [':', ' ']) ++ '#' :: H).reverse) =
      trimLeft ((trimLeft keyPart ++ [':', ' ']) ++ '#' :: H).reverse := by
    simp [trimLeft, isspace]
  rw [h2, trimLeft_reverse_hex _ H hH, List.reverse_reverse]
  simp

theorem trim_value_hex (H : Str) (hH : ∀ c ∈ H, isHexDigit c = true) :
    trim (' ' :: '#' :: H) = '#' :: H := by
  unfold trim
  have h1 : trimLeft (' ' :: '#' :: H) = '#' :: H := by
    simp [trimLeft, isspace]
  rw [h1]
  have := trimLeft_reverse_hex [] H hH
  simp only [List.nil_append] at this
  rw [this, List.reverse_reverse]

theorem trim_trimLeft (s : Str) : trim (trimLeft s) = trim s := by
  unfold trim
  rw [trimLeft_idem]

theorem skipHex_all (H r : Str) (hH : ∀ c ∈ H, isHexDigit c = true)
    (hr : ∀ c, r.head? = some c → isHexDigit c = false) : skipHex (H ++ r) = r := by
  induction H with
  | nil =>
    cases r with
    | nil => rfl
    | cons c cs => simp [skipHex, hr c rfl]
  | cons x xs ih =>
    have hx := hH x (by simp)
    simp only [List.cons_append, skipHex, hx, if_true]
    exact ih (fun c hc => hH c (by simp [hc]))

theorem searchStart_hex (keyPart H : Str) (hk : ':' ∉ keyPart)
    (hH : ∀ c ∈ H, isHexDigit c = true) :
    searchStart (keyPart ++ ':' :: ' ' :: '#' :: H) =
      (keyPart ++ ':' :: ' ' :: '#' :: H).length := by
  unfold searchStart
  rw [splitAtChar_append ':' keyPart _ hk]
  have h1 : skipBlanks (' ' :: '#' :: H) = '#' :: H := by
    simp [skipBlanks]
  simp only [h1]
  have h2 := skipHex_all H [] hH (by simp)
  rw [List.append_nil] at h2
  rw [h2]
  simp

theorem searchStart_hex_comment (keyPart H text : Str) (hk : ':' ∉ keyPart)
    (hH : ∀ c ∈ H, isHexDigit c = true) :
    searchStart (keyPart ++ ':' :: ' ' :: '#' :: (H ++ ' ' :: '#' :: text)) =
      keyPart.length + 3 + H.length := by
  unfold searchStart
  rw [splitAtChar_append ':' keyPart _ hk]
  have h1 : skipBlanks (' ' :: '#' :: (H ++ ' ' :: '#' :: text)) =
      '#' :: (H ++ ' ' :: '#' :: text) := by
    simp [skipBlanks]
  simp only [h1]
  rw [skipHex_all H (' ' :: '#' :: text) hH (by simp; decide)]
  simp
  omega

theorem findHash_at_start (buf : Str) (s : Nat) (i : Nat) (h : i ≤ s) :
    findHash buf s i = none := by
  cases i with
  | zero => rfl
  | succ i =>
    rw [findHash]
    have : ¬ (i + 1 > s) := by omega
    simp [this]

/-- The comment search returns the mark at `m` when no later position holds a
mark. -/
theorem findHash_found (buf : Str) (s m : Nat) (hs : s ≤ m)
    (hm : buf[m]? = some '#' ∧
      (m = 0 ∨ buf[m - 1]? = some ' ' ∨ buf[m - 1]? = some '\t'))
    (i : Nat) (hi : m < i)
    (hlater : ∀ j, m < j → j < i →
      ¬ (buf[j]? = some '#' ∧ (j = 0 ∨ buf[j - 1]? = some ' ' ∨ buf[j - 1]? = some '\t'))) :
    findHash buf s i = some m := by
  induction i with
  | zero => omega
  | succ i ih =>
    rw [findHash]
    have h1 : i + 1 > s := by omega
    simp only [h1, if_true]
    by_cases hmi : m = i
    · subst hmi
      rw [if_pos hm]
    · have hmi2 : m < i := by omega
      rw [if_neg (hlater i hmi2 (Nat.lt_succ_self i))]
      exact ih hmi2 (fun j h1 h2 => hlater j h1 (Nat.lt_succ_of_lt h2))

theorem getElem?_after (pre text : Str) (j : Nat) (hj : pre.length < j) :
    (pre ++ '#' :: text)[j]? = text[j - pre.length - 1]? := by
  rw [List.getElem?_append_right (by omega)]
  obtain ⟨k, hk⟩ : ∃ k, j - pre.length = k + 1 := ⟨j - pre.length - 1, by omega⟩
  rw [hk, List.getElem?_cons_succ]
  congr 1

theorem findHash_comment (pre0 text : Str) (s : Nat) (hs : s ≤ pre0.length + 1)
    (htext : ∀ i, text[i + 1]? = some '#' → text[i]? ≠ some ' ' ∧ text[i]? ≠ some '\t') :
    findHash ((pre0 ++ [' ']) ++ '#' :: text) s ((pre0 ++ [' ']) ++ '#' :: text).length =
      some (pre0.length + 1) := by
  have hlen : (pre0 ++ [' ']).length = pre0.length + 1 := by simp
  apply findHash_found _ s (pre0.length + 1) hs
  · constructor
    · rw [List.getElem?_append_right (by simp)]
      simp
    · right; left
      rw [List.getElem?_append_left (by simp)]
      simp
  · simp
  · intro j hj1 hj2 hmark
    have hj : (pre0 ++ [' ']).length < j := by rw [hlen]; exact hj1
    rw [getElem?_after _ _ j hj] at hmark
    rcases Nat.lt_or_ge ((pre0 ++ [' ']).length + 1) j with h | h
    · have hp : (pre0 ++ [' ']).length < j - 1 := by omega
      rw [getElem?_after _ _ (j - 1) hp] at hmark
      have e1 : j - (pre0 ++ [' ']).length - 1 = (j - 1 - (pre0 ++ [' ']).length - 1) + 1 := by
        omega
      rw [e1] at hmark
      have := htext _ hmark.1
      rcases hmark.2 with h0 | h0 | h0
      · omega
      · exact this.1 h0
      · exact this.2 h0
    · have e : j - 1 = (pre0 ++ [' ']).length := by omega
      rw [e] at hmark
      rw [List.getElem?_append_right (le_refl _)] at hmark
      simp at hmark
      omega

theorem extractComment_hex (keyPart H : Str) (hk : ':' ∉ keyPart)
    (hH : ∀ c ∈ H, isHexDigit c = true) :
    extractComment (keyPart ++ ':' :: ' ' :: '#' :: H) =
      (keyPart ++ ':' :: ' ' :: '#' :: H, none) := by
  unfold extractComment
  rw [searchStart_hex keyPart H hk hH, findHash_at_start _ _ _ (le_refl _)]

theorem drop_length_succ (pre text : Str) (c : Char) :
    List.drop (pre.length + 1) (pre ++ c :: text) = text := by
  induction pre with
  | nil => rfl
  | cons x xs ih => simp

theorem extractComment_of (pre0 text : Str)
    (hs : searchStart ((pre0 ++ [' ']) ++ '#' :: text) ≤ pre0.length + 1)
    (htext : ∀ i, text[i + 1]? = some '#' → text[i]? ≠ some ' ' ∧ text[i]? ≠ some '\t') :
    extractComment ((pre0 ++ [' ']) ++ '#' :: text) = (pre0 ++ [' '], some (trim text)) := by
  unfold extractComment
  rw [findHash_comment pre0 text _ hs htext]
  have hl : (pre0 ++ [' ']).length = pre0.length + 1 := by simp
  simp only
  rw [← hl, List.take_left, drop_length_succ]

theorem extractComment_hex_comment (keyPart H text : Str) (hk : ':' ∉ keyPart)
    (hH : ∀ c ∈ H, isHexDigit c = true)
    (htext : ∀ i, text[i + 1]? = some '#' → text[i]? ≠ some ' ' ∧ text[i]? ≠ some '\t') :
    extractComment (keyPart ++ ':' :: ' ' :: '#' :: (H ++ ' ' :: '#' :: text)) =
      (keyPart ++ ':' :: ' ' :: '#' :: (H ++ [' ']), some (trim text)) := by
  have e : keyPart ++ ':' :: ' ' :: '#' :: (H ++ ' ' :: '#' :: text) =
      ((keyPart ++ ':' :: ' ' :: '#' :: H) ++ [' ']) ++ '#' :: text := by simp
  have e2 : keyPart ++ ':' :: ' ' :: '#' :: (H ++ [' ']) =
      (keyPart ++ ':' :: ' ' :: '#' :: H) ++ [' '] := by simp
  have hss := searchStart_hex_comment keyPart H text hk hH
  rw [e] at hss
  rw [e, e2]
  apply extractComment_of _ text _ htext
  rw [hss]
  simp
  omega

theorem skipBlanks_nonblank (c : Char) (r : Str) (h1 : c ≠ ' ') (h2 : c ≠ '\t') :
    skipBlanks (c :: r) = c :: r := by
  simp [skipBlanks, h1, h2]

theorem processContent_property (st : ParseState) (c0 : Char) (kp r : Str) (indent : Nat)
    (comment_text : Option Str) (hk : ':' ∉ c0 :: kp)
    (h1 : c0 ≠ '@') (h2 : c0 ≠ '$') (h3 : c0 ≠ ' ') (h4 : c0 ≠ '\t') :
    processContent st (c0 :: kp ++ ':' :: r) indent comment_text =
      handleProperty st (c0 :: kp) r comment_text := by
  unfold processContent
  have hs : skipBlanks (c0 :: kp ++ ':' :: r) = c0 :: kp ++ ':' :: r := by
    rw [List.cons_append]
    exact skipBlanks_nonblank c0 _ h3 h4
  simp only [hs]
  rw [splitAtChar_append ':' (c0 :: kp) r hk]
  rw [List.cons_append]
  split
  · rename_i heq _
    simp only [List.cons.injEq] at heq
    exact absurd heq.1 h1
  · rename_i heq _
    simp only [List.cons.injEq] at heq
    exact absurd heq.1 h2
  · rename_i heq
    cases heq
  · rename_i heq _ _
    cases heq
    rfl

theorem processContent_property_colon (st : ParseState) (r : Str) (indent : Nat)
    (comment_text : Option Str) :
    processContent st (':' :: r) indent comment_text =
      handleProperty st [] r comment_text := by
  unfold processContent
  have hs : skipBlanks (':' :: r) = ':' :: r :=
    skipBlanks_nonblank ':' _ (by decide) (by decide)
  simp only [hs]
  have : splitAtChar ':' (':' :: r) = some ([], r) := by simp [splitAtChar]
  rw [this]
  rfl

theorem fgetsAux_line (l rest : Str) (hnl : '\n' ∉ l) :
    ∀ n, l.length < n → fgetsAux n (l ++ '\n' :: rest) = (l ++ ['\n'], rest) := by
  induction l with
  | nil =>
    intro n hn
    cases n with
    | zero => omega
    | succ n => simp [fgetsAux]
  | cons x xs ih =>
    intro n hn
    cases n with
    | zero => omega
    | succ n =>
      have hx : ¬ x = '\n' := fun e => hnl (by simp [e])
      have hxs : '\n' ∉ xs := fun e => hnl (by simp [e])
      have := ih hxs n (by simpa using hn)
      simp [fgetsAux, hx, this]

theorem stripNewlines_line (l : Str) (hnl : '\n' ∉ l) (hcr : '\r' ∉ l) :
    stripNewlines (l ++ ['\n']) = l := by
  unfold stripNewlines
  rw [List.reverse_append]
  simp only [List.reverse_cons, List.reverse_nil, List.nil_append, List.singleton_append]
  rw [List.dropWhile_cons_of_pos (by simp)]
  cases hr : l.reverse with
  | nil =>
    have : l = [] := by simpa using hr
    simp [this]
  | cons c cs =>
    have hc : c ∈ l := by
      have : c ∈ l.reverse := by rw [hr]; simp
      simpa using this
    have h1 : ¬ c = '\n' := fun e => hnl (e ▸ hc)
    have h2 : ¬ c = '\r' := fun e => hcr (e ▸ hc)
    rw [List.dropWhile_cons_of_neg (by simp [h1, h2]), ← hr, List.reverse_reverse]

theorem cString_of_not_mem (l : Str) (h : Char.ofNat 0 ∉ l) : cString l = l := by
  unfold cString
  induction l with
  | nil => rfl
  | cons x xs ih =>
    have hx : x ≠ Char.ofNat 0 := fun e => h (by simp [e])
    have hxs : Char.ofNat 0 ∉ xs := fun e => h (by simp [e])
    rw [List.takeWhile_cons_of_pos (by simpa using hx), ih hxs]

theorem cString_line (l : Str) (h : Char.ofNat 0 ∉ l) : cString (l ++ ['\n']) = l ++ ['\n'] := by
  apply cString_of_not_mem
  intro hm
  rcases List.mem_append.1 hm with h1 | h1
  · exact h h1
  · exact absurd h1 (by decide)

/-- One iteration of the main loop on a file whose next line is `l`. -/
theorem parseStep_line (st : ParseState) (l rest : Str) (hready : st.line_ready = false)
    (hinput : st.input = l ++ '\n' :: rest) (hnl : '\n' ∉ l) (hcr : '\r' ∉ l)
    (hnul : Char.ofNat 0 ∉ l) (hlen : l.length < 4095) :
    parseStep st = processRawLine { st with lineno := st.lineno + 1, input := rest } l := by
  unfold parseStep
  simp only [hready, Bool.false_eq_true, if_false]
  have hf : fgets (l ++ '\n' :: rest) = some (l ++ ['\n'], rest) := by
    unfold fgets
    cases l with
    | nil => simp [fgetsAux]
    | cons x xs =>
      simp only [List.cons_append]
      rw [← List.cons_append, fgetsAux_line (x :: xs) rest hnl 4095 hlen]
      rfl
  rw [hinput, hf]
  simp only [cString_line l hnul, stripNewlines_line l hnl hcr]

theorem trimLeft_head_nonspace (s : Str) (c : Char) (r : Str) (h : trimLeft s = c :: r) :
    isspace c = false := by
  induction s with
  | nil => simp [trimLeft] at h
  | cons x xs ih =>
    simp only [trimLeft] at h
    by_cases hx : isspace x = true
    · simp only [hx, if_true] at h
      exact ih h
    · rw [if_neg hx] at h
      simp only [List.cons.injEq] at h
      rw [← h.1]
      simpa using hx

theorem nonspace_nonblank (c : Char) (h : isspace c = false) : c ≠ ' ' ∧ c ≠ '\t' := by
  constructor <;> (rintro rfl; exact absurd h (by decide))

/-- The dispatch of a trimmed property line whose value is a hex colour. -/
theorem processContent_key_hex (st : ParseState) (keyPart r : Str) (indent : Nat)
    (comment_text : Option Str) (hk : ':' ∉ keyPart)
    (hfirst : ∀ c t, trimLeft keyPart = c :: t → c ≠ '@' ∧ c ≠ '$') :
    processContent st (trimLeft keyPart ++ ':' :: r) indent comment_text =
      handleProperty st (trimLeft keyPart) r comment_text := by
  cases ht : trimLeft keyPart with
  | nil => exact processContent_property_colon st r indent comment_text
  | cons c0 kp =>
    have hs := trimLeft_head_nonspace keyPart c0 kp ht
    have hb := nonspace_nonblank c0 hs
    have hf := hfirst c0 kp ht
    apply processContent_property st c0 kp r indent comment_text _ hf.1 hf.2 hb.1 hb.2
    intro hmem
    rw [← ht] at hmem
    exact hk (mem_trimLeft keyPart ':' hmem)

theorem processRawLine_hex (st : ParseState) (keyPart H : Str) (hk : ':' ∉ keyPart)
    (hH : ∀ c ∈ H, isHexDigit c = true)
    (hfirst : ∀ c t, trimLeft keyPart = c :: t → c ≠ '@' ∧ c ≠ '$') :
    processRawLine st (keyPart ++ ':' :: ' ' :: '#' :: H) =
      handleProperty st (trimLeft keyPart) (' ' :: '#' :: H) none := by
  unfold processRawLine
  simp only [extractComment_hex keyPart H hk hH, trim_key_hex keyPart H hH]
  rw [if_neg (by simp)]
  exact processContent_key_hex st keyPart _ _ none hk hfirst

theorem processRawLine_hex_comment (st : ParseState) (keyPart H text : Str)
    (hk : ':' ∉ keyPart) (hH : ∀ c ∈ H, isHexDigit c = true)
    (hfirst : ∀ c t, trimLeft keyPart = c :: t → c ≠ '@' ∧ c ≠ '$')
    (htext : ∀ i, text[i + 1]? = some '#' → text[i]? ≠ some ' ' ∧ text[i]? ≠ some '\t') :
    processRawLine st (keyPart ++ ':' :: ' ' :: '#' :: (H ++ ' ' :: '#' :: text)) =
      handleProperty st (trimLeft keyPart) (' ' :: '#' :: H) (some (trim text)) := by
  unfold processRawLine
  simp only [extractComment_hex_comment keyPart H text hk hH htext,
    trim_key_hex_space keyPart H hH]
  rw [if_neg (by simp)]
  exact processContent_key_hex st keyPart _ _ _ hk hfirst

@[simp] theorem withStates_states (n : OTUINode) (s : List OTUIState) :
    (n.withStates s).states = s := by cases n; rfl

theorem handleProperty_state (st : ParseState) (cur sn : NodePath) (si : Nat)
    (rest : List NodePath) (m : OTUINode) (s : OTUIState) (keyPart valPart : Str)
    (comment_text : Option Str)
    (hstack : st.stack = cur :: rest) (hcur : cur ≠ [])
    (hstate : st.current_state = some (sn, si)) (hm : st.root.get sn = some m)
    (hs : m.states[si]? = some s) :
    ∃ st2 m2 s2, handleProperty st keyPart valPart comment_text = StepResult.next st2 ∧
      st2.root.get sn = some m2 ∧ m2.states[si]? = some s2 ∧ m2.props = m.props ∧
      s2.props = s.props ++
        [{ key := trim keyPart, value := trim valPart, comment := comment_text }] := by
  cases comment_text with
  | none =>
    refine ⟨{ st with
        root := OTUINode.modify (fun n => n.withStates (n.states.modify
          (fun t => state_add_prop t (trim keyPart) (trim valPart)) si)) st.root sn
        line_ready := false }, _, state_add_prop s (trim keyPart) (trim valPart), ?_,
        get_modify_same _ sn st.root m hm, ?_, ?_, ?_⟩
    · simp only [handleProperty, hstack, hcur, hstate, if_false]
    · simp [hs]
    · cases m; rfl
    · rfl
  | some c =>
    refine ⟨{ st with
        root := OTUINode.modify (fun n => n.withStates (n.states.modify
          (fun t =>
            { t with
              props := setLastComment (state_add_prop t (trim keyPart) (trim valPart)).props c })
          si)) st.root sn
        line_ready := false }, _,
        { s with
          props := setLastComment (state_add_prop s (trim keyPart) (trim valPart)).props c },
        ?_,
        get_modify_same _ sn st.root m hm, ?_, ?_, ?_⟩
    · simp only [handleProperty, hstack, hcur, hstate, if_false]
    · simp [hs]
    · cases m; rfl
    · simp [state_add_prop, setLastComment_append]

/-- A hex colour on a line that the main loop reads from the file
(`line_ready` is false). In a state with an open node, when the next line of the
file is `key: #H` with `H` hexadecimal digits (the key without colon, not
starting with `@` or `$`), the iteration of the main loop appends to the open
node (or to the open state block) the property with the trimmed key, the value
`#H` in full and no comment; when the line is `key: #H #text`, where no `#` of
the text follows a space or a tab, the value is `#H` and the comment is the
trimmed text. -/
theorem hex_colour_ordinary_line (st : ParseState) (cur : NodePath) (stk : List NodePath)
    (keyPart H rest : Str)
    (hready : st.line_ready = false) (hstack : st.stack = cur :: stk) (hcur : cur ≠ [])
    (hk : ':' ∉ keyPart) (hknl : '\n' ∉ keyPart) (hkcr : '\r' ∉ keyPart)
    (hknul : Char.ofNat 0 ∉ keyPart)
    (hfirst : ∀ c t, trimLeft keyPart = c :: t → c ≠ '@' ∧ c ≠ '$')
    (hH : ∀ c ∈ H, isHexDigit c = true) :
    (st.input = (keyPart ++ ':' :: ' ' :: '#' :: H) ++ '\n' :: rest →
      (keyPart ++ ':' :: ' ' :: '#' :: H).length < 4095 →
      (∀ n, st.current_state = none → st.root.get cur = some n →
        ∃ st2 n2, parseStep st = StepResult.next st2 ∧ st2.root.get cur = some n2 ∧
          n2.props = n.props ++
            [{ key := trim keyPart, value := '#' :: H, comment := none }]) ∧
      (∀ sn si m s, st.current_state = some (sn, si) → st.root.get sn = some m →
        m.states[si]? = some s →
        ∃ st2 m2 s2, parseStep st = StepResult.next st2 ∧ st2.root.get sn = some m2 ∧
          m2.states[si]? = some s2 ∧
          s2.props = s.props ++
            [{ key := trim keyPart, value := '#' :: H, comment := none }])) ∧
    (∀ text : Str,
      (∀ i, text[i + 1]? = some '#' → text[i]? ≠ some ' ' ∧ text[i]? ≠ some '\t') →
      '\n' ∉ text → '\r' ∉ text → Char.ofNat 0 ∉ text →
      st.input = (keyPart ++ ':' :: ' ' :: '#' :: (H ++ ' ' :: '#' :: text)) ++ '\n' :: rest →
      (keyPart ++ ':' :: ' ' :: '#' :: (H ++ ' ' :: '#' :: text)).length < 4095 →
      (∀ n, st.current_state = none → st.root.get cur = some n →
        ∃ st2 n2, parseStep st = StepResult.next st2 ∧ st2.root.get cur = some n2 ∧
          n2.props = n.props ++
            [{ key := trim keyPart, value := '#' :: H, comment := some (trim text) }]) ∧
      (∀ sn si m s, st.current_state = some (sn, si) → st.root.get sn = some m →
        m.states[si]? = some s →
        ∃ st2 m2 s2, parseStep st = StepResult.next st2 ∧ st2.root.get sn = some m2 ∧
          m2.states[si]? = some s2 ∧
          s2.props = s.props ++
            [{ key := trim keyPart, value := '#' :: H, comment := some (trim text) }])) := by
  have hHnl : '\n' ∉ H := fun h => absurd (hH _ h) (by decide)
  have hHcr : '\r' ∉ H := fun h => absurd (hH _ h) (by decide)
  have hHnul : Char.ofNat 0 ∉ H := fun h => absurd (hH _ h) (by decide)
  have hc1 : ¬ Char.ofNat 0 = ':' := by decide
  have hc2 : ¬ Char.ofNat 0 = ' ' := by decide
  have hc3 : ¬ Char.ofNat 0 = '#' := by decide
  have hkey : trim (trimLeft keyPart) = trim keyPart := trim_trimLeft keyPart
  have hval : trim (' ' :: '#' :: H) = '#' :: H := trim_value_hex H hH
  constructor
  · intro hinput hlen
    have hstep := parseStep_line st _ rest hready hinput
      (by simp [hknl, hHnl]) (by simp [hkcr, hHcr])
      (by simp only [List.mem_append, List.mem_cons, not_or]
          exact ⟨hknul, hc1, hc2, hc3, hHnul⟩) hlen
    rw [processRawLine_hex _ keyPart H hk hH hfirst] at hstep
    constructor
    · intro n hstate hn
      obtain ⟨st2, n2, h1, h2, h3, -, -⟩ := handleProperty_node
        { st with lineno := st.lineno + 1, input := rest } cur stk n (trimLeft keyPart)
        (' ' :: '#' :: H) none hstack hcur hstate hn
      rw [hkey, hval] at h3
      exact ⟨st2, n2, hstep.trans h1, h2, h3⟩
    · intro sn si m s hstate hm hs
      obtain ⟨st2, m2, s2, h1, h2, h3, -, h4⟩ := handleProperty_state
        { st with lineno := st.lineno + 1, input := rest } cur sn si stk m s
        (trimLeft keyPart) (' ' :: '#' :: H) none hstack hcur hstate hm hs
      rw [hkey, hval] at h4
      exact ⟨st2, m2, s2, hstep.trans h1, h2, h3, h4⟩
  · intro text htext htnl htcr htnul hinput hlen
    have hstep := parseStep_line st _ rest hready hinput
      (by simp [hknl, hHnl, htnl]) (by simp [hkcr, hHcr, htcr])
      (by simp only [List.mem_append, List.mem_cons, not_or]
          exact ⟨hknul, hc1, hc2, hc3, hHnul, hc2, hc3, htnul⟩) hlen
    rw [processRawLine_hex_comment _ keyPart H text hk hH hfirst htext] at hstep
    constructor
    · intro n hstate hn
      obtain ⟨st2, n2, h1, h2, h3, -, -⟩ := handleProperty_node
        { st with lineno := st.lineno + 1, input := rest } cur stk n (trimLeft keyPart)
        (' ' :: '#' :: H) (some (trim text)) hstack hcur hstate hn
      rw [hkey, hval] at h3
      exact ⟨st2, n2, hstep.trans h1, h2, h3⟩
    · intro sn si m s hstate hm hs
      obtain ⟨st2, m2, s2, h1, h2, h3, -, h4⟩ := handleProperty_state
        { st with lineno := st.lineno + 1, input := rest } cur sn si stk m s
        (trimLeft keyPart) (' ' :: '#' :: H) (some (trim text)) hstack hcur hstate hm hs
      rw [hkey, hval] at h4
      exact ⟨st2, m2, s2, hstep.trans h1, h2, h3, h4⟩

theorem hex_colour_ordinary_line_example :
    (∃ st2 n2,
      parseStep (insideMainWindow "  color: #ffaa00 # comment\n") = StepResult.next st2 ∧
      st2.root.get [0] = some n2 ∧
      n2.props = [{ key := "color".toList, value := "#ffaa00".toList,
                    comment := some "comment".toList }]) ∧
    (∃ st2 n2,
      parseStep (insideMainWindow "  color: #ffaa00\n") = StepResult.next st2 ∧
      st2.root.get [0] = some n2 ∧
      n2.props = [{ key := "color".toList, value := "#ffaa00".toList, comment := none }]) ∧
    (match otui_parse_file
        (some "MainWindow\n  color: #ffaa00 # comment\n  background: #ff00aa88\n".toList) with
      | some (Except.ok root) => (root.get [0]).map OTUINode.props
      | _ => none) =
      some [{ key := "color".toList, value := "#ffaa00".toList,
              comment := some "comment".toList },
            { key := "background".toList, value := "#ff00aa88".toList, comment := none }] := by
  refine ⟨?_, ?_, by decide⟩
  · exact ((hex_colour_ordinary_line (insideMainWindow "  color: #ffaa00 # comment\n")
      [0] [[]] "  color".toList "ffaa00".toList [] rfl rfl (by decide) (by decide)
      (by decide) (by decide) (by decide)
      (fun c t h => by
        have e : trimLeft "  color".toList = "color".toList := by decide
        rw [e] at h
        cases h
        exact ⟨by decide, by decide⟩)
      (by decide)).2 " comment".toList
      (fun i h => by
        have hm : '#' ∈ " comment".toList := List.getElem?_mem h
        exact absurd hm (by decide))
      (by decide) (by decide) (by decide) rfl (by decide)).1
        (node_new "MainWindow".toList 0) rfl rfl
  · exact ((hex_colour_ordinary_line (insideMainWindow "  color: #ffaa00\n")
      [0] [[]] "  color".toList "ffaa00".toList [] rfl rfl (by decide) (by decide)
      (by decide) (by decide) (by decide)
      (fun c t h => by
        have e : trimLeft "  color".toList = "color".toList := by decide
        rw [e] at h
        cases h
        exact ⟨by decide, by decide⟩)
      (by decide)).1 rfl (by decide)).1
        (node_new "MainWindow".toList 0) rfl rfl

/-! ## The widget builder and the anchor pass -/

/-- C6: widget ids are not unique in a built list. For a `MainWindow` with two
`Button` children that carry no id, `Parser::loadFromFile` and
`Parser::instantiateStyle` both return the ids `MainWindow`, `Button`, `Button`:
the builder takes the id property or the node name as it is and appends no
suffix. -/
theorem loadFromFile_keeps_duplicate_ids :
    loadedIds (loadFromFile 3 emptyEnv (some "MainWindow\n  Button\n  Button\n".toList) []) =
      some ["MainWindow".toList, "Button".toList, "Button".toList] ∧
    loadedIds (instantiateStyle 3 emptyEnv (some "MainWindow\n  Button\n  Button\n".toList)
        "MainWindow".toList []) =
      some ["MainWindow".toList, "Button".toList, "Button".toList] ∧
    ¬ (["MainWindow".toList, "Button".toList, "Button".toList] : List Str).Nodup := by
  refine ⟨by decide!, by decide!, by decide⟩

theorem absolutePosition_parent_edge (heap : List Widget) (p : Nat) (pw : Widget) (P : QPoint)
    (hp : heap[p]? = some pw) (hP : absolutePosition heap (some p) = some P) :
    edgeCoordinate heap (some p) AnchorEdge.Right = some (P.x + pw.width) := by
  simp [edgeCoordinate, hp, hP]

theorem applyAnchors_right_to_parent (heap : List Widget) (i p : Nat) (w pw : Widget)
    (P : QPoint) (resolver : Option (Str → Option Nat))
    (hw : heap[i]? = some w) (hpar : w.m_parent = some p) (hp : heap[p]? = some pw)
    (hP : absolutePosition heap (some p) = some P)
    (hedge : w.m_anchorRight.edge = AnchorEdge.Right)
    (hid : compareCI w.m_anchorRight.targetId "parent".toList = true)
    (hl : w.m_anchorLeft.isValid = false) (ht : w.m_anchorTop.isValid = false)
    (hb : w.m_anchorBottom.isValid = false)
    (hh : w.m_anchorHorizontalCenter.isValid = false)
    (hv : w.m_anchorVerticalCenter.isValid = false) :
    applyAnchors heap i resolver = some (heap.set i
      { w with m_rect := w.m_rect.moveLeft (pw.width - w.m_margin.right - w.m_rect.w) }) := by
  have hrv : w.m_anchorRight.isValid = true := by simp [AnchorBinding.isValid, hedge]
  have hres : resolveTarget w resolver w.m_anchorRight = some p := by
    unfold resolveTarget
    simp only [hrv, Bool.not_true, Bool.false_eq_true, if_false, hid, if_true, hpar]
  have hec := absolutePosition_parent_edge heap p pw P hp hP
  rw [← hedge] at hec
  have hPar : absolutePosition heap w.m_parent = some P := by rw [hpar]; exact hP
  have hcancel : P.x + pw.width - P.x - w.m_margin.right - w.m_rect.w =
      pw.width - w.m_margin.right - w.m_rect.w := by ring
  apply applyAnchors_of_rect heap i w resolver _ hw
  rw [← hcancel]
  simp [applyAnchorsRect, hPar, applyHorizontal, applyVertical, applyCenter,
    resolveTarget_invalid w resolver _ hl, resolveTarget_invalid w resolver _ ht,
    resolveTarget_invalid w resolver _ hb, resolveTarget_invalid w resolver _ hh,
    resolveTarget_invalid w resolver _ hv, hres, hec, hrv, hl]

theorem set_same (heap : List Widget) :
    ∀ (i : Nat) (w : Widget), heap[i]? = some w → heap.set i w = heap := by
  induction heap with
  | nil => intro i w h; rfl
  | cons x xs ih =>
    intro i w h
    cases i with
    | zero =>
      simp at h
      simp [h]
    | succ i =>
      simp at h
      simp [ih i w h]

theorem applyAnchors_unbound (heap : List Widget) (i : Nat) (w : Widget)
    (resolver : Option (Str → Option Nat)) (P : QPoint)
    (hw : heap[i]? = some w) (hP : absolutePosition heap w.m_parent = some P)
    (hl : w.m_anchorLeft.isValid = false) (hr : w.m_anchorRight.isValid = false)
    (ht : w.m_anchorTop.isValid = false) (hb : w.m_anchorBottom.isValid = false)
    (hh : w.m_anchorHorizontalCenter.isValid = false)
    (hv : w.m_anchorVerticalCenter.isValid = false) :
    applyAnchors heap i resolver = some heap := by
  have h : applyAnchorsRect heap w resolver = some w.m_rect := by
    simp [applyAnchorsRect, hP, applyHorizontal, applyVertical, applyCenter,
      resolveTarget_invalid w resolver _ hl, resolveTarget_invalid w resolver _ hr,
      resolveTarget_invalid w resolver _ ht, resolveTarget_invalid w resolver _ hb,
      resolveTarget_invalid w resolver _ hh, resolveTarget_invalid w resolver _ hv]
  rw [applyAnchors_of_rect heap i w resolver _ hw h]
  have : ({ w with m_rect := w.m_rect } : Widget) = w := by cases w; rfl
  rw [this, set_same heap i w hw]

/-- The anchor pass on a window without bindings and one child bound by its
right edge to `parent.right`. -/
theorem resolveAnchors_window_child (pw w : Widget)
    (hroot : pw.m_parent = none)
    (pl : pw.m_anchorLeft.isValid = false) (pr : pw.m_anchorRight.isValid = false)
    (pt : pw.m_anchorTop.isValid = false) (pb : pw.m_anchorBottom.isValid = false)
    (ph : pw.m_anchorHorizontalCenter.isValid = false)
    (pv : pw.m_anchorVerticalCenter.isValid = false)
    (hpar : w.m_parent = some 0)
    (hedge : w.m_anchorRight.edge = AnchorEdge.Right)
    (hid : compareCI w.m_anchorRight.targetId "parent".toList = true)
    (hl : w.m_anchorLeft.isValid = false) (ht : w.m_anchorTop.isValid = false)
    (hb : w.m_anchorBottom.isValid = false)
    (hh : w.m_anchorHorizontalCenter.isValid = false)
    (hv : w.m_anchorVerticalCenter.isValid = false) :
    resolveAnchors [pw, w] = some [pw,
      { w with m_rect := w.m_rect.moveLeft (pw.width - w.m_margin.right - w.m_rect.w) }] := by
  have h0 : applyAnchors [pw, w] 0 (some (anchorResolver [pw, w] 0)) = some [pw, w] :=
    applyAnchors_unbound [pw, w] 0 pw _ ⟨0, 0⟩ rfl (by rw [hroot]; rfl) pl pr pt pb ph pv
  have hP : absolutePosition [pw, w] (some 0) = some pw.getPos := by
    simp [absolutePosition, absLoop, hroot]
  have h1 := applyAnchors_right_to_parent [pw, w] 1 0 w pw pw.getPos
    (some (anchorResolver [pw, w] 1)) rfl hpar rfl hP hedge hid hl ht hb hh hv
  simp only [resolveAnchors, List.length_cons, List.length_nil, resolveAnchorsLoop, h0, h1]
  rfl

/-- A child anchored by its right edge to the right edge of its parent, in any
widget list. For
a widget whose only valid binding is right to `parent.right`, `applyAnchors`
returns and the new rect has `x + width = W - marginRight`, where `W` is the
width of the parent, whatever the absolute position of the parent is; width, y
and height are unchanged. When the list is the parent, a window without parent
and bindings, followed by this child, the whole anchor pass `resolveAnchors`
returns the list with exactly this rect for the child. -/
theorem right_anchor_to_parent (heap : List Widget) (i p : Nat) (w pw : Widget) (P : QPoint)
    (resolver : Option (Str → Option Nat))
    (hw : heap[i]? = some w) (hpar : w.m_parent = some p) (hp : heap[p]? = some pw)
    (hP : absolutePosition heap (some p) = some P)
    (hedge : w.m_anchorRight.edge = AnchorEdge.Right)
    (hid : compareCI w.m_anchorRight.targetId "parent".toList = true)
    (hl : w.m_anchorLeft.isValid = false) (ht : w.m_anchorTop.isValid = false)
    (hb : w.m_anchorBottom.isValid = false)
    (hh : w.m_anchorHorizontalCenter.isValid = false)
    (hv : w.m_anchorVerticalCenter.isValid = false) :
    ∃ r, applyAnchors heap i resolver = some (heap.set i { w with m_rect := r }) ∧
      r.x + r.w = pw.width - w.m_margin.right ∧
      r.w = w.m_rect.w ∧ r.y = w.m_rect.y ∧ r.h = w.m_rect.h ∧
      (heap = [pw, w] → p = 0 → pw.m_parent = none →
        pw.m_anchorLeft.isValid = false → pw.m_anchorRight.isValid = false →
        pw.m_anchorTop.isValid = false → pw.m_anchorBottom.isValid = false →
        pw.m_anchorHorizontalCenter.isValid = false →
        pw.m_anchorVerticalCenter.isValid = false →
        resolveAnchors heap = some [pw, { w with m_rect := r }]) := by
  refine ⟨w.m_rect.moveLeft (pw.width - w.m_margin.right - w.m_rect.w),
    applyAnchors_right_to_parent heap i p w pw P resolver hw hpar hp hP hedge hid hl ht hb hh hv,
    ?_, rfl, rfl, rfl, ?_⟩
  · simp [QRect.moveLeft]
  · intro hheap hp0 hroot pl pr pt pb ph pv
    rw [hheap]
    rw [hp0] at hpar
    exact resolveAnchors_window_child pw w hroot pl pr pt pb ph pv hpar hedge hid hl ht hb hh hv

theorem right_anchor_to_parent_example :
    (∃ r, applyAnchors exampleRightHeap 1 (some (anchorResolver exampleRightHeap 1)) =
        some (exampleRightHeap.set 1
          { (exampleRightHeap.get ⟨1, by decide⟩) with m_rect := r }) ∧
      r.x + r.w = 100 - 5 ∧ r.w = 0 ∧ r.y = 0 ∧ r.h = 0 ∧
      resolveAnchors exampleRightHeap = some [exampleRightHeap.get ⟨0, by decide⟩,
        { (exampleRightHeap.get ⟨1, by decide⟩) with m_rect := r }]) ∧
    loadedIds (loadFromFile 3 emptyEnv (some
      "MainWindow\n  size: 100 50\n  Button\n    anchors.right: parent.right\n    margin-right: 5\n".toList)
      []) = some ["MainWindow".toList, "Button".toList] ∧
    loadedRects (loadFromFile 3 emptyEnv (some
      "MainWindow\n  size: 100 50\n  Button\n    anchors.right: parent.right\n    margin-right: 5\n".toList)
      []) = some [⟨0, 0, 100, 50⟩, ⟨95, 0, 0, 0⟩] ∧
    loadedRects (loadFromFile 3 emptyEnv (some
      "MainWindow\n  position: 7 9\n  size: 100 50\n  Button\n    size: 20 10\n    anchors.right: parent.right\n    margin-right: 5\n".toList)
      []) = some [⟨7, 9, 100, 50⟩, ⟨75, 0, 20, 10⟩] := by
  refine ⟨?_, by decide!, by decide!, by decide!⟩
  obtain ⟨r, h1, h2, h3, h4, h5, h6⟩ :=
    right_anchor_to_parent exampleRightHeap 1 0 (exampleRightHeap.get ⟨1, by decide⟩)
      (exampleRightHeap.get ⟨0, by decide⟩) ⟨7, 9⟩ (some (anchorResolver exampleRightHeap 1))
      (by decide) (by decide) (by decide) (by decide) (by decide) (by decide) (by decide)
      (by decide) (by decide) (by decide) (by decide)
  exact ⟨r, h1, h2, h3, h4, h5,
    h6 rfl rfl (by decide) (by decide) (by decide) (by decide) (by decide) (by decide)
      (by decide)⟩

/-! ## Detaching and re-inserting children -/

theorem detachScan_absent (c : NodePtr) :
    ∀ (cs : List NodePtr) (i : Nat), c ∉ cs → detachScan c cs i = none := by
  intro cs
  induction cs with
  | nil => intro i _; rfl
  | cons x xs ih =>
    intro i h
    have hx : x ≠ c := fun e => h (by simp [e])
    have hxs : c ∉ xs := fun e => h (by simp [e])
    simp [detachScan, hx, ih (i + 1) hxs]

theorem detachScan_found (c : NodePtr) :
    ∀ (cs : List NodePtr) (i k : Nat), cs[i]? = some c →
      (∀ j, cs[j]? = some c → j = i) →
      detachScan c cs k = some (k + i, cs.eraseIdx i) := by
  intro cs
  induction cs with
  | nil => intro i k h; simp at h
  | cons x xs ih =>
    intro i k h hu
    cases i with
    | zero =>
      simp at h
      simp [detachScan, h]
    | succ n =>
      have hx : x ≠ c := by
        intro e
        have := hu 0 (by simp [e])
        omega
      have h2 : xs[n]? = some c := by simpa using h
      have hu2 : ∀ j, xs[j]? = some c → j = n := by
        intro j hj
        have := hu (j + 1) (by simpa using hj)
        omega
      simp [detachScan, hx, ih n (k + 1) h2 hu2]
      omega

theorem insertShift_eraseIdx (c : NodePtr) :
    ∀ (cs : List NodePtr) (i : Nat), cs[i]? = some c →
      insertShift c i (cs.eraseIdx i) = cs := by
  intro cs
  induction cs with
  | nil => intro i h; simp at h
  | cons x xs ih =>
    intro i h
    cases i with
    | zero =>
      simp at h
      simp [insertShift, h]
    | succ n =>
      have h2 : xs[n]? = some c := by simpa using h
      simp only [List.eraseIdx_cons_succ]
      simp [insertShift, ih n h2]

theorem insertShift_beyond (c : NodePtr) :
    ∀ (cs : List NodePtr) (k : Nat), cs.length ≤ k → insertShift c k cs = cs ++ [c] := by
  intro cs
  induction cs with
  | nil => intro k _; cases k <;> rfl
  | cons x xs ih =>
    intro k h
    cases k with
    | zero => simp at h
    | succ n =>
      simp only [List.length_cons, Nat.add_le_add_iff_right] at h
      simp [insertShift, ih n h]

/-- C20: when `c` is held once, at index `i`, in the children array of `p`, then
`otui_node_detach_child(p, c, &idx)` returns 1, stores `i` in `idx` and leaves
the array with slot `i` erased (the other children in their order), and a
following `otui_node_insert_child(p, c, i)` returns 1 and gives the original
array back; detaching a pointer that is not a child returns 0 and changes
nothing, and inserting at an index beyond the child count appends. -/
theorem detach_insert_inverse (children : List NodePtr) (c : NodePtr) (i : Nat)
    (idx : Nat) (h : children[i]? = some c)
    (hu : ∀ j, children[j]? = some c → j = i) :
    otui_node_detach_child (some children) (some c) (some idx)
        = (1, some (children.eraseIdx i), some i)
      ∧ otui_node_insert_child (some (children.eraseIdx i)) (some c) i
        = (1, some children)
      ∧ (∀ d out, d ∉ children →
          otui_node_detach_child (some children) (some d) out = (0, some children, out))
      ∧ (∀ d k, children.length ≤ k →
          otui_node_insert_child (some children) (some d) k = (1, some (children ++ [d]))) := by
  refine ⟨?_, ?_, ?_, ?_⟩
  · simp [otui_node_detach_child, detachScan_found c children i 0 h hu]
  · simp [otui_node_insert_child, insertShift_eraseIdx c children i h]
  · intro d out hd
    simp [otui_node_detach_child, detachScan_absent d children 0 hd]
  · intro d k hk
    simp [otui_node_insert_child, insertShift_beyond d children k hk]

theorem detach_insert_inverse_witness :
    ([10, 20, 30] : List NodePtr)[1]? = some 20
      ∧ otui_node_detach_child (some [10, 20, 30]) (some 20) (some 7)
        = (1, some [10, 30], some 1)
      ∧ otui_node_insert_child (some [10, 30]) (some 20) 1 = (1, some [10, 20, 30]) := by
  have hw := detach_insert_inverse [10, 20, 30] 20 1 7 (by decide)
    (by
      intro j hj
      match j, hj with
      | 0, hj => simp at hj
      | 1, _ => rfl
      | 2, hj => simp at hj
      | n + 3, hj => simp at hj)
  exact ⟨by decide, hw.1, hw.2.1⟩

/-! ## Bindings that resolve to no widget -/

theorem resolveTarget_parent_congr (w v : Widget) (resolver : Option (Str → Option Nat))
    (b : AnchorBinding) (h : v.m_parent = w.m_parent) :
    resolveTarget v resolver b = resolveTarget w resolver b := by
  simp [resolveTarget, h]

theorem resolveTarget_default (w : Widget) (resolver : Option (Str → Option Nat)) :
    resolveTarget w resolver {} = none := by
  simp [resolveTarget, AnchorBinding.isValid]

/-- Clearing the binding of an edge that resolves to no widget does not change
the rect that `applyAnchors` computes, provided that for the left (top) edge the
right (bottom) binding resolves to no widget either. -/
theorem applyAnchorsRect_clear_unresolved (heap : List Widget) (w : Widget)
    (resolver : Option (Str → Option Nat)) (e : AnchorEdge)
    (he : resolveTarget w resolver (w.anchorBinding e) = none)
    (hl : e = AnchorEdge.Left → resolveTarget w resolver w.m_anchorRight = none)
    (ht : e = AnchorEdge.Top → resolveTarget w resolver w.m_anchorBottom = none) :
    applyAnchorsRect heap (w.clearAnchorBinding e) resolver
      = applyAnchorsRect heap w resolver := by
  cases e
  · rfl
  · have hr := hl rfl
    simp only [Widget.anchorBinding] at he
    simp [applyAnchorsRect, applyHorizontal, applyVertical, applyCenter,
      Widget.clearAnchorBinding, Widget.setAnchorBinding,
      resolveTarget_parent_congr w
        { w with m_anchorLeft := { edge := AnchorEdge.None, targetId := [] } } resolver _ rfl,
      he, hr, resolveTarget_default]
  · simp only [Widget.anchorBinding] at he
    simp [applyAnchorsRect, applyHorizontal, applyVertical, applyCenter,
      Widget.clearAnchorBinding, Widget.setAnchorBinding,
      resolveTarget_parent_congr w
        { w with m_anchorRight := { edge := AnchorEdge.None, targetId := [] } } resolver _ rfl,
      he, resolveTarget_default]
  · have hb := ht rfl
    simp only [Widget.anchorBinding] at he
    simp [applyAnchorsRect, applyHorizontal, applyVertical, applyCenter,
      Widget.clearAnchorBinding, Widget.setAnchorBinding,
      resolveTarget_parent_congr w
        { w with m_anchorTop := { edge := AnchorEdge.None, targetId := [] } } resolver _ rfl,
      he, hb, resolveTarget_default]
  · simp only [Widget.anchorBinding] at he
    simp [applyAnchorsRect, applyHorizontal, applyVertical, applyCenter,
      Widget.clearAnchorBinding, Widget.setAnchorBinding,
      resolveTarget_parent_congr w
        { w with m_anchorBottom := { edge := AnchorEdge.None, targetId := [] } } resolver _ rfl,
      he, resolveTarget_default]
  · simp only [Widget.anchorBinding] at he
    simp [applyAnchorsRect, applyHorizontal, applyVertical, applyCenter,
      Widget.clearAnchorBinding, Widget.setAnchorBinding,
      resolveTarget_parent_congr w
        { w with m_anchorHorizontalCenter := { edge := AnchorEdge.None, targetId := [] } }
        resolver _ rfl,
      he, resolveTarget_default]
  · simp only [Widget.anchorBinding] at he
    simp [applyAnchorsRect, applyHorizontal, applyVertical, applyCenter,
      Widget.clearAnchorBinding, Widget.setAnchorBinding,
      resolveTarget_parent_congr w
        { w with m_anchorVerticalCenter := { edge := AnchorEdge.None, targetId := [] } }
        resolver _ rfl,
      he, resolveTarget_default]

/-- A widget none of whose six bindings resolves keeps its rect. -/
theorem applyAnchorsRect_all_unresolved (heap : List Widget) (w : Widget)
    (resolver : Option (Str → Option Nat)) (P : QPoint)
    (hP : absolutePosition heap w.m_parent = some P)
    (hall : ∀ e, resolveTarget w resolver (w.anchorBinding e) = none) :
    applyAnchorsRect heap w resolver = some w.m_rect := by
  have h1 := hall AnchorEdge.Left
  have h2 := hall AnchorEdge.Right
  have h3 := hall AnchorEdge.Top
  have h4 := hall AnchorEdge.Bottom
  have h5 := hall AnchorEdge.HorizontalCenter
  have h6 := hall AnchorEdge.VerticalCenter
  simp only [Widget.anchorBinding] at h1 h2 h3 h4 h5 h6
  simp [applyAnchorsRect, hP, applyHorizontal, applyVertical, applyCenter,
    h1, h2, h3, h4, h5, h6]

/-- C11 (counterexample): in `exampleUnknownLeftHeap` the left binding of the
child names an id that no widget carries, so it resolves to no widget, and the
right edge is bound to `parent.right`. `applyAnchors` keeps the left edge at 10
and makes the width 90, whereas with the left binding cleared it keeps the width
30 and moves the rect to x = 70. -/
theorem unresolvable_left_changes_right_step :
    exampleUnknownLeftHeap[1]? = some exampleUnknownLeftChild
      ∧ resolveTarget exampleUnknownLeftChild (some (anchorResolver exampleUnknownLeftHeap 1))
          (exampleUnknownLeftChild.anchorBinding AnchorEdge.Left) = none
      ∧ applyAnchorsRect exampleUnknownLeftHeap exampleUnknownLeftChild
          (some (anchorResolver exampleUnknownLeftHeap 1)) = some ⟨10, 0, 90, 10⟩
      ∧ applyAnchorsRect exampleUnknownLeftHeap
          (exampleUnknownLeftChild.clearAnchorBinding AnchorEdge.Left)
          (some (anchorResolver exampleUnknownLeftHeap 1)) = some ⟨70, 0, 30, 10⟩ := by
  decide!

/-- C11 (amended): a binding that resolves to no widget is a no-op for its edge.
For every widget, resolver and edge `e` whose binding resolves to no widget,
`applyAnchors` computes the same rect as with the binding of `e` cleared when
`e` is the right, bottom, horizontal-centre or vertical-centre edge, and also
when `e` is the left (top) edge and the right (bottom) binding resolves to no
widget either; and a widget none of whose bindings resolves keeps its rect. -/
theorem unresolvable_binding_noop (heap : List Widget) (w : Widget)
    (resolver : Option (Str → Option Nat)) (e : AnchorEdge)
    (he : resolveTarget w resolver (w.anchorBinding e) = none)
    (hl : e = AnchorEdge.Left → resolveTarget w resolver w.m_anchorRight = none)
    (ht : e = AnchorEdge.Top → resolveTarget w resolver w.m_anchorBottom = none) :
    applyAnchorsRect heap (w.clearAnchorBinding e) resolver
        = applyAnchorsRect heap w resolver
      ∧ ((∀ d, resolveTarget w resolver (w.anchorBinding d) = none) →
          ∀ P, absolutePosition heap w.m_parent = some P →
            applyAnchorsRect heap w resolver = some w.m_rect) :=
  ⟨applyAnchorsRect_clear_unresolved heap w resolver e he hl ht,
    fun hall P hP => applyAnchorsRect_all_unresolved heap w resolver P hP hall⟩

theorem unresolvable_binding_noop_witness :
    resolveTarget exampleUnknownLeftChild (some (anchorResolver exampleUnknownLeftHeap 1))
        ((exampleUnknownLeftChild.clearAnchorBinding AnchorEdge.Right).anchorBinding
          AnchorEdge.Left) = none
      ∧ applyAnchorsRect exampleUnknownLeftHeap
          ((exampleUnknownLeftChild.clearAnchorBinding AnchorEdge.Right).clearAnchorBinding
            AnchorEdge.Left)
          (some (anchorResolver exampleUnknownLeftHeap 1))
        = applyAnchorsRect exampleUnknownLeftHeap
          (exampleUnknownLeftChild.clearAnchorBinding AnchorEdge.Right)
          (some (anchorResolver exampleUnknownLeftHeap 1)) :=
  ⟨by decide!,
    (unresolvable_binding_noop exampleUnknownLeftHeap
      (exampleUnknownLeftChild.clearAnchorBinding AnchorEdge.Right)
      (some (anchorResolver exampleUnknownLeftHeap 1)) AnchorEdge.Left
      (by decide!) (fun _ => by decide!) (fun h => by cases h)).1⟩

/-! ## The resolver of the anchor pass -/

theorem previousSiblingScan_spec (parent : Option Nat) (target : Nat) :
    ∀ (ws : List Widget) (j : Nat) (previous : Option Nat),
      j ≤ target → target - j < ws.length →
      (∃ p, previousSiblingScan parent target ws j previous = some (j + p) ∧ j + p < target ∧
          ws[p]?.map Widget.m_parent = some parent ∧
          ∀ q, p < q → j + q < target → ws[q]?.map Widget.m_parent ≠ some parent)
      ∨ (previousSiblingScan parent target ws j previous = previous ∧
          ∀ q, j + q < target → ws[q]?.map Widget.m_parent ≠ some parent) := by
  intro ws
  induction ws with
  | nil => intro j previous _ h; simp at h
  | cons c cs ih =>
    intro j previous hj hlen
    unfold previousSiblingScan
    by_cases hjt : j = target
    · subst hjt
      right
      simp
    · rw [if_neg hjt]
      have hlen2 : target - (j + 1) < cs.length := by
        simp only [List.length_cons] at hlen
        omega
      rcases ih (j + 1) (if c.m_parent = parent then some j else previous) (by omega) hlen2 with
        ⟨p, hp, hlt, hpar, hlater⟩ | ⟨hres, hnone⟩
      · left
        refine ⟨p + 1, ?_, by omega, by simpa using hpar, ?_⟩
        · rw [hp]
          congr 1
          omega
        · intro q hq hqt
          obtain ⟨q2, rfl⟩ : ∃ q2, q = q2 + 1 := ⟨q - 1, by omega⟩
          have := hlater q2 (by omega) (by omega)
          simpa using this
      · by_cases hc : c.m_parent = parent
        · left
          refine ⟨0, ?_, by omega, by simp [hc], ?_⟩
          · rw [hres, if_pos hc]
            rfl
          · intro q hq hqt
            obtain ⟨q2, rfl⟩ : ∃ q2, q = q2 + 1 := ⟨q - 1, by omega⟩
            have := hnone q2 (by omega)
            simpa using this
        · right
          refine ⟨by rw [hres, if_neg hc], ?_⟩
          intro q hqt
          cases q with
          | zero => simp [hc]
          | succ q2 =>
            have := hnone q2 (by omega)
            simpa using this

/-- The widget `findPreviousSibling` returns is the one at the greatest index
below the target whose parent is the parent of the target. -/
theorem findPreviousSibling_spec (heap : List Widget) (i : Nat) (w : Widget)
    (hw : heap[i]? = some w) :
    (∀ j, findPreviousSibling heap i = some j ↔
        (j < i ∧ heap[j]?.map Widget.m_parent = some w.m_parent ∧
          ∀ k, j < k → k < i → heap[k]?.map Widget.m_parent ≠ some w.m_parent))
      ∧ (findPreviousSibling heap i = none ↔
          ∀ j, j < i → heap[j]?.map Widget.m_parent ≠ some w.m_parent) := by
  have hi : i < heap.length := by
    rcases Nat.lt_or_ge i heap.length with h | h
    · exact h
    · rw [List.getElem?_eq_none h] at hw
      cases hw
  have hf : findPreviousSibling heap i = previousSiblingScan w.m_parent i heap 0 none := by
    simp [findPreviousSibling, hw]
  rcases previousSiblingScan_spec w.m_parent i heap 0 none (Nat.zero_le _) (by omega) with
    ⟨p, hp, hlt, hpar, hlater⟩ | ⟨hres, hnone⟩
  · simp only [Nat.zero_add] at hp hlt hlater
    rw [hf, hp]
    constructor
    · intro j
      constructor
      · intro h
        cases h
        exact ⟨hlt, hpar, fun k hk hki => hlater k hk hki⟩
      · rintro ⟨hji, hjp, hjl⟩
        rcases Nat.lt_trichotomy j p with h | h | h
        · exact absurd hpar (hjl p h hlt)
        · rw [h]
        · exact absurd hjp (hlater j h hji)
    · constructor
      · intro h
        cases h
      · intro h
        exact absurd hpar (h p hlt)
  · simp only [Nat.zero_add] at hnone
    rw [hf, hres]
    constructor
    · intro j
      constructor
      · intro h
        cases h
      · rintro ⟨hji, hjp, _⟩
        exact absurd hjp (hnone j hji)
    · exact ⟨fun _ => hnone, fun _ => rfl⟩

theorem lookupId_spec (id : Str) :
    ∀ (ws : List Widget) (i : Nat) (found : Option Nat),
      (∃ p, lookupId ws id i found = some (i + p) ∧ ws[p]?.map Widget.m_id = some id ∧
          ∀ q, p < q → ws[q]?.map Widget.m_id ≠ some id)
      ∨ (lookupId ws id i found = found ∧ ∀ q : Nat, ws[q]?.map Widget.m_id ≠ some id) := by
  intro ws
  induction ws with
  | nil => intro i found; right; simp [lookupId]
  | cons c cs ih =>
    intro i found
    unfold lookupId
    rcases ih (i + 1) (if c.m_id = id then some i else found) with
      ⟨p, hp, hid, hlater⟩ | ⟨hres, hnone⟩
    · left
      refine ⟨p + 1, ?_, by simpa using hid, ?_⟩
      · rw [hp]
        congr 1
        omega
      · intro q hq
        obtain ⟨q2, rfl⟩ : ∃ q2, q = q2 + 1 := ⟨q - 1, by omega⟩
        have := hlater q2 (by omega)
        simpa using this
    · by_cases hc : c.m_id = id
      · left
        refine ⟨0, ?_, by simp [hc], ?_⟩
        · rw [hres, if_pos hc]
          rfl
        · intro q hq
          obtain ⟨q2, rfl⟩ : ∃ q2, q = q2 + 1 := ⟨q - 1, by omega⟩
          have := hnone q2
          simpa using this
      · right
        refine ⟨by rw [hres, if_neg hc], ?_⟩
        intro q
        cases q with
        | zero => simp [hc]
        | succ q2 =>
          have := hnone q2
          simpa using this

/-- The id table of `resolveAnchors` finds the last widget that carries the id. -/
theorem lookupId_last (heap : List Widget) (id : Str) (j : Nat) :
    lookupId heap id 0 none = some j ↔
      (heap[j]?.map Widget.m_id = some id ∧
        ∀ k, j < k → heap[k]?.map Widget.m_id ≠ some id) := by
  rcases lookupId_spec id heap 0 none with ⟨p, hp, hid, hlater⟩ | ⟨hres, hnone⟩
  · simp only [Nat.zero_add] at hp
    rw [hp]
    constructor
    · intro h
      cases h
      exact ⟨hid, hlater⟩
    · rintro ⟨hjid, hjl⟩
      rcases Nat.lt_trichotomy j p with h | h | h
      · exact absurd hid (hjl p h)
      · rw [h]
      · exact absurd hjid (hlater j h)
  · rw [hres]
    constructor
    · intro h
      cases h
    · rintro ⟨hjid, _⟩
      exact absurd hjid (hnone j)

theorem compareCI_prev_not_parent (id : Str)
    (h : compareCI id "prev".toList = true ∨ compareCI id "previous".toList = true) :
    compareCI id "parent".toList = false := by
  unfold compareCI at h ⊢
  rcases h with h | h
  · have h2 := beq_iff_eq.mp h
    rw [h2]
    decide
  · have h2 := beq_iff_eq.mp h
    rw [h2]
    decide
/-- C12: for the widget `w` at index `i` of the list and a valid binding `b`,
under the resolver of `resolveAnchors`: when the target id is `prev` or
`previous` in any letter case, the binding resolves to `j` exactly when `j` is
the greatest index below `i` whose widget has the parent of `w`, and to no
widget exactly when no index below `i` has one; when the target id is none of
`prev`, `previous`, `parent`, the binding resolves through the id table, which
holds for an id the last widget carrying it. -/
theorem prev_resolves_to_previous_sibling (heap : List Widget) (i : Nat) (w : Widget)
    (b : AnchorBinding) (hw : heap[i]? = some w) (hv : b.isValid = true) :
    ((compareCI b.targetId "prev".toList = true ∨
        compareCI b.targetId "previous".toList = true) →
      (∀ j, resolveTarget w (some (anchorResolver heap i)) b = some j ↔
        (j < i ∧ heap[j]?.map Widget.m_parent = some w.m_parent ∧
          ∀ k, j < k → k < i → heap[k]?.map Widget.m_parent ≠ some w.m_parent))
      ∧ (resolveTarget w (some (anchorResolver heap i)) b = none ↔
          ∀ j, j < i → heap[j]?.map Widget.m_parent ≠ some w.m_parent))
    ∧ (compareCI b.targetId "prev".toList = false →
        compareCI b.targetId "previous".toList = false →
        compareCI b.targetId "parent".toList = false →
        resolveTarget w (some (anchorResolver heap i)) b = lookupId heap b.targetId 0 none
        ∧ ∀ j, resolveTarget w (some (anchorResolver heap i)) b = some j ↔
          (heap[j]?.map Widget.m_id = some b.targetId ∧
            ∀ k, j < k → heap[k]?.map Widget.m_id ≠ some b.targetId)) := by
  constructor
  · intro hprev
    have hnp := compareCI_prev_not_parent b.targetId hprev
    have hr : resolveTarget w (some (anchorResolver heap i)) b = findPreviousSibling heap i := by
      unfold resolveTarget anchorResolver
      simp only [hv, Bool.not_true, Bool.false_eq_true, if_false, hnp]
      rw [if_pos hprev]
    rw [hr]
    exact findPreviousSibling_spec heap i w hw
  · intro h1 h2 h3
    have hr : resolveTarget w (some (anchorResolver heap i)) b
        = lookupId heap b.targetId 0 none := by
      unfold resolveTarget anchorResolver
      simp only [hv, Bool.not_true, Bool.false_eq_true, if_false, h3, h1, h2, or_self]
    rw [hr]
    exact ⟨rfl, fun j => lookupId_last heap b.targetId j⟩

theorem prev_resolves_to_previous_sibling_witness :
    examplePrevHeap[3]? = some examplePrevWidget
      ∧ resolveTarget examplePrevWidget (some (anchorResolver examplePrevHeap 3))
          examplePrevWidget.m_anchorLeft = some 1 :=
  ⟨by decide!,
    (((prev_resolves_to_previous_sibling examplePrevHeap 3 examplePrevWidget
      examplePrevWidget.m_anchorLeft (by decide!) (by decide!)).1 (Or.inl (by decide!))).1 1).2
      ⟨by decide, by decide!, by
        intro k h1 h2
        have hk : k = 2 := by omega
        subst hk
        decide!⟩⟩

/-! ## The main loop of the parser: invariant and termination -/

@[simp] theorem withChildren_indent (n : OTUINode) (c : List OTUINode) :
    (n.withChildren c).indent = n.indent := by cases n; rfl
@[simp] theorem withProps_indent (n : OTUINode) (p : List OTUIProp) :
    (n.withProps p).indent = n.indent := by cases n; rfl
@[simp] theorem withStates_indent (n : OTUINode) (s : List OTUIState) :
    (n.withStates s).indent = n.indent := by cases n; rfl
@[simp] theorem withStates_children (n : OTUINode) (s : List OTUIState) :
    (n.withStates s).children = n.children := by cases n; rfl
@[simp] theorem withEvents_indent (n : OTUINode) (e : List OTUIEvent) :
    (n.withEvents e).indent = n.indent := by cases n; rfl
@[simp] theorem withEvents_children (n : OTUINode) (e : List OTUIEvent) :
    (n.withEvents e).children = n.children := by cases n; rfl

theorem keepsChildren_of_eq (f : OTUINode → OTUINode)
    (h : ∀ n, (f n).indent = n.indent ∧ (f n).children = n.children) : KeepsChildren f := by
  intro n
  refine ⟨(h n).1, ?_⟩
  intro i c hc
  rw [(h n).2]
  exact hc

theorem keepsChildren_add_child (node : OTUINode) :
    KeepsChildren (fun p => node_add_child p node) := by
  intro n
  refine ⟨by simp [node_add_child], ?_⟩
  intro i c hc
  simp only [node_add_child, withChildren_children]
  have hi : i < n.children.length := by
    rcases Nat.lt_or_ge i n.children.length with h | h
    · exact h
    · rw [List.getElem?_eq_none h] at hc
      cases hc
  rw [List.getElem?_append_left hi]
  exact hc

theorem modify_indent (f : OTUINode → OTUINode) (hf : KeepsChildren f) (root : OTUINode)
    (p : NodePath) : (OTUINode.modify f root p).indent = root.indent := by
  cases p with
  | nil => rw [modify_nil]; exact (hf root).1
  | cons i p =>
    rw [modify_cons]
    cases root.children[i]? with
    | none => rfl
    | some c => simp

theorem get_modify_some (f : OTUINode → OTUINode) (hf : KeepsChildren f) :
    ∀ (p : NodePath) (root : OTUINode) (q : NodePath) (n : OTUINode), root.get q = some n →
      ∃ m, (OTUINode.modify f root p).get q = some m := by
  intro p
  induction p with
  | nil =>
    intro root q n h
    rw [modify_nil]
    cases q with
    | nil => exact ⟨_, get_nil _⟩
    | cons j q =>
      rw [get_cons] at h
      rw [get_cons]
      cases hc : root.children[j]? with
      | none => rw [hc] at h; cases h
      | some c =>
        rw [hc] at h
        rw [(hf root).2 j c hc]
        exact ⟨n, h⟩
  | cons i p ih =>
    intro root q n h
    rw [modify_cons]
    cases hi : root.children[i]? with
    | none => exact ⟨n, h⟩
    | some ci =>
      cases q with
      | nil => exact ⟨_, get_nil _⟩
      | cons j q =>
        rw [get_cons] at h
        rw [get_cons]
        simp only [withChildren_children]
        by_cases hji : i = j
        · subst hji
          rw [hi] at h
          have hlt : i < root.children.length := by
            rcases Nat.lt_or_ge i root.children.length with h2 | h2
            · exact h2
            · rw [List.getElem?_eq_none h2] at hi
              cases hi
          rw [List.getElem?_set_self hlt]
          exact ih ci q n h
        · rw [List.getElem?_set_ne hji]
          cases hc : root.children[j]? with
          | none => rw [hc] at h; cases h
          | some c =>
            rw [hc] at h
            exact ⟨n, h⟩

theorem get_append (p q : NodePath) :
    ∀ root : OTUINode, root.get (p ++ q) = (root.get p).bind (fun n => n.get q) := by
  induction p with
  | nil => intro root; simp [get_nil]
  | cons i p ih =>
    intro root
    rw [List.cons_append, get_cons, get_cons]
    cases root.children[i]? with
    | none => rfl
    | some c => exact ih c

theorem popStack_spec (root : OTUINode) (indent : Nat) (hroot : root.indent = -1) :
    ∀ init : List NodePath, ∃ init2,
      popStack root (indent : Int) (init ++ [[]]) = init2 ++ [[]] ∧
      ∀ p, p ∈ init2 → p ∈ init := by
  intro init
  induction init with
  | nil =>
    refine ⟨[], ?_, by simp⟩
    simp only [List.nil_append, popStack, get_nil]
    have : root.indent < (indent : Int) := by rw [hroot]; omega
    simp [this]
  | cons top rest ih =>
    obtain ⟨init2, h2, hmem⟩ := ih
    simp only [List.cons_append, popStack]
    cases hg : root.get top with
    | none => exact ⟨top :: rest, rfl, fun p hp => hp⟩
    | some prev =>
      simp only
      by_cases hlt : prev.indent < (indent : Int)
      · rw [if_pos hlt]
        exact ⟨top :: rest, rfl, fun p hp => hp⟩
      · rw [if_neg hlt]
        exact ⟨init2, h2, fun p hp => List.mem_cons_of_mem _ (hmem p hp)⟩

theorem stackInv_modify (st : ParseState) (f : OTUINode → OTUINode) (hf : KeepsChildren f)
    (p : NodePath) (st2 : ParseState) (hinv : StackInv st)
    (hroot : st2.root = OTUINode.modify f st.root p) (hstack : st2.stack = st.stack) :
    StackInv st2 := by
  obtain ⟨h1, h2, h3⟩ := hinv
  refine ⟨?_, ?_, ?_⟩
  · rw [hroot, modify_indent f hf, h1]
  · rw [hstack]; exact h2
  · intro q hq
    rw [hstack] at hq
    obtain ⟨n, hn⟩ := h3 q hq
    rw [hroot]
    exact get_modify_some f hf p st.root q n hn

theorem handleNode_inv (st : ParseState) (content : Str) (indent : Nat)
    (comment_text : Option Str) (hinv : StackInv st) :
    (∃ st2, handleNode st content indent comment_text = StepResult.next st2 ∧
      StackInv st2 ∧ InNode st2 ∧ stepsLeft st2 ≤ 2 * st.input.length) ∨
    handleNode st content indent comment_text = StepResult.fail ParseError.outOfBounds := by
  obtain ⟨h1, ⟨init, h2, hne⟩, h3⟩ := hinv
  obtain ⟨init2, hpop, hmem⟩ := popStack_spec st.root indent h1 init
  have hsub : ∀ p, p ∈ init2 ++ [[]] → p ∈ st.stack := by
    intro p hp
    rw [h2]
    rcases List.mem_append.mp hp with h | h
    · exact List.mem_append_left _ (hmem p h)
    · exact List.mem_append_right _ h
  obtain ⟨parent, rest, hpr⟩ : ∃ parent rest, init2 ++ [[]] = parent :: rest := by
    cases init2 with
    | nil => exact ⟨[], [], rfl⟩
    | cons x xs => exact ⟨x, xs ++ [[]], by simp⟩
  have hpop2 : popStack st.root (indent : Int) st.stack = parent :: rest := by
    rw [h2, hpop, hpr]
  obtain ⟨pn, hpn⟩ := h3 parent (hsub parent (by rw [hpr]; simp))
  unfold handleNode
  simp only [hpop2, hpn]
  by_cases hfull : 256 ≤ (parent :: rest).length
  · right
    rw [if_pos hfull]
  left
  rw [if_neg hfull]
  refine ⟨_, rfl, ⟨?_, ?_, ?_⟩, ⟨_, _, rfl, ?_⟩, ?_⟩
  · simp only
    rw [modify_indent _ (keepsChildren_add_child _), h1]
  · refine ⟨(parent ++ [pn.children.length]) :: init2, ?_, ?_⟩
    · simp only [List.cons_append, hpr]
    · intro q hq
      simp only [List.mem_cons] at hq
      rcases hq with hq | hq
      · rw [hq]; simp
      · exact hne q (hmem q hq)
  · intro q hq
    simp only [List.mem_cons] at hq
    rcases hq with hq | hq
    · subst hq
      simp only
      rw [get_append, get_modify_same _ parent st.root pn hpn]
      simp [get_cons, node_add_child, get_nil]
    · have hq2 : q ∈ st.stack := hsub q (by rw [hpr]; simpa using hq)
      obtain ⟨n, hn⟩ := h3 q hq2
      exact get_modify_some _ (keepsChildren_add_child _) parent st.root q n hn
  · simp
  · simp [stepsLeft]
theorem handleProperty_inv (st : ParseState) (keyPart valPart : Str)
    (comment_text : Option Str) (hinv : StackInv st) (hin : InNode st) :
    ∃ st2, handleProperty st keyPart valPart comment_text = StepResult.next st2 ∧
      StackInv st2 ∧ InNode st2 ∧ stepsLeft st2 ≤ 2 * st.input.length := by
  obtain ⟨cur, rest, hstack, hcur⟩ := hin
  unfold handleProperty
  simp only [hstack, hcur, if_false]
  cases hcs : st.current_state with
  | some s =>
    obtain ⟨sn, si⟩ := s
    simp only
    refine ⟨_, rfl, ?_, ⟨cur, rest, rfl, hcur⟩, by simp [stepsLeft]⟩
    exact stackInv_modify st _ (keepsChildren_of_eq _ (fun n => by simp)) sn _ hinv rfl hstack.symm
  | none =>
    simp only
    refine ⟨_, rfl, ?_, ⟨cur, rest, rfl, hcur⟩, by simp [stepsLeft]⟩
    refine stackInv_modify st _ (keepsChildren_of_eq _ (fun n => ?_)) cur _ hinv rfl hstack.symm
    cases comment_text <;> simp [node_add_prop]

theorem handleState_inv (st : ParseState) (condPart : Str)
    (hinv : StackInv st) (hin : InNode st) :
    ∃ st2, handleState st condPart = StepResult.next st2 ∧
      StackInv st2 ∧ InNode st2 ∧ stepsLeft st2 ≤ 2 * st.input.length := by
  obtain ⟨cur, rest, hstack, hcur⟩ := hin
  obtain ⟨n, hn⟩ := hinv.2.2 cur (by rw [hstack]; simp)
  unfold handleState
  simp only [hstack, hcur, if_false, hn]
  refine ⟨_, rfl, ?_, ⟨cur, rest, rfl, hcur⟩, by simp [stepsLeft]⟩
  exact stackInv_modify st _ (keepsChildren_of_eq _ (fun n => by simp [node_add_state])) cur _
    hinv rfl hstack.symm

theorem fgetsAux_length (n : Nat) :
    ∀ input : Str, ((fgetsAux n input).2).length ≤ input.length := by
  induction n with
  | zero => intro input; simp [fgetsAux]
  | succ n ih =>
    intro input
    cases input with
    | nil => simp [fgetsAux]
    | cons c cs =>
      simp only [fgetsAux]
      split_ifs
      · simp
      · have := ih cs
        simp only [List.length_cons]
        omega

theorem fgets_length (input raw rest : Str) (h : fgets input = some (raw, rest)) :
    rest.length < input.length := by
  cases input with
  | nil => simp [fgets] at h
  | cons c cs =>
    simp only [fgets, fgetsAux, Option.some.injEq] at h
    split_ifs at h
    · simp only [Prod.mk.injEq] at h
      rw [← h.2]
      simp
    · simp only [Prod.mk.injEq] at h
      rw [← h.2]
      have := fgetsAux_length 4094 cs
      simp only [List.length_cons]
      omega

theorem readBlock_length (base_indent : Int) :
    ∀ (fuel code_cap : Nat) (input : Str) (lineno : Nat) (code : Str)
      (r : Str × Str × Nat × Option Str),
      readBlock base_indent fuel code_cap input lineno code = some r →
      r.2.1.length ≤ input.length ∧
      (r.2.2.2.isSome = true → r.2.1.length < input.length) := by
  intro fuel
  induction fuel with
  | zero =>
    intro code_cap input lineno code r h
    simp only [readBlock, Option.some.injEq] at h
    subst h
    simp
  | succ fuel ih =>
    intro code_cap input lineno code r h
    unfold readBlock at h
    cases hf : fgets input with
    | none =>
      rw [hf] at h
      simp only [Option.some.injEq] at h
      subst h
      simp
    | some rr =>
      obtain ⟨raw, rest⟩ := rr
      have hlen := fgets_length input raw rest hf
      rw [hf] at h
      simp only at h
      split_ifs at h
      all_goals first
        | exact Option.noConfusion h
        | (have hrec := ih _ rest (lineno + 1) _ r h
           exact ⟨by omega, fun hs => by have := hrec.2 hs; omega⟩)
        | (simp only [Option.some.injEq] at h
           subst h
           exact ⟨by simp; omega, fun _ => by simpa using hlen⟩)

/-- The fuel of `readBlock` is never exhausted before the end of the file: with
a fuel of at least the length of the input, one more unit of fuel gives the
same result. -/
theorem readBlock_fuel_enough (base_indent : Int) (fuel : Nat) :
    ∀ (code_cap : Nat) (input : Str) (lineno : Nat) (code : Str), input.length ≤ fuel →
      readBlock base_indent (fuel + 1) code_cap input lineno code
        = readBlock base_indent fuel code_cap input lineno code := by
  induction fuel with
  | zero =>
    intro code_cap input lineno code h
    have : input = [] := List.length_eq_zero.1 (Nat.le_zero.1 h)
    subst this
    rfl
  | succ fuel ih =>
    intro code_cap input lineno code h
    rw [readBlock, readBlock]
    cases hf : fgets input with
    | none => rfl
    | some rr =>
      obtain ⟨raw, rest⟩ := rr
      have hlen := fgets_length input raw rest hf
      simp only
      have hr : rest.length ≤ fuel := by omega
      rw [ih _ rest _ _ hr, ih _ rest _ _ hr]

theorem handleEvent_inv (st : ParseState) (namePart codePart : Str)
    (hinv : StackInv st) (hin : InNode st) :
    (∃ st2, handleEvent st namePart codePart = StepResult.next st2 ∧
      StackInv st2 ∧ InNode st2 ∧ stepsLeft st2 ≤ 2 * st.input.length) ∨
    handleEvent st namePart codePart = StepResult.fail ParseError.outOfBounds := by
  obtain ⟨cur, rest, hstack, hcur⟩ := hin
  obtain ⟨n, hn⟩ := hinv.2.2 cur (by rw [hstack]; simp)
  have hk : ∀ (nm code : Str) (ml : Bool), KeepsChildren (fun m => node_add_event m nm code ml) :=
    fun nm code ml => keepsChildren_of_eq _ (fun m => by simp [node_add_event])
  unfold handleEvent
  simp only [hstack, hcur, if_false]
  split
  · simp only [hn]
    cases hb : readBlock n.indent st.input.length 1024 st.input st.lineno [] with
    | none => right; rfl
    | some r =>
      left
      have hrb := readBlock_length n.indent st.input.length 1024 st.input st.lineno [] r hb
      simp only
      split
      · rename_i pushed hp
        refine ⟨_, rfl, ?_, ⟨cur, rest, rfl, hcur⟩, ?_⟩
        · exact stackInv_modify st _ (hk _ _ _) cur _ hinv rfl hstack.symm
        · have := hrb.2 (by rw [hp]; rfl)
          simp only [stepsLeft, if_true]
          omega
      · refine ⟨_, rfl, ?_, ⟨cur, rest, rfl, hcur⟩, ?_⟩
        · exact stackInv_modify st _ (hk _ _ _) cur _ hinv rfl hstack.symm
        · have := hrb.1
          simp only [stepsLeft, Bool.false_eq_true, if_false]
          omega
  · left
    refine ⟨_, rfl, ?_, ⟨cur, rest, rfl, hcur⟩, by simp [stepsLeft]⟩
    exact stackInv_modify st _ (hk _ _ _) cur _ hinv rfl hstack.symm

theorem processContent_dispatch (st : ParseState) (buf : Str) (indent : Nat)
    (comment_text : Option Str) :
    (∃ a b, processContent st buf indent comment_text = handleEvent st a b ∧
        ':' ∈ skipBlanks buf) ∨
    (∃ a, processContent st buf indent comment_text = handleState st a ∧
        ':' ∈ skipBlanks buf) ∨
    (processContent st buf indent comment_text
        = handleNode st (skipBlanks buf) indent comment_text ∧
      splitAtChar ':' (skipBlanks buf) = none) ∨
    (∃ a b, processContent st buf indent comment_text = handleProperty st a b comment_text ∧
        ':' ∈ skipBlanks buf) := by
  unfold processContent
  simp only
  generalize skipBlanks buf = content
  have hmem : ∀ a b, splitAtChar ':' content = some (a, b) → ':' ∈ content := by
    intro a b h
    by_contra hc
    have : splitAtChar ':' content = none := by
      clear h
      induction content with
      | nil => rfl
      | cons x xs ih =>
        have hx : ¬ x = ':' := fun e => hc (by simp [e])
        have hxs : ':' ∉ xs := fun e => hc (by simp [e])
        simp [splitAtChar, hx, ih hxs]
    rw [this] at h
    cases h
  split
  · rename_i h
    exact Or.inl ⟨_, _, rfl, hmem _ _ h⟩
  · rename_i h
    exact Or.inr (Or.inl ⟨_, rfl, hmem _ _ h⟩)
  · rename_i h
    exact Or.inr (Or.inr (Or.inl ⟨rfl, h⟩))
  · rename_i h
    exact Or.inr (Or.inr (Or.inr ⟨_, _, rfl, hmem _ _ h⟩))

theorem processContent_inv (st : ParseState) (buf : Str) (indent : Nat)
    (comment_text : Option Str) (hinv : StackInv st) (hin : InNode st) :
    (∃ st2, processContent st buf indent comment_text = StepResult.next st2 ∧
      StackInv st2 ∧ InNode st2 ∧ stepsLeft st2 ≤ 2 * st.input.length) ∨
    processContent st buf indent comment_text = StepResult.fail ParseError.outOfBounds := by
  rcases processContent_dispatch st buf indent comment_text with
    ⟨a, b, h, _⟩ | ⟨a, h, _⟩ | ⟨h, _⟩ | ⟨a, b, h, _⟩
  · rw [h]; exact handleEvent_inv st _ _ hinv hin
  · rw [h]; exact Or.inl (handleState_inv st _ hinv hin)
  · rw [h]; exact handleNode_inv st _ indent comment_text hinv
  · rw [h]; exact Or.inl (handleProperty_inv st _ _ comment_text hinv hin)

theorem processRawLine_inv (st : ParseState) (l0 : Str) (hinv : StackInv st) (hin : InNode st)
    (hr : st.line_ready = false) :
    (∃ st2, processRawLine st l0 = StepResult.next st2 ∧
      StackInv st2 ∧ InNode st2 ∧ stepsLeft st2 ≤ 2 * st.input.length) ∨
    processRawLine st l0 = StepResult.fail ParseError.outOfBounds := by
  unfold processRawLine
  simp only
  by_cases h : trim (extractComment l0).1 = []
  · rw [if_pos h]
    refine Or.inl ⟨_, rfl, hinv, hin, ?_⟩
    simp [stepsLeft, hr]
  · rw [if_neg h]
    exact processContent_inv st _ _ _ hinv hin

/-- An iteration of the main loop that starts with an open node ends the parse,
leads to a state with an open node, or leaves a buffer; it reports no error. -/
theorem parseStep_inNode (st : ParseState) (hinv : StackInv st) (hin : InNode st) :
    (∃ root, parseStep st = StepResult.done root) ∨
    (∃ st2, parseStep st = StepResult.next st2 ∧ StackInv st2 ∧ InNode st2 ∧
      stepsLeft st2 < stepsLeft st) ∨
    parseStep st = StepResult.fail ParseError.outOfBounds := by
  unfold parseStep
  by_cases hr : st.line_ready = true
  · rw [if_pos hr]
    rcases processContent_inv st st.line (count_indent st.line) none hinv hin with
      ⟨st2, h, hi, hn, hs⟩ | h
    · right; left
      refine ⟨st2, h, hi, hn, ?_⟩
      have : stepsLeft st = 2 * st.input.length + 1 := by simp [stepsLeft, hr]
      omega
    · exact Or.inr (Or.inr h)
  · rw [if_neg hr]
    have hr2 : st.line_ready = false := by simpa using hr
    cases hf : fgets st.input with
    | none => left; exact ⟨_, rfl⟩
    | some rr =>
      obtain ⟨raw, rest⟩ := rr
      have hlen := fgets_length st.input raw rest hf
      right
      rcases processRawLine_inv
        { st with lineno := st.lineno + 1, input := rest } (stripNewlines (cString raw))
        hinv hin hr2 with ⟨st2, h, hi, hn, hs⟩ | h
      · left
        refine ⟨st2, h, hi, hn, ?_⟩
        have : stepsLeft st = 2 * st.input.length := by simp [stepsLeft, hr2]
        have h3 : ({ st with lineno := st.lineno + 1, input := rest } : ParseState).input.length
            = rest.length := rfl
        omega
      · exact Or.inr h

theorem parseLoop_inNode :
    ∀ (fuel : Nat) (st : ParseState), StackInv st → InNode st → stepsLeft st < fuel →
      (∃ tree, parseLoop fuel st = some (Except.ok tree)) ∨
      parseLoop fuel st = some (Except.error ParseError.outOfBounds) := by
  intro fuel
  induction fuel with
  | zero => intro st _ _ h; omega
  | succ fuel ih =>
    intro st hinv hin hlt
    unfold parseLoop
    rcases parseStep_inNode st hinv hin with ⟨root, h⟩ | ⟨st2, h, hi, hn, hs⟩ | h
    · rw [h]; exact Or.inl ⟨root, rfl⟩
    · rw [h]
      exact ih st2 hi hn (by omega)
    · rw [h]; exact Or.inr rfl

theorem stackInv_cases (st : ParseState) (hinv : StackInv st) :
    InNode st ∨ st.stack = [[]] := by
  obtain ⟨_, ⟨init, h2, hne⟩, _⟩ := hinv
  cases init with
  | nil => right; simpa using h2
  | cons x xs =>
    left
    exact ⟨x, xs ++ [[]], by simpa using h2, hne x (by simp)⟩

theorem splitAtChar_none (ch : Char) (s : Str) : splitAtChar ch s = none ↔ ch ∉ s := by
  induction s with
  | nil => simp [splitAtChar]
  | cons x xs ih =>
    by_cases hx : x = ch
    · simp [splitAtChar, hx]
    · have hx2 : ¬ ch = x := fun e => hx e.symm
      cases h : splitAtChar ch xs with
      | none => simp [splitAtChar, hx, hx2, h, ih.mp h]
      | some ab =>
        have : ch ∈ xs := by
          by_contra hc
          rw [ih.mpr hc] at h
          cases h
        simp [splitAtChar, hx, h, this]

theorem splitAtChar_some (ch : Char) :
    ∀ (s a b : Str), splitAtChar ch s = some (a, b) → s = a ++ ch :: b ∧ ch ∉ a := by
  intro s
  induction s with
  | nil => intro a b h; simp [splitAtChar] at h
  | cons x xs ih =>
    intro a b h
    by_cases hx : x = ch
    · simp only [splitAtChar, hx, if_true, Option.some.injEq, Prod.mk.injEq] at h
      rw [← h.1, ← h.2, hx]
      simp
    · simp only [splitAtChar, hx, if_false] at h
      cases h2 : splitAtChar ch xs with
      | none => rw [h2] at h; cases h
      | some ab =>
        obtain ⟨a2, b2⟩ := ab
        rw [h2] at h
        simp only [Option.some.injEq, Prod.mk.injEq] at h
        obtain ⟨e1, e2⟩ := ih a2 b2 h2
        rw [← h.1, ← h.2]
        refine ⟨by rw [e1]; simp, ?_⟩
        intro hm
        simp only [List.mem_cons] at hm
        rcases hm with hm | hm
        · exact hx hm.symm
        · exact e2 hm

theorem processContent_cases (st : ParseState) (buf : Str) (indent : Nat)
    (comment_text : Option Str) :
    (∃ a b r, processContent st buf indent comment_text = handleEvent st a b ∧
        skipBlanks buf = '@' :: r ∧ ':' ∈ skipBlanks buf) ∨
    (∃ a r, processContent st buf indent comment_text = handleState st a ∧
        skipBlanks buf = '$' :: r ∧ ':' ∈ skipBlanks buf) ∨
    (processContent st buf indent comment_text
        = handleNode st (skipBlanks buf) indent comment_text ∧ ':' ∉ skipBlanks buf) ∨
    (∃ a b, processContent st buf indent comment_text = handleProperty st a b comment_text ∧
        ':' ∈ skipBlanks buf ∧ (∀ r, skipBlanks buf ≠ '@' :: r) ∧
        (∀ r, skipBlanks buf ≠ '$' :: r)) := by
  unfold processContent
  simp only
  generalize skipBlanks buf = content
  have hmem : ∀ a b, splitAtChar ':' content = some (a, b) → ':' ∈ content := by
    intro a b h
    by_contra hc
    rw [(splitAtChar_none ':' content).mpr hc] at h
    cases h
  split
  · rename_i h
    exact Or.inl ⟨_, _, _, rfl, rfl, hmem _ _ h⟩
  · rename_i h
    exact Or.inr (Or.inl ⟨_, _, rfl, rfl, hmem _ _ h⟩)
  · rename_i h
    exact Or.inr (Or.inr (Or.inl ⟨rfl, (splitAtChar_none ':' _).mp h⟩))
  · rename_i h1 h2 h
    exact Or.inr (Or.inr (Or.inr ⟨_, _, rfl, hmem _ _ h, h1, h2⟩))
theorem trim_head_nonspace (s : Str) (c : Char) (r : Str) (h : trim s = c :: r) :
    isspace c = false := by
  unfold trim at h
  cases ht : trimLeft s with
  | nil => rw [ht] at h; simp [trimLeft] at h
  | cons c0 r0 =>
    have hc0 := trimLeft_head_nonspace s c0 r0 ht
    rw [ht, List.reverse_cons, trimLeft_append_nonspace _ [] c0 hc0] at h
    simp only [List.reverse_append, List.reverse_cons, List.reverse_nil, List.nil_append,
      List.singleton_append, List.cons.injEq] at h
    rw [← h.1]
    exact hc0

theorem skipBlanks_trim (s : Str) : skipBlanks (trim s) = trim s := by
  cases h : trim s with
  | nil => rfl
  | cons c r =>
    have hc := nonspace_nonblank c (trim_head_nonspace s c r h)
    exact skipBlanks_nonblank c r hc.1 hc.2

/-- A line met while the root is the only open node: a line with a colon is an
error outside any node, a line without colon opens a node. -/
theorem processContent_atRoot (st : ParseState) (buf : Str) (indent : Nat)
    (comment_text : Option Str) (hinv : StackInv st) (hroot : st.stack = [[]]) :
    (':' ∉ skipBlanks buf → ∃ st2, processContent st buf indent comment_text
        = StepResult.next st2 ∧ StackInv st2 ∧ InNode st2 ∧
        stepsLeft st2 ≤ 2 * st.input.length) ∧
    (':' ∈ skipBlanks buf → processContent st buf indent comment_text
        = StepResult.fail (outsideNodeError (skipBlanks buf) st.lineno)) := by
  rcases processContent_cases st buf indent comment_text with
    ⟨a, b, r, h, hc, hm⟩ | ⟨a, r, h, hc, hm⟩ | ⟨h, hm⟩ | ⟨a, b, h, hm, h1, h2⟩
  · refine ⟨fun hn => absurd hm hn, fun _ => ?_⟩
    rw [h, hc]
    simp [handleEvent, hroot, outsideNodeError]
  · refine ⟨fun hn => absurd hm hn, fun _ => ?_⟩
    rw [h, hc]
    simp [handleState, hroot, outsideNodeError]
  · refine ⟨fun _ => ?_, fun hn => absurd hn hm⟩
    rw [h]
    rcases handleNode_inv st (skipBlanks buf) indent comment_text hinv with h2 | h2
    · exact h2
    · exfalso
      have hlt : st.root.indent < (indent : Int) := by rw [hinv.1]; omega
      simp only [handleNode, hroot, popStack, get_nil, hlt, if_true] at h2
      simp at h2
  · refine ⟨fun hn => absurd hm hn, fun _ => ?_⟩
    rw [h]
    have he : outsideNodeError (skipBlanks buf) st.lineno
        = ParseError.propertyOutsideNode st.lineno := by
      unfold outsideNodeError
      split
      · rename_i heq; exact absurd heq (h1 _)
      · rename_i heq; exact absurd heq (h2 _)
      · rfl
    rw [he]
    simp [handleProperty, hroot]

theorem outsideNodeError_ne_indent (l : Str) (k j : Nat) :
    outsideNodeError l k ≠ ParseError.indentError j := by
  unfold outsideNodeError
  split <;> simp

/-- An iteration of the main loop ends the parse, leads to a state that keeps
the invariant, fails with an error outside any node, or leaves a buffer. -/
theorem parseStep_total (st : ParseState) (hinv : StackInv st) :
    (∃ root, parseStep st = StepResult.done root) ∨
    (∃ st2, parseStep st = StepResult.next st2 ∧ StackInv st2 ∧
      stepsLeft st2 < stepsLeft st) ∨
    (∃ l k, parseStep st = StepResult.fail (outsideNodeError l k)) ∨
    parseStep st = StepResult.fail ParseError.outOfBounds := by
  rcases stackInv_cases st hinv with hin | hroot
  · rcases parseStep_inNode st hinv hin with h | ⟨st2, h, hi, _, hs⟩ | h
    · exact Or.inl h
    · exact Or.inr (Or.inl ⟨st2, h, hi, hs⟩)
    · exact Or.inr (Or.inr (Or.inr h))
  · unfold parseStep
    by_cases hr : st.line_ready = true
    · rw [if_pos hr]
      have hst : stepsLeft st = 2 * st.input.length + 1 := by simp [stepsLeft, hr]
      have hp := processContent_atRoot st st.line (count_indent st.line) none hinv hroot
      by_cases hc : ':' ∈ skipBlanks st.line
      · exact Or.inr (Or.inr (Or.inl ⟨_, _, hp.2 hc⟩))
      · obtain ⟨st2, h, hi, _, hs⟩ := hp.1 hc
        exact Or.inr (Or.inl ⟨st2, h, hi, by omega⟩)
    · rw [if_neg hr]
      have hr2 : st.line_ready = false := by simpa using hr
      have hst : stepsLeft st = 2 * st.input.length := by simp [stepsLeft, hr2]
      cases hf : fgets st.input with
      | none => left; exact ⟨_, rfl⟩
      | some rr =>
        obtain ⟨raw, rest⟩ := rr
        have hlen := fgets_length st.input raw rest hf
        simp only
        unfold processRawLine
        simp only
        by_cases hb : trim (extractComment (stripNewlines (cString raw))).1 = []
        · rw [if_pos hb]
          refine Or.inr (Or.inl ⟨_, rfl, hinv, ?_⟩)
          simp only [stepsLeft, hr2, Bool.false_eq_true, if_false]
          omega
        · rw [if_neg hb]
          have hp := processContent_atRoot { st with lineno := st.lineno + 1, input := rest }
            (trim (extractComment (stripNewlines (cString raw))).1)
            (count_indent (stripNewlines (cString raw)))
            (extractComment (stripNewlines (cString raw))).2 hinv hroot
          by_cases hc : ':' ∈ skipBlanks (trim (extractComment (stripNewlines (cString raw))).1)
          · exact Or.inr (Or.inr (Or.inl ⟨_, _, hp.2 hc⟩))
          · obtain ⟨st2, h, hi, _, hs⟩ := hp.1 hc
            refine Or.inr (Or.inl ⟨st2, h, hi, ?_⟩)
            have h3 : ({ st with lineno := st.lineno + 1, input := rest } : ParseState).input.length
                = rest.length := rfl
            omega

/-- The main loop ends within the fuel given by `stepsLeft`: with a tree, with
an error outside any node, or by leaving a buffer. -/
theorem parseLoop_total :
    ∀ (fuel : Nat) (st : ParseState), StackInv st → stepsLeft st < fuel →
      (∃ tree, parseLoop fuel st = some (Except.ok tree)) ∨
      (∃ l k, parseLoop fuel st = some (Except.error (outsideNodeError l k))) ∨
      parseLoop fuel st = some (Except.error ParseError.outOfBounds) := by
  intro fuel
  induction fuel with
  | zero => intro st _ h; omega
  | succ fuel ih =>
    intro st hinv hlt
    unfold parseLoop
    rcases parseStep_total st hinv with ⟨root, h⟩ | ⟨st2, h, hi, hs⟩ | ⟨l, k, h⟩ | h
    · rw [h]; exact Or.inl ⟨root, rfl⟩
    · rw [h]; exact ih st2 hi (by omega)
    · rw [h]; exact Or.inr (Or.inl ⟨l, k, rfl⟩)
    · rw [h]; exact Or.inr (Or.inr rfl)

theorem stackInv_initial (input : Str) : StackInv (initialState input) := by
  refine ⟨rfl, ⟨[], rfl, by simp⟩, ?_⟩
  intro p hp
  simp only [initialState, List.mem_singleton] at hp
  rw [hp]
  exact ⟨_, get_nil _⟩
/-- C14 (counterexample): the text with node headers at indentation 0, then 4,
then 2 is parsed without error; the header at indentation 2 becomes the second
child of the node at indentation 0. -/
theorem indent_zero_four_two_accepted :
    (match otui_parse_file (some "A\n    B\n  C\n".toList) with
      | some (Except.ok root) =>
        some (root.children.map fun c =>
          (c.name, c.indent, c.children.map fun d => (d.name, d.indent)))
      | _ => none) =
      some [("A".toList, 0, [("B".toList, 4), ("C".toList, 2)])] := by
  decide!

/-- C15: a line of a block event body that is indented with a tab and has three
characters after it is dropped. The text `Button / @onClick: | / <tab>x()` gives
the event an empty code, although the line `<tab>x()`, of indentation 4, is more
indented than the node; with four spaces in place of the tab the line is
kept. -/
theorem block_event_drops_tab_line :
    count_indent "\tx()".toList = 4
      ∧ (match otui_parse_file (some "Button\n  @onClick: |\n\tx()\n".toList) with
          | some (Except.ok root) => (root.get [0]).map OTUINode.events
          | _ => none) =
        some [{ name := "onClick".toList, code := [], multiline := true }]
      ∧ (match otui_parse_file (some "Button\n  @onClick: |\n    x()\n".toList) with
          | some (Except.ok root) => (root.get [0]).map OTUINode.events
          | _ => none) =
        some [{ name := "onClick".toList, code := "    x()".toList, multiline := true }] := by
  decide!

/-- C19: the size of a `size` property is stored as it is written. For the text
`MainWindow / size: -5 -5` the list holds one widget of width -5 and height -5,
and a child with `size: -5 -7` inside a window of size 100 x 50 keeps that size
as well. -/
theorem negative_size_is_kept :
    loadedRects (loadFromFile 4 emptyEnv (some "MainWindow\n  size: -5 -5\n".toList) [])
        = some [⟨0, 0, -5, -5⟩]
      ∧ loadedRects (loadFromFile 4 emptyEnv
          (some "MainWindow\n  size: 100 50\n  Button\n    size: -5 -7\n".toList) [])
        = some [⟨0, 0, 100, 50⟩, ⟨0, 0, -5, -7⟩] := by
  decide!

/-! ## Local template bindings -/

/-- Induction on a node tree: a property of nodes follows from the property of
the list of children. -/
theorem tree_induction (P : OTUINode → Prop) (Q : List OTUINode → Prop)
    (hmk : ∀ n b i cb ci p s e c, Q c → P (.mk n b i cb ci p s e c))
    (hnil : Q []) (hcons : ∀ c cs, P c → Q cs → Q (c :: cs)) : ∀ n, P n := by
  intro n
  exact OTUINode.rec (motive_1 := P) (motive_2 := Q) hmk hnil hcons n

theorem find_append_single (T : List (Str × NodePath)) (e : Str × NodePath) (nm : Str) :
    (T ++ [e]).find? (fun t => t.1 = nm) =
      match T.find? (fun t => t.1 = nm) with
      | some t => some t
      | none => if e.1 = nm then some e else none := by
  induction T with
  | nil =>
    by_cases h : e.1 = nm <;> simp [List.find?, h]
  | cons x xs ih =>
    by_cases hx : x.1 = nm
    · simp [List.find?, hx]
    · simp only [List.cons_append, List.find?, hx, decide_False]
      exact ih

theorem collectTemplates_find (nm : Str) (hnm : nm ≠ []) :
    ∀ (cs : List OTUINode) (i : Nat) (T : List (Str × NodePath)) (R : List NodePath),
      (collectTemplates cs i T R).1.find? (fun t => t.1 = nm) =
        match T.find? (fun t => t.1 = nm) with
        | some t => some t
        | none => (firstTemplateFrom cs i nm).map fun j => (nm, [j]) := by
  intro cs
  induction cs with
  | nil =>
    intro i T R
    simp only [collectTemplates, firstTemplateFrom, Option.map_none']
    cases T.find? (fun t => t.1 = nm) <;> rfl
  | cons c cs ih =>
    intro i T R
    have hskip : ¬ (c.base_style.isSome = true ∧ nodeProperty c "id".toList [] = [] ∧
        trim c.name = nm) → firstTemplateFrom (c :: cs) i nm = firstTemplateFrom cs (i + 1) nm := by
      intro h
      rw [firstTemplateFrom]
      exact if_neg h
    unfold collectTemplates
    by_cases h1 : c.base_style.isNone = true
    · have h1b : ¬ c.base_style.isSome = true := by
        cases hb : c.base_style <;> simp [hb] at h1 ⊢
      rw [if_pos h1, ih, hskip (fun h => h1b h.1)]
    · rw [if_neg h1]
      have h1b : c.base_style.isSome = true := by
        cases hb : c.base_style <;> simp [hb] at h1 ⊢
      by_cases h2 : trim c.name = []
      · rw [if_pos h2, ih, hskip (fun h => hnm (by rw [← h.2.2, h2]))]
      · rw [if_neg h2]
        by_cases h3 : nodeProperty c "id".toList [] ≠ []
        · rw [if_pos h3, ih, hskip (fun h => h3 h.2.1)]
        · rw [if_neg h3]
          have h3b : nodeProperty c "id".toList [] = [] := by
            by_contra hc
            exact h3 hc
          rw [ih]
          by_cases hn : trim c.name = nm
          · have hF : firstTemplateFrom (c :: cs) i nm = some i := by
              rw [firstTemplateFrom]
              exact if_pos ⟨h1b, h3b, hn⟩
            rw [hF]
            cases hT : T.find? (fun t => t.1 = nm) with
            | some t =>
              have hT2 : (T.find? fun t => t.1 = trim c.name) = some t := by rw [hn]; exact hT
              simp [hT2, hT]
            | none =>
              have hT2 : (T.find? fun t => t.1 = trim c.name) = none := by rw [hn]; exact hT
              simp only [hT2, Option.isSome_none, Bool.false_eq_true, if_false]
              rw [find_append_single, hT]
              simp [hn]
          · rw [hskip (fun h => hn h.2.2)]
            have hfind : ((if (T.find? fun t => t.1 = trim c.name).isSome = true then T
                else T ++ [(trim c.name, [i])]).find? fun t => t.1 = nm)
                = T.find? fun t => t.1 = nm := by
              split_ifs
              · rfl
              · rw [find_append_single]
                cases T.find? (fun t => t.1 = nm) with
                | some t => rfl
                | none => simp [hn]
            rw [hfind]

theorem firstTemplateFrom_spec (nm : Str) :
    ∀ (cs : List OTUINode) (i k : Nat), firstTemplateFrom cs i nm = some k ↔
      ∃ j, k = i + j ∧ (∃ c, cs[j]? = some c ∧ templateOfName c nm) ∧
        ∀ m d, m < j → cs[m]? = some d → ¬ templateOfName d nm := by
  intro cs
  induction cs with
  | nil =>
    intro i k
    simp [firstTemplateFrom]
  | cons c cs ih =>
    intro i k
    unfold firstTemplateFrom
    by_cases h : c.base_style.isSome = true ∧ nodeProperty c "id".toList [] = [] ∧ trim c.name = nm
    · rw [if_pos h]
      constructor
      · intro hk
        cases hk
        exact ⟨0, rfl, ⟨c, by simp, h⟩, fun m d hm => by omega⟩
      · rintro ⟨j, hk, _, hmin⟩
        cases j with
        | zero => rw [hk]; rfl
        | succ j => exact absurd h (hmin 0 c (by omega) (by simp))
    · rw [if_neg h, ih]
      constructor
      · rintro ⟨j, hk, ⟨d, hd, hq⟩, hmin⟩
        refine ⟨j + 1, by omega, ⟨d, by simpa using hd, hq⟩, ?_⟩
        intro m e hm he
        cases m with
        | zero =>
          simp at he
          rw [← he]
          exact h
        | succ m => exact hmin m e (by omega) (by simpa using he)
      · rintro ⟨j, hk, ⟨d, hd, hq⟩, hmin⟩
        cases j with
        | zero =>
          simp at hd
          rw [← hd] at hq
          exact absurd hq h
        | succ j =>
          refine ⟨j, by omega, ⟨d, by simpa using hd, hq⟩, ?_⟩
          intro m e hm he
          exact hmin (m + 1) e (by omega) (by simpa using he)
theorem visitBindings_mem (T : List (Str × NodePath)) (q t : NodePath) :
    ∀ (node : OTUINode) (path : NodePath) (acc : List (NodePath × NodePath)),
      (q, t) ∈ visitBindings T node path acc ↔
        ((q, t) ∈ acc ∨ ∃ r N, q = path ++ r ∧ node.get r = some N ∧
          N.base_style = none ∧ trim N.name ≠ [] ∧
          ∃ tt, T.find? (fun e => e.1 = trim N.name) = some tt ∧ tt.2 = t ∧ t ≠ q) := by
  refine tree_induction
    (fun node => ∀ (path : NodePath) (acc : List (NodePath × NodePath)),
      (q, t) ∈ visitBindings T node path acc ↔
        ((q, t) ∈ acc ∨ ∃ r N, q = path ++ r ∧ node.get r = some N ∧
          N.base_style = none ∧ trim N.name ≠ [] ∧
          ∃ tt, T.find? (fun e => e.1 = trim N.name) = some tt ∧ tt.2 = t ∧ t ≠ q))
    (fun cs => ∀ (path : NodePath) (i : Nat) (acc : List (NodePath × NodePath)),
      (q, t) ∈ visitBindingsChildren T cs path i acc ↔
        ((q, t) ∈ acc ∨ ∃ k c r N, cs[k]? = some c ∧ q = path ++ (i + k) :: r ∧
          c.get r = some N ∧ N.base_style = none ∧ trim N.name ≠ [] ∧
          ∃ tt, T.find? (fun e => e.1 = trim N.name) = some tt ∧ tt.2 = t ∧ t ≠ q))
    ?_ ?_ ?_
  · intro n b i cb ci p s e kids ih path acc
    rw [visitBindings, ih]
    constructor
    · rintro (h | ⟨k, d, r, N, hd, hq, hN, hrest⟩)
      · split_ifs at h with hc
        · split at h
          · rename_i tt htt
            split_ifs at h with hne
            · rcases List.mem_append.mp h with h | h
              · exact Or.inl h
              · simp only [List.mem_singleton, Prod.mk.injEq] at h
                right
                refine ⟨[], _, by simp [h.1], get_nil _, ?_, hc.2, tt, htt, h.2.symm, ?_⟩
                · simpa [OTUINode.base_style] using hc.1
                · rw [h.1, h.2]; exact hne
            · exact Or.inl h
          · exact Or.inl h
        · exact Or.inl h
      · right
        refine ⟨k :: r, N, by simpa using hq, ?_, hrest⟩
        rw [get_cons]
        simp only [OTUINode.children, hd]
        exact hN
    · rintro (h | ⟨r, N, hq, hN, hbs, hnm, tt, htt, ht, hne⟩)
      · left
        split_ifs with hc
        · split
          · split_ifs
            · exact List.mem_append_left _ h
            · exact h
          · exact h
        · exact h
      · cases r with
        | nil =>
          rw [get_nil] at hN
          cases hN
          left
          have hc : b.isNone = true ∧ trim n ≠ [] := by
            refine ⟨?_, hnm⟩
            simpa [OTUINode.base_style] using hbs
          rw [if_pos hc]
          have htt2 : T.find? (fun e => e.1 = trim n) = some tt := htt
          simp only [htt2]
          have hq2 : q = path := by simpa using hq
          have hne2 : tt.2 ≠ path := by rw [ht, ← hq2]; exact hne
          rw [if_pos hne2]
          apply List.mem_append_right
          simp [hq2, ht]
        | cons k r =>
          rw [get_cons] at hN
          simp only [OTUINode.children] at hN
          cases hd : kids[k]? with
          | none => rw [hd] at hN; cases hN
          | some d =>
            rw [hd] at hN
            right
            exact ⟨k, d, r, N, hd, by simpa using hq, hN, hbs, hnm, tt, htt, ht, hne⟩
  · beta_reduce
    intro path i acc
    simp [visitBindingsChildren]
  · beta_reduce
    intro c cs ihc ihcs path i acc
    rw [visitBindingsChildren, ihcs, ihc]
    constructor
    · rintro ((h | ⟨r, N, hq, hN, hrest⟩) | ⟨k, d, r, N, hd, hq, hN, hrest⟩)
      · exact Or.inl h
      · right
        exact ⟨0, c, r, N, by simp, by simpa using hq, hN, hrest⟩
      · right
        refine ⟨k + 1, d, r, N, by simpa using hd, ?_, hN, hrest⟩
        rw [hq]
        congr 2
        omega
    · rintro (h | ⟨k, d, r, N, hd, hq, hN, hrest⟩)
      · exact Or.inl (Or.inl h)
      · cases k with
        | zero =>
          simp at hd
          subst hd
          left; right
          exact ⟨r, N, by simpa using hq, hN, hrest⟩
        | succ k =>
          right
          refine ⟨k, d, r, N, by simpa using hd, ?_, hN, hrest⟩
          rw [hq]
          congr 2
          omega
theorem firstTemplate_unique (root : OTUINode) (nm : Str) (i j : Nat)
    (hi : FirstTemplate root nm i) (hj : FirstTemplate root nm j) : i = j := by
  obtain ⟨⟨ci, hci, hqi⟩, hmi⟩ := hi
  obtain ⟨⟨cj, hcj, hqj⟩, hmj⟩ := hj
  rcases Nat.lt_trichotomy i j with h | h | h
  · exact absurd hqi (hmj i ci h hci)
  · exact h
  · exact absurd hqj (hmi j cj h hcj)

theorem get_single (root : OTUINode) (i : Nat) (c : OTUINode)
    (h : root.children[i]? = some c) : root.get [i] = some c := by
  rw [get_cons, h]
  exact get_nil c

theorem bindings_mem_iff (root : OTUINode) (p t : NodePath) :
    (p, t) ∈ (buildLocalTemplateBindings root).1 ↔
      ∃ N i, root.get p = some N ∧ N.base_style = none ∧ trim N.name ≠ [] ∧
        t = [i] ∧ FirstTemplate root (trim N.name) i := by
  unfold buildLocalTemplateBindings
  simp only
  rw [visitBindings_mem]
  constructor
  · rintro (h | ⟨r, N, hq, hN, hbs, hnm, tt, htt, ht, _⟩)
    · simp at h
    · rw [collectTemplates_find (trim N.name) hnm] at htt
      simp only [List.find?_nil] at htt
      cases hf : firstTemplateFrom root.children 0 (trim N.name) with
      | none => rw [hf] at htt; cases htt
      | some j =>
        rw [hf] at htt
        simp only [Option.map_some', Option.some.injEq] at htt
        obtain ⟨j2, hj2, hc, hmin⟩ := (firstTemplateFrom_spec (trim N.name) root.children 0 j).mp hf
        have hjj : j2 = j := by omega
        subst hjj
        refine ⟨N, j2, by simpa using hq ▸ hN, hbs, hnm, ?_, hc, hmin⟩
        rw [← ht, ← htt]
  · rintro ⟨N, i, hN, hbs, hnm, ht, hc, hmin⟩
    right
    have hf : firstTemplateFrom root.children 0 (trim N.name) = some i :=
      (firstTemplateFrom_spec (trim N.name) root.children 0 i).mpr ⟨i, by omega, hc, hmin⟩
    refine ⟨p, N, by simp, hN, hbs, hnm, (trim N.name, [i]), ?_, ht.symm, ?_⟩
    · rw [collectTemplates_find (trim N.name) hnm]
      simp [hf]
    · intro hpt
      obtain ⟨c, hci, hq1, _, _⟩ := hc
      rw [← hpt, ht, get_single root i c hci] at hN
      simp only [Option.some.injEq] at hN
      rw [hN, hbs] at hq1
      exact absurd hq1 (by simp)

theorem bindingFind_mem (p : NodePath) :
    ∀ (l : List (NodePath × NodePath)) (t : NodePath),
      bindingFind l p = some t → (p, t) ∈ l := by
  intro l
  induction l with
  | nil => intro t h; simp [bindingFind] at h
  | cons b bs ih =>
    intro t h
    unfold bindingFind at h
    by_cases hb : b.1 = p
    · rw [if_pos hb] at h
      simp only [Option.some.injEq] at h
      rw [← hb, ← h]
      simp
    · rw [if_neg hb] at h
      exact List.mem_cons_of_mem _ (ih t h)

theorem bindingFind_of_mem (p t : NodePath) :
    ∀ (l : List (NodePath × NodePath)), (p, t) ∈ l → ∃ t2, bindingFind l p = some t2 := by
  intro l
  induction l with
  | nil => intro h; simp at h
  | cons b bs ih =>
    intro h
    unfold bindingFind
    by_cases hb : b.1 = p
    · rw [if_pos hb]; exact ⟨_, rfl⟩
    · rw [if_neg hb]
      simp only [List.mem_cons] at h
      rcases h with h | h
      · rw [← h] at hb
        exact absurd rfl hb
      · exact ih h

/-- C18: `buildLocalTemplateBindings` binds the node `N` at `p` to the node at
`t` exactly when `N` has no base style, the trimmed name of `N` is not empty,
and `t` is the first root-level child with that trimmed name that has a base
style and no non-empty `id` property; the lookup of the binding of `p` finds
exactly that node. Hence no node is bound to itself, a bound node has no base
style, and the target of a binding is a root-level template definition. -/
theorem local_template_binding_iff (root : OTUINode) (p t : NodePath) :
    ((p, t) ∈ (buildLocalTemplateBindings root).1 ↔
        ∃ N i, root.get p = some N ∧ N.base_style = none ∧ trim N.name ≠ [] ∧
          t = [i] ∧ FirstTemplate root (trim N.name) i)
      ∧ (bindingFind (buildLocalTemplateBindings root).1 p = some t ↔
          (p, t) ∈ (buildLocalTemplateBindings root).1)
      ∧ ((p, t) ∈ (buildLocalTemplateBindings root).1 →
          t ≠ p ∧ (∃ N, root.get p = some N ∧ N.base_style = none) ∧
          ∃ i T, t = [i] ∧ root.get t = some T ∧ isTemplateDefinitionNode T = true) := by
  refine ⟨bindings_mem_iff root p t, ⟨bindingFind_mem p _ t, ?_⟩, ?_⟩
  · intro h
    obtain ⟨t2, ht2⟩ := bindingFind_of_mem p t _ h
    have h2 := bindingFind_mem p _ t2 ht2
    obtain ⟨N, i, hN, _, _, ht, hf⟩ := (bindings_mem_iff root p t).mp h
    obtain ⟨N2, i2, hN2, _, _, ht2b, hf2⟩ := (bindings_mem_iff root p t2).mp h2
    rw [hN] at hN2
    cases hN2
    have := firstTemplate_unique root _ i i2 hf hf2
    rw [ht2, ht2b, ht, this]
  · intro h
    obtain ⟨N, i, hN, hbs, _, ht, ⟨c, hci, hq1, hq2, _⟩, _⟩ := (bindings_mem_iff root p t).mp h
    have hT : root.get t = some c := by rw [ht]; exact get_single root i c hci
    refine ⟨?_, ⟨N, hN, hbs⟩, i, c, ht, hT, ?_⟩
    · intro hpt
      rw [hpt, hN] at hT
      cases hT
      rw [hbs] at hq1
      exact absurd hq1 (by simp)
    · unfold isTemplateDefinitionNode
      rw [hq1, hq2]
      rfl

/-! ## The widget list of a tree -/

theorem getElem?_lt {α : Type} (l : List α) (i : Nat) (a : α) (h : l[i]? = some a) :
    i < l.length := by
  rcases Nat.lt_or_ge i l.length with h2 | h2
  · exact h2
  · rw [List.getElem?_eq_none h2] at h
    cases h

theorem absLoop_total (heap : List Widget) (hwp : WellParented heap) :
    ∀ (fuel : Nat) (pos : QPoint) (par : Option Nat),
      (∀ p, par = some p → p < fuel ∧ p < heap.length) →
      ∃ P, absLoop heap fuel pos par = some P := by
  intro fuel
  induction fuel with
  | zero =>
    intro pos par h
    cases par with
    | none => exact ⟨pos, by simp [absLoop]⟩
    | some p => exact absurd (h p rfl).1 (by omega)
  | succ fuel ih =>
    intro pos par h
    cases par with
    | none => exact ⟨pos, by simp [absLoop]⟩
    | some p =>
      obtain ⟨h1, h2⟩ := h p rfl
      have hp : heap[p]? = some heap[p] := List.getElem?_eq_getElem h2
      simp only [absLoop, hp]
      apply ih
      intro q hq
      have := hwp p _ hp q hq
      exact ⟨by omega, by omega⟩

theorem absolutePosition_total (heap : List Widget) (hwp : WellParented heap)
    (t : Option Nat) (ht : ∀ i, t = some i → i < heap.length) :
    ∃ P, absolutePosition heap t = some P := by
  cases t with
  | none => exact ⟨_, rfl⟩
  | some i =>
    have hi := ht i rfl
    have hp : heap[i]? = some heap[i] := List.getElem?_eq_getElem hi
    simp only [absolutePosition, hp]
    apply absLoop_total heap hwp
    intro q hq
    have := hwp i _ hp q hq
    exact ⟨by omega, by omega⟩

theorem edgeCoordinate_total (heap : List Widget) (hwp : WellParented heap)
    (i : Nat) (hi : i < heap.length) (e : AnchorEdge) :
    ∃ c, edgeCoordinate heap (some i) e = some c := by
  have hp : heap[i]? = some heap[i] := List.getElem?_eq_getElem hi
  obtain ⟨P, hP⟩ := absolutePosition_total heap hwp (some i) (fun j hj => by cases hj; exact hi)
  simp only [edgeCoordinate, hp, hP]
  cases e <;> exact ⟨_, rfl⟩

theorem anchorResolver_lt (heap : List Widget) (i : Nat) (id : Str) (t : Nat)
    (h : anchorResolver heap i id = some t) : t < heap.length := by
  unfold anchorResolver at h
  split_ifs at h
  · cases hw : heap[i]? with
    | none => simp [findPreviousSibling, hw] at h
    | some w =>
      have := ((findPreviousSibling_spec heap i w hw).1 t).mp h
      have hi := getElem?_lt heap i w hw
      omega
  · have := ((lookupId_last heap id t).mp h).1
    cases ht : heap[t]? with
    | none => rw [ht] at this; simp at this
    | some v => exact getElem?_lt heap t v ht

theorem coordDefined_of_wellParented (heap : List Widget) (hwp : WellParented heap)
    (i : Nat) (w : Widget) (hw : heap[i]? = some w) (b : AnchorBinding) :
    CoordDefined heap w (some (anchorResolver heap i)) b := by
  intro t ht
  apply edgeCoordinate_total heap hwp
  unfold resolveTarget at ht
  split_ifs at ht
  · have := hwp i w hw t ht
    have := getElem?_lt heap i w hw
    omega
  · exact anchorResolver_lt heap i _ t ht

/-- On a list whose parent references point backwards, `applyAnchors` returns:
the list with a new rect for the widget. -/
theorem applyAnchors_total (heap : List Widget) (hwp : WellParented heap)
    (i : Nat) (w : Widget) (hw : heap[i]? = some w) :
    ∃ r, applyAnchors heap i (some (anchorResolver heap i))
      = some (heap.set i { w with m_rect := r }) := by
  have hcd := coordDefined_of_wellParented heap hwp i w hw
  obtain ⟨P, hP⟩ := absolutePosition_total heap hwp w.m_parent (fun p hp => by
    have := hwp i w hw p hp
    have := getElem?_lt heap i w hw
    omega)
  obtain ⟨r1, h1, _⟩ := applyHorizontal_defined heap w _ P false w.m_rect (hcd _)
  obtain ⟨r2, h2, _⟩ := applyHorizontal_defined heap w _ P true r1 (hcd _)
  obtain ⟨r3, h3, _⟩ := applyVertical_defined heap w _ P false r2 (hcd _)
  obtain ⟨r4, h4, _⟩ := applyVertical_defined heap w _ P true r3 (hcd _)
  obtain ⟨r5, h5, _⟩ := applyCenter_horizontal_defined heap w _ P r4 (hcd _)
  obtain ⟨r6, h6, _⟩ := applyCenter_vertical_defined heap w _ P r5 (hcd _)
  refine ⟨r6, applyAnchors_of_rect heap i w _ r6 hw ?_⟩
  simp [applyAnchorsRect, hP, h1, h2, h3, h4, h5, h6]

theorem wellParented_set (heap : List Widget) (hwp : WellParented heap) (i : Nat)
    (w : Widget) (hw : heap[i]? = some w) (r : QRect) :
    WellParented (heap.set i { w with m_rect := r }) := by
  intro k v hv p hp
  by_cases hk : i = k
  · subst hk
    rw [List.getElem?_set_self (getElem?_lt heap i w hw)] at hv
    cases hv
    exact hwp i w hw p hp
  · rw [List.getElem?_set_ne hk] at hv
    exact hwp k v hv p hp

theorem map_withoutRect_set (heap : List Widget) (i : Nat) (w : Widget)
    (hw : heap[i]? = some w) (r : QRect) :
    (heap.set i { w with m_rect := r }).map Widget.withoutRect
      = heap.map Widget.withoutRect := by
  apply List.ext_getElem?
  intro k
  simp only [List.getElem?_map]
  by_cases hk : i = k
  · subst hk
    rw [List.getElem?_set_self (getElem?_lt heap i w hw), hw]
    rfl
  · rw [List.getElem?_set_ne hk]

theorem resolveAnchorsLoop_total :
    ∀ (k i : Nat) (heap : List Widget), WellParented heap → i + k ≤ heap.length →
      ∃ ws, resolveAnchorsLoop k i heap = some ws ∧
        ws.map Widget.withoutRect = heap.map Widget.withoutRect := by
  intro k
  induction k with
  | zero => intro i heap _ _; exact ⟨heap, rfl, rfl⟩
  | succ k ih =>
    intro i heap hwp hlen
    have hi : i < heap.length := by omega
    have hw : heap[i]? = some heap[i] := List.getElem?_eq_getElem hi
    obtain ⟨r, hr⟩ := applyAnchors_total heap hwp i _ hw
    simp only [resolveAnchorsLoop, hr]
    obtain ⟨ws, h1, h2⟩ := ih (i + 1) _ (wellParented_set heap hwp i _ hw r)
      (by simp only [List.length_set]; omega)
    exact ⟨ws, h1, by rw [h2, map_withoutRect_set heap i _ hw r]⟩

/-- The anchor pass on a list whose parent references point backwards returns,
and changes nothing but rects. -/
theorem resolveAnchors_total (heap : List Widget) (hwp : WellParented heap) :
    ∃ ws, resolveAnchors heap = some ws ∧
      ws.map Widget.withoutRect = heap.map Widget.withoutRect :=
  resolveAnchorsLoop_total heap.length 0 heap hwp (by omega)
theorem emitsFor_nil (env : Env) (ctx : BuildContext) (dataPath : Str) (top : NodePath → Prop)
    (off : Nat) (par : Option Nat) : EmitsFor env ctx dataPath top [] [] off par :=
  ⟨rfl, fun k p n h => by simp at h⟩

theorem emitsFor_append (env : Env) (ctx : BuildContext) (dataPath : Str)
    (top : NodePath → Prop) (ws1 ws2 : List Widget) (L1 L2 : List (NodePath × OTUINode))
    (off : Nat) (par : Option Nat)
    (h1 : EmitsFor env ctx dataPath top ws1 L1 off par)
    (h2 : EmitsFor env ctx dataPath top ws2 L2 (off + L1.length) par) :
    EmitsFor env ctx dataPath top (ws1 ++ ws2) (L1 ++ L2) off par := by
  obtain ⟨hl1, hs1⟩ := h1
  obtain ⟨hl2, hs2⟩ := h2
  refine ⟨by simp [hl1, hl2], ?_⟩
  intro k p n hk
  by_cases hlt : k < L1.length
  · rw [List.getElem?_append_left hlt] at hk
    obtain ⟨pr, hw, hp⟩ := hs1 k p n hk
    refine ⟨pr, ?_, ?_⟩
    · rw [List.getElem?_append_left (by omega)]
      exact hw
    · rcases hp with hp | ⟨j, pn, hj, hLj, hpr⟩
      · exact Or.inl hp
      · right
        refine ⟨j, pn, hj, ?_, hpr⟩
        rw [List.getElem?_append_left (by omega)]
        exact hLj
  · have hge : L1.length ≤ k := by omega
    rw [List.getElem?_append_right hge] at hk
    obtain ⟨pr, hw, hp⟩ := hs2 (k - L1.length) p n hk
    refine ⟨pr, ?_, ?_⟩
    · rw [List.getElem?_append_right (by omega), hl1]
      exact hw
    · rcases hp with hp | ⟨j, pn, hj, hLj, hpr⟩
      · exact Or.inl hp
      · right
        refine ⟨L1.length + j, pn, by omega, ?_, ?_⟩
        · rw [List.getElem?_append_right (by omega)]
          simpa using hLj
        · rw [hpr]
          congr 1
          omega

theorem emitsFor_cons (env : Env) (ctx : BuildContext) (dataPath : Str)
    (path : NodePath) (node : OTUINode) (wsC : List Widget) (LC : List (NodePath × OTUINode))
    (off : Nat) (par : Option Nat)
    (h : EmitsFor env ctx dataPath (fun p => p ≠ [] ∧ p.dropLast = path) wsC LC (off + 1)
      (some off)) :
    EmitsFor env ctx dataPath (fun p => p = path)
      (nodeWidget env ctx dataPath path node par :: wsC) ((path, node) :: LC) off par := by
  obtain ⟨hl, hs⟩ := h
  refine ⟨by simp [hl], ?_⟩
  intro k p n hk
  cases k with
  | zero =>
    simp only [List.getElem?_cons_zero, Option.some.injEq, Prod.mk.injEq] at hk
    refine ⟨par, ?_, Or.inl ⟨hk.1.symm, rfl⟩⟩
    rw [← hk.1, ← hk.2]
    simp
  | succ k =>
    simp only [List.getElem?_cons_succ] at hk
    obtain ⟨pr, hw, hp⟩ := hs k p n hk
    refine ⟨pr, by simpa using hw, Or.inr ?_⟩
    rcases hp with ⟨⟨_, hd⟩, hpr⟩ | ⟨j, pn, hj, hLj, hpr⟩
    · exact ⟨0, node, by omega, by simp [hd], by simp [hpr]⟩
    · refine ⟨j + 1, pn, by omega, by simpa using hLj, ?_⟩
      rw [hpr]
      congr 1
      omega

theorem emitsFor_top (env : Env) (ctx : BuildContext) (dataPath : Str)
    (top top2 : NodePath → Prop) (ws : List Widget) (L : List (NodePath × OTUINode))
    (off : Nat) (par : Option Nat) (hi : ∀ p, top p → top2 p)
    (h : EmitsFor env ctx dataPath top ws L off par) :
    EmitsFor env ctx dataPath top2 ws L off par := by
  obtain ⟨hl, hs⟩ := h
  refine ⟨hl, ?_⟩
  intro k p n hk
  obtain ⟨pr, hw, hp⟩ := hs k p n hk
  refine ⟨pr, hw, ?_⟩
  rcases hp with ⟨ht, hpr⟩ | hp
  · exact Or.inl ⟨hi p ht, hpr⟩
  · exact Or.inr hp

theorem preorder_mk (name : Str) (bs : Option Str) (indent : Int) (cb ci : Option Str)
    (props : List OTUIProp) (states : List OTUIState) (events : List OTUIEvent)
    (children : List OTUINode) (path : NodePath) :
    preorder (.mk name bs indent cb ci props states events children) path
      = (path, .mk name bs indent cb ci props states events children)
        :: preorderChildren children path 0 := by
  rw [preorder]

/-- A node that is not skipped: `visitNode` appends its widget and visits the
children with that widget as parent. -/
theorem visitNode_emit (env : Env) (ctx : BuildContext) (dataPath : Str)
    (name : Str) (bs : Option Str) (indent : Int) (cb ci : Option Str)
    (props : List OTUIProp) (states : List OTUIState) (events : List OTUIEvent)
    (children : List OTUINode) (path : NodePath) (parent : Option Nat) (out : List Widget)
    (hpath : path ≠ [])
    (hskip : parent = none → ¬ (path ∈ ctx.templateRoots ∨
      isTemplateDefinitionNode (.mk name bs indent cb ci props states events children) = true)) :
    visitNode env ctx dataPath (.mk name bs indent cb ci props states events children)
        path parent out
      = visitNodeChildren env ctx dataPath children path 0 (some out.length)
          (out ++ [nodeWidget env ctx dataPath path
            (.mk name bs indent cb ci props states events children) parent]) := by
  rw [visitNode]
  simp only [hpath, if_false]
  have hc : ¬ (parent = none ∧ (path ∈ ctx.templateRoots ∨
      (nodeProperty (.mk name bs indent cb ci props states events children) "id".toList [] = []
        ∧ bs.isSome = true))) := by
    rintro ⟨hp, h⟩
    apply hskip hp
    rcases h with h | ⟨h1, h2⟩
    · exact Or.inl h
    · right
      unfold isTemplateDefinitionNode
      simp only [OTUINode.base_style, h2, Bool.true_and, decide_eq_true_eq]
      exact h1
  rw [if_neg hc]
  rfl

theorem visitNode_structure (env : Env) (ctx : BuildContext) (dataPath : Str) :
    ∀ (node : OTUINode) (path : NodePath) (parent : Option Nat) (out : List Widget),
      path ≠ [] →
      (parent = none → ¬ (path ∈ ctx.templateRoots ∨ isTemplateDefinitionNode node = true)) →
      ∃ ws, visitNode env ctx dataPath node path parent out = out ++ ws ∧
        EmitsFor env ctx dataPath (fun p => p = path) ws (preorder node path) out.length
          parent := by
  refine tree_induction
    (fun node => ∀ (path : NodePath) (parent : Option Nat) (out : List Widget),
      path ≠ [] →
      (parent = none → ¬ (path ∈ ctx.templateRoots ∨ isTemplateDefinitionNode node = true)) →
      ∃ ws, visitNode env ctx dataPath node path parent out = out ++ ws ∧
        EmitsFor env ctx dataPath (fun p => p = path) ws (preorder node path) out.length
          parent)
    (fun cs => ∀ (path : NodePath) (i pidx : Nat) (out : List Widget),
      ∃ ws, visitNodeChildren env ctx dataPath cs path i (some pidx) out = out ++ ws ∧
        EmitsFor env ctx dataPath (fun p => p ≠ [] ∧ p.dropLast = path) ws
          (preorderChildren cs path i) out.length (some pidx))
    ?_ ?_ ?_
  · intro n b i cb ci p s e kids ih path parent out hpath hskip
    rw [visitNode_emit env ctx dataPath n b i cb ci p s e kids path parent out hpath hskip]
    obtain ⟨ws, hws, hspec⟩ := ih path 0 out.length
      (out ++ [nodeWidget env ctx dataPath path (.mk n b i cb ci p s e kids) parent])
    refine ⟨nodeWidget env ctx dataPath path (.mk n b i cb ci p s e kids) parent :: ws, ?_, ?_⟩
    · rw [hws]
      simp
    · rw [preorder_mk]
      apply emitsFor_cons
      simpa using hspec
  · beta_reduce
    intro path i pidx out
    exact ⟨[], by simp [visitNodeChildren], by
      rw [preorderChildren]
      exact emitsFor_nil env ctx dataPath _ _ _⟩
  · beta_reduce
    intro c cs ihc ihcs path i pidx out
    obtain ⟨ws1, h1, s1⟩ := ihc (path ++ [i]) (some pidx) out (by simp) (fun h => by cases h)
    obtain ⟨ws2, h2, s2⟩ := ihcs path (i + 1) pidx (out ++ ws1)
    refine ⟨ws1 ++ ws2, ?_, ?_⟩
    · rw [visitNodeChildren, h1, h2]
      simp
    · rw [preorderChildren]
      apply emitsFor_append
      · exact emitsFor_top env ctx dataPath _ _ ws1 _ _ _
          (fun p hp => by rw [hp]; simp) s1
      · rw [← s1.1]
        simpa using s2
theorem collectTemplates_roots :
    ∀ (cs : List OTUINode) (i : Nat) (T : List (Str × NodePath)) (R : List NodePath)
      (p : NodePath), p ∈ (collectTemplates cs i T R).2 →
      p ∈ R ∨ ∃ k c, p = [i + k] ∧ cs[k]? = some c ∧ isTemplateDefinitionNode c = true := by
  intro cs
  induction cs with
  | nil => intro i T R p h; exact Or.inl h
  | cons c cs ih =>
    intro i T R p h
    have hshift : (∃ k d, p = [i + 1 + k] ∧ cs[k]? = some d ∧ isTemplateDefinitionNode d = true) →
        ∃ k d, p = [i + k] ∧ (c :: cs)[k]? = some d ∧ isTemplateDefinitionNode d = true := by
      rintro ⟨k, d, hp, hd, ht⟩
      exact ⟨k + 1, d, by rw [hp]; congr 1; omega, by simpa using hd, ht⟩
    unfold collectTemplates at h
    split_ifs at h with h1 h2 h3
    · rcases ih _ _ _ p h with h | h
      · exact Or.inl h
      · exact Or.inr (hshift h)
    · rcases ih _ _ _ p h with h | h
      · exact Or.inl h
      · exact Or.inr (hshift h)
    · rcases ih _ _ _ p h with h | h
      · exact Or.inl h
      · exact Or.inr (hshift h)
    all_goals
      rcases ih _ _ _ p h with h | h
      · rcases List.mem_append.mp h with h | h
        · exact Or.inl h
        · right
          simp only [List.mem_singleton] at h
          refine ⟨0, c, by simpa using h, by simp, ?_⟩
          unfold isTemplateDefinitionNode
          have hb : c.base_style.isSome = true := by
            cases hbs : c.base_style <;> simp [hbs] at h1 ⊢
          have hid : nodeProperty c "id".toList [] = [] := by
            by_contra hc
            exact h3 hc
          rw [hb, hid]
          rfl
      · exact Or.inr (hshift h)

theorem templateRoots_spec (env : Env) (root : OTUINode) (dataPath : Str) (i : Nat)
    (c : OTUINode) (hc : root.children[i]? = some c)
    (h : [i] ∈ (makeContext env root dataPath).templateRoots) :
    isTemplateDefinitionNode c = true := by
  have h2 : [i] ∈ (collectTemplates root.children 0 [] []).2 := h
  rcases collectTemplates_roots root.children 0 [] [] [i] h2 with h3 | ⟨k, d, hk, hd, ht⟩
  · simp at h3
  · simp only [Nat.zero_add, List.cons.injEq, and_true] at hk
    rw [← hk, hc] at hd
    cases hd
    exact ht

theorem visitNode_skip (env : Env) (ctx : BuildContext) (dataPath : Str) (node : OTUINode)
    (i : Nat) (out : List Widget) (h : isTemplateDefinitionNode node = true) :
    visitNode env ctx dataPath node [i] none out = out := by
  cases node with
  | mk name bs indent cb ci props states events children =>
    rw [visitNode]
    simp only [List.cons_ne_nil, if_false]
    unfold isTemplateDefinitionNode at h
    simp only [OTUINode.base_style, Bool.and_eq_true, decide_eq_true_eq] at h
    rw [if_pos ⟨trivial, Or.inr ⟨h.2, h.1⟩⟩]

/-- The loop of `visitNode` over the root-level nodes. -/
theorem visitRoot_structure (env : Env) (root : OTUINode) (dataPath : Str) :
    ∀ (cs : List OTUINode) (i : Nat) (out : List Widget),
      (∀ k c, cs[k]? = some c → root.children[i + k]? = some c) →
      ∃ ws, visitNodeChildren env (makeContext env root dataPath) dataPath cs [] i none out
          = out ++ ws ∧
        EmitsFor env (makeContext env root dataPath) dataPath
          (fun p => p ≠ [] ∧ p.dropLast = []) ws (emittedFrom cs i) out.length none := by
  intro cs
  induction cs with
  | nil =>
    intro i out _
    exact ⟨[], by simp [visitNodeChildren], emitsFor_nil _ _ _ _ _ _⟩
  | cons c cs ih =>
    intro i out hsuf
    have hci : root.children[i]? = some c := by simpa using hsuf 0 c (by simp)
    have hsuf2 : ∀ k d, cs[k]? = some d → root.children[i + 1 + k]? = some d := by
      intro k d hd
      have := hsuf (k + 1) d (by simpa using hd)
      rw [← this]
      congr 1
      omega
    rw [visitNodeChildren, emittedFrom]
    simp only [List.nil_append]
    by_cases ht : isTemplateDefinitionNode c = true
    · rw [visitNode_skip env _ dataPath c i out ht, if_pos ht]
      simpa using ih (i + 1) out hsuf2
    · rw [if_neg ht]
      obtain ⟨ws1, h1, s1⟩ := visitNode_structure env (makeContext env root dataPath) dataPath
        c [i] none out (by simp) (fun _ h => by
          rcases h with h | h
          · exact ht (templateRoots_spec env root dataPath i c hci h)
          · exact ht h)
      obtain ⟨ws2, h2, s2⟩ := ih (i + 1) (out ++ ws1) hsuf2
      refine ⟨ws1 ++ ws2, ?_, ?_⟩
      · rw [h1, h2]
        simp
      · apply emitsFor_append
        · exact emitsFor_top env _ dataPath _ _ ws1 _ _ _ (fun p hp => by rw [hp]; simp) s1
        · rw [← s1.1]
          simpa using s2

theorem preorder_extends :
    ∀ (node : OTUINode) (path : NodePath) (pn : NodePath × OTUINode),
      pn ∈ preorder node path → ∃ r, pn.1 = path ++ r := by
  refine tree_induction
    (fun node => ∀ (path : NodePath) (pn : NodePath × OTUINode),
      pn ∈ preorder node path → ∃ r, pn.1 = path ++ r)
    (fun cs => ∀ (path : NodePath) (i : Nat) (pn : NodePath × OTUINode),
      pn ∈ preorderChildren cs path i → ∃ r, pn.1 = path ++ r)
    ?_ ?_ ?_
  · intro n b i cb ci p s e kids ih path pn h
    rw [preorder_mk] at h
    simp only [List.mem_cons] at h
    rcases h with h | h
    · exact ⟨[], by rw [h]; simp⟩
    · exact ih path 0 pn h
  · beta_reduce
    intro path i pn h
    rw [preorderChildren] at h
    simp at h
  · beta_reduce
    intro c cs ihc ihcs path i pn h
    rw [preorderChildren] at h
    rcases List.mem_append.mp h with h | h
    · obtain ⟨r, hr⟩ := ihc (path ++ [i]) pn h
      exact ⟨i :: r, by rw [hr]; simp⟩
    · exact ihcs path (i + 1) pn h

/-- The nodes the root-level loop emits are the nodes of the tree outside the
subtrees of the root-level templates. -/
theorem emittedFrom_eq_filter (root : OTUINode) :
    ∀ (cs : List OTUINode) (i : Nat),
      (∀ k c, cs[k]? = some c → root.children[i + k]? = some c) →
      (preorderChildren cs [] i).filter (fun pn => !inTemplateSubtree root pn.1)
        = emittedFrom cs i := by
  intro cs
  induction cs with
  | nil => intro i _; rw [preorderChildren, emittedFrom]; rfl
  | cons c cs ih =>
    intro i hsuf
    have hci : root.children[i]? = some c := by simpa using hsuf 0 c (by simp)
    have hsuf2 : ∀ k d, cs[k]? = some d → root.children[i + 1 + k]? = some d := by
      intro k d hd
      have := hsuf (k + 1) d (by simpa using hd)
      rw [← this]
      congr 1
      omega
    rw [preorderChildren, emittedFrom, List.filter_append, ih (i + 1) hsuf2]
    congr 1
    have hin : ∀ pn, pn ∈ preorder c ([] ++ [i]) →
        inTemplateSubtree root pn.1 = isTemplateDefinitionNode c := by
      intro pn hpn
      obtain ⟨r, hr⟩ := preorder_extends c _ pn hpn
      rw [hr]
      simp [inTemplateSubtree, hci]
    by_cases ht : isTemplateDefinitionNode c = true
    · rw [if_pos ht]
      apply List.filter_eq_nil_iff.mpr
      intro pn hpn
      rw [hin pn hpn, ht]
      simp
    · rw [if_neg ht]
      simp only [List.nil_append]
      apply List.filter_eq_self.mpr
      intro pn hpn
      have := hin pn (by simpa using hpn)
      rw [this]
      simpa using ht

theorem visitRoot_emitted (env : Env) (root : OTUINode) (dataPath : Str) :
    EmitsFor env (makeContext env root dataPath) dataPath (fun p => p ≠ [] ∧ p.dropLast = [])
      (visitNode env (makeContext env root dataPath) dataPath root [] none [])
      (emittedNodes root) 0 none := by
  obtain ⟨ws, h, hs⟩ := visitRoot_structure env root dataPath root.children 0 []
    (fun k c hc => by simpa using hc)
  have hv : visitNode env (makeContext env root dataPath) dataPath root [] none []
      = visitNodeChildren env (makeContext env root dataPath) dataPath root.children [] 0
        none [] := by
    cases root with
    | mk name bs indent cb ci props states events children =>
      rw [visitNode]
      simp [OTUINode.children]
  rw [hv, h]
  unfold emittedNodes
  rw [emittedFrom_eq_filter root root.children 0 (fun k c hc => by simpa using hc)]
  simpa using hs
theorem widgetId_fallback (node : OTUINode) :
    (if nodeProperty node "id".toList node.name = [] then node.name
      else nodeProperty node "id".toList node.name)
    = (if nodeProperty node "id".toList [] = [] then node.name
      else nodeProperty node "id".toList []) := by
  unfold nodeProperty
  cases otui_prop_get node "id".toList with
  | none =>
    simp only [if_true]
    split_ifs <;> rfl
  | some v => rfl

theorem buildWidgetsFromNode_emit (env : Env) (ctx : BuildContext) (dataPath : Str)
    (name : Str) (bs : Option Str) (indent : Int) (cb ci : Option Str)
    (props : List OTUIProp) (states : List OTUIState) (events : List OTUIEvent)
    (children : List OTUINode) (path : NodePath) (parent : Option Nat) (out : List Widget) :
    buildWidgetsFromNode env ctx dataPath false
        (.mk name bs indent cb ci props states events children) path parent out
      = buildWidgetsFromChildren env ctx dataPath false children path 0 (some out.length)
          (out ++ [nodeWidget env ctx dataPath path
            (.mk name bs indent cb ci props states events children) parent]) := by
  rw [buildWidgetsFromNode]
  rw [if_neg (by simp)]
  have h := widgetId_fallback (.mk name bs indent cb ci props states events children)
  simp only [OTUINode.name] at h
  simp only [h]
  rfl

/-- Without the skipping of templates `buildWidgetsFromNode` emits a widget for
the node and every descendant. -/
theorem buildWidgetsFromNode_structure (env : Env) (ctx : BuildContext) (dataPath : Str) :
    ∀ (node : OTUINode) (path : NodePath) (parent : Option Nat) (out : List Widget),
      ∃ ws, buildWidgetsFromNode env ctx dataPath false node path parent out = out ++ ws ∧
        EmitsFor env ctx dataPath (fun p => p = path) ws (preorder node path) out.length
          parent := by
  refine tree_induction
    (fun node => ∀ (path : NodePath) (parent : Option Nat) (out : List Widget),
      ∃ ws, buildWidgetsFromNode env ctx dataPath false node path parent out = out ++ ws ∧
        EmitsFor env ctx dataPath (fun p => p = path) ws (preorder node path) out.length
          parent)
    (fun cs => ∀ (path : NodePath) (i pidx : Nat) (out : List Widget),
      ∃ ws, buildWidgetsFromChildren env ctx dataPath false cs path i (some pidx) out
          = out ++ ws ∧
        EmitsFor env ctx dataPath (fun p => p ≠ [] ∧ p.dropLast = path) ws
          (preorderChildren cs path i) out.length (some pidx))
    ?_ ?_ ?_
  · intro n b i cb ci p s e kids ih path parent out
    rw [buildWidgetsFromNode_emit]
    obtain ⟨ws, hws, hspec⟩ := ih path 0 out.length
      (out ++ [nodeWidget env ctx dataPath path (.mk n b i cb ci p s e kids) parent])
    refine ⟨nodeWidget env ctx dataPath path (.mk n b i cb ci p s e kids) parent :: ws, ?_, ?_⟩
    · rw [hws]
      simp
    · rw [preorder_mk]
      apply emitsFor_cons
      simpa using hspec
  · beta_reduce
    intro path i pidx out
    exact ⟨[], by simp [buildWidgetsFromChildren], by
      rw [preorderChildren]
      exact emitsFor_nil env ctx dataPath _ _ _⟩
  · beta_reduce
    intro c cs ihc ihcs path i pidx out
    obtain ⟨ws1, h1, s1⟩ := ihc (path ++ [i]) (some pidx) out
    obtain ⟨ws2, h2, s2⟩ := ihcs path (i + 1) pidx (out ++ ws1)
    refine ⟨ws1 ++ ws2, ?_, ?_⟩
    · rw [buildWidgetsFromChildren, h1, h2]
      simp
    · rw [preorderChildren]
      apply emitsFor_append
      · exact emitsFor_top env ctx dataPath _ _ ws1 _ _ _
          (fun p hp => by rw [hp]; simp) s1
      · rw [← s1.1]
        simpa using s2

theorem nodeWidget_parent (env : Env) (ctx : BuildContext) (dataPath : Str) (path : NodePath)
    (node : OTUINode) (parent : Option Nat) :
    (nodeWidget env ctx dataPath path node parent).m_parent = parent := rfl

theorem wellParented_of_emits (env : Env) (ctx : BuildContext) (dataPath : Str)
    (top : NodePath → Prop) (ws : List Widget) (L : List (NodePath × OTUINode))
    (h : EmitsFor env ctx dataPath top ws L 0 none) : WellParented ws := by
  obtain ⟨hl, hs⟩ := h
  intro k w hw q hq
  have hk : k < L.length := by rw [← hl]; exact getElem?_lt ws k w hw
  obtain ⟨pr, hwk, hp⟩ := hs k (L[k]).1 (L[k]).2 (List.getElem?_eq_getElem hk)
  rw [hw] at hwk
  simp only [Option.some.injEq] at hwk
  rw [hwk, nodeWidget_parent] at hq
  rcases hp with ⟨_, hpr⟩ | ⟨j, _, hj, _, hpr⟩
  · rw [hpr] at hq
    cases hq
  · rw [hpr] at hq
    simp only [Option.some.injEq] at hq
    omega

theorem eq_of_withoutRect (a b : Widget) (h : a.withoutRect = b.withoutRect) :
    a = { b with m_rect := a.m_rect } := by
  cases a
  cases b
  simp only [Widget.withoutRect, Widget.mk.injEq] at h
  simp only [Widget.mk.injEq]
  tauto

/-- The anchor pass on the widgets of a list of nodes returns, and the result
is the list of the widgets of these nodes, with new rects. -/
theorem loadsFor_of_emits (env : Env) (ctx : BuildContext) (dataPath : Str)
    (top : NodePath → Prop) (htop : ∀ p, top p → p.length = 1)
    (out : List Widget) (L : List (NodePath × OTUINode))
    (h : EmitsFor env ctx dataPath top out L 0 none) :
    ∃ ws, resolveAnchors out = some ws ∧ LoadsFor env ctx dataPath ws L := by
  obtain ⟨ws, hres, hmap⟩ := resolveAnchors_total out (wellParented_of_emits env ctx dataPath
    top out L h)
  obtain ⟨hl, hs⟩ := h
  have hlen : ws.length = out.length := by
    have := congrArg List.length hmap
    simpa using this
  refine ⟨ws, hres, by rw [hlen, hl], ?_⟩
  intro k p n hk
  obtain ⟨pr, hw, hp⟩ := hs k p n hk
  have hklt : k < ws.length := by rw [hlen]; exact getElem?_lt out k _ hw
  have hwk : ws[k]? = some ws[k] := List.getElem?_eq_getElem hklt
  have he : (ws[k]).withoutRect = (nodeWidget env ctx dataPath p n pr).withoutRect := by
    have h1 := congrArg (fun l => l[k]?) hmap
    simp only [List.getElem?_map, hwk, hw, Option.map_some', Option.some.injEq] at h1
    exact h1
  refine ⟨pr, (ws[k]).m_rect, ?_, ?_⟩
  · rw [hwk, eq_of_withoutRect _ _ he]
  · rcases hp with ⟨ht, hpr⟩ | ⟨j, pn, hj, hLj, hpr⟩
    · exact Or.inl ⟨htop p ht, hpr⟩
    · exact Or.inr ⟨j, pn, hj, hLj, by simpa using hpr⟩
theorem parse_eq_parsedTree (text : String)
    (h : (match otui_parse_file (some text.toList) with
      | some (Except.ok _) => true
      | _ => false) = true) :
    otui_parse_file (some text.toList) = some (Except.ok (parsedTree text)) := by
  unfold parsedTree
  cases hp : otui_parse_file (some text.toList) with
  | none => rw [hp] at h; simp at h
  | some r =>
    cases r with
    | error e => rw [hp] at h; simp at h
    | ok t => rfl

theorem resolve_eq_resolvedTree (fuel : Nat) (root : OTUINode)
    (h : (otui_resolve_all_inheritance fuel root).isSome = true) :
    otui_resolve_all_inheritance fuel root = some (resolvedTree fuel root) := by
  unfold resolvedTree
  cases hr : otui_resolve_all_inheritance fuel root with
  | none => rw [hr] at h; simp at h
  | some r => rfl

theorem findStyleNode_get (nm : Str) :
    ∀ (cs : List OTUINode) (k i : Nat) (T : OTUINode),
      findStyleNode nm cs k = some (i, T) → ∃ j, i = k + j ∧ cs[j]? = some T := by
  intro cs
  induction cs with
  | nil => intro k i T h; simp [findStyleNode] at h
  | cons c cs ih =>
    intro k i T h
    unfold findStyleNode at h
    split_ifs at h
    · simp only [Option.some.injEq, Prod.mk.injEq] at h
      exact ⟨0, by omega, by simp [h.2]⟩
    · obtain ⟨j, hj, hc⟩ := ih (k + 1) i T h
      exact ⟨j + 1, by omega, by simpa using hc⟩

/-- The walk of a load over a resolved tree. For a file that parses to a tree
whose inheritance resolves to `root`, `Parser::loadFromFile` returns a list that
holds, in depth-first pre-order, exactly one widget for each node that is
neither the root nor in the subtree of a root-level node with a base style and
no non-empty `id`, each with the index of the widget of its parent node; and
`Parser::instantiateStyle` on a root-level node found by its name returns one
widget for the node and for each of its descendants. -/
theorem load_of_resolved (fuel : Nat) (env : Env) (file : Option Str)
    (dataPath : Str) (root0 root : OTUINode)
    (hparse : otui_parse_file file = some (Except.ok root0))
    (hres : otui_resolve_all_inheritance fuel root0 = some root) :
    (∃ ws, loadFromFile fuel env file dataPath = some (Except.ok ws) ∧
        LoadsFor env (makeContext env root dataPath) dataPath ws (emittedNodes root))
      ∧ (∀ (styleName : Str) (i : Nat) (T : OTUINode), trim styleName ≠ [] →
          findStyleNode (trim styleName) root.children 0 = some (i, T) →
          root.get [i] = some T ∧
          ∃ ws, instantiateStyle fuel env file styleName dataPath = some (Except.ok ws) ∧
            LoadsFor env (makeContext env root dataPath) dataPath ws (preorder T [i])) := by
  constructor
  · obtain ⟨ws, h1, h2⟩ := loadsFor_of_emits env (makeContext env root dataPath) dataPath _
      (fun p hp => by
        obtain ⟨h1, h2⟩ := hp
        cases p with
        | nil => exact absurd rfl h1
        | cons x xs =>
          cases xs with
          | nil => rfl
          | cons y ys => simp [List.dropLast] at h2)
      _ _ (visitRoot_emitted env root dataPath)
    refine ⟨ws, ?_, h2⟩
    unfold loadFromFile
    simp only [hparse, hres, h1]
  · intro styleName i T hname hfind
    obtain ⟨j, hj, hT⟩ := findStyleNode_get _ _ _ _ _ hfind
    have hij : j = i := by omega
    subst hij
    refine ⟨get_single root j T hT, ?_⟩
    obtain ⟨out, hout, hspec⟩ := buildWidgetsFromNode_structure env
      (makeContext env root dataPath) dataPath T [j] none []
    simp only [List.nil_append, List.length_nil] at hout hspec
    obtain ⟨ws, h1, h2⟩ := loadsFor_of_emits env (makeContext env root dataPath) dataPath _
      (fun p hp => by rw [hp]; rfl) out _ hspec
    refine ⟨ws, ?_, h2⟩
    have hne : out ≠ [] := by
      intro he
      have hl := hspec.1
      rw [he] at hl
      cases T with
      | mk n b ind cb ci p s e kids =>
        rw [preorder_mk] at hl
        simp at hl
    unfold instantiateStyle
    simp only [hparse, hres, hname, if_false, hfind, hout, hne, h1]

/-! ## Saving and loading again -/

/-- C16: saving a widget list and loading the saved text does not give the
rects back. `saveToFile` writes every widget as a block of its own at the top
level, so after the second load no widget has a parent. For a window at (10, 0)
with a child bound by `anchors.left: win.left` the child has x = 0 in the list
that is saved and x = 10 after the second load; for a button bound by
`anchors.left: prev.right` behind a panel with a child, `prev` is the panel in
the first list (x = 40) and the child of the panel after the second load
(x = 5). The saved text is spelled out, with the colour line that
`serializeNode` writes for the colour of the constructors. -/
theorem save_reload_changes_rect :
    savedText 8 emptyEnv exampleIdAnchorFile
        = some ("# OTUIEditor export\nwin\n  id: win\n  position: 10 0\n  size: 100 50\n" ++
            "  opacity: 1\n  visible: true\n  color: #ffdfdfdf\n\n" ++
            "b\n  id: b\n  position: 0 0\n  size: 20 10\n" ++
            "  opacity: 1\n  visible: true\n  text: Button\n  color: #ffdfdfdf\n" ++
            "  anchors.left: win.left\n\n").toList
      ∧ loadedRects (saveAndReload 8 emptyEnv exampleIdAnchorFile).1
        = some [⟨10, 0, 100, 50⟩, ⟨0, 0, 20, 10⟩]
      ∧ loadedRects (saveAndReload 8 emptyEnv exampleIdAnchorFile).2
        = some [⟨10, 0, 100, 50⟩, ⟨10, 0, 20, 10⟩]
      ∧ loadedParents (saveAndReload 8 emptyEnv exampleIdAnchorFile).1 = some [none, some 0]
      ∧ loadedParents (saveAndReload 8 emptyEnv exampleIdAnchorFile).2 = some [none, none]
      ∧ loadedRects (saveAndReload 8 emptyEnv examplePrevAnchorFile).1
        = some [⟨0, 0, 100, 50⟩, ⟨0, 0, 40, 10⟩, ⟨0, 0, 5, 5⟩, ⟨40, 0, 20, 10⟩]
      ∧ loadedRects (saveAndReload 8 emptyEnv examplePrevAnchorFile).2
        = some [⟨0, 0, 100, 50⟩, ⟨0, 0, 40, 10⟩, ⟨0, 0, 5, 5⟩, ⟨5, 0, 20, 10⟩] := by
  decide!

/-! ## The pushed-back line, state blocks and comment lines -/

/-- C22: the line pushed back at the end of a block event is not processed
like a line read normally: neither the comment extraction nor the handling of
comment-only lines is applied to it. After a block event the line
`Label # note` opens a node named `Label # note` without comment, where the
same line read normally opens the node `Label` with the inline comment `note`;
and the line `# section` opens a node named `# section`, where read normally it
is buffered as the comment of the next node. -/
theorem pushed_back_line_keeps_comment :
    parsedOutline "Button\n  @onClick: |\n    x()\nLabel # note\n"
        = some [(⟨"Button".toList, none, none, none, [], [],
              [⟨"onClick".toList, "    x()".toList, true⟩]⟩, []),
            (⟨"Label # note".toList, none, none, none, [], [], []⟩, [])]
      ∧ parsedOutline "Button\nLabel # note\n"
        = some [(⟨"Button".toList, none, none, none, [], [], []⟩, []),
            (⟨"Label".toList, none, none, some "note".toList, [], [], []⟩, [])]
      ∧ parsedOutline "Button\n  @onClick: |\n    x()\n# section\nLabel\n"
        = some [(⟨"Button".toList, none, none, none, [], [],
              [⟨"onClick".toList, "    x()".toList, true⟩]⟩, []),
            (⟨"# section".toList, none, none, none, [], [], []⟩, []),
            (⟨"Label".toList, none, none, none, [], [], []⟩, [])]
      ∧ parsedOutline "Button\n# section\nLabel\n"
        = some [(⟨"Button".toList, none, none, none, [], [], []⟩, []),
            (⟨"Label".toList, none, some "section".toList, none, [], [], []⟩, [])] := by
  decide!

/-- C23: an event line does not end a state block. In the text
`Button / $hover: / color: red / @onClick: foo() / width: 10` the property
`width` is attached to the state `hover` and the node has no property; after a
node header or a new state line a property does not land in the earlier
state. -/
theorem event_line_keeps_state_open :
    parsedOutline "Button\n  $hover:\n    color: red\n  @onClick: foo()\n  width: 10\n"
        = some [(⟨"Button".toList, none, none, none, [],
              [⟨"hover".toList, false,
                [⟨"color".toList, "red".toList, none⟩, ⟨"width".toList, "10".toList, none⟩]⟩],
              [⟨"onClick".toList, "foo()".toList, false⟩]⟩, [])]
      ∧ parsedOutline "Button\n  $hover:\n    color: red\n  Label\n    width: 10\n"
        = some [(⟨"Button".toList, none, none, none, [],
              [⟨"hover".toList, false, [⟨"color".toList, "red".toList, none⟩]⟩], []⟩,
              [⟨"Label".toList, none, none, none, [⟨"width".toList, "10".toList, none⟩],
                [], []⟩])]
      ∧ parsedOutline "Button\n  $hover:\n    color: red\n  $pressed:\n    width: 10\n"
        = some [(⟨"Button".toList, none, none, none, [],
              [⟨"hover".toList, false, [⟨"color".toList, "red".toList, none⟩]⟩,
               ⟨"pressed".toList, false, [⟨"width".toList, "10".toList, none⟩]⟩], []⟩,
              [])] := by
  decide!

/-- C24: a line that starts with `#` and contains a colon is not taken for a
comment. Before any node the line `# TODO: fix` makes the parse fail with
"property outside node" at line 1; inside a node it adds the property `# TODO`
with the value `fix`, and the header `Label # note: x` adds the property
`Label # note` instead of a node `Label`. Without the colons the same lines are
a comment line and a node header with an inline comment. -/
theorem comment_with_colon_is_property :
    parseFailure "# TODO: fix\nMainWindow\n" = some (ParseError.propertyOutsideNode 1)
      ∧ parsedOutline "MainWindow\n  # TODO: fix\n  Label # note: x\n"
        = some [(⟨"MainWindow".toList, none, none, none,
              [⟨"# TODO".toList, "fix".toList, none⟩,
               ⟨"Label # note".toList, "x".toList, none⟩], [], []⟩, [])]
      ∧ parsedOutline "MainWindow\n  # TODO fix\n  Label # note x\n"
        = some [(⟨"MainWindow".toList, none, none, none, [], [], []⟩,
              [⟨"Label".toList, none, some "TODO fix".toList, some "note x".toList,
                [], [], []⟩])] := by
  decide!

/-! ## Image border, text size and ids in the editor -/

/-- C25: a border does not survive save and parse. For the border (1, 2, 3, 4)
`serializeNode` writes `image-border: 1 2 3 4`, and `parseImageBorderRect`
reads these numbers as top, right, bottom, left and returns the rect
(4, 1, 2, 3). A file with `image-border: 1 2 3 4` loads as the border
(4, 1, 2, 3), and after save and load the border is (3, 4, 1, 2). -/
theorem image_border_rotates :
    imageBorderValue ⟨1, 2, 3, 4⟩ = "1 2 3 4".toList
      ∧ parseImageBorderRect (imageBorderValue ⟨1, 2, 3, 4⟩) ⟨0, 0, 0, 0⟩ = ⟨4, 1, 2, 3⟩
      ∧ serializeNode "1".toList [] { m_id := "w".toList, m_imageBorder := ⟨1, 2, 3, 4⟩ }
        = ("w\n  id: w\n  position: 0 0\n  size: 0 0\n  opacity: 1\n  visible: true\n" ++
            "  image-border: 1 2 3 4\n\n").toList
      ∧ loadedBorders (saveAndReload 8 emptyEnv "MainWindow\n  image-border: 1 2 3 4\n").1
        = some [⟨4, 1, 2, 3⟩]
      ∧ loadedBorders (saveAndReload 8 emptyEnv "MainWindow\n  image-border: 1 2 3 4\n").2
        = some [⟨3, 4, 1, 2⟩] := by
  decide!

/-- C26 (counterexample): a label of size 100 x 50 whose text measures 10 x 8
has the size 10 x 8 after `applyTextAutoResize`. -/
theorem auto_resize_shrinks :
    exampleAutoResizeLabel.supportsTextProperty = true
      ∧ (applyTextAutoResize exampleSmallTextEnv exampleAutoResizeLabel).m_rect
        = ⟨0, 0, 10, 8⟩ := by
  decide!

/-- C26 (amended): for a text-supporting widget with auto-resize enabled and a
non-empty text, `applyTextAutoResize` sets the width to the measured width plus
the horizontal text offset when the measured width is positive and keeps it
otherwise, and likewise the height; so the size does not shrink exactly when
these sums are not below the current width and height. -/
theorem auto_resize_sets_measured_size (env : Env) (w : Widget)
    (hs : w.supportsTextProperty = true) (ha : w.m_textAutoResize = true)
    (ht : w.m_text ≠ []) :
    (applyTextAutoResize env w).m_rect.w
        = (if (env.textBounds w).w > 0 then (env.textBounds w).w + w.m_textOffset.x
           else w.m_rect.w)
      ∧ (applyTextAutoResize env w).m_rect.h
        = (if (env.textBounds w).h > 0 then (env.textBounds w).h + w.m_textOffset.y
           else w.m_rect.h)
      ∧ (((env.textBounds w).w > 0 → w.m_rect.w ≤ (env.textBounds w).w + w.m_textOffset.x) →
          w.m_rect.w ≤ (applyTextAutoResize env w).m_rect.w)
      ∧ (((env.textBounds w).h > 0 → w.m_rect.h ≤ (env.textBounds w).h + w.m_textOffset.y) →
          w.m_rect.h ≤ (applyTextAutoResize env w).m_rect.h) := by
  have hw : (applyTextAutoResize env w).m_rect.w
      = (if (env.textBounds w).w > 0 then (env.textBounds w).w + w.m_textOffset.x
         else w.m_rect.w) := by
    simp only [applyTextAutoResize, hs, ha, ht, Widget.setSizeProperty, Widget.getSize]
    split_ifs <;> simp_all
  have hh : (applyTextAutoResize env w).m_rect.h
      = (if (env.textBounds w).h > 0 then (env.textBounds w).h + w.m_textOffset.y
         else w.m_rect.h) := by
    simp only [applyTextAutoResize, hs, ha, ht, Widget.setSizeProperty, Widget.getSize]
    split_ifs <;> simp_all
  refine ⟨hw, hh, ?_, ?_⟩
  · intro h
    rw [hw]
    split_ifs with hc
    · exact h hc
    · exact le_refl _
  · intro h
    rw [hh]
    split_ifs with hc
    · exact h hc
    · exact le_refl _

theorem auto_resize_sets_measured_size_witness :
    exampleAutoResizeLabel.supportsTextProperty = true
      ∧ (applyTextAutoResize exampleSmallTextEnv exampleAutoResizeLabel).m_rect.w
        = (if (exampleSmallTextEnv.textBounds exampleAutoResizeLabel).w > 0 then
            (exampleSmallTextEnv.textBounds exampleAutoResizeLabel).w
              + exampleAutoResizeLabel.m_textOffset.x
           else exampleAutoResizeLabel.m_rect.w) :=
  ⟨by decide,
    (auto_resize_sets_measured_size exampleSmallTextEnv exampleAutoResizeLabel
      (by decide) (by decide) (by decide)).1⟩

/-- C27: `initializeWidget` can give an id that a widget of the list carries.
With the ids `Button_1`, `Button` in this order and the requested id `Button`,
the counter is 0 at `Button_1`, which therefore is not counted, and 1 after
`Button`: the new widget gets the id `Button_1`, the id of the first widget. -/
theorem initializeWidget_duplicates_id :
    initializeWidgetFound "Button".toList
        [{ m_id := "Button_1".toList }, { m_id := "Button".toList }] 0 = 1
      ∧ (initializeWidget [{ m_id := "Button_1".toList }, { m_id := "Button".toList }]
          { m_id := "Button".toList } "Button".toList).m_id = "Button_1".toList
      ∧ (addWidget [{ m_id := "Button_1".toList }, { m_id := "Button".toList }]
          { m_id := "Button".toList } "Button".toList ⟨0, 0, 0, 0⟩).map (fun w => w.m_id)
        = ["Button_1".toList, "Button".toList, "Button_1".toList] := by
  decide!

/-! ## Unique ids -/

theorem digit_char (d : Nat) (h : d < 10) :
    ('0' ≤ Char.ofNat (48 + d) ∧ Char.ofNat (48 + d) ≤ '9')
      ∧ (Char.ofNat (48 + d)).toNat - '0'.toNat = d := by
  interval_cases d <;> decide

theorem parseDigits_natDigits (fuel : Nat) :
    ∀ (n : Nat) (acc : Str), n < 10 ^ fuel →
      parseDigits (natDigits fuel n acc) 0 = parseDigits acc n := by
  induction fuel with
  | zero =>
    intro n acc h
    have : n = 0 := by simpa using h
    subst this
    rfl
  | succ f ih =>
    intro n acc h
    rw [natDigits]
    by_cases h10 : n < 10
    · rw [if_pos h10, parseDigits, if_pos (digit_char n h10).1, (digit_char n h10).2]
      simp
    · rw [if_neg h10]
      have hdiv : n / 10 < 10 ^ f := by
        rw [Nat.div_lt_iff_lt_mul (by norm_num)]
        rw [pow_succ] at h
        exact h
      rw [ih (n / 10) _ hdiv, parseDigits,
        if_pos (digit_char (n % 10) (Nat.mod_lt _ (by norm_num))).1,
        (digit_char (n % 10) (Nat.mod_lt _ (by norm_num))).2]
      congr 1
      omega

theorem nodeIndent_nil (root : OTUINode) : nodeIndent root [] = some root.indent := by
  simp [nodeIndent, get_nil]

theorem nodeIndent_cons (root : OTUINode) (i : Nat) (q : NodePath) :
    nodeIndent root (i :: q) = (match root.children[i]? with
      | none => none
      | some c => nodeIndent c q) := by
  unfold nodeIndent
  rw [get_cons]
  cases root.children[i]? <;> rfl

theorem nodeIndent_modify_keep (f : OTUINode → OTUINode)
    (hf : ∀ n, (f n).indent = n.indent ∧ (f n).children = n.children) :
    ∀ (p : NodePath) (root : OTUINode) (q : NodePath),
      nodeIndent (OTUINode.modify f root p) q = nodeIndent root q := by
  intro p
  induction p with
  | nil =>
    intro root q
    rw [modify_nil]
    cases q with
    | nil => rw [nodeIndent_nil, nodeIndent_nil, (hf root).1]
    | cons j r => rw [nodeIndent_cons, nodeIndent_cons, (hf root).2]
  | cons i p ih =>
    intro root q
    rw [modify_cons]
    cases hc : root.children[i]? with
    | none => rfl
    | some c =>
      simp only
      cases q with
      | nil => rw [nodeIndent_nil, nodeIndent_nil, withChildren_indent]
      | cons j r =>
        rw [nodeIndent_cons, nodeIndent_cons, withChildren_children]
        have hi : i < root.children.length := getElem?_lt _ _ _ hc
        by_cases hij : i = j
        · subst hij
          rw [List.getElem?_set_self hi, hc]
          exact ih c r
        · rw [List.getElem?_set_ne hij]

theorem nodeIndent_add_child (node : OTUINode) (hnode : node.children = []) :
    ∀ (p : NodePath) (root pn : OTUINode), root.get p = some pn → ∀ q : NodePath,
      nodeIndent (OTUINode.modify (fun x => node_add_child x node) root p) q
        = if q = p ++ [pn.children.length] then some node.indent else nodeIndent root q := by
  intro p
  induction p with
  | nil =>
    intro root pn hp q
    rw [get_nil] at hp
    cases hp
    rw [modify_nil]
    cases q with
    | nil =>
      rw [if_neg (by simp), nodeIndent_nil, nodeIndent_nil]
      simp [node_add_child]
    | cons j r =>
      rw [nodeIndent_cons, nodeIndent_cons]
      simp only [node_add_child, withChildren_children, List.nil_append]
      rcases Nat.lt_trichotomy j root.children.length with hj | hj | hj
      · rw [List.getElem?_append_left hj, if_neg]
        intro h
        have := (List.cons.inj h).1
        omega
      · subst hj
        rw [List.getElem?_append_right (le_refl _)]
        simp only [Nat.sub_self, List.getElem?_cons_zero]
        rw [List.getElem?_eq_none (le_refl _)]
        cases r with
        | nil => rw [if_pos rfl, nodeIndent_nil]
        | cons k r2 =>
          rw [if_neg (by simp), nodeIndent_cons, hnode]
          rfl
      · rw [List.getElem?_eq_none (by simp; omega), List.getElem?_eq_none (by omega), if_neg]
        intro h
        have := (List.cons.inj h).1
        omega
  | cons i p ih =>
    intro root pn hp q
    rw [get_cons] at hp
    rw [modify_cons]
    cases hc : root.children[i]? with
    | none => rw [hc] at hp; cases hp
    | some c =>
      rw [hc] at hp
      simp only at hp
      simp only
      cases q with
      | nil => rw [if_neg (by simp), nodeIndent_nil, nodeIndent_nil, withChildren_indent]
      | cons j r =>
        rw [nodeIndent_cons, nodeIndent_cons, withChildren_children]
        have hi : i < root.children.length := getElem?_lt _ _ _ hc
        by_cases hij : i = j
        · subst hij
          rw [List.getElem?_set_self hi, hc]
          simp only
          rw [ih c pn hp r]
          simp
        · rw [List.getElem?_set_ne hij, if_neg]
          intro h
          exact hij (List.cons.inj h).1.symm

theorem nodeIndent_add_child_old (node : OTUINode) (hnode : node.children = [])
    (p : NodePath) (root pn : OTUINode) (hp : root.get p = some pn) (q : NodePath) (a : Int)
    (hq : nodeIndent root q = some a) :
    nodeIndent (OTUINode.modify (fun x => node_add_child x node) root p) q = some a := by
  rw [nodeIndent_add_child node hnode p root pn hp q, if_neg, hq]
  intro h
  rw [h] at hq
  unfold nodeIndent at hq
  rw [get_append, hp] at hq
  simp only [Option.some_bind] at hq
  rw [get_cons, List.getElem?_eq_none (le_refl _)] at hq
  cases hq

theorem popStack_shape (root : OTUINode) (indent : Int) :
    ∀ stack : List NodePath, ∃ popped, stack = popped ++ popStack root indent stack ∧
      (∀ p ∈ popped, ∃ n, root.get p = some n ∧ indent ≤ n.indent) ∧
      (∀ top rest, popStack root indent stack = top :: rest →
        ∀ n, root.get top = some n → n.indent < indent) := by
  intro stack
  induction stack with
  | nil => exact ⟨[], rfl, by simp, by simp [popStack]⟩
  | cons top rest ih =>
    rw [popStack]
    cases hg : root.get top with
    | none =>
      refine ⟨[], rfl, by simp, ?_⟩
      intro t r h n hn
      simp only at h
      rw [(List.cons.inj h).1.symm, hg] at hn
      cases hn
    | some prev =>
      simp only
      by_cases hlt : prev.indent < indent
      · rw [if_pos hlt]
        refine ⟨[], rfl, by simp, ?_⟩
        intro t r h n hn
        rw [(List.cons.inj h).1.symm, hg] at hn
        cases hn
        exact hlt
      · rw [if_neg hlt]
        obtain ⟨popped, h1, h2, h3⟩ := ih
        refine ⟨top :: popped, by rw [List.cons_append, ← h1], ?_, h3⟩
        intro p hp
        rcases List.mem_cons.1 hp with h | h
        · rw [h]; exact ⟨prev, hg, by omega⟩
        · exact h2 p h

/-- The node-header branch on a state that satisfies the invariant: the
entries it pops are not less indented than the header, the entry it stops at is
less indented, and the new node becomes the last child of that entry, unless
all 256 slots of the stack are in use after the pops. -/
theorem handleNode_shape (st : ParseState) (content : Str) (indent : Nat)
    (comment_text : Option Str) (hinv : StackInv st) :
    ∃ popped parent rest pn node,
      st.stack = popped ++ parent :: rest ∧
      (∀ p ∈ popped, ∃ n, st.root.get p = some n ∧ (indent : Int) ≤ n.indent) ∧
      st.root.get parent = some pn ∧ pn.indent < (indent : Int) ∧
      node.indent = (indent : Int) ∧ node.children = [] ∧
      handleNode st content indent comment_text =
        (if 256 ≤ (parent :: rest).length then StepResult.fail ParseError.outOfBounds
        else StepResult.next
          { st with
            root := OTUINode.modify (fun p => node_add_child p node) st.root parent
            stack := (parent ++ [pn.children.length]) :: parent :: rest
            current_state := none
            pending_comment := none
            line_ready := false }) := by
  obtain ⟨h1, ⟨init, h2, _⟩, h3⟩ := hinv
  obtain ⟨init2, hpop, _⟩ := popStack_spec st.root indent h1 init
  obtain ⟨popped, hsplit, hpopped, htop⟩ := popStack_shape st.root (indent : Int) st.stack
  obtain ⟨parent, rest, hpr⟩ : ∃ parent rest, popStack st.root (indent : Int) st.stack
      = parent :: rest := by
    rw [h2, hpop]
    cases init2 with
    | nil => exact ⟨[], [], rfl⟩
    | cons x xs => exact ⟨x, xs ++ [[]], by simp⟩
  obtain ⟨pn, hpn⟩ := h3 parent (by rw [hsplit, hpr]; simp)
  refine ⟨popped, parent, rest, pn,
    (node_new (match splitAtChar '<' content with
      | none => ((trim content, none) : Str × Option Str)
      | some (nm, bs) => (trim nm, some (trim bs))).1 (indent : Int)).withHeader
      (match splitAtChar '<' content with
      | none => ((trim content, none) : Str × Option Str)
      | some (nm, bs) => (trim nm, some (trim bs))).2 st.pending_comment comment_text,
    by rw [← hpr]; exact hsplit, hpopped, hpn, htop parent rest hpr pn hpn, rfl, rfl, ?_⟩
  unfold handleNode
  simp only [hpr, hpn]

theorem invariant_add_child (st st2 : ParseState) (popped : List NodePath)
    (parent : NodePath) (rest : List NodePath) (pn node : OTUINode) (indent : Int)
    (hinv : StackInv st) (hs : StackIncreasing st) (ht : IndentsIncrease st.root)
    (hstack : st.stack = popped ++ parent :: rest) (hpn : st.root.get parent = some pn)
    (hlt : pn.indent < indent) (hni : node.indent = indent) (hnc : node.children = [])
    (hroot : st2.root = OTUINode.modify (fun p => node_add_child p node) st.root parent)
    (hstack2 : st2.stack = (parent ++ [pn.children.length]) :: parent :: rest) :
    StackIncreasing st2 ∧ IndentsIncrease st2.root := by
  have hold : ∀ (q : NodePath) (a : Int), nodeIndent st.root q = some a →
      nodeIndent st2.root q = some a := by
    intro q a hq
    rw [hroot]
    exact nodeIndent_add_child_old node hnc parent st.root pn hpn q a hq
  have hnew : ∀ q : NodePath, nodeIndent st2.root q
      = if q = parent ++ [pn.children.length] then some node.indent
        else nodeIndent st.root q := by
    intro q
    rw [hroot]
    exact nodeIndent_add_child node hnc parent st.root pn hpn q
  have hvalid : ∀ q ∈ st.stack, ∃ a, nodeIndent st.root q = some a := by
    intro q hq
    obtain ⟨n, hn⟩ := hinv.2.2 q hq
    exact ⟨n.indent, by simp [nodeIndent, hn]⟩
  have hparent : nodeIndent st.root parent = some pn.indent := by simp [nodeIndent, hpn]
  have hsub : (parent :: rest).Pairwise fun p q =>
      ∀ a b : Int, nodeIndent st.root p = some a → nodeIndent st.root q = some b → b < a := by
    have := hs
    unfold StackIncreasing at this
    rw [hstack] at this
    exact (List.pairwise_append.1 this).2.1
  constructor
  · unfold StackIncreasing
    rw [hstack2, List.pairwise_cons]
    constructor
    · intro q hq a b ha hb
      rw [hnew, if_pos rfl] at ha
      have ha2 : a = indent := by rw [← hni]; exact (Option.some.inj ha).symm
      obtain ⟨c, hc⟩ := hvalid q (by rw [hstack]; exact List.mem_append_right _ hq)
      rw [hold q c hc] at hb
      cases hb
      rcases List.mem_cons.1 hq with h | h
      · rw [h, hparent] at hc
        cases hc
        omega
      · have := (List.pairwise_cons.1 hsub).1 q h pn.indent b hparent hc
        omega
    · refine List.Pairwise.imp_of_mem ?_ hsub
      intro p q hp hq hR a b ha hb
      obtain ⟨c, hc⟩ := hvalid p (by rw [hstack]; exact List.mem_append_right _ hp)
      obtain ⟨d, hd⟩ := hvalid q (by rw [hstack]; exact List.mem_append_right _ hq)
      rw [hold p c hc] at ha
      rw [hold q d hd] at hb
      cases ha
      cases hb
      exact hR a b hc hd
  · intro q i a b ha hb
    rw [hnew] at ha hb
    by_cases hqi : q ++ [i] = parent ++ [pn.children.length]
    · rw [if_pos hqi] at hb
      have hq : q = parent := (List.append_inj' hqi rfl).1
      rw [if_neg (by rw [hq]; simp), hq, hparent] at ha
      cases ha
      cases hb
      omega
    · rw [if_neg hqi] at hb
      by_cases hq : q = parent ++ [pn.children.length]
      · exfalso
        rw [hq] at hb
        unfold nodeIndent at hb
        rw [List.append_assoc, get_append, hpn] at hb
        simp only [Option.some_bind, List.singleton_append] at hb
        rw [get_cons, List.getElem?_eq_none (le_refl _)] at hb
        cases hb
      · rw [if_neg hq] at ha
        exact ht q i a b ha hb

theorem invariant_modify_keep (st st2 : ParseState) (f : OTUINode → OTUINode) (p : NodePath)
    (hf : ∀ n, (f n).indent = n.indent ∧ (f n).children = n.children)
    (hs : StackIncreasing st) (ht : IndentsIncrease st.root)
    (hroot : st2.root = OTUINode.modify f st.root p) (hstack : st2.stack = st.stack) :
    StackIncreasing st2 ∧ IndentsIncrease st2.root := by
  have heq : ∀ q : NodePath, nodeIndent st2.root q = nodeIndent st.root q := by
    intro q
    rw [hroot]
    exact nodeIndent_modify_keep f hf p st.root q
  constructor
  · unfold StackIncreasing
    rw [hstack]
    refine List.Pairwise.imp ?_ hs
    intro a b h x y hx hy
    rw [heq] at hx hy
    exact h x y hx hy
  · intro q i a b ha hb
    rw [heq] at ha hb
    exact ht q i a b ha hb

theorem handleProperty_shape (st st2 : ParseState) (keyPart valPart : Str)
    (comment_text : Option Str)
    (h : handleProperty st keyPart valPart comment_text = StepResult.next st2) :
    ∃ f p, (∀ n : OTUINode, (f n).indent = n.indent ∧ (f n).children = n.children) ∧
      st2.root = OTUINode.modify f st.root p ∧ st2.stack = st.stack := by
  unfold handleProperty at h
  simp only at h
  cases hs : st.stack with
  | nil => rw [hs] at h; cases h
  | cons cur rest =>
    rw [hs] at h
    simp only at h
    by_cases hcur : cur = []
    · rw [if_pos hcur] at h; cases h
    · rw [if_neg hcur] at h
      cases hcs : st.current_state with
      | some s =>
        obtain ⟨sn, si⟩ := s
        rw [hcs] at h
        simp only at h
        cases h
        exact ⟨_, sn, fun n => by simp, rfl, rfl⟩
      | none =>
        rw [hcs] at h
        simp only at h
        cases h
        refine ⟨_, cur, fun n => ?_, rfl, rfl⟩
        cases comment_text <;> simp [node_add_prop]

theorem handleState_shape (st st2 : ParseState) (condPart : Str)
    (h : handleState st condPart = StepResult.next st2) :
    ∃ f p, (∀ n : OTUINode, (f n).indent = n.indent ∧ (f n).children = n.children) ∧
      st2.root = OTUINode.modify f st.root p ∧ st2.stack = st.stack := by
  unfold handleState at h
  simp only at h
  cases hs : st.stack with
  | nil => rw [hs] at h; cases h
  | cons cur rest =>
    rw [hs] at h
    simp only at h
    by_cases hcur : cur = []
    · rw [if_pos hcur] at h; cases h
    · rw [if_neg hcur] at h
      cases hg : st.root.get cur with
      | none => rw [hg] at h; cases h
      | some n =>
        rw [hg] at h
        simp only at h
        cases h
        exact ⟨_, cur, fun n => by simp [node_add_state], rfl, rfl⟩

theorem handleEvent_shape (st st2 : ParseState) (namePart codePart : Str)
    (h : handleEvent st namePart codePart = StepResult.next st2) :
    ∃ f p, (∀ n : OTUINode, (f n).indent = n.indent ∧ (f n).children = n.children) ∧
      st2.root = OTUINode.modify f st.root p ∧ st2.stack = st.stack := by
  have hk : ∀ (nm code : Str) (ml : Bool) (n : OTUINode),
      (node_add_event n nm code ml).indent = n.indent
        ∧ (node_add_event n nm code ml).children = n.children :=
    fun nm code ml n => by simp [node_add_event]
  unfold handleEvent at h
  simp only at h
  cases hs : st.stack with
  | nil => rw [hs] at h; cases h
  | cons cur rest =>
    rw [hs] at h
    simp only at h
    by_cases hcur : cur = []
    · rw [if_pos hcur] at h; cases h
    · rw [if_neg hcur] at h
      split at h
      · cases hg : st.root.get cur with
        | none => rw [hg] at h; cases h
        | some n =>
          rw [hg] at h
          simp only at h
          cases hb : readBlock n.indent st.input.length 1024 st.input st.lineno [] with
          | none => rw [hb] at h; cases h
          | some r =>
            rw [hb] at h
            simp only at h
            split at h
            · cases h
              exact ⟨_, cur, hk _ _ _, rfl, rfl⟩
            · cases h
              exact ⟨_, cur, hk _ _ _, rfl, rfl⟩
      · cases h
        exact ⟨_, cur, hk _ _ _, rfl, rfl⟩

theorem processContent_keeps (st st2 : ParseState) (buf : Str) (indent : Nat)
    (comment_text : Option Str) (hinv : StackInv st) (hs : StackIncreasing st)
    (ht : IndentsIncrease st.root)
    (h : processContent st buf indent comment_text = StepResult.next st2) :
    StackIncreasing st2 ∧ IndentsIncrease st2.root ∧
      (st.stack.length ≤ 256 → st2.stack.length ≤ 256) := by
  rcases processContent_cases st buf indent comment_text with
    ⟨a, b, r, he, _, _⟩ | ⟨a, r, he, _, _⟩ | ⟨he, _⟩ | ⟨a, b, he, _, _, _⟩
  · rw [he] at h
    obtain ⟨f, p, hf, h1, h2⟩ := handleEvent_shape st st2 a b h
    have := invariant_modify_keep st st2 f p hf hs ht h1 h2
    exact ⟨this.1, this.2, fun hl => by rw [h2]; exact hl⟩
  · rw [he] at h
    obtain ⟨f, p, hf, h1, h2⟩ := handleState_shape st st2 a h
    have := invariant_modify_keep st st2 f p hf hs ht h1 h2
    exact ⟨this.1, this.2, fun hl => by rw [h2]; exact hl⟩
  · rw [he] at h
    obtain ⟨popped, parent, rest, pn, node, h1, _, h3, h4, h5, h6, h7⟩ :=
      handleNode_shape st (skipBlanks buf) indent comment_text hinv
    rw [h7] at h
    by_cases hfull : 256 ≤ (parent :: rest).length
    · rw [if_pos hfull] at h
      cases h
    · rw [if_neg hfull] at h
      have key : StackIncreasing st2 ∧ IndentsIncrease st2.root := by
        cases h
        exact invariant_add_child st _ popped parent rest pn node indent hinv hs ht h1 h3 h4 h5
          h6 rfl rfl
      have hstack2 : st2.stack = (parent ++ [pn.children.length]) :: parent :: rest := by
        cases h
        rfl
      refine ⟨key.1, key.2, fun _ => ?_⟩
      rw [hstack2]
      simp only [List.length_cons] at hfull ⊢
      omega
  · rw [he] at h
    obtain ⟨f, p, hf, h1, h2⟩ := handleProperty_shape st st2 a b comment_text h
    have := invariant_modify_keep st st2 f p hf hs ht h1 h2
    exact ⟨this.1, this.2, fun hl => by rw [h2]; exact hl⟩

theorem processContent_not_done (st : ParseState) (buf : Str) (indent : Nat)
    (comment_text : Option Str) (hinv : StackInv st) (r : OTUINode) :
    processContent st buf indent comment_text ≠ StepResult.done r := by
  intro h
  rcases stackInv_cases st hinv with hin | hroot
  · rcases processContent_inv st buf indent comment_text hinv hin with ⟨st2, h2, _⟩ | h2
    · rw [h2] at h
      cases h
    · rw [h2] at h
      cases h
  · have hp := processContent_atRoot st buf indent comment_text hinv hroot
    by_cases hc : ':' ∈ skipBlanks buf
    · rw [hp.2 hc] at h
      cases h
    · obtain ⟨st2, h2, _⟩ := hp.1 hc
      rw [h2] at h
      cases h

theorem parseStep_keeps (st st2 : ParseState) (hinv : StackInv st) (hs : StackIncreasing st)
    (ht : IndentsIncrease st.root) (h : parseStep st = StepResult.next st2) :
    StackIncreasing st2 ∧ IndentsIncrease st2.root ∧
      (st.stack.length ≤ 256 → st2.stack.length ≤ 256) := by
  unfold parseStep at h
  by_cases hr : st.line_ready = true
  · rw [if_pos hr] at h
    exact processContent_keeps st st2 _ _ _ hinv hs ht h
  · rw [if_neg hr] at h
    cases hf : fgets st.input with
    | none => rw [hf] at h; cases h
    | some rr =>
      obtain ⟨raw, rest⟩ := rr
      rw [hf] at h
      simp only at h
      unfold processRawLine at h
      simp only at h
      by_cases he : trim (extractComment (stripNewlines (cString raw))).1 = []
      · rw [if_pos he] at h
        cases h
        exact ⟨hs, ht, fun hl => hl⟩
      · rw [if_neg he] at h
        exact processContent_keeps { st with lineno := st.lineno + 1, input := rest } st2 _ _ _
          hinv hs ht h

theorem parseStep_done_root (st : ParseState) (hinv : StackInv st) (r : OTUINode)
    (h : parseStep st = StepResult.done r) : r = st.root := by
  unfold parseStep at h
  by_cases hr : st.line_ready = true
  · rw [if_pos hr] at h
    exact absurd h (processContent_not_done st _ _ _ hinv r)
  · rw [if_neg hr] at h
    cases hf : fgets st.input with
    | none =>
      rw [hf] at h
      cases h
      rfl
    | some rr =>
      obtain ⟨raw, rest⟩ := rr
      rw [hf] at h
      simp only at h
      unfold processRawLine at h
      simp only at h
      by_cases he : trim (extractComment (stripNewlines (cString raw))).1 = []
      · rw [if_pos he] at h
        cases h
      · rw [if_neg he] at h
        exact absurd h
          (processContent_not_done { st with lineno := st.lineno + 1, input := rest } _ _ _ hinv r)

theorem parseStep_next_inv (st st2 : ParseState) (hinv : StackInv st)
    (h : parseStep st = StepResult.next st2) : StackInv st2 := by
  rcases parseStep_total st hinv with ⟨root, h2⟩ | ⟨st3, h2, hi, _⟩ | ⟨l, k, h2⟩ | h2
  · rw [h2] at h; cases h
  · rw [h2] at h
    cases h
    exact hi
  · rw [h2] at h; cases h
  · rw [h2] at h; cases h

theorem stateAfter_inv (input : Str) :
    ∀ (k : Nat) (st : ParseState), stateAfter input k = some st →
      StackInv st ∧ StackIncreasing st ∧ IndentsIncrease st.root ∧
        st.stack.length ≤ 256 := by
  intro k
  induction k with
  | zero =>
    intro st h
    simp only [stateAfter, Option.some.injEq] at h
    subst h
    refine ⟨stackInv_initial input, ?_, ?_, by simp [initialState]⟩
    · simp [StackIncreasing, initialState]
    · intro q i a b _ hb
      simp only [initialState] at hb
      rw [show q ++ [i] = q ++ [i] from rfl] at hb
      unfold nodeIndent at hb
      cases q with
      | nil => simp [get_cons, node_new, OTUINode.children] at hb
      | cons j r => simp [get_cons, node_new, OTUINode.children] at hb
  | succ k ih =>
    intro st h
    rw [stateAfter] at h
    cases hk : stateAfter input k with
    | none => rw [hk] at h; cases h
    | some st0 =>
      rw [hk] at h
      simp only at h
      obtain ⟨h1, h2, h3, h4⟩ := ih st0 hk
      cases hp : parseStep st0 with
      | done r => rw [hp] at h; cases h
      | fail e => rw [hp] at h; cases h
      | next st1 =>
        rw [hp] at h
        simp only [Option.some.injEq] at h
        subst h
        have := parseStep_keeps st0 st1 h1 h2 h3 hp
        exact ⟨parseStep_next_inv st0 st1 h1 hp, this.1, this.2.1, this.2.2 h4⟩

theorem parseLoop_tree_inv :
    ∀ (fuel : Nat) (st : ParseState) (tree : OTUINode), StackInv st → StackIncreasing st →
      IndentsIncrease st.root → parseLoop fuel st = some (Except.ok tree) →
      IndentsIncrease tree := by
  intro fuel
  induction fuel with
  | zero => intro st tree _ _ _ h; simp [parseLoop] at h
  | succ fuel ih =>
    intro st tree h1 h2 h3 h
    rw [parseLoop] at h
    cases hp : parseStep st with
    | done r =>
      rw [hp] at h
      simp only [Option.some.injEq, Except.ok.injEq] at h
      rw [← h, parseStep_done_root st h1 r hp]
      exact h3
    | fail e => rw [hp] at h; simp at h
    | next st1 =>
      rw [hp] at h
      have := parseStep_keeps st st1 h1 h2 h3 hp
      exact ih st1 tree (parseStep_next_inv st st1 h1 hp) this.1 this.2.1 h

theorem openIndents_of_inv (st : ParseState) (hinv : StackInv st) (hs : StackIncreasing st) :
    ∃ l : List Int, openIndents st = (l ++ [-1]).map some ∧ (l ++ [-1]).Pairwise (· > ·) := by
  obtain ⟨h1, ⟨init, h2, _⟩, h3⟩ := hinv
  have hval : ∀ p ∈ st.stack, nodeIndent st.root p
      = some ((nodeIndent st.root p).getD 0) := by
    intro p hp
    obtain ⟨n, hn⟩ := h3 p hp
    simp [nodeIndent, hn]
  refine ⟨init.map (fun p => (nodeIndent st.root p).getD 0), ?_, ?_⟩
  · have h4 : (init.map (fun p => (nodeIndent st.root p).getD 0) ++ [-1])
        = st.stack.map (fun p => (nodeIndent st.root p).getD 0) := by
      rw [h2, List.map_append]
      simp [nodeIndent_nil, h1]
    rw [h4, List.map_map]
    unfold openIndents
    exact List.map_congr_left (fun p hp => hval p hp)
  · have h4 : (init.map (fun p => (nodeIndent st.root p).getD 0) ++ [-1])
        = st.stack.map (fun p => (nodeIndent st.root p).getD 0) := by
      rw [h2, List.map_append]
      simp [nodeIndent_nil, h1]
    rw [h4, List.pairwise_map]
    refine List.Pairwise.imp_of_mem ?_ hs
    intro p q hp hq hR
    exact hR _ _ (hval p hp) (hval q hq)

/-! ## Idempotence of the anchor resolution -/

theorem absLoop_set (heap : List Widget) (i : Nat) (w1 : Widget) :
    ∀ (fuel : Nat) (pos : QPoint) (start : Option Nat),
      onParentChain heap i fuel start = false →
      absLoop (heap.set i w1) fuel pos start = absLoop heap fuel pos start := by
  intro fuel
  induction fuel with
  | zero =>
    intro pos start _
    cases start <;> rfl
  | succ fuel ih =>
    intro pos start h
    cases start with
    | none => rfl
    | some p =>
      rw [onParentChain] at h
      by_cases hp : p = i
      · rw [if_pos hp] at h; cases h
      · rw [if_neg hp] at h
        rw [absLoop, absLoop, List.getElem?_set_ne (fun e => hp e.symm)]
        cases hg : heap[p]? with
        | none => rfl
        | some pw =>
          rw [hg] at h
          exact ih _ _ h

theorem absolutePosition_set (heap : List Widget) (i : Nat) (w1 : Widget) (t : Nat)
    (h : inSubtree heap i t = false) :
    absolutePosition (heap.set i w1) (some t) = absolutePosition heap (some t)
      ∧ (heap.set i w1)[t]? = heap[t]? := by
  unfold inSubtree at h
  rw [onParentChain] at h
  by_cases hp : t = i
  · rw [if_pos hp] at h; cases h
  · rw [if_neg hp] at h
    have hget : (heap.set i w1)[t]? = heap[t]? := List.getElem?_set_ne (fun e => hp e.symm)
    refine ⟨?_, hget⟩
    unfold absolutePosition
    simp only [hget, List.length_set]
    cases hg : heap[t]? with
    | none => rfl
    | some tw =>
      rw [hg] at h
      exact absLoop_set heap i w1 _ _ _ h

theorem edgeCoordinate_set (heap : List Widget) (i : Nat) (w1 : Widget) (t : Nat)
    (e : AnchorEdge) (h : inSubtree heap i t = false) :
    edgeCoordinate (heap.set i w1) (some t) e = edgeCoordinate heap (some t) e := by
  obtain ⟨h1, h2⟩ := absolutePosition_set heap i w1 t h
  unfold edgeCoordinate
  simp only [h1, h2]

theorem resolved_outside (heap : List Widget) (i : Nat) (w : Widget)
    (resolver : Option (Str → Option Nat)) (b : AnchorBinding)
    (hb : b.isValid = true → resolvesOutside heap i w resolver b = true) (t : Nat)
    (ht : resolveTarget w resolver b = some t) : inSubtree heap i t = false := by
  have := hb (resolveTarget_some_valid w resolver b t ht)
  unfold resolvesOutside at this
  rw [ht] at this
  simpa using this

theorem resolved_of_valid (heap : List Widget) (i : Nat) (w : Widget)
    (resolver : Option (Str → Option Nat)) (b : AnchorBinding)
    (hb : b.isValid = true → resolvesOutside heap i w resolver b = true) :
    (resolveTarget w resolver b).isSome = b.isValid := by
  cases hv : b.isValid with
  | true =>
    have := hb hv
    unfold resolvesOutside at this
    cases hr : resolveTarget w resolver b with
    | none => rw [hr] at this; cases this
    | some t => rfl
  | false => rw [resolveTarget_invalid w resolver b hv]; rfl

/-- A horizontal step reads the same coordinates after the rect of the widget
has been replaced, when the target lies outside the subtree of the widget. -/
theorem applyHorizontal_set (heap : List Widget) (i : Nat) (w : Widget)
    (resolver : Option (Str → Option Nat)) (r : QRect) (P : QPoint) (forRight : Bool)
    (rect : QRect)
    (hb : ∀ b ∈ w.bindings, b.isValid = true → resolvesOutside heap i w resolver b = true) :
    applyHorizontal (heap.set i { w with m_rect := r }) { w with m_rect := r } resolver P
      forRight rect = applyHorizontal heap w resolver P forRight rect := by
  unfold applyHorizontal
  simp only
  have hres : ∀ b, resolveTarget { w with m_rect := r } resolver b
      = resolveTarget w resolver b := fun b => rfl
  rw [hres]
  cases ht : resolveTarget w resolver (if forRight = true then w.m_anchorRight
      else w.m_anchorLeft) with
  | none => rfl
  | some t =>
    simp only
    have hmem : (if forRight = true then w.m_anchorRight else w.m_anchorLeft) ∈ w.bindings := by
      cases forRight <;> simp [Widget.bindings]
    rw [edgeCoordinate_set heap i _ t _
      (resolved_outside heap i w resolver _ (hb _ hmem) t ht)]

theorem applyVertical_set (heap : List Widget) (i : Nat) (w : Widget)
    (resolver : Option (Str → Option Nat)) (r : QRect) (P : QPoint) (forBottom : Bool)
    (rect : QRect)
    (hb : ∀ b ∈ w.bindings, b.isValid = true → resolvesOutside heap i w resolver b = true) :
    applyVertical (heap.set i { w with m_rect := r }) { w with m_rect := r } resolver P
      forBottom rect = applyVertical heap w resolver P forBottom rect := by
  unfold applyVertical
  simp only
  have hres : ∀ b, resolveTarget { w with m_rect := r } resolver b
      = resolveTarget w resolver b := fun b => rfl
  rw [hres]
  cases ht : resolveTarget w resolver (if forBottom = true then w.m_anchorBottom
      else w.m_anchorTop) with
  | none => rfl
  | some t =>
    simp only
    have hmem : (if forBottom = true then w.m_anchorBottom else w.m_anchorTop) ∈ w.bindings := by
      cases forBottom <;> simp [Widget.bindings]
    rw [edgeCoordinate_set heap i _ t _
      (resolved_outside heap i w resolver _ (hb _ hmem) t ht)]

theorem applyCenter_set (heap : List Widget) (i : Nat) (w : Widget)
    (resolver : Option (Str → Option Nat)) (r : QRect) (P : QPoint) (horizontal : Bool)
    (rect : QRect)
    (hb : ∀ b ∈ w.bindings, b.isValid = true → resolvesOutside heap i w resolver b = true) :
    applyCenter (heap.set i { w with m_rect := r }) { w with m_rect := r } resolver P
      horizontal rect = applyCenter heap w resolver P horizontal rect := by
  unfold applyCenter
  simp only
  have hres : ∀ b, resolveTarget { w with m_rect := r } resolver b
      = resolveTarget w resolver b := fun b => rfl
  rw [hres]
  cases ht : resolveTarget w resolver (if horizontal = true then w.m_anchorHorizontalCenter
      else w.m_anchorVerticalCenter) with
  | none => rfl
  | some t =>
    simp only
    have hmem : (if horizontal = true then w.m_anchorHorizontalCenter
        else w.m_anchorVerticalCenter) ∈ w.bindings := by
      cases horizontal <;> simp [Widget.bindings]
    rw [edgeCoordinate_set heap i _ t _
      (resolved_outside heap i w resolver _ (hb _ hmem) t ht)]

/-- The left step, when it is defined for one rect, moves every rect to the
same place, and it acts exactly when the left binding is valid. -/
theorem applyHorizontal_left_form (heap : List Widget) (w : Widget)
    (resolver : Option (Str → Option Nat)) (P : QPoint) (rect0 r0 : QRect)
    (hs : (resolveTarget w resolver w.m_anchorLeft).isSome = w.m_anchorLeft.isValid)
    (h0 : applyHorizontal heap w resolver P false rect0 = some r0) :
    ∃ o : Option Int, o.isSome = w.m_anchorLeft.isValid ∧
      ∀ rect, applyHorizontal heap w resolver P false rect
        = some (match o with
          | none => rect
          | some a => rect.moveLeft a) := by
  unfold applyHorizontal at h0 ⊢
  simp only [Bool.false_eq_true, if_false] at h0 ⊢
  cases ht : resolveTarget w resolver w.m_anchorLeft with
  | none =>
    rw [ht] at hs
    exact ⟨none, hs, fun rect => rfl⟩
  | some t =>
    rw [ht] at hs h0
    simp only at h0
    cases hc : edgeCoordinate heap (some t) w.m_anchorLeft.edge with
    | none => rw [hc] at h0; cases h0
    | some c => exact ⟨some (c - P.x + w.m_margin.left), hs, fun rect => by simp only [hc]⟩

theorem applyHorizontal_right_form (heap : List Widget) (w : Widget)
    (resolver : Option (Str → Option Nat)) (P : QPoint) (rect0 r0 : QRect)
    (h0 : applyHorizontal heap w resolver P true rect0 = some r0) :
    ∃ o : Option Int,
      ∀ rect, applyHorizontal heap w resolver P true rect
        = some (match o with
          | none => rect
          | some b =>
            if w.m_anchorLeft.isValid then rect.setWidth (max 1 (b - rect.x))
            else rect.moveLeft (b - rect.w)) := by
  unfold applyHorizontal at h0 ⊢
  simp only [if_true] at h0 ⊢
  cases ht : resolveTarget w resolver w.m_anchorRight with
  | none => exact ⟨none, fun rect => rfl⟩
  | some t =>
    have hv := resolveTarget_some_valid w resolver _ t ht
    rw [ht] at h0
    simp only at h0
    cases hc : edgeCoordinate heap (some t) w.m_anchorRight.edge with
    | none => rw [hc] at h0; cases h0
    | some c =>
      refine ⟨some (c - P.x - w.m_margin.right), fun rect => ?_⟩
      simp only [hv, if_true, hc]
      split <;> rfl

theorem applyVertical_top_form (heap : List Widget) (w : Widget)
    (resolver : Option (Str → Option Nat)) (P : QPoint) (rect0 r0 : QRect)
    (hs : (resolveTarget w resolver w.m_anchorTop).isSome = w.m_anchorTop.isValid)
    (h0 : applyVertical heap w resolver P false rect0 = some r0) :
    ∃ o : Option Int, o.isSome = w.m_anchorTop.isValid ∧
      ∀ rect, applyVertical heap w resolver P false rect
        = some (match o with
          | none => rect
          | some a => rect.moveTop a) := by
  unfold applyVertical at h0 ⊢
  simp only [Bool.false_eq_true, if_false] at h0 ⊢
  cases ht : resolveTarget w resolver w.m_anchorTop with
  | none =>
    rw [ht] at hs
    exact ⟨none, hs, fun rect => rfl⟩
  | some t =>
    rw [ht] at hs h0
    simp only at h0
    cases hc : edgeCoordinate heap (some t) w.m_anchorTop.edge with
    | none => rw [hc] at h0; cases h0
    | some c => exact ⟨some (c - P.y + w.m_margin.top), hs, fun rect => by simp only [hc]⟩

theorem applyVertical_bottom_form (heap : List Widget) (w : Widget)
    (resolver : Option (Str → Option Nat)) (P : QPoint) (rect0 r0 : QRect)
    (h0 : applyVertical heap w resolver P true rect0 = some r0) :
    ∃ o : Option Int,
      ∀ rect, applyVertical heap w resolver P true rect
        = some (match o with
          | none => rect
          | some b =>
            if w.m_anchorTop.isValid then rect.setHeight (max 1 (b - rect.y))
            else rect.moveTop (b - rect.h)) := by
  unfold applyVertical at h0 ⊢
  simp only [if_true] at h0 ⊢
  cases ht : resolveTarget w resolver w.m_anchorBottom with
  | none => exact ⟨none, fun rect => rfl⟩
  | some t =>
    have hv := resolveTarget_some_valid w resolver _ t ht
    rw [ht] at h0
    simp only at h0
    cases hc : edgeCoordinate heap (some t) w.m_anchorBottom.edge with
    | none => rw [hc] at h0; cases h0
    | some c =>
      refine ⟨some (c - P.y - w.m_margin.bottom), fun rect => ?_⟩
      simp only [hv, if_true, hc]
      split <;> rfl

theorem applyCenter_form (heap : List Widget) (w : Widget)
    (resolver : Option (Str → Option Nat)) (P : QPoint) (horizontal : Bool) (rect0 r0 : QRect)
    (h0 : applyCenter heap w resolver P horizontal rect0 = some r0) :
    ∃ o : Option Int,
      ∀ rect, applyCenter heap w resolver P horizontal rect
        = some (match o with
          | none => rect
          | some c =>
            if horizontal then rect.moveLeft (c - Int.tdiv rect.w 2)
            else rect.moveTop (c - Int.tdiv rect.h 2)) := by
  unfold applyCenter at h0 ⊢
  simp only at h0 ⊢
  cases ht : resolveTarget w resolver (if horizontal = true then w.m_anchorHorizontalCenter
      else w.m_anchorVerticalCenter) with
  | none => exact ⟨none, fun rect => rfl⟩
  | some t =>
    rw [ht] at h0
    simp only at h0
    cases hc : edgeCoordinate heap (some t) (if horizontal = true
        then w.m_anchorHorizontalCenter else w.m_anchorVerticalCenter).edge with
    | none => rw [hc] at h0; cases h0
    | some c =>
      cases horizontal
      · refine ⟨some (c - P.y), fun rect => ?_⟩
        simp only [Bool.false_eq_true, if_false] at hc ⊢
        rw [hc]
      · refine ⟨some (c - P.x), fun rect => ?_⟩
        simp only [if_true] at hc ⊢
        rw [hc]

/-- The six steps in their closed form, applied to their own result, change
nothing. -/
theorem six_steps_idempotent (lv tv : Bool) (o1 o2 o3 o4 o5 o6 : Option Int)
    (h1 : o1.isSome = lv) (h3 : o3.isSome = tv) (g : QRect → QRect)
    (hg : ∀ rect, g rect =
      (match o6 with
        | none => id
        | some c => fun q : QRect => q.moveTop (c - Int.tdiv q.h 2))
      ((match o5 with
        | none => id
        | some c => fun q : QRect => q.moveLeft (c - Int.tdiv q.w 2))
      ((match o4 with
        | none => id
        | some b => fun q : QRect =>
          if tv then q.setHeight (max 1 (b - q.y)) else q.moveTop (b - q.h))
      ((match o3 with
        | none => id
        | some a => fun q : QRect => q.moveTop a)
      ((match o2 with
        | none => id
        | some b => fun q : QRect =>
          if lv then q.setWidth (max 1 (b - q.x)) else q.moveLeft (b - q.w))
      ((match o1 with
        | none => id
        | some a => fun q : QRect => q.moveLeft a) rect))))))
    (rect : QRect) : g (g rect) = g rect := by
  rw [hg (g rect), hg rect]
  cases o1 <;> cases o2 <;> cases o3 <;> cases o4 <;> cases o5 <;> cases o6 <;>
    simp_all [QRect.moveLeft, QRect.moveTop, QRect.setWidth, QRect.setHeight]

theorem applyAnchorsRect_idempotent (heap : List Widget) (i : Nat) (w : Widget)
    (resolver : Option (Str → Option Nat)) (r : QRect)
    (hself : ∀ p, w.m_parent = some p → inSubtree heap i p = false)
    (hb : ∀ b ∈ w.bindings, b.isValid = true → resolvesOutside heap i w resolver b = true)
    (hr : applyAnchorsRect heap w resolver = some r) :
    applyAnchorsRect (heap.set i { w with m_rect := r }) { w with m_rect := r } resolver
      = some r := by
  have hmem : ∀ b ∈ w.bindings,
      (resolveTarget w resolver b).isSome = b.isValid :=
    fun b hm => resolved_of_valid heap i w resolver b (hb b hm)
  have hP : absolutePosition (heap.set i { w with m_rect := r })
      ({ w with m_rect := r } : Widget).m_parent = absolutePosition heap w.m_parent := by
    show absolutePosition (heap.set i { w with m_rect := r }) w.m_parent = _
    cases hp : w.m_parent with
    | none => rfl
    | some p => exact (absolutePosition_set heap i _ p (hself p hp)).1
  unfold applyAnchorsRect at hr ⊢
  rw [hP]
  cases hPa : absolutePosition heap w.m_parent with
  | none => rw [hPa] at hr; cases hr
  | some P =>
    rw [hPa] at hr
    simp only [Option.some_bind] at hr ⊢
    simp only [applyHorizontal_set heap i w resolver r P _ _ hb,
      applyVertical_set heap i w resolver r P _ _ hb,
      applyCenter_set heap i w resolver r P _ _ hb]
    cases e1 : applyHorizontal heap w resolver P false w.m_rect with
    | none => rw [e1] at hr; cases hr
    | some r1 =>
      rw [e1] at hr
      simp only [Option.some_bind] at hr
      cases e2 : applyHorizontal heap w resolver P true r1 with
      | none => rw [e2] at hr; cases hr
      | some r2 =>
        rw [e2] at hr
        simp only [Option.some_bind] at hr
        cases e3 : applyVertical heap w resolver P false r2 with
        | none => rw [e3] at hr; cases hr
        | some r3 =>
          rw [e3] at hr
          simp only [Option.some_bind] at hr
          cases e4 : applyVertical heap w resolver P true r3 with
          | none => rw [e4] at hr; cases hr
          | some r4 =>
            rw [e4] at hr
            simp only [Option.some_bind] at hr
            cases e5 : applyCenter heap w resolver P true r4 with
            | none => rw [e5] at hr; cases hr
            | some r5 =>
              rw [e5] at hr
              simp only [Option.some_bind] at hr
              obtain ⟨o1, ho1, f1⟩ := applyHorizontal_left_form heap w resolver P _ _
                (hmem _ (by simp [Widget.bindings])) e1
              obtain ⟨o2, f2⟩ := applyHorizontal_right_form heap w resolver P _ _ e2
              obtain ⟨o3, ho3, f3⟩ := applyVertical_top_form heap w resolver P _ _
                (hmem _ (by simp [Widget.bindings])) e3
              obtain ⟨o4, f4⟩ := applyVertical_bottom_form heap w resolver P _ _ e4
              obtain ⟨o5, f5⟩ := applyCenter_form heap w resolver P true _ _ e5
              obtain ⟨o6, f6⟩ := applyCenter_form heap w resolver P false _ _ hr
              have hform : ∀ rect : QRect,
                  ((applyHorizontal heap w resolver P false rect).bind fun r1 =>
                    (applyHorizontal heap w resolver P true r1).bind fun r2 =>
                    (applyVertical heap w resolver P false r2).bind fun r3 =>
                    (applyVertical heap w resolver P true r3).bind fun r4 =>
                    (applyCenter heap w resolver P true r4).bind fun r5 =>
                    applyCenter heap w resolver P false r5)
                  = some ((match o6 with
                      | none => id
                      | some c => fun q : QRect => q.moveTop (c - Int.tdiv q.h 2))
                    ((match o5 with
                      | none => id
                      | some c => fun q : QRect => q.moveLeft (c - Int.tdiv q.w 2))
                    ((match o4 with
                      | none => id
                      | some b => fun q : QRect =>
                        if w.m_anchorTop.isValid then q.setHeight (max 1 (b - q.y))
                        else q.moveTop (b - q.h))
                    ((match o3 with
                      | none => id
                      | some a => fun q : QRect => q.moveTop a)
                    ((match o2 with
                      | none => id
                      | some b => fun q : QRect =>
                        if w.m_anchorLeft.isValid then q.setWidth (max 1 (b - q.x))
                        else q.moveLeft (b - q.w))
                    ((match o1 with
                      | none => id
                      | some a => fun q : QRect => q.moveLeft a) rect)))))) := by
                intro rect
                simp only [f1, f2, f3, f4, f5, f6, Option.some_bind]
                cases o1 <;> cases o2 <;> cases o3 <;> cases o4 <;> cases o5 <;> cases o6 <;> rfl
              have hfirst := hform w.m_rect
              simp only [e1, e2, e3, e4, e5, hr, Option.some_bind] at hfirst
              have hidem := six_steps_idempotent w.m_anchorLeft.isValid w.m_anchorTop.isValid
                o1 o2 o3 o4 o5 o6 ho1 ho3 _ (fun rect => rfl) w.m_rect
              rw [← Option.some.inj hfirst] at hidem
              rw [hform r]
              exact congrArg some hidem

/-- C29: anchor resolution is idempotent. For a widget that is not its own
ancestor, and a resolver under which every valid binding of the widget resolves
to a widget that is neither the widget nor one of its descendants, a second
`applyAnchors` changes nothing: applying it to the list that the first
application returns gives that list again. On a list whose parent references
point backwards and bindings that resolve into the list the first application
returns. -/
theorem applyAnchors_idempotent (heap : List Widget) (i : Nat) (w : Widget)
    (resolver : Option (Str → Option Nat)) (hw : heap[i]? = some w)
    (hself : ∀ p, w.m_parent = some p → inSubtree heap i p = false)
    (hb : ∀ b ∈ w.bindings, b.isValid = true → resolvesOutside heap i w resolver b = true) :
    (∀ h1, applyAnchors heap i resolver = some h1 → applyAnchors h1 i resolver = some h1)
      ∧ (applyAnchors heap i resolver).bind (fun h1 => applyAnchors h1 i resolver)
        = applyAnchors heap i resolver
      ∧ (WellParented heap →
          (∀ b ∈ w.bindings, ∀ t, resolveTarget w resolver b = some t → t < heap.length) →
          ∃ r, applyAnchors heap i resolver = some (heap.set i { w with m_rect := r })) := by
  have hi : i < heap.length := getElem?_lt heap i w hw
  have key : ∀ h1, applyAnchors heap i resolver = some h1 →
      applyAnchors h1 i resolver = some h1 := by
    intro h1 h
    unfold applyAnchors at h
    rw [hw] at h
    simp only at h
    cases hr : applyAnchorsRect heap w resolver with
    | none => rw [hr] at h; cases h
    | some r =>
      rw [hr] at h
      simp only [Option.some.injEq] at h
      subst h
      have hget : (heap.set i { w with m_rect := r })[i]? = some { w with m_rect := r } :=
        List.getElem?_set_self hi
      rw [applyAnchors_of_rect _ i _ resolver r hget
        (applyAnchorsRect_idempotent heap i w resolver r hself hb hr)]
      rw [List.set_set]
  refine ⟨key, ?_, ?_⟩
  · cases h : applyAnchors heap i resolver with
    | none => rfl
    | some h1 => exact key h1 h
  · intro hwp hlt
    have hcd : ∀ b ∈ w.bindings, CoordDefined heap w resolver b :=
      fun b hm t ht => edgeCoordinate_total heap hwp t (hlt b hm t ht) _
    obtain ⟨P, hP⟩ := absolutePosition_total heap hwp w.m_parent (fun p hp => by
      have := hwp i w hw p hp
      omega)
    obtain ⟨r1, h1, _⟩ := applyHorizontal_defined heap w resolver P false w.m_rect
      (hcd _ (by simp [Widget.bindings]))
    obtain ⟨r2, h2, _⟩ := applyHorizontal_defined heap w resolver P true r1
      (hcd _ (by simp [Widget.bindings]))
    obtain ⟨r3, h3, _⟩ := applyVertical_defined heap w resolver P false r2
      (hcd _ (by simp [Widget.bindings]))
    obtain ⟨r4, h4, _⟩ := applyVertical_defined heap w resolver P true r3
      (hcd _ (by simp [Widget.bindings]))
    obtain ⟨r5, h5, _⟩ := applyCenter_horizontal_defined heap w resolver P r4
      (hcd _ (by simp [Widget.bindings]))
    obtain ⟨r6, h6, _⟩ := applyCenter_vertical_defined heap w resolver P r5
      (hcd _ (by simp [Widget.bindings]))
    refine ⟨r6, applyAnchors_of_rect heap i w _ r6 hw ?_⟩
    simp [applyAnchorsRect, hP, h1, h2, h3, h4, h5, h6]

theorem applyAnchors_idempotent_witness :
    exampleStretchHeap[1]? = some exampleStretchButton
      ∧ (∀ b ∈ exampleStretchButton.bindings, b.isValid = true →
          resolvesOutside exampleStretchHeap 1 exampleStretchButton none b = true)
      ∧ (applyAnchors exampleStretchHeap 1 none).bind (fun h1 => applyAnchors h1 1 none)
        = applyAnchors exampleStretchHeap 1 none :=
  ⟨rfl, by decide!,
    (applyAnchors_idempotent exampleStretchHeap 1 exampleStretchButton none
      rfl (fun p hp => by cases hp; decide!) (by decide!)).2.1⟩

/-! ## The precedence of properties -/

theorem trimLeft_suffix (s : Str) : ∃ pre, s = pre ++ trimLeft s := by
  induction s with
  | nil => exact ⟨[], rfl⟩
  | cons x xs ih =>
    rw [trimLeft]
    by_cases hx : isspace x = true
    · rw [if_pos hx]
      obtain ⟨pre, hpre⟩ := ih
      exact ⟨x :: pre, by rw [List.cons_append, ← hpre]⟩
    · rw [if_neg hx]
      exact ⟨[], rfl⟩

theorem trimLeft_of_head (s : Str) (h : ∀ c r, s = c :: r → isspace c = false) :
    trimLeft s = s := by
  cases s with
  | nil => rfl
  | cons c r =>
    rw [trimLeft, if_neg]
    rw [h c r rfl]
    exact Bool.false_ne_true

theorem trim_trim (s : Str) : trim (trim s) = trim s := by
  have hhead : ∀ c r, trim s = c :: r → isspace c = false :=
    fun c r h => trim_head_nonspace s c r h
  have h1 : trimLeft (trim s) = trim s := trimLeft_of_head _ hhead
  unfold trim at h1 ⊢
  rw [h1, List.reverse_reverse, trimLeft_idem]

theorem inherited_own (ctx : BuildContext) (p : NodePath) (n : OTUINode) (key v : Str)
    (hget : ctx.root.get p = some n) (hv : otui_prop_get n key = some v)
    (hne : trim v ≠ []) : inheritedNodeProperty ctx p key = trim v := by
  unfold inheritedNodeProperty
  rw [inheritedLoop]
  simp only [BuildContext.deref, hget, nodeProperty, hv]
  rw [if_pos hne]

theorem assign_same (w : Widget) (t : EdgeGroupType) (e : AnchorEdge) (v : Int)
    (he : e ∈ [AnchorEdge.Top, AnchorEdge.Right, AnchorEdge.Bottom, AnchorEdge.Left]) :
    (edgeGroupOf (assignEdgeValue w t e v) t).value e = v := by
  cases t <;> cases e <;> first | rfl | (exfalso; revert he; decide)

theorem assign_other (w : Widget) (t t2 : EdgeGroupType) (e e2 : AnchorEdge) (v : Int)
    (h : t2 ≠ t ∨ e2 ≠ e) :
    (edgeGroupOf (assignEdgeValue w t e v) t2).value e2 = (edgeGroupOf w t2).value e2 := by
  cases t <;> cases e <;> cases t2 <;> cases e2 <;>
    first | rfl | (exfalso; rcases h with h | h <;> exact h rfl)

theorem component_other (w : Widget) (t t2 : EdgeGroupType) (e e2 : AnchorEdge) (value : Str)
    (h : t2 ≠ t ∨ e2 ≠ e) :
    (edgeGroupOf (applyEdgeComponentProperty w t e value) t2).value e2
      = (edgeGroupOf w t2).value e2 := by
  unfold applyEdgeComponentProperty
  cases tryParseInt value with
  | none => rfl
  | some k => exact assign_other w t t2 e e2 k h

theorem edgeProps_other (ctx : BuildContext) (node : NodePath) (t t2 : EdgeGroupType)
    (e2 : AnchorEdge) :
    ∀ (props : List (Str × AnchorEdge)) (w : Widget),
      (t2 ≠ t ∨ e2 ∉ props.map Prod.snd) →
      (edgeGroupOf (applyEdgeProps ctx node t props w) t2).value e2
        = (edgeGroupOf w t2).value e2 := by
  intro props
  induction props with
  | nil => intro w _; rfl
  | cons pr rest ih =>
    intro w h
    rw [applyEdgeProps]
    have hrest : t2 ≠ t ∨ e2 ∉ rest.map Prod.snd := by
      rcases h with h | h
      · exact Or.inl h
      · exact Or.inr (fun hm => h (by simp only [List.map_cons]; exact List.mem_cons_of_mem _ hm))
    have hhead : t2 ≠ t ∨ e2 ≠ pr.2 := by
      rcases h with h | h
      · exact Or.inl h
      · exact Or.inr (fun he => h (by
          rw [he]
          exact List.mem_map.2 ⟨pr, List.mem_cons_self _ _, rfl⟩))
    show (edgeGroupOf (applyEdgeProps ctx node t rest
      (if inheritedNodeProperty ctx node pr.1 ≠ [] then
        applyEdgeComponentProperty w t pr.2 (inheritedNodeProperty ctx node pr.1)
       else w)) t2).value e2 = _
    rw [ih _ hrest]
    split
    · exact component_other w t t2 pr.2 e2 _ hhead
    · rfl

theorem edgeProps_last (ctx : BuildContext) (node : NodePath) (t : EdgeGroupType)
    (key : Str) (e : AnchorEdge) (k : Int)
    (he : e ∈ [AnchorEdge.Top, AnchorEdge.Right, AnchorEdge.Bottom, AnchorEdge.Left])
    (hne : inheritedNodeProperty ctx node key ≠ [])
    (hk : tryParseInt (inheritedNodeProperty ctx node key) = some k) :
    ∀ (props : List (Str × AnchorEdge)) (w : Widget),
      (key, e) ∈ props → (props.map Prod.snd).Nodup →
      (edgeGroupOf (applyEdgeProps ctx node t props w) t).value e = k := by
  intro props
  induction props with
  | nil => intro w h; simp at h
  | cons pr rest ih =>
    intro w hmem hnd
    rw [List.map_cons, List.nodup_cons] at hnd
    rw [applyEdgeProps]
    by_cases hpe : pr.2 = e
    · have hkey : pr.1 = key := by
        rcases List.mem_cons.1 hmem with h | h
        · rw [← h]
        · exfalso
          apply hnd.1
          rw [hpe]
          exact List.mem_map.2 ⟨(key, e), h, rfl⟩
      show (edgeGroupOf (applyEdgeProps ctx node t rest
        (if inheritedNodeProperty ctx node pr.1 ≠ [] then
          applyEdgeComponentProperty w t pr.2 (inheritedNodeProperty ctx node pr.1)
         else w)) t).value e = _
      rw [edgeProps_other ctx node t t e rest _ (Or.inr (by rw [← hpe]; exact hnd.1))]
      rw [hkey, hpe, if_pos hne]
      unfold applyEdgeComponentProperty
      rw [hk]
      exact assign_same w t e k he
    · rcases List.mem_cons.1 hmem with h | h
      · exact absurd (by rw [← h]) hpe
      · exact ih _ h hnd.2

theorem group_other (w : Widget) (t t2 : EdgeGroupType) (e2 : AnchorEdge) (value : Str)
    (h : t2 ≠ t) :
    (edgeGroupOf (applyEdgeGroupProperty w t value) t2).value e2
      = (edgeGroupOf w t2).value e2 := by
  unfold applyEdgeGroupProperty
  split
  · rfl
  · simp only
    rw [assign_other _ t t2 _ e2 _ (Or.inl h), assign_other _ t t2 _ e2 _ (Or.inl h),
      assign_other _ t t2 _ e2 _ (Or.inl h), assign_other _ t t2 _ e2 _ (Or.inl h)]

theorem setAnchorBinding_groups (w : Widget) (e : AnchorEdge) (id : Str) (te : AnchorEdge) :
    (w.setAnchorBinding e id te).m_margin = w.m_margin
      ∧ (w.setAnchorBinding e id te).m_padding = w.m_padding := by
  cases e <;> exact ⟨rfl, rfl⟩

theorem bindAnchorEdge_groups (w : Widget) (e : AnchorEdge) (value : Str) :
    (bindAnchorEdge w e value).m_margin = w.m_margin
      ∧ (bindAnchorEdge w e value).m_padding = w.m_padding := by
  unfold bindAnchorEdge
  split
  · exact setAnchorBinding_groups _ _ _ _
  · simp only
    split
    · exact ⟨rfl, rfl⟩
    · exact setAnchorBinding_groups _ _ _ _

theorem anchorProperty_groups (w : Widget) (name value : Str) :
    (applyAnchorProperty w name value).m_margin = w.m_margin
      ∧ (applyAnchorProperty w name value).m_padding = w.m_padding := by
  unfold applyAnchorProperty
  simp only
  split_ifs <;>
    first
    | exact ⟨rfl, rfl⟩
    | exact bindAnchorEdge_groups _ _ _

theorem anchorProps_groups (ctx : BuildContext) (node : NodePath) :
    ∀ (names : List Str) (w : Widget),
      (applyAnchorProps ctx node names w).m_margin = w.m_margin
        ∧ (applyAnchorProps ctx node names w).m_padding = w.m_padding := by
  intro names
  induction names with
  | nil => intro w; exact ⟨rfl, rfl⟩
  | cons nm rest ih =>
    intro w
    rw [applyAnchorProps]
    obtain ⟨h1, h2⟩ := ih (if inheritedNodeProperty ctx node nm ≠ [] then
      applyAnchorProperty w nm (inheritedNodeProperty ctx node nm) else w)
    rw [h1, h2]
    split
    · exact anchorProperty_groups _ _ _
    · exact ⟨rfl, rfl⟩

theorem anchorProps_append (ctx : BuildContext) (node : NodePath) :
    ∀ (l1 l2 : List Str) (w : Widget),
      applyAnchorProps ctx node (l1 ++ l2) w
        = applyAnchorProps ctx node l2 (applyAnchorProps ctx node l1 w) := by
  intro l1
  induction l1 with
  | nil => intro l2 w; rfl
  | cons nm rest ih =>
    intro l2 w
    rw [List.cons_append, applyAnchorProps, applyAnchorProps, ih]

theorem fill_step (w : Widget) (t : Str) (ht : t ≠ []) (htrim : trim t = t) :
    applyAnchorProperty w "anchors.fill".toList t
      = if compareCI t "none".toList then w.clearAnchors else w.bindFill t := by
  unfold applyAnchorProperty
  simp only [htrim]
  rw [if_neg ht, if_pos (by decide)]

theorem centerIn_step (w : Widget) (t : Str) (ht : t ≠ []) (htrim : trim t = t)
    (hn : compareCI t "none".toList = false) :
    applyAnchorProperty w "anchors.centerIn".toList t
      = (w.setAnchorBinding AnchorEdge.HorizontalCenter t
          AnchorEdge.HorizontalCenter).setAnchorBinding
          AnchorEdge.VerticalCenter t AnchorEdge.VerticalCenter := by
  unfold applyAnchorProperty
  simp only [htrim, hn]
  rw [if_neg ht, if_neg (by decide), if_pos (by decide)]
  simp

/-- The end of `applyCommonWidgetProps`: the margin components, the padding
shorthand and components and the anchors; the phantom flag, which comes last,
touches none of these fields. -/
theorem applyCommon_tail (env : Env) (ctx : BuildContext) (dataPath : Str) (widget : Widget)
    (node : NodePath) (n : OTUINode) :
    ∃ M1 : Widget, ∀ A : Widget,
      A = applyAnchorProps ctx node
          ["anchors.left".toList, "anchors.right".toList, "anchors.top".toList,
           "anchors.bottom".toList, "anchors.horizontalCenter".toList,
           "anchors.verticalCenter".toList, "anchors.centerIn".toList, "anchors.fill".toList]
          (applyEdgeProps ctx node EdgeGroupType.Padding
            [("padding-top".toList, AnchorEdge.Top), ("padding-right".toList, AnchorEdge.Right),
             ("padding-bottom".toList, AnchorEdge.Bottom),
             ("padding-left".toList, AnchorEdge.Left)]
            (if inheritedNodeProperty ctx node "padding".toList ≠ [] then
              applyEdgeGroupProperty
                (applyEdgeProps ctx node EdgeGroupType.Margin
                  [("margin-top".toList, AnchorEdge.Top),
                   ("margin-right".toList, AnchorEdge.Right),
                   ("margin-bottom".toList, AnchorEdge.Bottom),
                   ("margin-left".toList, AnchorEdge.Left)] M1)
                EdgeGroupType.Padding (inheritedNodeProperty ctx node "padding".toList)
             else
              applyEdgeProps ctx node EdgeGroupType.Margin
                [("margin-top".toList, AnchorEdge.Top),
                 ("margin-right".toList, AnchorEdge.Right),
                 ("margin-bottom".toList, AnchorEdge.Bottom),
                 ("margin-left".toList, AnchorEdge.Left)] M1)) →
      (applyCommonWidgetProps env ctx dataPath widget node n).m_margin = A.m_margin
        ∧ (applyCommonWidgetProps env ctx dataPath widget node n).m_padding = A.m_padding
        ∧ (applyCommonWidgetProps env ctx dataPath widget node n).bindings = A.bindings :=
  ⟨_, fun A hA => by subst hA; exact ⟨rfl, rfl, rfl⟩⟩

/-! ## The order of the property lines -/

theorem propsGet_perm (key : Str) (l1 l2 : List OTUIProp) (hp : l1.Perm l2) :
    (l2.map fun pr => pr.key).Nodup → propsGet l1 key = propsGet l2 key := by
  induction hp with
  | nil => intro _; rfl
  | cons x _ ih =>
    intro hnd
    rw [List.map_cons, List.nodup_cons] at hnd
    rw [propsGet, propsGet, ih hnd.2]
  | swap x y l =>
    intro hnd
    simp only [List.map_cons, List.nodup_cons, List.mem_cons, not_or] at hnd
    by_cases hx : x.key = key
    · by_cases hy : y.key = key
      · exact absurd (hx.trans hy.symm) hnd.1.1
      · simp [propsGet, hx, hy]
    · by_cases hy : y.key = key
      · simp [propsGet, hx, hy]
      · simp [propsGet, hx, hy]
  | trans h12 h23 ih1 ih2 =>
    intro hnd
    rw [ih1 ((List.Perm.nodup_iff (List.Perm.map _ h23)).2 hnd), ih2 hnd]

theorem get_modify_view {α : Type} (v : OTUINode → α) (f : OTUINode → OTUINode)
    (hf : ∀ n, (f n).children = n.children)
    (hvc : ∀ (n : OTUINode) (cs : List OTUINode), v (n.withChildren cs) = v n) :
    ∀ (p : NodePath) (root n0 : OTUINode), root.get p = some n0 → v (f n0) = v n0 →
      ∀ q : NodePath, ((OTUINode.modify f root p).get q).map v = (root.get q).map v := by
  intro p
  induction p with
  | nil =>
    intro root n0 hp hv q
    rw [get_nil] at hp
    cases hp
    rw [modify_nil]
    cases q with
    | nil => rw [get_nil, get_nil, Option.map_some', Option.map_some', hv]
    | cons j r => rw [get_cons, get_cons, hf root]
  | cons i p ih =>
    intro root n0 hp hv q
    rw [get_cons] at hp
    rw [modify_cons]
    cases hc : root.children[i]? with
    | none => rfl
    | some c =>
      rw [hc] at hp
      simp only at hp ⊢
      cases q with
      | nil => rw [get_nil, get_nil, Option.map_some', Option.map_some', hvc]
      | cons j r =>
        rw [get_cons, get_cons, withChildren_children]
        have hi : i < root.children.length := getElem?_lt _ _ _ hc
        by_cases hij : i = j
        · subst hij
          rw [List.getElem?_set_self hi, hc]
          exact ih c n0 hp hv r
        · rw [List.getElem?_set_ne hij]

theorem nodeCount_eq (n : OTUINode) : nodeCount n = nodeCountList n.children + 1 := by
  cases n
  rw [nodeCount]
  rfl

theorem nodeCountList_set (x : OTUINode) :
    ∀ (l : List OTUINode) (i : Nat) (c : OTUINode), l[i]? = some c →
      nodeCount x = nodeCount c → nodeCountList (l.set i x) = nodeCountList l := by
  intro l
  induction l with
  | nil => intro i c h; simp at h
  | cons y ys ih =>
    intro i c h hx
    cases i with
    | zero =>
      simp only [List.getElem?_cons_zero, Option.some.injEq] at h
      subst h
      rw [List.set_cons_zero, nodeCountList, nodeCountList, hx]
    | succ i =>
      simp only [List.getElem?_cons_succ] at h
      rw [List.set_cons_succ, nodeCountList, nodeCountList, ih i c h hx]

theorem nodeCount_modify (f : OTUINode → OTUINode) (hf : ∀ n, (f n).children = n.children) :
    ∀ (p : NodePath) (root : OTUINode), nodeCount (OTUINode.modify f root p) = nodeCount root := by
  intro p
  induction p with
  | nil =>
    intro root
    rw [modify_nil, nodeCount_eq, nodeCount_eq, hf]
  | cons i p ih =>
    intro root
    rw [modify_cons]
    cases hc : root.children[i]? with
    | none => rfl
    | some c =>
      simp only
      rw [nodeCount_eq, nodeCount_eq, withChildren_children,
        nodeCountList_set _ _ i c hc (ih c)]

theorem view_some {a b : Option OTUINode}
    (h : a.map nodeView = b.map nodeView) (x : OTUINode) (hx : b = some x) :
    ∃ y, a = some y ∧ y.name = x.name ∧ y.base_style = x.base_style
      ∧ ∀ key, otui_prop_get y key = otui_prop_get x key := by
  subst hx
  cases a with
  | none => cases h
  | some y =>
    simp only [Option.map_some', Option.some.injEq, nodeView, Prod.mk.injEq] at h
    exact ⟨y, rfl, h.1, h.2.1, fun key => congrFun h.2.2 key⟩

theorem view_none {a b : Option OTUINode}
    (h : a.map nodeView = b.map nodeView) (hx : b = none) : a = none := by
  subst hx
  cases a with
  | none => rfl
  | some y => cases h

theorem templateOfName_view (a b : OTUINode) (nm : Str) (h1 : a.name = b.name)
    (h2 : a.base_style = b.base_style)
    (h3 : ∀ key, otui_prop_get a key = otui_prop_get b key) (h : templateOfName b nm) :
    templateOfName a nm := by
  obtain ⟨q1, q2, q3⟩ := h
  refine ⟨by rw [h2]; exact q1, ?_, by rw [h1]; exact q3⟩
  unfold nodeProperty at q2 ⊢
  rw [h3]
  exact q2

theorem firstTemplate_view (root root2 : OTUINode)
    (hv : ∀ q : NodePath, (root2.get q).map nodeView = (root.get q).map nodeView)
    (hv2 : ∀ q : NodePath, (root.get q).map nodeView = (root2.get q).map nodeView)
    (nm : Str) (i : Nat) (h : FirstTemplate root nm i) : FirstTemplate root2 nm i := by
  obtain ⟨⟨c, hc, ht⟩, hmin⟩ := h
  constructor
  · obtain ⟨y, hy, e1, e2, e3⟩ := view_some (hv [i]) c (get_single root i c hc)
    refine ⟨y, ?_, templateOfName_view y c nm e1 e2 e3 ht⟩
    rw [get_cons] at hy
    cases hk : root2.children[i]? with
    | none => rw [hk] at hy; cases hy
    | some k =>
      rw [hk] at hy
      simp only [get_nil] at hy
      exact hy
  · intro j d hj hd hcontra
    obtain ⟨y, hy, e1, e2, e3⟩ := view_some (hv2 [j]) d (get_single root2 j d hd)
    rw [get_cons] at hy
    cases hk : root.children[j]? with
    | none => rw [hk] at hy; cases hy
    | some k =>
      rw [hk] at hy
      simp only [get_nil, Option.some.injEq] at hy
      subst hy
      exact hmin j k hj hk (templateOfName_view k d nm e1 e2 e3 hcontra)

theorem bindings_mem_view (root root2 : OTUINode)
    (hv : ∀ q : NodePath, (root2.get q).map nodeView = (root.get q).map nodeView)
    (hv2 : ∀ q : NodePath, (root.get q).map nodeView = (root2.get q).map nodeView)
    (p t : NodePath) (h : (p, t) ∈ (buildLocalTemplateBindings root).1) :
    (p, t) ∈ (buildLocalTemplateBindings root2).1 := by
  rw [bindings_mem_iff] at h ⊢
  obtain ⟨N, i, hN, hbs, hnm, ht, hft⟩ := h
  obtain ⟨y, hy, e1, e2, _⟩ := view_some (hv p) N hN
  refine ⟨y, i, hy, by rw [e2]; exact hbs, by rw [e1]; exact hnm, ht, ?_⟩
  rw [e1]
  exact firstTemplate_view root root2 hv hv2 _ i hft

theorem bindingFind_view (root root2 : OTUINode)
    (hv : ∀ q : NodePath, (root2.get q).map nodeView = (root.get q).map nodeView)
    (p : NodePath) :
    bindingFind (buildLocalTemplateBindings root2).1 p
      = bindingFind (buildLocalTemplateBindings root).1 p := by
  have hv2 : ∀ q : NodePath, (root.get q).map nodeView = (root2.get q).map nodeView :=
    fun q => (hv q).symm
  have hone : ∀ (ra rb : OTUINode),
      (∀ q : NodePath, (rb.get q).map nodeView = (ra.get q).map nodeView) →
      (∀ q : NodePath, (ra.get q).map nodeView = (rb.get q).map nodeView) →
      ∀ t, bindingFind (buildLocalTemplateBindings ra).1 p = some t →
        bindingFind (buildLocalTemplateBindings rb).1 p = some t := by
    intro ra rb h1 h2 t ht
    have hm := bindingFind_mem p _ t ht
    have hm2 := bindings_mem_view ra rb h1 h2 p t hm
    obtain ⟨t2, ht2⟩ := bindingFind_of_mem p t _ hm2
    have hm3 := bindingFind_mem p _ t2 ht2
    rw [bindings_mem_iff] at hm2 hm3
    obtain ⟨N, i, hN, _, _, hti, hfi⟩ := hm2
    obtain ⟨N2, j, hN2, _, _, htj, hfj⟩ := hm3
    rw [hN] at hN2
    cases hN2
    rw [ht2, htj, hti, firstTemplate_unique rb _ i j hfi hfj]
  cases h : bindingFind (buildLocalTemplateBindings root).1 p with
  | some t => exact hone root root2 hv hv2 t h
  | none =>
    cases h2 : bindingFind (buildLocalTemplateBindings root2).1 p with
    | none => rfl
    | some t =>
      have := hone root2 root hv2 hv t h2
      rw [h] at this
      cases this

theorem inheritedLoop_view (ctx ctx2 : BuildContext) (key : Str)
    (hcache : ctx2.cache = ctx.cache)
    (hbind : ∀ q, bindingFind ctx2.bindings q = bindingFind ctx.bindings q)
    (hfind : ∀ nm, otui_find_node ctx2.root nm = otui_find_node ctx.root nm)
    (hv : ∀ q : NodePath, (ctx2.root.get q).map nodeView = (ctx.root.get q).map nodeView) :
    ∀ (fuel : Nat) (current : NodeRef) (visited : List NodeRef) (names : List Str),
      inheritedLoop ctx2 key fuel current visited names
        = inheritedLoop ctx key fuel current visited names := by
  have hderef : ∀ r : NodeRef, (ctx2.deref r).map nodeView = (ctx.deref r).map nodeView := by
    intro r
    cases r with
    | file q => exact hv q
    | style i =>
      unfold BuildContext.deref
      rw [hcache]
  intro fuel
  induction fuel with
  | zero => intro current visited names; rfl
  | succ fuel ih =>
    intro current visited names
    rw [inheritedLoop, inheritedLoop]
    cases hd : ctx.deref current with
    | none => rw [view_none (hderef current) hd]
    | some cur =>
      obtain ⟨cur2, hd2, e1, e2, e3⟩ := view_some (hderef current) cur hd
      rw [hd2]
      simp only
      have hprop : nodeProperty cur2 key [] = nodeProperty cur key [] := by
        unfold nodeProperty
        rw [e3]
      have hbase : ∀ nms, inheritedBaseStage ctx2 cur2 nms = inheritedBaseStage ctx cur nms := by
        intro nms
        unfold inheritedBaseStage
        rw [e2, hcache]
        simp only [hfind]
      have hbinding : ∀ nms, inheritedBindingStage ctx2 current nms
          = inheritedBindingStage ctx current nms := by
        intro nms
        unfold inheritedBindingStage
        cases current with
        | style i => rfl
        | file q =>
          simp only [hbind]
          cases hb : bindingFind ctx.bindings q with
          | none => rfl
          | some t =>
            simp only
            cases ht : ctx.root.get t with
            | none => rw [view_none (hv t) ht]
            | some tn =>
              obtain ⟨tn2, htn2, f1, _, _⟩ := view_some (hv t) tn ht
              rw [htn2]
              simp only [f1]
      have hstyle : ∀ nms, inheritedStyleStage ctx2 current cur2 nms
          = inheritedStyleStage ctx current cur nms := by
        intro nms
        unfold inheritedStyleStage
        rw [hcache, e1]
      rw [hprop]
      simp only [hbase, hbinding, hstyle, ih]

theorem inheritedNodeProperty_view (ctx ctx2 : BuildContext)
    (hcache : ctx2.cache = ctx.cache)
    (hbind : ∀ q, bindingFind ctx2.bindings q = bindingFind ctx.bindings q)
    (hfind : ∀ nm, otui_find_node ctx2.root nm = otui_find_node ctx.root nm)
    (hv : ∀ q : NodePath, (ctx2.root.get q).map nodeView = (ctx.root.get q).map nodeView)
    (hcount : nodeCount ctx2.root = nodeCount ctx.root) (node : NodePath) (key : Str) :
    inheritedNodeProperty ctx2 node key = inheritedNodeProperty ctx node key := by
  unfold inheritedNodeProperty
  rw [hcache, hcount]
  exact inheritedLoop_view ctx ctx2 key hcache hbind hfind hv _ _ _ _

theorem applyEdgeProps_congr (ctx ctx2 : BuildContext) (node : NodePath) (t : EdgeGroupType)
    (h : ∀ key, inheritedNodeProperty ctx2 node key = inheritedNodeProperty ctx node key) :
    ∀ (props : List (Str × AnchorEdge)) (w : Widget),
      applyEdgeProps ctx2 node t props w = applyEdgeProps ctx node t props w := by
  intro props
  induction props with
  | nil => intro w; rfl
  | cons pr rest ih =>
    intro w
    rw [applyEdgeProps, applyEdgeProps, h, ih]

theorem applyAnchorProps_congr (ctx ctx2 : BuildContext) (node : NodePath)
    (h : ∀ key, inheritedNodeProperty ctx2 node key = inheritedNodeProperty ctx node key) :
    ∀ (names : List Str) (w : Widget),
      applyAnchorProps ctx2 node names w = applyAnchorProps ctx node names w := by
  intro names
  induction names with
  | nil => intro w; rfl
  | cons nm rest ih =>
    intro w
    rw [applyAnchorProps, applyAnchorProps, h, ih]

theorem applyCommon_congr (env : Env) (ctx ctx2 : BuildContext) (dataPath : Str)
    (widget : Widget) (node : NodePath) (n n2 : OTUINode)
    (h : ∀ key, inheritedNodeProperty ctx2 node key = inheritedNodeProperty ctx node key)
    (hn : ∀ key, otui_prop_get n2 key = otui_prop_get n key) :
    applyCommonWidgetProps env ctx2 dataPath widget node n2
      = applyCommonWidgetProps env ctx dataPath widget node n := by
  have hnp : ∀ key fb, nodeProperty n2 key fb = nodeProperty n key fb := by
    intro key fb
    unfold nodeProperty
    rw [hn]
  unfold applyCommonWidgetProps inheritedNodeBool
  simp only [h, hnp, applyEdgeProps_congr ctx ctx2 node _ h,
    applyAnchorProps_congr ctx ctx2 node h]

/-- The widget that `applyCommonWidgetProps` builds does not depend on the
order of the properties of the node, when their keys are pairwise distinct. -/
theorem applyCommon_perm (env : Env) (root : OTUINode) (dataPath : Str) (widget : Widget)
    (p : NodePath) (n : OTUINode) (hget : root.get p = some n) (ps : List OTUIProp)
    (hperm : ps.Perm n.props) (hnd : (n.props.map fun pr => pr.key).Nodup) :
    applyCommonWidgetProps env
        (makeContext env (OTUINode.modify (fun m => m.withProps ps) root p) dataPath)
        dataPath widget p (n.withProps ps)
      = applyCommonWidgetProps env (makeContext env root dataPath) dataPath widget p n := by
  have hprops : ∀ key, otui_prop_get (n.withProps ps) key = otui_prop_get n key := by
    intro key
    unfold otui_prop_get
    rw [withProps_props]
    exact propsGet_perm key ps n.props hperm hnd
  have hv : ∀ q : NodePath,
      ((OTUINode.modify (fun m => m.withProps ps) root p).get q).map nodeView
        = (root.get q).map nodeView := by
    refine get_modify_view nodeView _ (fun m => withProps_children m ps) ?_ p root n hget ?_
    · intro m cs
      simp only [nodeView, withChildren_name, withChildren_base_style, Prod.mk.injEq, true_and]
      funext key
      simp [otui_prop_get]
    · simp only [nodeView, withProps_name, withProps_base_style, Prod.mk.injEq, true_and]
      exact funext hprops
  refine applyCommon_congr env _ _ dataPath widget p n _ ?_ hprops
  intro key
  refine inheritedNodeProperty_view (makeContext env root dataPath)
    (makeContext env (OTUINode.modify (fun m => m.withProps ps) root p) dataPath)
    rfl ?_ ?_ hv ?_ p key
  · intro q
    exact bindingFind_view root _ hv q
  · intro nm
    exact find_node_modify _ (fun m => ⟨withProps_name m ps, withProps_base_style m ps,
      withProps_children m ps⟩) nm p root
  · exact nodeCount_modify _ (fun m => withProps_children m ps) p root

theorem fillTarget_of_bindFill (w : Widget) (t : Str) : (w.bindFill t).fillTarget = t := by
  simp [Widget.fillTarget, Widget.bindFill, Widget.setAnchorBinding, AnchorBinding.isValid]

theorem fill_keeps_center (w : Widget) (value : Str)
    (hn : compareCI (trim value) "none".toList = false) :
    (applyAnchorProperty w "anchors.fill".toList value).m_anchorHorizontalCenter
        = w.m_anchorHorizontalCenter
      ∧ (applyAnchorProperty w "anchors.fill".toList value).m_anchorVerticalCenter
        = w.m_anchorVerticalCenter := by
  unfold applyAnchorProperty
  simp only [hn]
  by_cases h : trim value = []
  · rw [if_pos h]
    exact ⟨rfl, rfl⟩
  · rw [if_neg h, if_pos (by decide)]
    exact ⟨rfl, rfl⟩

theorem anchorProps_single (ctx : BuildContext) (node : NodePath) (name : Str) (w : Widget) :
    applyAnchorProps ctx node [name] w
      = if inheritedNodeProperty ctx node name ≠ [] then
          applyAnchorProperty w name (inheritedNodeProperty ctx node name)
        else w := by
  rw [applyAnchorProps, applyAnchorProps]

theorem bindings_targets (w1 w2 : Widget) (h : w1.bindings = w2.bindings) :
    w1.fillTarget = w2.fillTarget ∧ w1.centerInTarget = w2.centerInTarget := by
  simp only [Widget.bindings, List.cons.injEq, and_true] at h
  obtain ⟨h1, h2, h3, h4, h5, h6⟩ := h
  unfold Widget.fillTarget Widget.centerInTarget
  rw [h1, h2, h3, h4, h5, h6]
  exact ⟨rfl, rfl⟩

theorem common_fill (env : Env) (ctx : BuildContext) (dataPath : Str) (widget : Widget)
    (p : NodePath) (n : OTUINode) (hget : ctx.root.get p = some n) (T : Str)
    (hT : otui_prop_get n "anchors.fill".toList = some T) (hne : trim T ≠ []) :
    ∃ Y : Widget,
      (applyCommonWidgetProps env ctx dataPath widget p n).bindings =
        (if compareCI (trim T) "none".toList then Y.clearAnchors
         else Y.bindFill (trim T)).bindings := by
  obtain ⟨M1, hM⟩ := applyCommon_tail env ctx dataPath widget p n
  rw [(hM _ rfl).2.2]
  have hl : ["anchors.left".toList, "anchors.right".toList, "anchors.top".toList,
      "anchors.bottom".toList, "anchors.horizontalCenter".toList,
      "anchors.verticalCenter".toList, "anchors.centerIn".toList, "anchors.fill".toList]
      = ["anchors.left".toList, "anchors.right".toList, "anchors.top".toList,
        "anchors.bottom".toList, "anchors.horizontalCenter".toList,
        "anchors.verticalCenter".toList, "anchors.centerIn".toList]
        ++ ["anchors.fill".toList] := rfl
  rw [hl, anchorProps_append, anchorProps_single,
    inherited_own ctx p n _ T hget hT hne, if_pos hne, fill_step _ _ hne (trim_trim T)]
  exact ⟨_, rfl⟩

theorem common_centerIn (env : Env) (ctx : BuildContext) (dataPath : Str) (widget : Widget)
    (p : NodePath) (n : OTUINode) (hget : ctx.root.get p = some n) (T : Str)
    (hT : otui_prop_get n "anchors.centerIn".toList = some T) (hne : trim T ≠ [])
    (hn : compareCI (trim T) "none".toList = false)
    (hfill : compareCI (trim (inheritedNodeProperty ctx p "anchors.fill".toList))
      "none".toList = false) :
    ∃ Z : Widget, (applyCommonWidgetProps env ctx dataPath widget p n).bindings = Z.bindings
      ∧ Z.m_anchorHorizontalCenter
        = { edge := AnchorEdge.HorizontalCenter, targetId := trim T }
      ∧ Z.m_anchorVerticalCenter
        = { edge := AnchorEdge.VerticalCenter, targetId := trim T } := by
  obtain ⟨M1, hM⟩ := applyCommon_tail env ctx dataPath widget p n
  refine ⟨_, (hM _ rfl).2.2, ?_⟩
  have hl : ["anchors.left".toList, "anchors.right".toList, "anchors.top".toList,
      "anchors.bottom".toList, "anchors.horizontalCenter".toList,
      "anchors.verticalCenter".toList, "anchors.centerIn".toList, "anchors.fill".toList]
      = ["anchors.left".toList, "anchors.right".toList, "anchors.top".toList,
        "anchors.bottom".toList, "anchors.horizontalCenter".toList,
        "anchors.verticalCenter".toList] ++ (["anchors.centerIn".toList]
        ++ ["anchors.fill".toList]) := rfl
  rw [hl, anchorProps_append, anchorProps_append, anchorProps_single, anchorProps_single,
    inherited_own ctx p n _ T hget hT hne, if_pos hne,
    centerIn_step _ _ hne (trim_trim T) hn]
  split
  · rw [(fill_keeps_center _ _ hfill).1, (fill_keeps_center _ _ hfill).2]
    exact ⟨rfl, rfl⟩
  · exact ⟨rfl, rfl⟩

theorem edgeGroupOf_congr (w1 w2 : Widget) (t : EdgeGroupType)
    (h1 : w1.m_margin = w2.m_margin) (h2 : w1.m_padding = w2.m_padding) :
    edgeGroupOf w1 t = edgeGroupOf w2 t := by
  cases t
  · exact h1
  · exact h2

theorem common_margin (env : Env) (ctx : BuildContext) (dataPath : Str) (widget : Widget)
    (p : NodePath) (n : OTUINode) (key : Str) (e : AnchorEdge) (k : Int)
    (hmem : (key, e) ∈ [("margin-top".toList, AnchorEdge.Top),
      ("margin-right".toList, AnchorEdge.Right), ("margin-bottom".toList, AnchorEdge.Bottom),
      ("margin-left".toList, AnchorEdge.Left)])
    (hne : inheritedNodeProperty ctx p key ≠ [])
    (hk : tryParseInt (inheritedNodeProperty ctx p key) = some k) :
    (edgeGroupOf (applyCommonWidgetProps env ctx dataPath widget p n)
      EdgeGroupType.Margin).value e = k := by
  obtain ⟨M1, hM⟩ := applyCommon_tail env ctx dataPath widget p n
  have he : e ∈ [AnchorEdge.Top, AnchorEdge.Right, AnchorEdge.Bottom, AnchorEdge.Left] := by
    simp only [List.mem_cons, Prod.mk.injEq, List.mem_singleton, List.not_mem_nil,
      or_false] at hmem
    rcases hmem with h | h | h | h <;> rw [h.2] <;> decide
  have hlast := edgeProps_last ctx p EdgeGroupType.Margin key e k he hne hk _ M1 hmem
    (by decide)
  rw [edgeGroupOf_congr _ _ EdgeGroupType.Margin (hM _ rfl).1 (hM _ rfl).2.1,
    edgeGroupOf_congr _ _ EdgeGroupType.Margin (anchorProps_groups ctx p _ _).1
      (anchorProps_groups ctx p _ _).2,
    edgeProps_other ctx p EdgeGroupType.Padding EdgeGroupType.Margin e _ _
      (Or.inl (by decide))]
  split
  · rw [group_other _ EdgeGroupType.Padding EdgeGroupType.Margin e _ (by decide)]
    exact hlast
  · exact hlast

theorem common_padding (env : Env) (ctx : BuildContext) (dataPath : Str) (widget : Widget)
    (p : NodePath) (n : OTUINode) (key : Str) (e : AnchorEdge) (k : Int)
    (hmem : (key, e) ∈ [("padding-top".toList, AnchorEdge.Top),
      ("padding-right".toList, AnchorEdge.Right), ("padding-bottom".toList, AnchorEdge.Bottom),
      ("padding-left".toList, AnchorEdge.Left)])
    (hne : inheritedNodeProperty ctx p key ≠ [])
    (hk : tryParseInt (inheritedNodeProperty ctx p key) = some k) :
    (edgeGroupOf (applyCommonWidgetProps env ctx dataPath widget p n)
      EdgeGroupType.Padding).value e = k := by
  obtain ⟨M1, hM⟩ := applyCommon_tail env ctx dataPath widget p n
  have he : e ∈ [AnchorEdge.Top, AnchorEdge.Right, AnchorEdge.Bottom, AnchorEdge.Left] := by
    simp only [List.mem_cons, Prod.mk.injEq, List.mem_singleton, List.not_mem_nil,
      or_false] at hmem
    rcases hmem with h | h | h | h <;> rw [h.2] <;> decide
  rw [edgeGroupOf_congr _ _ EdgeGroupType.Padding (hM _ rfl).1 (hM _ rfl).2.1,
    edgeGroupOf_congr _ _ EdgeGroupType.Padding (anchorProps_groups ctx p _ _).1
      (anchorProps_groups ctx p _ _).2]
  exact edgeProps_last ctx p EdgeGroupType.Padding key e k he hne hk _ _ hmem (by decide)

theorem tryParseInt_nonempty (s : Str) (k : Int) (h : tryParseInt s = some k) : s ≠ [] := by
  intro h0
  rw [h0] at h
  have h2 : tryParseInt [] = none := rfl
  rw [h2] at h
  cases h

/-- C30: the precedence of the properties of a node does not depend on the
order of its lines. For the node at `p` of a tree: when the keys of its
properties are pairwise distinct, `applyCommonWidgetProps` builds the same
widget for every permutation of the properties; a property `anchors.fill` with
a value T other than `none` gives `fillTarget() = T`, whatever `anchors.left`,
`right`, `top` and `bottom` are; a property `anchors.centerIn` with a value T
other than `none` gives `centerInTarget() = T`, whatever
`anchors.horizontalCenter` and `verticalCenter` are, unless `anchors.fill` is
`none`; `anchors.fill: none` leaves all six bindings cleared; and a component
`margin-top`, `-right`, `-bottom`, `-left` (or `padding-...`) with an integer
value gives that value to its edge, whatever the shorthand `margin` (or
`padding`) is. -/
theorem property_precedence (env : Env) (root : OTUINode) (dataPath : Str) (widget : Widget)
    (p : NodePath) (n : OTUINode) (hget : root.get p = some n) :
    (∀ ps : List OTUIProp, ps.Perm n.props → (n.props.map fun pr => pr.key).Nodup →
        applyCommonWidgetProps env
            (makeContext env (OTUINode.modify (fun m => m.withProps ps) root p) dataPath)
            dataPath widget p (n.withProps ps)
          = applyCommonWidgetProps env (makeContext env root dataPath) dataPath widget p n)
      ∧ (∀ T, otui_prop_get n "anchors.fill".toList = some T → trim T ≠ [] →
          compareCI (trim T) "none".toList = false →
          (applyCommonWidgetProps env (makeContext env root dataPath) dataPath widget p
            n).fillTarget = trim T)
      ∧ (∀ T, otui_prop_get n "anchors.centerIn".toList = some T → trim T ≠ [] →
          compareCI (trim T) "none".toList = false →
          compareCI (trim (inheritedNodeProperty (makeContext env root dataPath) p
            "anchors.fill".toList)) "none".toList = false →
          (applyCommonWidgetProps env (makeContext env root dataPath) dataPath widget p
            n).centerInTarget = trim T)
      ∧ (∀ T, otui_prop_get n "anchors.fill".toList = some T →
          compareCI (trim T) "none".toList = true →
          (applyCommonWidgetProps env (makeContext env root dataPath) dataPath widget p
            n).bindings = [{}, {}, {}, {}, {}, {}])
      ∧ ∀ (type : EdgeGroupType) (key : Str) (edge : AnchorEdge) (v : Str) (k : Int),
          (type, key, edge) ∈
            [(EdgeGroupType.Margin, "margin-top".toList, AnchorEdge.Top),
             (EdgeGroupType.Margin, "margin-right".toList, AnchorEdge.Right),
             (EdgeGroupType.Margin, "margin-bottom".toList, AnchorEdge.Bottom),
             (EdgeGroupType.Margin, "margin-left".toList, AnchorEdge.Left),
             (EdgeGroupType.Padding, "padding-top".toList, AnchorEdge.Top),
             (EdgeGroupType.Padding, "padding-right".toList, AnchorEdge.Right),
             (EdgeGroupType.Padding, "padding-bottom".toList, AnchorEdge.Bottom),
             (EdgeGroupType.Padding, "padding-left".toList, AnchorEdge.Left)] →
          otui_prop_get n key = some v → tryParseInt (trim v) = some k →
          (edgeGroupOf (applyCommonWidgetProps env (makeContext env root dataPath) dataPath
            widget p n) type).value edge = k := by
  have hroot : (makeContext env root dataPath).root.get p = some n := hget
  refine ⟨fun ps hperm hnd => applyCommon_perm env root dataPath widget p n hget ps hperm hnd,
    ?_, ?_, ?_, ?_⟩
  · intro T hT hne hn
    obtain ⟨Y, hY⟩ := common_fill env _ dataPath widget p n hroot T hT hne
    rw [(bindings_targets _ _ hY).1, hn]
    exact fillTarget_of_bindFill Y (trim T)
  · intro T hT hne hn hfill
    obtain ⟨Z, hZ, h1, h2⟩ :=
      common_centerIn env _ dataPath widget p n hroot T hT hne hn hfill
    rw [(bindings_targets _ _ hZ).2]
    unfold Widget.centerInTarget
    rw [h1, h2]
    simp [AnchorBinding.isValid]
  · intro T hT hn
    have hne : trim T ≠ [] := by
      intro h0
      rw [h0] at hn
      exact absurd hn (by decide)
    obtain ⟨Y, hY⟩ := common_fill env _ dataPath widget p n hroot T hT hne
    rw [hY, hn]
    rfl
  · intro type key edge v k hmem hv hk
    have hne : trim v ≠ [] := tryParseInt_nonempty _ k hk
    have hval := inherited_own (makeContext env root dataPath) p n key v hroot hv hne
    simp only [List.mem_cons, Prod.mk.injEq, List.mem_singleton, List.not_mem_nil,
      or_false] at hmem
    rcases hmem with h | h | h | h | h | h | h | h <;> obtain ⟨rfl, rfl, rfl⟩ := h
    · exact common_margin env _ dataPath widget p n "margin-top".toList AnchorEdge.Top k
        (by decide) (by rw [hval]; exact hne) (by rw [hval]; exact hk)
    · exact common_margin env _ dataPath widget p n "margin-right".toList AnchorEdge.Right k
        (by decide) (by rw [hval]; exact hne) (by rw [hval]; exact hk)
    · exact common_margin env _ dataPath widget p n "margin-bottom".toList AnchorEdge.Bottom k
        (by decide) (by rw [hval]; exact hne) (by rw [hval]; exact hk)
    · exact common_margin env _ dataPath widget p n "margin-left".toList AnchorEdge.Left k
        (by decide) (by rw [hval]; exact hne) (by rw [hval]; exact hk)
    · exact common_padding env _ dataPath widget p n "padding-top".toList AnchorEdge.Top k
        (by decide) (by rw [hval]; exact hne) (by rw [hval]; exact hk)
    · exact common_padding env _ dataPath widget p n "padding-right".toList AnchorEdge.Right k
        (by decide) (by rw [hval]; exact hne) (by rw [hval]; exact hk)
    · exact common_padding env _ dataPath widget p n "padding-bottom".toList AnchorEdge.Bottom k
        (by decide) (by rw [hval]; exact hne) (by rw [hval]; exact hk)
    · exact common_padding env _ dataPath widget p n "padding-left".toList AnchorEdge.Left k
        (by decide) (by rw [hval]; exact hne) (by rw [hval]; exact hk)

theorem property_precedence_witness :
    exampleFillRoot.get [0] = some exampleFillNode
      ∧ (applyCommonWidgetProps emptyEnv (makeContext emptyEnv exampleFillRoot []) []
          { m_id := "Panel".toList } [0] exampleFillNode).fillTarget
        = trim "parent".toList
      ∧ (edgeGroupOf (applyCommonWidgetProps emptyEnv (makeContext emptyEnv exampleFillRoot [])
          [] { m_id := "Panel".toList } [0] exampleFillNode) EdgeGroupType.Margin).value
          AnchorEdge.Left = 2 :=
  ⟨rfl,
    (property_precedence emptyEnv exampleFillRoot [] { m_id := "Panel".toList } [0]
      exampleFillNode rfl).2.1 "parent".toList rfl (by decide) (by decide),
    (property_precedence emptyEnv exampleFillRoot [] { m_id := "Panel".toList } [0]
      exampleFillNode rfl).2.2.2.2 EdgeGroupType.Margin "margin-left".toList AnchorEdge.Left
      "2".toList 2 (by decide) rfl (by decide)⟩

/-! ## Nesting deeper than the stack array -/

theorem findHash_none (buf : Str) (h : '#' ∉ buf) (s : Nat) :
    ∀ i, findHash buf s i = none := by
  intro i
  induction i with
  | zero => rfl
  | succ i ih =>
    unfold findHash
    have hne : buf[i]? ≠ some '#' := fun e => h (List.getElem?_mem e)
    simp only [hne, false_and, if_false, ih]
    split <;> rfl

theorem extractComment_no_hash (l : Str) (h : '#' ∉ l) : extractComment l = (l, none) := by
  unfold extractComment
  rw [findHash_none l h]

theorem count_indent_spaces (k : Nat) (c : Char) (r : Str) (h1 : c ≠ ' ') (h2 : c ≠ '\t') :
    count_indent (List.replicate k ' ' ++ c :: r) = k := by
  induction k with
  | zero => simp [count_indent, h1, h2]
  | succ k ih =>
    rw [List.replicate_succ, List.cons_append, count_indent, if_pos rfl, ih]

theorem trimLeft_spaces (k : Nat) (r : Str) :
    trimLeft (List.replicate k ' ' ++ r) = trimLeft r := by
  induction k with
  | zero => rfl
  | succ k ih =>
    rw [List.replicate_succ, List.cons_append, trimLeft, if_pos (by decide), ih]

theorem mem_spaces (k : Nat) (c : Char) (h : c ∈ List.replicate k ' ') : c = ' ' :=
  (List.mem_replicate.1 h).2

theorem headerLine_not_mem (k : Nat) (c : Char) (h1 : c ≠ ' ') (h2 : c ≠ 'N') :
    c ∉ List.replicate k ' ' ++ ['N'] := by
  intro h
  rcases List.mem_append.1 h with h | h
  · exact h1 (mem_spaces k c h)
  · exact h2 (List.mem_singleton.1 h)

/-- A state of the main loop whose top of stack is less indented than `k`. -/
theorem headerLine_step (st : ParseState) (k : Nat) (rest : Str) (top : NodePath)
    (stk : List NodePath) (tn : OTUINode) (hinv : StackInv st)
    (hready : st.line_ready = false)
    (hinput : st.input = (List.replicate k ' ' ++ ['N']) ++ '\n' :: rest)
    (hk : k + 1 < 4095) (hstack : st.stack = top :: stk) (htop : st.root.get top = some tn)
    (hlt : tn.indent < (k : Int)) :
    (256 ≤ st.stack.length → parseStep st = StepResult.fail ParseError.outOfBounds) ∧
    (st.stack.length < 256 → ∃ st2 top2 tn2, parseStep st = StepResult.next st2 ∧
      StackInv st2 ∧ st2.line_ready = false ∧ st2.input = rest ∧
      st2.stack = top2 :: st.stack ∧ st2.root.get top2 = some tn2 ∧ tn2.indent = (k : Int)) := by
  have hstep := parseStep_line st _ rest hready hinput
    (headerLine_not_mem k _ (by decide) (by decide))
    (headerLine_not_mem k _ (by decide) (by decide))
    (headerLine_not_mem k _ (by decide) (by decide))
    (by simp only [List.length_append, List.length_replicate, List.length_singleton]; omega)
  have hraw : processRawLine { st with lineno := st.lineno + 1, input := rest }
      (List.replicate k ' ' ++ ['N'])
      = handleNode { st with lineno := st.lineno + 1, input := rest } ['N'] k none := by
    unfold processRawLine
    simp only [extractComment_no_hash _ (headerLine_not_mem k '#' (by decide) (by decide)),
      count_indent_spaces k 'N' [] (by decide) (by decide)]
    have ht : trim (List.replicate k ' ' ++ ['N']) = ['N'] := by
      unfold trim
      rw [trimLeft_spaces]
      rfl
    rw [ht, if_neg (by simp)]
    rfl
  rw [hstep, hraw]
  have hpop : popStack st.root (k : Int) (top :: stk) = top :: stk := by
    rw [popStack]
    simp only [htop, hlt, if_true]
  have hlen : (top :: stk).length = st.stack.length := by rw [hstack]
  have hform : handleNode { st with lineno := st.lineno + 1, input := rest } ['N'] k none
      = (if 256 ≤ st.stack.length then StepResult.fail ParseError.outOfBounds
        else StepResult.next
          { st with
            lineno := st.lineno + 1
            input := rest
            root := OTUINode.modify (fun p => node_add_child p
              ((node_new ['N'] (k : Int)).withHeader none st.pending_comment none)) st.root top
            stack := (top ++ [tn.children.length]) :: top :: stk
            current_state := none
            pending_comment := none
            line_ready := false }) := by
    unfold handleNode
    simp only [hstack, hpop, htop, hlen]
    rfl
  rw [hform]
  refine ⟨fun h => by rw [if_pos h], fun h => ?_⟩
  rw [if_neg (by omega)]
  have hinv2 : StackInv { st with lineno := st.lineno + 1, input := rest } := hinv
  rcases handleNode_inv { st with lineno := st.lineno + 1, input := rest } ['N'] k none hinv2
    with ⟨st2, h2, hi2, -, -⟩ | h2
  · rw [hform, if_neg (by omega)] at h2
    refine ⟨_, top ++ [tn.children.length],
      (node_new ['N'] (k : Int)).withHeader none st.pending_comment none,
      rfl, ?_, rfl, rfl, by rw [hstack], ?_, ?_⟩
    · rw [StepResult.next.injEq] at h2
      rw [h2]
      exact hi2
    · simp only
      rw [get_append, get_modify_same _ top st.root tn htop]
      simp [get_cons, node_add_child, get_nil]
    · cases st.pending_comment <;> rfl
  · rw [hform, if_neg (by omega)] at h2
    cases h2

theorem nestedHeaders_loop :
    ∀ (n k fuel : Nat) (st : ParseState) (top : NodePath) (stk : List NodePath) (tn : OTUINode),
      StackInv st → st.line_ready = false → st.input = nestedHeadersFrom n k →
      k + n < 4095 → st.stack = top :: stk → st.root.get top = some tn →
      tn.indent < (k : Int) → n < fuel → st.stack.length ≤ 256 →
      (256 < st.stack.length + n →
        parseLoop fuel st = some (Except.error ParseError.outOfBounds)) ∧
      (st.stack.length + n ≤ 256 → ∃ tree, parseLoop fuel st = some (Except.ok tree)) := by
  intro n
  induction n with
  | zero =>
    intro k fuel st top stk tn hinv hready hinput hk hstack htop hlt hfuel hbound
    obtain ⟨fuel, rfl⟩ : ∃ f, fuel = f + 1 := ⟨fuel - 1, by omega⟩
    have hstep : parseStep st = StepResult.done st.root := by
      unfold parseStep
      rw [hready, hinput]
      rfl
    exact ⟨fun h => by omega, fun _ => ⟨st.root, by rw [parseLoop, hstep]⟩⟩
  | succ n ih =>
    intro k fuel st top stk tn hinv hready hinput hk hstack htop hlt hfuel hbound
    obtain ⟨fuel, rfl⟩ : ∃ f, fuel = f + 1 := ⟨fuel - 1, by omega⟩
    have hin : st.input = (List.replicate k ' ' ++ ['N']) ++ '\n' :: nestedHeadersFrom n (k + 1) := by
      rw [hinput, nestedHeadersFrom]
      simp
    obtain ⟨hfull, hroom⟩ := headerLine_step st k _ top stk tn hinv hready hin (by omega)
      hstack htop hlt
    rw [parseLoop]
    by_cases hl : 256 ≤ st.stack.length
    · rw [hfull hl]
      exact ⟨fun _ => rfl, fun h => by omega⟩
    · obtain ⟨st2, top2, tn2, hs, hi2, hr2, hin2, hst2, hg2, hind2⟩ := hroom (by omega)
      rw [hs]
      have hlen2 : st2.stack.length = st.stack.length + 1 := by rw [hst2]; rfl
      have := ih (k + 1) fuel st2 top2 st.stack tn2 hi2 hr2 hin2 (by omega) hst2 hg2
        (by rw [hind2]; push_cast; omega) (by omega) (by omega)
      rw [hlen2] at this
      exact ⟨fun h => this.1 (by omega), fun h => this.2 (by omega)⟩


theorem nestedHeaders_length : ∀ n k, n ≤ (nestedHeadersFrom n k).length := by
  intro n
  induction n with
  | zero => intro k; exact Nat.zero_le _
  | succ n ih =>
    intro k
    have := ih (k + 1)
    simp only [nestedHeadersFrom, List.length_append, List.length_cons, List.length_replicate]
    omega

theorem nestedHeaders_parse (n : Nat) (hn : n < 4095) :
    (256 ≤ n → otui_parse_file (some (nestedHeaders n))
        = some (Except.error ParseError.outOfBounds)) ∧
    (n < 256 → ∃ tree, otui_parse_file (some (nestedHeaders n)) = some (Except.ok tree)) := by
  have hlen := nestedHeaders_length n 0
  have := nestedHeaders_loop n 0 (2 * (nestedHeaders n).length + 2) (initialState (nestedHeaders n))
    [] [] (node_new "__root__".toList (-1)) (stackInv_initial _) rfl rfl (by omega) rfl rfl
    (by decide) (by unfold nestedHeaders; omega) (by simp [initialState])
  have hs : (initialState (nestedHeaders n)).stack.length = 1 := rfl
  rw [hs] at this
  exact ⟨fun h => this.1 (by omega), fun h => this.2 (by omega)⟩

theorem outsideNodeError_cases (l : Str) (k : Nat) :
    outsideNodeError l k = ParseError.eventOutsideNode k
      ∨ outsideNodeError l k = ParseError.stateOutsideNode k
      ∨ outsideNodeError l k = ParseError.propertyOutsideNode k := by
  unfold outsideNodeError
  split
  · exact Or.inl rfl
  · exact Or.inr (Or.inl rfl)
  · exact Or.inr (Or.inr rfl)

/-- The outcomes of `otui_parse_file` on a readable file. -/
theorem parse_outcome (input : Str) :
    (∃ tree, otui_parse_file (some input) = some (Except.ok tree))
      ∨ (∃ k, otui_parse_file (some input) = some (Except.error (ParseError.eventOutsideNode k)))
      ∨ (∃ k, otui_parse_file (some input) = some (Except.error (ParseError.stateOutsideNode k)))
      ∨ (∃ k, otui_parse_file (some input)
            = some (Except.error (ParseError.propertyOutsideNode k)))
      ∨ otui_parse_file (some input) = some (Except.error ParseError.outOfBounds) := by
  have hfuel : stepsLeft (initialState input) < 2 * input.length + 2 := by
    simp [stepsLeft, initialState]
  have hp : otui_parse_file (some input)
      = parseLoop (2 * input.length + 2) (initialState input) := rfl
  rcases parseLoop_total (2 * input.length + 2) (initialState input)
    (stackInv_initial input) hfuel with ⟨tree, h⟩ | ⟨l, k, h⟩ | h
  · exact Or.inl ⟨tree, hp.trans h⟩
  · rcases outsideNodeError_cases l k with e | e | e
    · exact Or.inr (Or.inl ⟨k, by rw [hp, h, e]⟩)
    · exact Or.inr (Or.inr (Or.inl ⟨k, by rw [hp, h, e]⟩))
    · exact Or.inr (Or.inr (Or.inr (Or.inl ⟨k, by rw [hp, h, e]⟩)))
  · exact Or.inr (Or.inr (Or.inr (Or.inr (hp.trans h))))

theorem parse_not_indent_error (input : Str) (j : Nat) :
    otui_parse_file (some input) ≠ some (Except.error (ParseError.indentError j)) := by
  intro hj
  rcases parse_outcome input with ⟨t, h⟩ | ⟨k, h⟩ | ⟨k, h⟩ | ⟨k, h⟩ | h <;>
    (rw [h] at hj; cases hj)

/-- The node-header branch on a state that satisfies the invariant, by the
number of stack slots in use after the pops. -/
theorem handleNode_outcome (st : ParseState) (content : Str) (indent : Nat)
    (comment_text : Option Str) (hinv : StackInv st) :
    ∃ popped parent rest pn node,
      st.stack = popped ++ parent :: rest
      ∧ (∀ p ∈ popped, ∃ n, st.root.get p = some n ∧ (indent : Int) ≤ n.indent)
      ∧ st.root.get parent = some pn ∧ pn.indent < (indent : Int)
      ∧ node.indent = (indent : Int)
      ∧ ((parent :: rest).length < 256 →
          ∃ st2, handleNode st content indent comment_text = StepResult.next st2
            ∧ st2.root.get parent = some (node_add_child pn node)
            ∧ st2.stack = (parent ++ [pn.children.length]) :: parent :: rest)
      ∧ (256 ≤ (parent :: rest).length →
          handleNode st content indent comment_text
            = StepResult.fail ParseError.outOfBounds) := by
  obtain ⟨popped, parent, rest, pn, node, e1, e2, e3, e4, e5, _, e7⟩ :=
    handleNode_shape st content indent comment_text hinv
  refine ⟨popped, parent, rest, pn, node, e1, e2, e3, e4, e5, fun h => ?_, fun h => ?_⟩
  · rw [e7, if_neg (by omega)]
    exact ⟨_, rfl, get_modify_same _ parent st.root pn e3, rfl⟩
  · rw [e7, if_pos h]

theorem parseStep_not_indent_error (st : ParseState) (hinv : StackInv st) (j : Nat) :
    parseStep st ≠ StepResult.fail (ParseError.indentError j) := by
  intro hj
  rcases parseStep_total st hinv with ⟨root, h⟩ | ⟨st2, h, _, _⟩ | ⟨l, m, h⟩ | h
  · rw [h] at hj; cases hj
  · rw [h] at hj; cases hj
  · rw [h] at hj
    simp only [StepResult.fail.injEq] at hj
    exact outsideNodeError_ne_indent l m j hj
  · rw [h] at hj; cases hj

/-- C14 (amended): indentation that matches no open level is not rejected.
For every text the parse ends with a tree, with one of the three errors
"outside node", or by leaving one of its fixed buffers, and never with an indent
error. In every state that the main loop reaches, a line without colon of any
indentation is a node header: the open nodes that are not less indented are
closed, and the header becomes the last child of the first open node that is
less indented, which exists because the root, of indentation -1, stays at the
bottom of the stack; only when that leaves all 256 slots of the stack in use
does the push run behind the array. -/
theorem indent_mismatch_accepted (input : Str) :
    ((∃ tree, otui_parse_file (some input) = some (Except.ok tree))
      ∨ (∃ k, otui_parse_file (some input) = some (Except.error (ParseError.eventOutsideNode k)))
      ∨ (∃ k, otui_parse_file (some input) = some (Except.error (ParseError.stateOutsideNode k)))
      ∨ (∃ k, otui_parse_file (some input)
            = some (Except.error (ParseError.propertyOutsideNode k)))
      ∨ otui_parse_file (some input) = some (Except.error ParseError.outOfBounds))
    ∧ (∀ j, otui_parse_file (some input) ≠ some (Except.error (ParseError.indentError j)))
    ∧ ∀ (k : Nat) (st : ParseState), stateAfter input k = some st →
        ∀ (buf : Str) (indent : Nat) (comment_text : Option Str), ':' ∉ skipBlanks buf →
          ∃ popped parent rest pn node,
            st.stack = popped ++ parent :: rest
            ∧ (∀ p ∈ popped, ∃ n, st.root.get p = some n ∧ (indent : Int) ≤ n.indent)
            ∧ st.root.get parent = some pn ∧ pn.indent < (indent : Int)
            ∧ node.indent = (indent : Int)
            ∧ ((parent :: rest).length < 256 →
                ∃ st2, processContent st buf indent comment_text = StepResult.next st2
                  ∧ st2.root.get parent = some (node_add_child pn node)
                  ∧ st2.stack = (parent ++ [pn.children.length]) :: parent :: rest)
            ∧ (256 ≤ (parent :: rest).length →
                processContent st buf indent comment_text
                  = StepResult.fail ParseError.outOfBounds) := by
  refine ⟨parse_outcome input, parse_not_indent_error input, ?_⟩
  intro k st hst buf indent comment_text hcolon
  obtain ⟨h1, _, _, _⟩ := stateAfter_inv input k st hst
  have hd : processContent st buf indent comment_text
      = handleNode st (skipBlanks buf) indent comment_text := by
    rcases processContent_cases st buf indent comment_text with
      ⟨a, b, r, _, _, hm⟩ | ⟨a, r, _, _, hm⟩ | ⟨h, _⟩ | ⟨a, b, _, hm, _, _⟩
    · exact absurd hm hcolon
    · exact absurd hm hcolon
    · exact h
    · exact absurd hm hcolon
  rw [hd]
  exact handleNode_outcome st (skipBlanks buf) indent comment_text h1

/-- C28: the push of a new open node has no bound check. The text of 256 node
headers, each indented by one space more than the one before, leaves all 256
slots of `stack` in use when the last header is met, and the push writes behind
the array; with 255 headers the parse returns a tree. Within the array the
invariant holds: after every iteration of the main loop the stack ends with the
synthetic root, it has at most 256 entries, and the indentations of its
entries, read from the top to the bottom, are a strictly decreasing list that
ends with -1; an iteration does not fail with the indent error, and a node
header of any indentation pops the entries that are not less indented, stops at
the first entry that is less indented, and the new node becomes the last child
of that entry, unless the stack is full. For every text the parse ends, not
with the indent error, and in a tree it returns every node is more indented
than its parent. -/
theorem stack_push_unchecked :
    otui_parse_file (some (nestedHeaders 256)) = some (Except.error ParseError.outOfBounds)
    ∧ (∃ tree, otui_parse_file (some (nestedHeaders 255)) = some (Except.ok tree))
    ∧ (∀ (input : Str) (k : Nat) (st : ParseState), stateAfter input k = some st →
      (∃ init, st.stack = init ++ [[]])
      ∧ st.stack.length ≤ 256
      ∧ (∃ l : List Int, openIndents st = (l ++ [-1]).map some
          ∧ (l ++ [-1]).Pairwise (· > ·))
      ∧ (∀ j, parseStep st ≠ StepResult.fail (ParseError.indentError j))
      ∧ ∀ (content : Str) (indent : Nat) (comment_text : Option Str),
          ∃ popped parent rest pn node,
            st.stack = popped ++ parent :: rest
            ∧ (∀ p ∈ popped, ∃ n, st.root.get p = some n ∧ (indent : Int) ≤ n.indent)
            ∧ st.root.get parent = some pn ∧ pn.indent < (indent : Int)
            ∧ node.indent = (indent : Int)
            ∧ ((parent :: rest).length < 256 →
                ∃ st2, handleNode st content indent comment_text = StepResult.next st2
                  ∧ st2.root.get parent = some (node_add_child pn node)
                  ∧ st2.stack = (parent ++ [pn.children.length]) :: parent :: rest)
            ∧ (256 ≤ (parent :: rest).length →
                handleNode st content indent comment_text
                  = StepResult.fail ParseError.outOfBounds))
    ∧ ∀ input : Str,
        (∃ r, otui_parse_file (some input) = some r)
        ∧ (∀ j, otui_parse_file (some input) ≠ some (Except.error (ParseError.indentError j)))
        ∧ ∀ tree, otui_parse_file (some input) = some (Except.ok tree) →
            IndentsIncrease tree
            ∧ ∀ (q : NodePath) (i : Nat) (par ch : OTUINode), tree.get q = some par →
                tree.get (q ++ [i]) = some ch → par.indent < ch.indent := by
  refine ⟨(nestedHeaders_parse 256 (by decide)).1 (le_refl _),
    (nestedHeaders_parse 255 (by decide)).2 (by decide), ?_, ?_⟩
  · intro input k st hst
    obtain ⟨h1, h2, h3, h4⟩ := stateAfter_inv input k st hst
    refine ⟨?_, h4, openIndents_of_inv st h1 h2, parseStep_not_indent_error st h1, ?_⟩
    · obtain ⟨_, ⟨init, hi, _⟩, _⟩ := h1
      exact ⟨init, hi⟩
    · intro content indent comment_text
      exact handleNode_outcome st content indent comment_text h1
  · intro input
    have hp : otui_parse_file (some input)
        = parseLoop (2 * input.length + 2) (initialState input) := rfl
    have h0 := stateAfter_inv input 0 (initialState input) rfl
    refine ⟨?_, parse_not_indent_error input, ?_⟩
    · rcases parse_outcome input with ⟨t, h⟩ | ⟨k, h⟩ | ⟨k, h⟩ | ⟨k, h⟩ | h <;> exact ⟨_, h⟩
    · intro tree htree
      rw [hp] at htree
      have hinc := parseLoop_tree_inv _ _ tree h0.1 h0.2.1 h0.2.2.1 htree
      refine ⟨hinc, ?_⟩
      intro q i par ch hq hc
      exact hinc q i par.indent ch.indent (by simp [nodeIndent, hq]) (by simp [nodeIndent, hc])

/-! ## Hex colours and comment lines -/

/-- C4: a hex colour is mistaken for part of a longer value when its line is
the one pushed back at the end of a block event. The line
`color: #ffaa00 # comment` that follows the body of the block event of `Button`
gives the property `color` the value `#ffaa00 # comment` and no comment, where
the same line read as an ordinary line gives the value `#ffaa00` and the
comment `comment`; the same holds at the top level of the file. -/
theorem pushed_back_hex_colour_keeps_comment :
    parsedOutline "Window\n  Button\n    @onClick: |\n      x()\n  color: #ffaa00 # comment\n"
        = some [(⟨"Window".toList, none, none, none, [], [], []⟩,
            [⟨"Button".toList, none, none, none,
              [⟨"color".toList, "#ffaa00 # comment".toList, none⟩], [],
              [⟨"onClick".toList, "      x()".toList, true⟩]⟩])]
      ∧ parsedOutline "Window\n  Button\n  color: #ffaa00 # comment\n"
        = some [(⟨"Window".toList, none, none, none, [], [], []⟩,
            [⟨"Button".toList, none, none, none,
              [⟨"color".toList, "#ffaa00".toList, some "comment".toList⟩], [], []⟩])]
      ∧ parsedOutline "Button\n  @onClick: |\n    x()\ncolor: #ffaa00 # comment\n"
        = some [(⟨"Button".toList, none, none, none,
              [⟨"color".toList, "#ffaa00 # comment".toList, none⟩], [],
              [⟨"onClick".toList, "    x()".toList, true⟩]⟩, [])]
      ∧ parsedOutline "Button\ncolor: #ffaa00 # comment\n"
        = some [(⟨"Button".toList, none, none, none,
              [⟨"color".toList, "#ffaa00".toList, some "comment".toList⟩], [], []⟩, [])] := by
  decide!

/-- C13: a comment line that holds a colon, met before any node, fails the
parse. In the text `# TODO: fix / MainWindow` the first line is empty after the
comment stripping of the specification, so the first line that is not empty is
line 2, `MainWindow`, which has no colon; yet `otui_parse_file` fails with
"property outside node" at line 1. The same text without the colon in the
comment is parsed, with `TODO fix` as the comment before the node. -/
theorem comment_line_with_colon_fails :
    parseFailure "# TODO: fix\nMainWindow\n" = some (ParseError.propertyOutsideNode 1)
      ∧ specStrippedLine "# TODO: fix\n".toList = []
      ∧ specFirstContentLine "# TODO: fix\nMainWindow\n".toList = some (2, "MainWindow".toList)
      ∧ ':' ∉ "MainWindow".toList
      ∧ specStrippedLine "color: #ffaa00 # comment\n".toList = "color: #ffaa00".toList
      ∧ parseFailure "# TODO fix\nMainWindow\n" = none
      ∧ parsedOutline "# TODO fix\nMainWindow\n"
        = some [(⟨"MainWindow".toList, none, some "TODO fix".toList, none, [], [], []⟩, [])] := by
  decide!

/-- C17 (counterexample): the nodes that get a widget are not those that the
parsed tree marks. In the text `Base / id: base / Panel < Base / Label` the
root-level node `Panel` has a base style and no `id` of its own, so by the
parsed tree it is a template and `Base` alone would get a widget;
`otui_resolve_all_inheritance` copies `id: base` into `Panel` before the walk,
and `Parser::loadFromFile` returns three widgets, for `Base`, `Panel` and
`Label`. -/
theorem inherited_id_ends_template :
    (emittedNodes (parsedTree exampleInheritedIdFile)).map (fun pn => pn.1) = [[0]]
      ∧ loadedIds (loadFromFile 8 emptyEnv (some exampleInheritedIdFile.toList) [])
          = some ["base".toList, "base".toList, "Label".toList]
      ∧ loadedParents (loadFromFile 8 emptyEnv (some exampleInheritedIdFile.toList) [])
          = some [none, none, some 1]
      ∧ (emittedNodes (resolvedTree 8 (parsedTree exampleInheritedIdFile))).map
          (fun pn => pn.1) = [[0], [1], [1, 0]] := by
  decide!

/-! ## The end-to-end scenario: parse, build, anchor pass -/

theorem natDigits_shape (fuel : Nat) :
    ∀ (n : Nat) (acc : Str), 0 < fuel →
      ∃ d ds, natDigits fuel n acc = d :: ds ++ acc ∧
        ∀ c ∈ d :: ds, '0' ≤ c ∧ c ≤ '9' := by
  induction fuel with
  | zero => intro n acc h; omega
  | succ f ih =>
    intro n acc _
    rw [natDigits]
    by_cases h10 : n < 10
    · rw [if_pos h10]
      refine ⟨Char.ofNat (48 + n), [], rfl, ?_⟩
      intro c hc
      rw [List.mem_singleton] at hc
      rw [hc]
      exact (digit_char n h10).1
    · rw [if_neg h10]
      cases f with
      | zero =>
        refine ⟨Char.ofNat (48 + n % 10), [], rfl, ?_⟩
        intro c hc
        rw [List.mem_singleton] at hc
        rw [hc]
        exact (digit_char (n % 10) (Nat.mod_lt _ (by norm_num))).1
      | succ g =>
        obtain ⟨d, ds, he, hd⟩ := ih (n / 10) (Char.ofNat (48 + n % 10) :: acc) (Nat.succ_pos _)
        refine ⟨d, ds ++ [Char.ofNat (48 + n % 10)], by rw [he]; simp, ?_⟩
        intro c hc
        rw [← List.cons_append, List.mem_append] at hc
        rcases hc with hc | hc
        · exact hd c hc
        · rw [List.mem_singleton] at hc
          rw [hc]
          exact (digit_char (n % 10) (Nat.mod_lt _ (by norm_num))).1

theorem natDigits_length (fuel : Nat) :
    ∀ (n k : Nat) (acc : Str), n < 10 ^ (k + 1) →
      (natDigits fuel n acc).length ≤ acc.length + (k + 1) := by
  induction fuel with
  | zero => intro n k acc _; simp [natDigits]
  | succ f ih =>
    intro n k acc h
    rw [natDigits]
    by_cases h10 : n < 10
    · rw [if_pos h10]
      simp
    · rw [if_neg h10]
      cases k with
      | zero => simp at h; omega
      | succ j =>
        have hdiv : n / 10 < 10 ^ (j + 1) := by
          rw [Nat.div_lt_iff_lt_mul (by norm_num)]
          rw [pow_succ] at h
          exact h
        have := ih (n / 10) j (Char.ofNat (48 + n % 10) :: acc) hdiv
        simp only [List.length_cons] at this
        omega

/-- The text of an `int`: an optional minus sign, then decimal digits. -/
theorem intText_shape (i : Int) :
    ∃ d ds, (intText i = d :: ds ∨ intText i = '-' :: d :: ds) ∧
      ∀ c ∈ d :: ds, '0' ≤ c ∧ c ≤ '9' := by
  obtain ⟨d, ds, he, hd⟩ := natDigits_shape (i.natAbs + 1) i.natAbs [] (Nat.succ_pos _)
  rw [List.append_nil] at he
  refine ⟨d, ds, ?_, hd⟩
  unfold intText
  by_cases hi : i < 0
  · rw [if_pos hi, he]
    exact Or.inr rfl
  · rw [if_neg hi, he]
    exact Or.inl rfl

theorem digit_facts (c : Char) (h : '0' ≤ c ∧ c ≤ '9') :
    c ≠ '#' ∧ c ≠ Char.ofNat 0 ∧ isspace c = false ∧ c ≠ ':' ∧ c ≠ '\n' ∧ c ≠ '\r'
      ∧ c ≠ '-' ∧ c ≠ '+' ∧ c ≠ ' ' ∧ c ≠ '\t' ∧ c ≠ '<' ∧ c ≠ '@' ∧ c ≠ '$' := by
  have h1 : 48 ≤ c.toNat := h.1
  have h2 : c.toNat ≤ 57 := h.2
  have key : ∀ d : Char, (d.toNat < 48 ∨ 57 < d.toNat) → c ≠ d := by
    intro d hd e
    rw [e] at h1 h2
    omega
  refine ⟨key _ (by decide), key _ (by decide), ?_, key _ (by decide), key _ (by decide),
    key _ (by decide), key _ (by decide), key _ (by decide), key _ (by decide),
    key _ (by decide), key _ (by decide), key _ (by decide), key _ (by decide)⟩
  unfold isspace
  have e1 := key ' ' (by decide)
  have e2 := key '\t' (by decide)
  have e3 := key '\n' (by decide)
  have e4 := key (Char.ofNat 11) (by decide)
  have e5 := key (Char.ofNat 12) (by decide)
  have e6 := key '\r' (by decide)
  simp [e1, e2, e3, e4, e5, e6]

theorem intText_chars (i : Int) (c : Char) (hc : c ∈ intText i) :
    c ≠ '#' ∧ c ≠ Char.ofNat 0 ∧ isspace c = false ∧ c ≠ ':' ∧ c ≠ '\n' ∧ c ≠ '\r' := by
  obtain ⟨d, ds, he, hd⟩ := intText_shape i
  have hminus : ('-' : Char) ≠ '#' ∧ ('-' : Char) ≠ Char.ofNat 0 ∧ isspace '-' = false
      ∧ ('-' : Char) ≠ ':' ∧ ('-' : Char) ≠ '\n' ∧ ('-' : Char) ≠ '\r' := by decide
  rcases he with he | he
  · rw [he] at hc
    have := digit_facts c (hd c hc)
    exact ⟨this.1, this.2.1, this.2.2.1, this.2.2.2.1, this.2.2.2.2.1, this.2.2.2.2.2.1⟩
  · rw [he] at hc
    rcases List.mem_cons.1 hc with e | e
    · rw [e]; exact hminus
    · have := digit_facts c (hd c e)
      exact ⟨this.1, this.2.1, this.2.2.1, this.2.2.2.1, this.2.2.2.2.1, this.2.2.2.2.2.1⟩

theorem intText_ne_nil (i : Int) : intText i ≠ [] := by
  obtain ⟨d, ds, he, _⟩ := intText_shape i
  rcases he with he | he <;> (rw [he]; simp)

theorem intText_length (i : Int) (h : IsInt32 i) : (intText i).length ≤ 11 := by
  have hn : i.natAbs < 10 ^ (9 + 1) := by
    have := h.1
    have := h.2
    norm_num
    omega
  have := natDigits_length (i.natAbs + 1) i.natAbs 9 [] hn
  unfold intText
  split <;> simp only [List.length_cons, List.length_nil] at this ⊢ <;> omega

theorem trim_of_ends (s : Str) (h1 : s.head?.map isspace = some false)
    (h2 : s.getLast?.map isspace = some false) : trim s = s := by
  have hl : trimLeft s = s := by
    apply trimLeft_of_head
    intro c r e
    rw [e] at h1
    simpa using h1
  have hr : trimLeft s.reverse = s.reverse := by
    apply trimLeft_of_head
    intro c r e
    have : s.getLast? = some c := by
      rw [← List.head?_reverse, e]
      rfl
    rw [this] at h2
    simpa using h2
  unfold trim
  rw [hl, hr, List.reverse_reverse]

theorem plainText_intText (i : Int) : PlainText (intText i) := by
  have hall : ∀ c ∈ intText i, isspace c = false := fun c hc => (intText_chars i c hc).2.2.1
  refine ⟨fun c hc => ?_, ?_, ?_⟩
  · have := intText_chars i c hc
    exact ⟨this.1, this.2.1, Or.inr this.2.2.1⟩
  · cases h : intText i with
    | nil => exact absurd h (intText_ne_nil i)
    | cons c r =>
      have := hall c (by rw [h]; simp)
      simp [this]
  · cases h : (intText i).getLast? with
    | none =>
      rw [List.getLast?_eq_none_iff] at h
      exact absurd h (intText_ne_nil i)
    | some c =>
      have := hall c (List.mem_of_getLast?_eq_some h)
      simp [this]

theorem plainText_pair (a b : Str) (ha : PlainText a) (hb : PlainText b) :
    PlainText (a ++ ' ' :: b) := by
  obtain ⟨a1, a2, a3⟩ := ha
  obtain ⟨b1, b2, b3⟩ := hb
  refine ⟨fun c hc => ?_, ?_, ?_⟩
  · rcases List.mem_append.1 hc with h | h
    · exact a1 c h
    · rcases List.mem_cons.1 h with e | e
      · rw [e]
        exact ⟨by decide, by decide, Or.inl rfl⟩
      · exact b1 c e
  · cases a with
    | nil => simp at a2
    | cons x xs => simpa using a2
  · cases b with
    | nil => simp at b3
    | cons y ys =>
      have : (a ++ ' ' :: y :: ys).getLast? = (y :: ys).getLast? := by
        rw [show a ++ ' ' :: y :: ys = (a ++ [' ']) ++ (y :: ys) by simp]
        rw [List.getLast?_append_of_ne_nil _ (by simp)]
      rw [this]
      exact b3

theorem plainText_trim (s : Str) (h : PlainText s) : trim s = s :=
  trim_of_ends s h.2.1 h.2.2

theorem plainText_ne_nil (s : Str) (h : PlainText s) : s ≠ [] := by
  intro e
  rw [e] at h
  simp [PlainText] at h

theorem plainText_head (s : Str) (h : PlainText s) :
    ∃ c r, s = c :: r ∧ isspace c = false := by
  cases s with
  | nil => exact absurd rfl (plainText_ne_nil _ h)
  | cons c r => exact ⟨c, r, rfl, by simpa using h.2.1⟩

theorem plainText_not_mem (s : Str) (h : PlainText s) :
    '#' ∉ s ∧ '\n' ∉ s ∧ '\r' ∉ s ∧ Char.ofNat 0 ∉ s := by
  refine ⟨fun e => (h.1 _ e).1 rfl, fun e => ?_, fun e => ?_, fun e => (h.1 _ e).2.1 rfl⟩
  · rcases (h.1 _ e).2.2 with h1 | h1
    · exact absurd h1 (by decide)
    · exact absurd h1 (by decide)
  · rcases (h.1 _ e).2.2 with h1 | h1
    · exact absurd h1 (by decide)
    · exact absurd h1 (by decide)

theorem toInt_intText (i : Int) (h : IsInt32 i) : toInt (intText i) = some i := by
  have htrim : trim (intText i) = intText i := plainText_trim _ (plainText_intText i)
  have hd : parseDigits (natDigits (i.natAbs + 1) i.natAbs []) 0 = some i.natAbs := by
    have := parseDigits_natDigits (i.natAbs + 1) i.natAbs []
      (Nat.lt_pow_self (by norm_num) _ |>.trans_le
        (Nat.pow_le_pow_right (by norm_num) (by omega)))
    rw [this]
    simp [parseDigits]
  obtain ⟨d, ds, he, hdig⟩ := natDigits_shape (i.natAbs + 1) i.natAbs [] (Nat.succ_pos _)
  rw [List.append_nil] at he
  have hf := digit_facts d (hdig d (by simp))
  unfold toInt
  rw [htrim]
  unfold intText
  by_cases hi : i < 0
  · rw [if_pos hi]
    simp only
    rw [if_neg (by rw [he]; simp), hd]
    have hb : i.natAbs ≤ 2147483648 := by have := h.1; omega
    simp only [Option.some_bind, hb, if_true]
    congr 1
    omega
  · rw [if_neg hi, he]
    have hm : d ≠ '-' := hf.2.2.2.2.2.2.1
    have hp : d ≠ '+' := hf.2.2.2.2.2.2.2.1
    split
    · rename_i heq; cases heq
    · rename_i heq
      exact absurd (List.cons.inj heq).1 hm
    · rename_i heq
      exact absurd (List.cons.inj heq).1 hp
    · rw [← he, hd]
      have hb : i.natAbs ≤ 2147483647 := by have := h.2; omega
      simp only [Option.some_bind, hb, if_true]
      congr 1
      omega

theorem splitWhitespaceAux_word (a : Str) (ha : ∀ c ∈ a, isspace c = false) :
    ∀ cur rest : Str, splitWhitespaceAux cur (a ++ rest)
      = splitWhitespaceAux (a.reverse ++ cur) rest := by
  induction a with
  | nil => intro cur rest; rfl
  | cons x xs ih =>
    intro cur rest
    have hx : isspace x = false := ha x (by simp)
    rw [List.cons_append, splitWhitespaceAux, hx]
    simp only [Bool.false_eq_true, if_false]
    rw [ih (fun c hc => ha c (by simp [hc]))]
    simp

theorem splitWhitespace_pair (a b : Str) (ha : ∀ c ∈ a, isspace c = false)
    (hb : ∀ c ∈ b, isspace c = false) (han : a ≠ []) (hbn : b ≠ []) :
    splitWhitespace (a ++ ' ' :: b) = [a, b] := by
  unfold splitWhitespace
  rw [splitWhitespaceAux_word a ha, splitWhitespaceAux]
  have h1 : isspace ' ' = true := by decide
  rw [h1]
  simp only [if_true, List.append_nil, List.reverse_eq_nil_iff, han, if_false,
    List.reverse_reverse]
  have := splitWhitespaceAux_word b hb [] []
  rw [List.append_nil] at this
  rw [this, splitWhitespaceAux]
  simp [hbn]

theorem parsePoint_pair (x y : Int) (hx : IsInt32 x) (hy : IsInt32 y) (fallback : QPoint) :
    parsePoint (intText x ++ ' ' :: intText y) fallback = ⟨x, y⟩ := by
  unfold parsePoint
  rw [splitWhitespace_pair _ _ (fun c hc => (intText_chars x c hc).2.2.1)
    (fun c hc => (intText_chars y c hc).2.2.1) (intText_ne_nil x) (intText_ne_nil y)]
  simp only [toInt_intText x hx, toInt_intText y hy]

theorem plainLine_facts (k : Nat) (s : Str) (h : PlainText s) :
    '#' ∉ List.replicate k ' ' ++ s ∧ '\n' ∉ List.replicate k ' ' ++ s
      ∧ '\r' ∉ List.replicate k ' ' ++ s ∧ Char.ofNat 0 ∉ List.replicate k ' ' ++ s
      ∧ count_indent (List.replicate k ' ' ++ s) = k
      ∧ trim (List.replicate k ' ' ++ s) = s ∧ skipBlanks s = s := by
  obtain ⟨n1, n2, n3, n4⟩ := plainText_not_mem s h
  obtain ⟨c, r, hs, hc⟩ := plainText_head s h
  have hb := nonspace_nonblank c hc
  have key : ∀ x : Char, x ≠ ' ' → x ∉ s → x ∉ List.replicate k ' ' ++ s := by
    intro x hx hn hm
    rcases List.mem_append.1 hm with e | e
    · exact hx (mem_spaces k x e)
    · exact hn e
  refine ⟨key _ (by decide) n1, key _ (by decide) n2, key _ (by decide) n3,
    key _ (by decide) n4, ?_, ?_, ?_⟩
  · rw [hs]
    exact count_indent_spaces k c r hb.1 hb.2
  · have h1 : trimLeft (List.replicate k ' ' ++ s) = s := by
      rw [trimLeft_spaces, hs, trimLeft_nonspace_head c r hc]
    have h2 := plainText_trim s h
    unfold trim at h2 ⊢
    rw [h1]
    have h3 : trimLeft s = s := by rw [hs, trimLeft_nonspace_head c r hc]
    rw [h3] at h2
    exact h2
  · rw [hs]
    exact skipBlanks_nonblank c r hb.1 hb.2

/-- An iteration of the main loop on a plain property line. -/
theorem parseStep_property_line (st : ParseState) (k : Nat) (key value rest : Str)
    (hready : st.line_ready = false)
    (hinput : st.input = propertyLine k key value ++ '\n' :: rest)
    (hkey : PlainText key) (hcolon : ':' ∉ key)
    (hat : key.head? ≠ some '@') (hdollar : key.head? ≠ some '$')
    (hvalue : PlainText value) (hlen : k + key.length + value.length + 2 < 4095) :
    parseStep st
      = handleProperty { st with lineno := st.lineno + 1, input := rest } key (' ' :: value)
          none := by
  have hbody : PlainText (key ++ ':' :: ' ' :: value) := by
    obtain ⟨a1, a2, a3⟩ := hkey
    obtain ⟨b1, b2, b3⟩ := hvalue
    refine ⟨fun c hc => ?_, ?_, ?_⟩
    · rcases List.mem_append.1 hc with h | h
      · exact a1 c h
      · rcases List.mem_cons.1 h with e | e
        · rw [e]; exact ⟨by decide, by decide, Or.inr (by decide)⟩
        · rcases List.mem_cons.1 e with e2 | e2
          · rw [e2]; exact ⟨by decide, by decide, Or.inl rfl⟩
          · exact b1 c e2
    · cases key with
      | nil => simp at a2
      | cons x xs => simpa using a2
    · cases value with
      | nil => simp at b3
      | cons y ys =>
        have : (key ++ ':' :: ' ' :: y :: ys).getLast? = (y :: ys).getLast? := by
          rw [show key ++ ':' :: ' ' :: y :: ys = (key ++ [':', ' ']) ++ (y :: ys) by simp]
          rw [List.getLast?_append_of_ne_nil _ (by simp)]
        rw [this]
        exact b3
  obtain ⟨f1, f2, f3, f4, f5, f6, f7⟩ := plainLine_facts k _ hbody
  have hstep := parseStep_line st (propertyLine k key value) rest hready hinput f2 f3 f4
    (by simp only [propertyLine, List.length_append, List.length_replicate, List.length_cons]
        omega)
  rw [hstep]
  unfold processRawLine
  unfold propertyLine
  simp only [extractComment_no_hash _ f1, f5, f6]
  rw [if_neg (plainText_ne_nil _ hbody)]
  obtain ⟨c0, kp, hk, _⟩ := plainText_head key hkey
  have hb := nonspace_nonblank c0 (by
    have := hkey.2.1
    rw [hk] at this
    simpa using this)
  subst hk
  exact processContent_property _ c0 kp (' ' :: value) k none hcolon
    (fun e => hat (by rw [e]; rfl)) (fun e => hdollar (by rw [e]; rfl)) hb.1 hb.2

/-- An iteration of the main loop on a plain node header line. -/
theorem parseStep_header_line (st : ParseState) (k : Nat) (name rest : Str)
    (hready : st.line_ready = false)
    (hinput : st.input = headerLine k name ++ '\n' :: rest)
    (hname : PlainText name) (hcolon : ':' ∉ name) (hlen : k + name.length < 4095) :
    parseStep st
      = handleNode { st with lineno := st.lineno + 1, input := rest } name k none := by
  obtain ⟨f1, f2, f3, f4, f5, f6, f7⟩ := plainLine_facts k _ hname
  have hstep := parseStep_line st (headerLine k name) rest hready hinput f2 f3 f4
    (by simp only [headerLine, List.length_append, List.length_replicate]
        omega)
  rw [hstep]
  unfold processRawLine
  unfold headerLine
  simp only [extractComment_no_hash _ f1, f5, f6]
  rw [if_neg (plainText_ne_nil _ hname)]
  rcases processContent_cases { st with lineno := st.lineno + 1, input := rest } name k none
    with ⟨a, b, r, _, _, hm⟩ | ⟨a, r, _, _, hm⟩ | ⟨h, _⟩ | ⟨a, b, _, hm, _, _⟩
  · rw [f7] at hm; exact absurd hm hcolon
  · rw [f7] at hm; exact absurd hm hcolon
  · rw [h, f7]
  · rw [f7] at hm; exact absurd hm hcolon

theorem parseLoop_mono :
    ∀ (f g : Nat) (st : ParseState) (r : Except ParseError OTUINode), f ≤ g →
      parseLoop f st = some r → parseLoop g st = some r := by
  intro f
  induction f with
  | zero => intro g st r _ h; simp [parseLoop] at h
  | succ f ih =>
    intro g st r hfg h
    obtain ⟨g, rfl⟩ : ∃ g2, g = g2 + 1 := ⟨g - 1, by omega⟩
    rw [parseLoop] at h ⊢
    cases hp : parseStep st with
    | done root => rw [hp] at h; exact h
    | fail e => rw [hp] at h; exact h
    | next st2 =>
      rw [hp] at h
      exact ih g st2 r (by omega) h

theorem trim_space_cons (v : Str) (h : PlainText v) : trim (' ' :: v) = v := by
  have := (plainLine_facts 1 v h).2.2.2.2.2.1
  exact this

/-- The parse of the scenario text, for any plain values of its properties. -/
theorem parse_scenario (v1 v2 v3 v4 : Str) (h1 : PlainText v1) (h2 : PlainText v2)
    (h3 : PlainText v3) (h4 : PlainText v4) (l1 : v1.length < 100) (l2 : v2.length < 100)
    (l3 : v3.length < 100) (l4 : v4.length < 100) :
    otui_parse_file (some
      (headerLine 0 "MainWindow".toList ++ '\n' ::
      (propertyLine 2 "position".toList v1 ++ '\n' ::
      (propertyLine 2 "size".toList v2 ++ '\n' ::
      (headerLine 2 "Button".toList ++ '\n' ::
      (propertyLine 4 "size".toList v3 ++ '\n' ::
      (propertyLine 4 "anchors.right".toList "parent.right".toList ++ '\n' ::
      (propertyLine 4 "margin-right".toList v4 ++ '\n' :: []))))))))
      = some (Except.ok (windowTree
          [⟨"position".toList, v1, none⟩, ⟨"size".toList, v2, none⟩]
          [buttonNode [⟨"size".toList, v3, none⟩,
            ⟨"anchors.right".toList, "parent.right".toList, none⟩,
            ⟨"margin-right".toList, v4, none⟩]])) := by
  have t1 := trim_space_cons v1 h1
  have t2 := trim_space_cons v2 h2
  have t3 := trim_space_cons v3 h3
  have t4 := trim_space_cons v4 h4
  have k1 : trim "position".toList = "position".toList := by decide
  have k2 : trim "size".toList = "size".toList := by decide
  have k3 : trim "anchors.right".toList = "anchors.right".toList := by decide
  have k4 : trim "margin-right".toList = "margin-right".toList := by decide
  have k5 : trim (' ' :: "parent.right".toList) = "parent.right".toList := by decide
  have pMain : PlainText "MainWindow".toList := by unfold PlainText; decide
  have pButton : PlainText "Button".toList := by unfold PlainText; decide
  have pPos : PlainText "position".toList := by unfold PlainText; decide
  have pSize : PlainText "size".toList := by unfold PlainText; decide
  have pAnchor : PlainText "anchors.right".toList := by unfold PlainText; decide
  have pMargin : PlainText "margin-right".toList := by unfold PlainText; decide
  have pParent : PlainText "parent.right".toList := by unfold PlainText; decide
  have s1 : parseStep
    { root := node_new "__root__".toList (-1), stack := [[]], lineno := 0,
      input := headerLine 0 "MainWindow".toList ++ '\n' ::
      (propertyLine 2 "position".toList v1 ++ '\n' ::
      (propertyLine 2 "size".toList v2 ++ '\n' ::
      (headerLine 2 "Button".toList ++ '\n' ::
      (propertyLine 4 "size".toList v3 ++ '\n' ::
      (propertyLine 4 "anchors.right".toList "parent.right".toList ++ '\n' ::
      (propertyLine 4 "margin-right".toList v4 ++ '\n' :: [])))))) }
    = StepResult.next
    { root := windowTree [] [], stack := [[0], []], lineno := 1,
      input := propertyLine 2 "position".toList v1 ++ '\n' ::
      (propertyLine 2 "size".toList v2 ++ '\n' ::
      (headerLine 2 "Button".toList ++ '\n' ::
      (propertyLine 4 "size".toList v3 ++ '\n' ::
      (propertyLine 4 "anchors.right".toList "parent.right".toList ++ '\n' ::
      (propertyLine 4 "margin-right".toList v4 ++ '\n' :: []))))) } := by
    rw [parseStep_header_line _ 0 "MainWindow".toList _ rfl rfl pMain (by decide)
      (by decide)]
    rfl
  have s2 : parseStep
    { root := windowTree [] [], stack := [[0], []], lineno := 1,
      input := propertyLine 2 "position".toList v1 ++ '\n' ::
      (propertyLine 2 "size".toList v2 ++ '\n' ::
      (headerLine 2 "Button".toList ++ '\n' ::
      (propertyLine 4 "size".toList v3 ++ '\n' ::
      (propertyLine 4 "anchors.right".toList "parent.right".toList ++ '\n' ::
      (propertyLine 4 "margin-right".toList v4 ++ '\n' :: []))))) }
    = StepResult.next
    { root := windowTree [⟨"position".toList, v1, none⟩] [], stack := [[0], []], lineno := 2,
      input := propertyLine 2 "size".toList v2 ++ '\n' ::
      (headerLine 2 "Button".toList ++ '\n' ::
      (propertyLine 4 "size".toList v3 ++ '\n' ::
      (propertyLine 4 "anchors.right".toList "parent.right".toList ++ '\n' ::
      (propertyLine 4 "margin-right".toList v4 ++ '\n' :: [])))) } := by
    rw [parseStep_property_line _ 2 "position".toList v1 _ rfl rfl pPos (by decide)
      (by decide) (by decide) h1
      (by have e : "position".toList.length = 8 := rfl
          rw [e]; omega)]
    unfold handleProperty
    simp only [k1, t1]
    rfl
  have s3 : parseStep
    { root := windowTree [⟨"position".toList, v1, none⟩] [], stack := [[0], []], lineno := 2,
      input := propertyLine 2 "size".toList v2 ++ '\n' ::
      (headerLine 2 "Button".toList ++ '\n' ::
      (propertyLine 4 "size".toList v3 ++ '\n' ::
      (propertyLine 4 "anchors.right".toList "parent.right".toList ++ '\n' ::
      (propertyLine 4 "margin-right".toList v4 ++ '\n' :: [])))) }
    = StepResult.next
    { root := windowTree [⟨"position".toList, v1, none⟩, ⟨"size".toList, v2, none⟩] [], stack := [[0], []], lineno := 3,
      input := headerLine 2 "Button".toList ++ '\n' ::
      (propertyLine 4 "size".toList v3 ++ '\n' ::
      (propertyLine 4 "anchors.right".toList "parent.right".toList ++ '\n' ::
      (propertyLine 4 "margin-right".toList v4 ++ '\n' :: []))) } := by
    rw [parseStep_property_line _ 2 "size".toList v2 _ rfl rfl pSize (by decide)
      (by decide) (by decide) h2
      (by have e : "size".toList.length = 4 := rfl
          rw [e]; omega)]
    unfold handleProperty
    simp only [k2, t2]
    rfl
  have s4 : parseStep
    { root := windowTree [⟨"position".toList, v1, none⟩, ⟨"size".toList, v2, none⟩] [], stack := [[0], []], lineno := 3,
      input := headerLine 2 "Button".toList ++ '\n' ::
      (propertyLine 4 "size".toList v3 ++ '\n' ::
      (propertyLine 4 "anchors.right".toList "parent.right".toList ++ '\n' ::
      (propertyLine 4 "margin-right".toList v4 ++ '\n' :: []))) }
    = StepResult.next
    { root := windowTree [⟨"position".toList, v1, none⟩, ⟨"size".toList, v2, none⟩] [buttonNode []], stack := [[0, 0], [0], []], lineno := 4,
      input := propertyLine 4 "size".toList v3 ++ '\n' ::
      (propertyLine 4 "anchors.right".toList "parent.right".toList ++ '\n' ::
      (propertyLine 4 "margin-right".toList v4 ++ '\n' :: [])) } := by
    rw [parseStep_header_line _ 2 "Button".toList _ rfl rfl pButton (by decide)
      (by decide)]
    rfl
  have s5 : parseStep
    { root := windowTree [⟨"position".toList, v1, none⟩, ⟨"size".toList, v2, none⟩] [buttonNode []], stack := [[0, 0], [0], []], lineno := 4,
      input := propertyLine 4 "size".toList v3 ++ '\n' ::
      (propertyLine 4 "anchors.right".toList "parent.right".toList ++ '\n' ::
      (propertyLine 4 "margin-right".toList v4 ++ '\n' :: [])) }
    = StepResult.next
    { root := windowTree [⟨"position".toList, v1, none⟩, ⟨"size".toList, v2, none⟩] [buttonNode [⟨"size".toList, v3, none⟩]], stack := [[0, 0], [0], []], lineno := 5,
      input := propertyLine 4 "anchors.right".toList "parent.right".toList ++ '\n' ::
      (propertyLine 4 "margin-right".toList v4 ++ '\n' :: []) } := by
    rw [parseStep_property_line _ 4 "size".toList v3 _ rfl rfl pSize (by decide)
      (by decide) (by decide) h3
      (by have e : "size".toList.length = 4 := rfl
          rw [e]; omega)]
    unfold handleProperty
    simp only [k2, t3]
    rfl
  have s6 : parseStep
    { root := windowTree [⟨"position".toList, v1, none⟩, ⟨"size".toList, v2, none⟩] [buttonNode [⟨"size".toList, v3, none⟩]], stack := [[0, 0], [0], []], lineno := 5,
      input := propertyLine 4 "anchors.right".toList "parent.right".toList ++ '\n' ::
      (propertyLine 4 "margin-right".toList v4 ++ '\n' :: []) }
    = StepResult.next
    { root := windowTree [⟨"position".toList, v1, none⟩, ⟨"size".toList, v2, none⟩] [buttonNode [⟨"size".toList, v3, none⟩, ⟨"anchors.right".toList, "parent.right".toList, none⟩]], stack := [[0, 0], [0], []], lineno := 6,
      input := propertyLine 4 "margin-right".toList v4 ++ '\n' :: [] } := by
    rw [parseStep_property_line _ 4 "anchors.right".toList ("parent.right".toList) _ rfl rfl pAnchor (by decide)
      (by decide) (by decide) pParent
      (by decide)]
    unfold handleProperty
    simp only [k3, k5]
    rfl
  have s7 : parseStep
    { root := windowTree [⟨"position".toList, v1, none⟩, ⟨"size".toList, v2, none⟩] [buttonNode [⟨"size".toList, v3, none⟩, ⟨"anchors.right".toList, "parent.right".toList, none⟩]], stack := [[0, 0], [0], []], lineno := 6,
      input := propertyLine 4 "margin-right".toList v4 ++ '\n' :: [] }
    = StepResult.next
    { root := windowTree [⟨"position".toList, v1, none⟩, ⟨"size".toList, v2, none⟩] [buttonNode [⟨"size".toList, v3, none⟩, ⟨"anchors.right".toList, "parent.right".toList, none⟩, ⟨"margin-right".toList, v4, none⟩]], stack := [[0, 0], [0], []], lineno := 7,
      input := [] } := by
    rw [parseStep_property_line _ 4 "margin-right".toList v4 _ rfl rfl pMargin (by decide)
      (by decide) (by decide) h4
      (by have e : "margin-right".toList.length = 12 := rfl
          rw [e]; omega)]
    unfold handleProperty
    simp only [k4, t4]
    rfl
  have s8 : parseStep
    { root := windowTree [⟨"position".toList, v1, none⟩, ⟨"size".toList, v2, none⟩] [buttonNode [⟨"size".toList, v3, none⟩, ⟨"anchors.right".toList, "parent.right".toList, none⟩, ⟨"margin-right".toList, v4, none⟩]], stack := [[0, 0], [0], []], lineno := 7,
      input := [] }
    = StepResult.done (windowTree [⟨"position".toList, v1, none⟩, ⟨"size".toList, v2, none⟩] [buttonNode [⟨"size".toList, v3, none⟩, ⟨"anchors.right".toList, "parent.right".toList, none⟩, ⟨"margin-right".toList, v4, none⟩]]) := rfl
  unfold otui_parse_file
  simp only
  refine parseLoop_mono 8 _ _ _ (by simp only [List.length_append, List.length_cons]; omega) ?_
  rw [parseLoop]
  erw [s1]
  simp only
  rw [parseLoop, s2]
  simp only
  rw [parseLoop, s3]
  simp only
  rw [parseLoop, s4]
  simp only
  rw [parseLoop, s5]
  simp only
  rw [parseLoop, s6]
  simp only
  rw [parseLoop, s7]
  simp only
  rw [parseLoop, s8]

theorem inherited_absent (ctx : BuildContext) (p : NodePath) (n : OTUINode) (key : Str)
    (hget : ctx.root.get p = some n) (hbase : n.base_style = none)
    (hbind : ctx.bindings = []) (hcache : ctx.cache = none)
    (hv : otui_prop_get n key = none) : inheritedNodeProperty ctx p key = [] := by
  unfold inheritedNodeProperty
  rw [inheritedLoop]
  simp only [BuildContext.deref, hget, nodeProperty, hv, ne_eq, not_true_eq_false, if_false,
    List.not_mem_nil, inheritedBaseStage, hbase, inheritedBindingStage, hbind, bindingFind,
    inheritedStyleStage, hcache]

theorem parseBool_nil (fallback : Bool) : parseBool [] fallback = fallback := rfl

/-- The widgets that the builder makes for the tree of the scenario. -/
theorem build_scenario (env : Env) (v1 v2 v3 v4 : Str) (P S C : QPoint) (m : Int)
    (n1 : v1 ≠ []) (n2 : v2 ≠ []) (n3 : v3 ≠ []) (n4 : v4 ≠ [])
    (t1 : trim v1 = v1) (t2 : trim v2 = v2) (t3 : trim v3 = v3) (t4 : trim v4 = v4)
    (p1 : ∀ fallback, parsePoint v1 fallback = P) (p2 : ∀ fallback, parsePoint v2 fallback = S)
    (p3 : ∀ fallback, parsePoint v3 fallback = C) (p4 : tryParseInt v4 = some m) :
    visitNode env
        (makeContext env (windowTree
          [⟨"position".toList, v1, none⟩, ⟨"size".toList, v2, none⟩]
          [buttonNode [⟨"size".toList, v3, none⟩,
            ⟨"anchors.right".toList, "parent.right".toList, none⟩,
            ⟨"margin-right".toList, v4, none⟩]]) []) []
        (windowTree
          [⟨"position".toList, v1, none⟩, ⟨"size".toList, v2, none⟩]
          [buttonNode [⟨"size".toList, v3, none⟩,
            ⟨"anchors.right".toList, "parent.right".toList, none⟩,
            ⟨"margin-right".toList, v4, none⟩]]) [] none []
      = [{ m_id := "MainWindow".toList, kind := WidgetKind.MainWindow,
           m_rect := ⟨P.x, P.y, S.x, S.y⟩,
           m_imageCrop := ⟨0, 0, (env.constructorImage [] []).x, (env.constructorImage [] []).y⟩ },
         { m_id := "Button".toList, kind := WidgetKind.Button, m_parent := some 0,
           m_rect := ⟨0, 0, C.x, C.y⟩, m_text := "Button".toList,
           m_margin := { right := m },
           m_anchorRight := { edge := AnchorEdge.Right, targetId := "parent".toList },
           m_imageCrop :=
             ⟨0, 0, (env.constructorImage [] []).x, (env.constructorImage [] []).y⟩ }] := by
  generalize hctx : makeContext env (windowTree
          [⟨"position".toList, v1, none⟩, ⟨"size".toList, v2, none⟩]
          [buttonNode [⟨"size".toList, v3, none⟩,
            ⟨"anchors.right".toList, "parent.right".toList, none⟩,
            ⟨"margin-right".toList, v4, none⟩]]) [] = ctx
  have np : "parent.right".toList ≠ [] := by decide
  have tp : trim "parent.right".toList = "parent.right".toList := by decide
  have hvisit : visitNode env ctx [] (windowTree
          [⟨"position".toList, v1, none⟩, ⟨"size".toList, v2, none⟩]
          [buttonNode [⟨"size".toList, v3, none⟩,
            ⟨"anchors.right".toList, "parent.right".toList, none⟩,
            ⟨"margin-right".toList, v4, none⟩]]) [] none []
      = [{ applyCommonWidgetProps env ctx []
              (createWidgetForNode env "MainWindow".toList "MainWindow".toList [] []) [0]
              (OTUINode.mk "MainWindow".toList none 0 none none
          [⟨"position".toList, v1, none⟩, ⟨"size".toList, v2, none⟩] [] []
          [buttonNode [⟨"size".toList, v3, none⟩,
            ⟨"anchors.right".toList, "parent.right".toList, none⟩,
            ⟨"margin-right".toList, v4, none⟩]]) with m_parent := none },
         { applyCommonWidgetProps env ctx []
              (createWidgetForNode env "Button".toList "Button".toList [] []) [0, 0]
              (buttonNode [⟨"size".toList, v3, none⟩,
            ⟨"anchors.right".toList, "parent.right".toList, none⟩,
            ⟨"margin-right".toList, v4, none⟩]) with m_parent := some 0 }] := by
    rw [← hctx]
    rfl
  have hcw : createWidgetForNode env "MainWindow".toList "MainWindow".toList [] []
      = { m_id := "MainWindow".toList, kind := WidgetKind.MainWindow,
          m_rect := ⟨0, 0, (env.constructorImage [] []).x, (env.constructorImage [] []).y⟩,
          m_imageCrop :=
            ⟨0, 0, (env.constructorImage [] []).x, (env.constructorImage [] []).y⟩ } := rfl
  have hcb : createWidgetForNode env "Button".toList "Button".toList [] []
      = { m_id := "Button".toList, kind := WidgetKind.Button, m_text := "Button".toList,
          m_rect := ⟨0, 0, (env.constructorImage [] []).x, (env.constructorImage [] []).y⟩,
          m_imageCrop :=
            ⟨0, 0, (env.constructorImage [] []).x, (env.constructorImage [] []).y⟩ } := rfl
  have hroot : ctx.root = (windowTree
          [⟨"position".toList, v1, none⟩, ⟨"size".toList, v2, none⟩]
          [buttonNode [⟨"size".toList, v3, none⟩,
            ⟨"anchors.right".toList, "parent.right".toList, none⟩,
            ⟨"margin-right".toList, v4, none⟩]]) := by rw [← hctx]; rfl
  have hgetw : ctx.root.get [0] = some (OTUINode.mk "MainWindow".toList none 0 none none
          [⟨"position".toList, v1, none⟩, ⟨"size".toList, v2, none⟩] [] []
          [buttonNode [⟨"size".toList, v3, none⟩,
            ⟨"anchors.right".toList, "parent.right".toList, none⟩,
            ⟨"margin-right".toList, v4, none⟩]]) := by rw [hroot]; rfl
  have hgetb : ctx.root.get [0, 0] = some (buttonNode [⟨"size".toList, v3, none⟩,
            ⟨"anchors.right".toList, "parent.right".toList, none⟩,
            ⟨"margin-right".toList, v4, none⟩]) := by rw [hroot]; rfl
  have hbind : ctx.bindings = [] := by rw [← hctx]; rfl
  have hcache : ctx.cache = none := by rw [← hctx]; rfl
  have a0 : inheritedNodeProperty ctx [0] "position".toList = v1 := by
    have := inherited_own ctx [0] _ "position".toList v1 hgetw rfl (by rw [t1]; exact n1)
    rw [this, t1]
  have a1 : inheritedNodeProperty ctx [0] "size".toList = v2 := by
    have := inherited_own ctx [0] _ "size".toList v2 hgetw rfl (by rw [t2]; exact n2)
    rw [this, t2]
  have a2 : inheritedNodeProperty ctx [0] "visible".toList = [] :=
    inherited_absent ctx [0] _ "visible".toList hgetw rfl hbind hcache rfl
  have a3 : inheritedNodeProperty ctx [0] "text".toList = [] :=
    inherited_absent ctx [0] _ "text".toList hgetw rfl hbind hcache rfl
  have a4 : inheritedNodeProperty ctx [0] "text-offset".toList = [] :=
    inherited_absent ctx [0] _ "text-offset".toList hgetw rfl hbind hcache rfl
  have a5 : inheritedNodeProperty ctx [0] "text-wrap".toList = [] :=
    inherited_absent ctx [0] _ "text-wrap".toList hgetw rfl hbind hcache rfl
  have a6 : inheritedNodeProperty ctx [0] "text-auto-resize".toList = [] :=
    inherited_absent ctx [0] _ "text-auto-resize".toList hgetw rfl hbind hcache rfl
  have a7 : inheritedNodeProperty ctx [0] "image-source".toList = [] :=
    inherited_absent ctx [0] _ "image-source".toList hgetw rfl hbind hcache rfl
  have a8 : inheritedNodeProperty ctx [0] "image-clip".toList = [] :=
    inherited_absent ctx [0] _ "image-clip".toList hgetw rfl hbind hcache rfl
  have a9 : inheritedNodeProperty ctx [0] "image-border".toList = [] :=
    inherited_absent ctx [0] _ "image-border".toList hgetw rfl hbind hcache rfl
  have a10 : inheritedNodeProperty ctx [0] "image-border-top".toList = [] :=
    inherited_absent ctx [0] _ "image-border-top".toList hgetw rfl hbind hcache rfl
  have a11 : inheritedNodeProperty ctx [0] "image-border-right".toList = [] :=
    inherited_absent ctx [0] _ "image-border-right".toList hgetw rfl hbind hcache rfl
  have a12 : inheritedNodeProperty ctx [0] "image-border-bottom".toList = [] :=
    inherited_absent ctx [0] _ "image-border-bottom".toList hgetw rfl hbind hcache rfl
  have a13 : inheritedNodeProperty ctx [0] "image-border-left".toList = [] :=
    inherited_absent ctx [0] _ "image-border-left".toList hgetw rfl hbind hcache rfl
  have a14 : inheritedNodeProperty ctx [0] "x".toList = [] :=
    inherited_absent ctx [0] _ "x".toList hgetw rfl hbind hcache rfl
  have a15 : inheritedNodeProperty ctx [0] "y".toList = [] :=
    inherited_absent ctx [0] _ "y".toList hgetw rfl hbind hcache rfl
  have a16 : inheritedNodeProperty ctx [0] "margin".toList = [] :=
    inherited_absent ctx [0] _ "margin".toList hgetw rfl hbind hcache rfl
  have a17 : inheritedNodeProperty ctx [0] "margin-top".toList = [] :=
    inherited_absent ctx [0] _ "margin-top".toList hgetw rfl hbind hcache rfl
  have a18 : inheritedNodeProperty ctx [0] "margin-right".toList = [] :=
    inherited_absent ctx [0] _ "margin-right".toList hgetw rfl hbind hcache rfl
  have a19 : inheritedNodeProperty ctx [0] "margin-bottom".toList = [] :=
    inherited_absent ctx [0] _ "margin-bottom".toList hgetw rfl hbind hcache rfl
  have a20 : inheritedNodeProperty ctx [0] "margin-left".toList = [] :=
    inherited_absent ctx [0] _ "margin-left".toList hgetw rfl hbind hcache rfl
  have a21 : inheritedNodeProperty ctx [0] "padding".toList = [] :=
    inherited_absent ctx [0] _ "padding".toList hgetw rfl hbind hcache rfl
  have a22 : inheritedNodeProperty ctx [0] "padding-top".toList = [] :=
    inherited_absent ctx [0] _ "padding-top".toList hgetw rfl hbind hcache rfl
  have a23 : inheritedNodeProperty ctx [0] "padding-right".toList = [] :=
    inherited_absent ctx [0] _ "padding-right".toList hgetw rfl hbind hcache rfl
  have a24 : inheritedNodeProperty ctx [0] "padding-bottom".toList = [] :=
    inherited_absent ctx [0] _ "padding-bottom".toList hgetw rfl hbind hcache rfl
  have a25 : inheritedNodeProperty ctx [0] "padding-left".toList = [] :=
    inherited_absent ctx [0] _ "padding-left".toList hgetw rfl hbind hcache rfl
  have a26 : inheritedNodeProperty ctx [0] "anchors.left".toList = [] :=
    inherited_absent ctx [0] _ "anchors.left".toList hgetw rfl hbind hcache rfl
  have a27 : inheritedNodeProperty ctx [0] "anchors.right".toList = [] :=
    inherited_absent ctx [0] _ "anchors.right".toList hgetw rfl hbind hcache rfl
  have a28 : inheritedNodeProperty ctx [0] "anchors.top".toList = [] :=
    inherited_absent ctx [0] _ "anchors.top".toList hgetw rfl hbind hcache rfl
  have a29 : inheritedNodeProperty ctx [0] "anchors.bottom".toList = [] :=
    inherited_absent ctx [0] _ "anchors.bottom".toList hgetw rfl hbind hcache rfl
  have a30 : inheritedNodeProperty ctx [0] "anchors.horizontalCenter".toList = [] :=
    inherited_absent ctx [0] _ "anchors.horizontalCenter".toList hgetw rfl hbind hcache rfl
  have a31 : inheritedNodeProperty ctx [0] "anchors.verticalCenter".toList = [] :=
    inherited_absent ctx [0] _ "anchors.verticalCenter".toList hgetw rfl hbind hcache rfl
  have a32 : inheritedNodeProperty ctx [0] "anchors.centerIn".toList = [] :=
    inherited_absent ctx [0] _ "anchors.centerIn".toList hgetw rfl hbind hcache rfl
  have a33 : inheritedNodeProperty ctx [0] "anchors.fill".toList = [] :=
    inherited_absent ctx [0] _ "anchors.fill".toList hgetw rfl hbind hcache rfl
  have a34 : inheritedNodeProperty ctx [0] "phantom".toList = [] :=
    inherited_absent ctx [0] _ "phantom".toList hgetw rfl hbind hcache rfl
  have b0 : inheritedNodeProperty ctx [0, 0] "position".toList = [] :=
    inherited_absent ctx [0, 0] _ "position".toList hgetb rfl hbind hcache rfl
  have b1 : inheritedNodeProperty ctx [0, 0] "size".toList = v3 := by
    have := inherited_own ctx [0, 0] _ "size".toList v3 hgetb rfl (by rw [t3]; exact n3)
    rw [this, t3]
  have b2 : inheritedNodeProperty ctx [0, 0] "visible".toList = [] :=
    inherited_absent ctx [0, 0] _ "visible".toList hgetb rfl hbind hcache rfl
  have b3 : inheritedNodeProperty ctx [0, 0] "text".toList = [] :=
    inherited_absent ctx [0, 0] _ "text".toList hgetb rfl hbind hcache rfl
  have b4 : inheritedNodeProperty ctx [0, 0] "text-offset".toList = [] :=
    inherited_absent ctx [0, 0] _ "text-offset".toList hgetb rfl hbind hcache rfl
  have b5 : inheritedNodeProperty ctx [0, 0] "text-wrap".toList = [] :=
    inherited_absent ctx [0, 0] _ "text-wrap".toList hgetb rfl hbind hcache rfl
  have b6 : inheritedNodeProperty ctx [0, 0] "text-auto-resize".toList = [] :=
    inherited_absent ctx [0, 0] _ "text-auto-resize".toList hgetb rfl hbind hcache rfl
  have b7 : inheritedNodeProperty ctx [0, 0] "image-source".toList = [] :=
    inherited_absent ctx [0, 0] _ "image-source".toList hgetb rfl hbind hcache rfl
  have b8 : inheritedNodeProperty ctx [0, 0] "image-clip".toList = [] :=
    inherited_absent ctx [0, 0] _ "image-clip".toList hgetb rfl hbind hcache rfl
  have b9 : inheritedNodeProperty ctx [0, 0] "image-border".toList = [] :=
    inherited_absent ctx [0, 0] _ "image-border".toList hgetb rfl hbind hcache rfl
  have b10 : inheritedNodeProperty ctx [0, 0] "image-border-top".toList = [] :=
    inherited_absent ctx [0, 0] _ "image-border-top".toList hgetb rfl hbind hcache rfl
  have b11 : inheritedNodeProperty ctx [0, 0] "image-border-right".toList = [] :=
    inherited_absent ctx [0, 0] _ "image-border-right".toList hgetb rfl hbind hcache rfl
  have b12 : inheritedNodeProperty ctx [0, 0] "image-border-bottom".toList = [] :=
    inherited_absent ctx [0, 0] _ "image-border-bottom".toList hgetb rfl hbind hcache rfl
  have b13 : inheritedNodeProperty ctx [0, 0] "image-border-left".toList = [] :=
    inherited_absent ctx [0, 0] _ "image-border-left".toList hgetb rfl hbind hcache rfl
  have b14 : inheritedNodeProperty ctx [0, 0] "x".toList = [] :=
    inherited_absent ctx [0, 0] _ "x".toList hgetb rfl hbind hcache rfl
  have b15 : inheritedNodeProperty ctx [0, 0] "y".toList = [] :=
    inherited_absent ctx [0, 0] _ "y".toList hgetb rfl hbind hcache rfl
  have b16 : inheritedNodeProperty ctx [0, 0] "margin".toList = [] :=
    inherited_absent ctx [0, 0] _ "margin".toList hgetb rfl hbind hcache rfl
  have b17 : inheritedNodeProperty ctx [0, 0] "margin-top".toList = [] :=
    inherited_absent ctx [0, 0] _ "margin-top".toList hgetb rfl hbind hcache rfl
  have b18 : inheritedNodeProperty ctx [0, 0] "margin-right".toList = v4 := by
    have := inherited_own ctx [0, 0] _ "margin-right".toList v4 hgetb rfl (by rw [t4]; exact n4)
    rw [this, t4]
  have b19 : inheritedNodeProperty ctx [0, 0] "margin-bottom".toList = [] :=
    inherited_absent ctx [0, 0] _ "margin-bottom".toList hgetb rfl hbind hcache rfl
  have b20 : inheritedNodeProperty ctx [0, 0] "margin-left".toList = [] :=
    inherited_absent ctx [0, 0] _ "margin-left".toList hgetb rfl hbind hcache rfl
  have b21 : inheritedNodeProperty ctx [0, 0] "padding".toList = [] :=
    inherited_absent ctx [0, 0] _ "padding".toList hgetb rfl hbind hcache rfl
  have b22 : inheritedNodeProperty ctx [0, 0] "padding-top".toList = [] :=
    inherited_absent ctx [0, 0] _ "padding-top".toList hgetb rfl hbind hcache rfl
  have b23 : inheritedNodeProperty ctx [0, 0] "padding-right".toList = [] :=
    inherited_absent ctx [0, 0] _ "padding-right".toList hgetb rfl hbind hcache rfl
  have b24 : inheritedNodeProperty ctx [0, 0] "padding-bottom".toList = [] :=
    inherited_absent ctx [0, 0] _ "padding-bottom".toList hgetb rfl hbind hcache rfl
  have b25 : inheritedNodeProperty ctx [0, 0] "padding-left".toList = [] :=
    inherited_absent ctx [0, 0] _ "padding-left".toList hgetb rfl hbind hcache rfl
  have b26 : inheritedNodeProperty ctx [0, 0] "anchors.left".toList = [] :=
    inherited_absent ctx [0, 0] _ "anchors.left".toList hgetb rfl hbind hcache rfl
  have b27 : inheritedNodeProperty ctx [0, 0] "anchors.right".toList = "parent.right".toList := by
    have := inherited_own ctx [0, 0] _ "anchors.right".toList "parent.right".toList hgetb rfl (by rw [tp]; exact np)
    rw [this, tp]
  have b28 : inheritedNodeProperty ctx [0, 0] "anchors.top".toList = [] :=
    inherited_absent ctx [0, 0] _ "anchors.top".toList hgetb rfl hbind hcache rfl
  have b29 : inheritedNodeProperty ctx [0, 0] "anchors.bottom".toList = [] :=
    inherited_absent ctx [0, 0] _ "anchors.bottom".toList hgetb rfl hbind hcache rfl
  have b30 : inheritedNodeProperty ctx [0, 0] "anchors.horizontalCenter".toList = [] :=
    inherited_absent ctx [0, 0] _ "anchors.horizontalCenter".toList hgetb rfl hbind hcache rfl
  have b31 : inheritedNodeProperty ctx [0, 0] "anchors.verticalCenter".toList = [] :=
    inherited_absent ctx [0, 0] _ "anchors.verticalCenter".toList hgetb rfl hbind hcache rfl
  have b32 : inheritedNodeProperty ctx [0, 0] "anchors.centerIn".toList = [] :=
    inherited_absent ctx [0, 0] _ "anchors.centerIn".toList hgetb rfl hbind hcache rfl
  have b33 : inheritedNodeProperty ctx [0, 0] "anchors.fill".toList = [] :=
    inherited_absent ctx [0, 0] _ "anchors.fill".toList hgetb rfl hbind hcache rfl
  have b34 : inheritedNodeProperty ctx [0, 0] "phantom".toList = [] :=
    inherited_absent ctx [0, 0] _ "phantom".toList hgetb rfl hbind hcache rfl
  have hw : applyCommonWidgetProps env ctx []
      (createWidgetForNode env "MainWindow".toList "MainWindow".toList [] []) [0]
      (OTUINode.mk "MainWindow".toList none 0 none none
          [⟨"position".toList, v1, none⟩, ⟨"size".toList, v2, none⟩] [] []
          [buttonNode [⟨"size".toList, v3, none⟩,
            ⟨"anchors.right".toList, "parent.right".toList, none⟩,
            ⟨"margin-right".toList, v4, none⟩]])
      = { m_id := "MainWindow".toList, kind := WidgetKind.MainWindow,
           m_rect := ⟨P.x, P.y, S.x, S.y⟩,
           m_imageCrop :=
            ⟨0, 0, (env.constructorImage [] []).x, (env.constructorImage [] []).y⟩ } := by
    rw [hcw]
    unfold applyCommonWidgetProps
    simp only [inheritedNodeBool, applyEdgeProps, applyAnchorProps, parseBool_nil,
      ne_eq, not_true_eq_false, if_false, not_false_eq_true, if_true, n1, n2, p1, p2,
    a0, a1, a2, a3, a4, a5, a6, a7, a8, a9, a10, a11, a12, a13, a14, a15, a16, a17, a18, a19,
       a20, a21, a22, a23, a24, a25, a26, a27, a28, a29, a30, a31, a32, a33, a34]
    rfl
  have hb : applyCommonWidgetProps env ctx []
      (createWidgetForNode env "Button".toList "Button".toList [] []) [0, 0]
      (buttonNode [⟨"size".toList, v3, none⟩,
            ⟨"anchors.right".toList, "parent.right".toList, none⟩,
            ⟨"margin-right".toList, v4, none⟩])
      = { m_id := "Button".toList, kind := WidgetKind.Button,
           m_rect := ⟨0, 0, C.x, C.y⟩, m_text := "Button".toList,
           m_margin := { right := m },
           m_anchorRight := { edge := AnchorEdge.Right, targetId := "parent".toList },
           m_imageCrop :=
            ⟨0, 0, (env.constructorImage [] []).x, (env.constructorImage [] []).y⟩ } := by
    rw [hcb]
    unfold applyCommonWidgetProps
    simp only [inheritedNodeBool, applyEdgeProps, applyAnchorProps, parseBool_nil,
      ne_eq, not_true_eq_false, if_false, not_false_eq_true, if_true, n3, n4, p3, p4,
      false_and, applyEdgeComponentProperty,
    b0, b1, b2, b3, b4, b5, b6, b7, b8, b9, b10, b11, b12, b13, b14, b15, b16, b17, b18, b19,
       b20, b21, b22, b23, b24, b25, b26, b27, b28, b29, b30, b31, b32, b33, b34]
    rfl
  rw [hvisit, hw, hb]

theorem resolve_scenario (f : Nat) (wp bp : List OTUIProp) :
    otui_resolve_all_inheritance (f + 3) (windowTree wp [buttonNode bp])
      = some (windowTree wp [buttonNode bp]) := rfl

/-- C9: the end-to-end scenario, for every position and size of the parent,
every size of the child and every right margin, all 32-bit numbers written in
decimal. The text of a `MainWindow` with a child `Button` whose only anchor is
`anchors.right: parent.right`, with `margin-right: m`, goes through
`otui_parse_file`, the inheritance resolution, the builder and the anchor pass,
and `Parser::loadFromFile` returns exactly two widgets: the window with the rect
that the text gives it, and the button, whose parent is the window, with
`x + width = W - m` in the coordinates of the parent, whatever the position of
the parent; the width, the height and `y` of the button are those of the
text. -/
theorem right_anchor_end_to_end (env : Env) (fuel : Nat) (px py W H cw ch m : Int)
    (hfuel : 3 ≤ fuel) (hpx : IsInt32 px) (hpy : IsInt32 py) (hW : IsInt32 W)
    (hH : IsInt32 H) (hcw : IsInt32 cw) (hch : IsInt32 ch) (hm : IsInt32 m) :
    ∃ win btn,
      loadFromFile fuel env (some (rightAnchorText px py W H cw ch m)) []
        = some (Except.ok [win, btn])
      ∧ win.m_id = "MainWindow".toList ∧ btn.m_id = "Button".toList
      ∧ win.m_parent = none ∧ btn.m_parent = some 0
      ∧ win.m_rect = ⟨px, py, W, H⟩
      ∧ btn.m_rect.x + btn.m_rect.w = W - m
      ∧ btn.m_rect.w = cw ∧ btn.m_rect.y = 0 ∧ btn.m_rect.h = ch := by
  obtain ⟨f, rfl⟩ : ∃ f, fuel = f + 3 := ⟨fuel - 3, by omega⟩
  have q1 := plainText_pair _ _ (plainText_intText px) (plainText_intText py)
  have q2 := plainText_pair _ _ (plainText_intText W) (plainText_intText H)
  have q3 := plainText_pair _ _ (plainText_intText cw) (plainText_intText ch)
  have q4 := plainText_intText m
  have len : ∀ a b : Int, IsInt32 a → IsInt32 b →
      (intText a ++ ' ' :: intText b).length < 100 := by
    intro a b ha hb
    have := intText_length a ha
    have := intText_length b hb
    simp only [List.length_append, List.length_cons]
    omega
  have hparse := parse_scenario _ _ _ _ q1 q2 q3 q4 (len px py hpx hpy) (len W H hW hH)
    (len cw ch hcw hch) (by have := intText_length m hm; omega)
  have hbuild := build_scenario env _ _ _ _ ⟨px, py⟩ ⟨W, H⟩ ⟨cw, ch⟩ m
    (plainText_ne_nil _ q1) (plainText_ne_nil _ q2) (plainText_ne_nil _ q3)
    (plainText_ne_nil _ q4) (plainText_trim _ q1) (plainText_trim _ q2) (plainText_trim _ q3)
    (plainText_trim _ q4) (parsePoint_pair px py hpx hpy) (parsePoint_pair W H hW hH)
    (parsePoint_pair cw ch hcw hch) (toInt_intText m hm)
  have hanchor := resolveAnchors_window_child
    { m_id := "MainWindow".toList, kind := WidgetKind.MainWindow,
      m_rect := ⟨px, py, W, H⟩,
      m_imageCrop := ⟨0, 0, (env.constructorImage [] []).x, (env.constructorImage [] []).y⟩ }
    { m_id := "Button".toList, kind := WidgetKind.Button, m_parent := some 0,
      m_rect := ⟨0, 0, cw, ch⟩, m_text := "Button".toList,
      m_margin := { right := m },
      m_anchorRight := { edge := AnchorEdge.Right, targetId := "parent".toList },
      m_imageCrop := ⟨0, 0, (env.constructorImage [] []).x, (env.constructorImage [] []).y⟩ }
    rfl rfl rfl rfl rfl rfl rfl rfl rfl rfl rfl rfl rfl rfl rfl
  refine ⟨
    { m_id := "MainWindow".toList, kind := WidgetKind.MainWindow,
      m_rect := ⟨px, py, W, H⟩,
      m_imageCrop := ⟨0, 0, (env.constructorImage [] []).x, (env.constructorImage [] []).y⟩ },
    { m_id := "Button".toList, kind := WidgetKind.Button, m_parent := some 0,
      m_rect := ⟨W - m - cw, 0, cw, ch⟩, m_text := "Button".toList,
      m_margin := { right := m },
      m_anchorRight := { edge := AnchorEdge.Right, targetId := "parent".toList },
      m_imageCrop := ⟨0, 0, (env.constructorImage [] []).x, (env.constructorImage [] []).y⟩ },
    ?_, ?_⟩
  · unfold loadFromFile rightAnchorText
    rw [hparse]
    simp only
    rw [resolve_scenario]
    simp only
    rw [hbuild, hanchor]
    rfl
  · refine ⟨rfl, rfl, rfl, rfl, rfl, ?_, rfl, rfl, rfl⟩
    show W - m - cw + cw = W - m
    ring

theorem right_anchor_end_to_end_witness :
    (IsInt32 7 ∧ IsInt32 9 ∧ IsInt32 100 ∧ IsInt32 50 ∧ IsInt32 20 ∧ IsInt32 10 ∧ IsInt32 5)
      ∧ (∃ win btn,
          loadFromFile 3 emptyEnv (some (rightAnchorText 7 9 100 50 20 10 5)) []
            = some (Except.ok [win, btn])
          ∧ win.m_id = "MainWindow".toList ∧ btn.m_id = "Button".toList
          ∧ win.m_parent = none ∧ btn.m_parent = some 0
          ∧ win.m_rect = ⟨7, 9, 100, 50⟩
          ∧ btn.m_rect.x + btn.m_rect.w = 100 - 5
          ∧ btn.m_rect.w = 20 ∧ btn.m_rect.y = 0 ∧ btn.m_rect.h = 10)
      ∧ rightAnchorText 7 9 100 50 20 10 5
          = ("MainWindow\n  position: 7 9\n  size: 100 50\n  Button\n    size: 20 10\n" ++
              "    anchors.right: parent.right\n    margin-right: 5\n").toList
      ∧ rightAnchorText (-7) 0 100 50 20 10 (-5)
          = ("MainWindow\n  position: -7 0\n  size: 100 50\n  Button\n    size: 20 10\n" ++
              "    anchors.right: parent.right\n    margin-right: -5\n").toList
      ∧ loadedIds (loadFromFile 3 emptyEnv (some
          ("MainWindow\n  size: 100 50\n  Button\n    anchors.right: parent.right\n" ++
            "    margin-right: 5\n").toList) [])
          = some ["MainWindow".toList, "Button".toList]
      ∧ loadedRects (loadFromFile 3 emptyEnv (some
          ("MainWindow\n  size: 100 50\n  Button\n    anchors.right: parent.right\n" ++
            "    margin-right: 5\n").toList) [])
          = some [⟨0, 0, 100, 50⟩, ⟨95, 0, 0, 0⟩]
      ∧ loadedParents (loadFromFile 3 emptyEnv (some
          ("MainWindow\n  size: 100 50\n  Button\n    anchors.right: parent.right\n" ++
            "    margin-right: 5\n").toList) [])
          = some [none, some 0] :=
  ⟨by unfold IsInt32; decide,
    right_anchor_end_to_end emptyEnv 3 7 9 100 50 20 10 5 (by decide)
      (by unfold IsInt32; decide) (by unfold IsInt32; decide) (by unfold IsInt32; decide)
      (by unfold IsInt32; decide) (by unfold IsInt32; decide) (by unfold IsInt32; decide)
      (by unfold IsInt32; decide),
    by decide!, by decide!, by decide!, by decide!, by decide!⟩

/-! ## The inheritance resolution returns on acyclic chains -/

theorem deepSame_refl (a : OTUINode) : DeepSame a a := ⟨fun _ => rfl, fun _ _ => rfl⟩

theorem deepSame_symm (a b : OTUINode) (h : DeepSame a b) : DeepSame b a :=
  ⟨fun q => (h.1 q).symm, fun q nm => (h.2 q nm).symm⟩

theorem deepSame_trans (a b c : OTUINode) (h1 : DeepSame a b) (h2 : DeepSame b c) :
    DeepSame a c :=
  ⟨fun q => (h2.1 q).trans (h1.1 q), fun q nm => (h2.2 q nm).trans (h1.2 q nm)⟩

theorem deepSame_skeleton (a b : OTUINode) (h : DeepSame a b) : SameSkeleton a b := by
  refine ⟨h.1, ?_⟩
  intro nm
  have := h.2 [] nm
  rw [get_nil, get_nil] at this
  simpa using this

theorem deepSame_get (a b : OTUINode) (h : DeepSame a b) (q : NodePath) (x : OTUINode)
    (hx : a.get q = some x) : ∃ y, b.get q = some y ∧ DeepSame x y := by
  have h1 := h.1 q
  rw [hx] at h1
  cases hy : b.get q with
  | none => rw [hy] at h1; cases h1
  | some y =>
    refine ⟨y, rfl, ?_, ?_⟩
    · intro r
      have := h.1 (q ++ r)
      rw [get_append, get_append, hx, hy] at this
      exact this
    · intro r nm
      have := h.2 (q ++ r) nm
      rw [get_append, get_append, hx, hy] at this
      exact this

theorem deepSame_modify (f : OTUINode → OTUINode) (hf : PropOnly f) (p : NodePath)
    (root : OTUINode) : DeepSame root (OTUINode.modify f root p) := by
  refine ⟨fun q => (baseStyle_modify f hf p root q).1, ?_⟩
  intro q nm
  induction p generalizing root q with
  | nil =>
    rw [modify_nil]
    cases q with
    | nil => rw [get_nil, get_nil, Option.map_some', Option.map_some', find_node_eq,
        find_node_eq (n := root), (hf root).1, (hf root).2.2]
    | cons j r => rw [get_cons, get_cons, (hf root).2.2]
  | cons i p ih =>
    cases q with
    | nil =>
      rw [get_nil, get_nil, Option.map_some', Option.map_some',
        find_node_modify f hf nm (i :: p) root]
    | cons j r =>
      rw [modify_cons]
      cases hc : root.children[i]? with
      | none => rfl
      | some c =>
        simp only
        rw [get_cons, get_cons, withChildren_children]
        have hi : i < root.children.length := getElem?_lt _ _ _ hc
        by_cases hij : i = j
        · subst hij
          rw [List.getElem?_set_self hi, hc]
          exact ih c r
        · rw [List.getElem?_set_ne hij]

theorem deepSame_set_child (R c c2 : OTUINode) (i : Nat) (hc : R.children[i]? = some c)
    (h : DeepSame c c2) : DeepSame R (R.withChildren (R.children.set i c2)) := by
  have hi : i < R.children.length := getElem?_lt _ _ _ hc
  constructor
  · intro q
    cases q with
    | nil => rw [get_nil, get_nil, Option.map_some', Option.map_some', withChildren_base_style]
    | cons j r =>
      rw [get_cons, get_cons, withChildren_children]
      by_cases hij : i = j
      · subst hij
        rw [List.getElem?_set_self hi, hc]
        exact h.1 r
      · rw [List.getElem?_set_ne hij]
  · intro q nm
    cases q with
    | nil =>
      rw [get_nil, get_nil, Option.map_some', Option.map_some', find_node_eq,
        find_node_eq (n := R), withChildren_name, withChildren_children]
      have hcc : otui_find_node c2 nm = otui_find_node c nm := by
        have := h.2 [] nm
        rw [get_nil, get_nil] at this
        simpa using this
      rw [find_children_set nm c c2 hcc R.children i 0 hc]
    | cons j r =>
      rw [get_cons, get_cons, withChildren_children]
      by_cases hij : i = j
      · subst hij
        rw [List.getElem?_set_self hi, hc]
        exact h.2 r nm
      · rw [List.getElem?_set_ne hij]

theorem resolve_deepSame (f : Nat) :
    ∀ (root : OTUINode) (p : NodePath) (r : OTUINode),
      otui_resolve_inheritance f root p = some r → DeepSame root r := by
  induction f with
  | zero => intro root p r h; simp [otui_resolve_inheritance] at h
  | succ f ih =>
    intro root p r h
    rw [otui_resolve_inheritance] at h
    cases hg : root.get p with
    | none =>
      simp only [hg, Option.some.injEq] at h
      subst h
      exact deepSame_refl _
    | some N =>
      simp only [hg] at h
      cases hbs : N.base_style with
      | none =>
        simp only [hbs, Option.some.injEq] at h
        subst h
        exact deepSame_refl _
      | some bs =>
        simp only [hbs] at h
        cases hf : otui_find_node root bs with
        | none =>
          simp only [hf, Option.some.injEq] at h
          subst h
          exact deepSame_refl _
        | some b =>
          simp only [hf] at h
          cases hr : otui_resolve_inheritance f root b with
          | none => simp [hr] at h
          | some root1 =>
            simp only [hr] at h
            have h1 := ih root b root1 hr
            cases hb : root1.get b with
            | none =>
              simp only [hb, Option.some.injEq] at h
              subst h
              exact h1
            | some B =>
              simp only [hb, Option.some.injEq] at h
              subst h
              exact deepSame_trans _ _ _ h1
                (deepSame_modify _ (inheritLoop_propOnly B.props) p root1)

theorem chainEndsWithin_congr (a b : OTUINode) (h : SameSkeleton a b) (n : Nat) :
    ∀ p, chainEndsWithin b n p = chainEndsWithin a n p := by
  induction n with
  | zero => intro p; simp only [chainEndsWithin, baseOf_congr a b h p]
  | succ n ih =>
    intro p
    rw [chainEndsWithin, chainEndsWithin, baseOf_congr a b h p]
    cases baseOf a p with
    | none => rfl
    | some q => exact ih q

theorem chainsEnd_congr (a b : OTUINode) (h : DeepSame a b) (n : Nat)
    (ha : ChainsEnd n a) : ChainsEnd n b := by
  intro q M i hM
  obtain ⟨M0, hM0, hs⟩ := deepSame_get b a (deepSame_symm a b h) q M hM
  rw [← chainEndsWithin_congr M M0 (deepSame_skeleton M M0 hs) n [i]]
  exact ha q M0 i hM0

theorem chainsEnd_child (R c : OTUINode) (i n : Nat) (hc : R.children[i]? = some c)
    (h : ChainsEnd n R) : ChainsEnd n c := by
  intro q M j hM
  refine h (i :: q) M j ?_
  rw [get_cons, hc]
  exact hM

theorem depthBelow_congr (a b : OTUINode) (h : DeepSame a b) (d : Nat)
    (ha : DepthBelow d a) : DepthBelow d b := by
  intro q M hM
  obtain ⟨M0, hM0, -⟩ := deepSame_get b a (deepSame_symm a b h) q M hM
  exact ha q M0 hM0

theorem depthBelow_child (R c : OTUINode) (i d : Nat) (hc : R.children[i]? = some c)
    (h : DepthBelow d R) : DepthBelow (d - 1) c ∧ 2 ≤ d := by
  have h2 : 2 ≤ d := by
    have := h [i] c (get_single R i c hc)
    simpa using this
  refine ⟨?_, h2⟩
  intro q M hM
  have := h (i :: q) M (by rw [get_cons, hc]; exact hM)
  simp only [List.length_cons] at this
  omega

theorem resolve_total (R : OTUINode) (p : NodePath) (n f : Nat) (hnf : n ≤ f)
    (h : chainEndsWithin R n p = true) :
    ∃ R1, otui_resolve_inheritance (f + 1) R p = some R1 ∧ DeepSame R R1 := by
  obtain ⟨m, hm, hr⟩ := exactRank_exists R p n h
  obtain ⟨R1, h1, -⟩ := resolve_exact m R p hr
  have h2 := resolve_fuel_mono (m + 1) (f + 1) (by omega) R p R1 h1
  exact ⟨R1, h2, resolve_deepSame _ R p R1 h2⟩

theorem resolveAllLoop_total (n f d : Nat) (R0 : OTUINode) (hch : ChainsEnd n R0)
    (hd : DepthBelow d R0) (hfuel : n + d ≤ f + 1)
    (ih : ∀ (d2 : Nat) (c : OTUINode), ChainsEnd n c → DepthBelow d2 c → n + d2 ≤ f →
      ∃ c2, otui_resolve_all_inheritance f c = some c2 ∧ DeepSame c c2) :
    ∀ (k i : Nat) (R : OTUINode), DeepSame R0 R →
      ∃ R2, resolveAllLoop (fun r p => otui_resolve_inheritance (f + 1) r p)
        (fun c => otui_resolve_all_inheritance f c) k i R = some R2 ∧ DeepSame R0 R2 := by
  intro k
  induction k with
  | zero => intro i R hR; exact ⟨R, rfl, hR⟩
  | succ k ihk =>
    intro i R hR
    rw [resolveAllLoop]
    cases hc : R.children[i]? with
    | none => exact ⟨R, rfl, hR⟩
    | some child =>
      simp only
      have hdR := depthBelow_congr R0 R hR d hd
      have hd2 := (depthBelow_child R child i d hc hdR).2
      have hchain : chainEndsWithin R n [i] = true := by
        rw [chainEndsWithin_congr R0 R (deepSame_skeleton R0 R hR) n [i]]
        exact hch [] R0 i (get_nil R0)
      have hres : ∃ R1, (if child.base_style.isSome then
          otui_resolve_inheritance (f + 1) R [i] else some R) = some R1 ∧ DeepSame R R1 := by
        by_cases hb : child.base_style.isSome = true
        · rw [if_pos hb]
          exact resolve_total R [i] n f (by omega) hchain
        · rw [if_neg hb]
          exact ⟨R, rfl, deepSame_refl R⟩
      obtain ⟨R1, hR1, hs1⟩ := hres
      rw [hR1]
      simp only
      have hR01 := deepSame_trans R0 R R1 hR hs1
      cases hc1 : R1.children[i]? with
      | none => exact ⟨R1, rfl, hR01⟩
      | some child1 =>
        simp only
        have hch1 : ChainsEnd n child1 :=
          chainsEnd_child R1 child1 i n hc1 (chainsEnd_congr R0 R1 hR01 n hch)
        have hd1 := (depthBelow_child R1 child1 i d hc1 (depthBelow_congr R0 R1 hR01 d hd)).1
        obtain ⟨child2, hrec, hs2⟩ := ih (d - 1) child1 hch1 hd1 (by omega)
        rw [hrec]
        simp only
        exact ihk (i + 1) _ (deepSame_trans R0 R1 _ hR01
          (deepSame_set_child R1 child1 child2 i hc1 hs2))

theorem resolve_all_total (n : Nat) :
    ∀ (f d : Nat) (root : OTUINode), ChainsEnd n root → DepthBelow d root → n + d ≤ f →
      ∃ root2, otui_resolve_all_inheritance f root = some root2 ∧ DeepSame root root2 := by
  intro f
  induction f with
  | zero =>
    intro d root _ hd hf
    have := hd [] root (get_nil root)
    simp only [List.length_nil] at this
    omega
  | succ f ih =>
    intro d root hch hd hf
    rw [otui_resolve_all_inheritance]
    exact resolveAllLoop_total n f d root hch hd hf ih root.children.length 0 root
      (deepSame_refl root)

theorem resolveAllLoop_mono (res res2 : OTUINode → NodePath → Option OTUINode)
    (rec1 rec2 : OTUINode → Option OTUINode)
    (h1 : ∀ r p x, res r p = some x → res2 r p = some x)
    (h2 : ∀ c x, rec1 c = some x → rec2 c = some x) :
    ∀ (k i : Nat) (R x : OTUINode), resolveAllLoop res rec1 k i R = some x →
      resolveAllLoop res2 rec2 k i R = some x := by
  intro k
  induction k with
  | zero => intro i R x h; exact h
  | succ k ih =>
    intro i R x h
    rw [resolveAllLoop] at h ⊢
    cases hc : R.children[i]? with
    | none => rw [hc] at h; exact h
    | some child =>
      rw [hc] at h
      simp only at h ⊢
      by_cases hb : child.base_style.isSome = true
      · simp only [hb, if_true] at h ⊢
        cases hr : res R [i] with
        | none => rw [hr] at h; cases h
        | some R1 =>
          rw [hr] at h
          rw [h1 R [i] R1 hr]
          simp only at h ⊢
          cases hc1 : R1.children[i]? with
          | none => rw [hc1] at h; exact h
          | some child1 =>
            rw [hc1] at h
            simp only at h ⊢
            cases hrec : rec1 child1 with
            | none => rw [hrec] at h; cases h
            | some child2 =>
              rw [hrec] at h
              rw [h2 child1 child2 hrec]
              exact ih _ _ _ h
      · simp only [hb, Bool.false_eq_true, if_false] at h ⊢
        cases hrec : rec1 child with
        | none => simp [hc, hrec] at h
        | some child2 =>
          simp only [hc, hrec] at h
          simp only [hc, h2 child child2 hrec]
          exact ih _ _ _ h

theorem resolve_all_fuel_succ (f : Nat) :
    ∀ (root r : OTUINode), otui_resolve_all_inheritance f root = some r →
      otui_resolve_all_inheritance (f + 1) root = some r := by
  induction f with
  | zero => intro root r h; simp [otui_resolve_all_inheritance] at h
  | succ f ih =>
    intro root r h
    rw [otui_resolve_all_inheritance] at h ⊢
    exact resolveAllLoop_mono _ _ _ _
      (fun R p x hx => resolve_fuel_succ (f + 1) R p x hx) ih _ _ _ _ h

theorem resolve_all_fuel_mono (f g : Nat) (hfg : f ≤ g) (root r : OTUINode)
    (h : otui_resolve_all_inheritance f root = some r) :
    otui_resolve_all_inheritance g root = some r := by
  induction hfg with
  | refl => exact h
  | step _ ih => exact resolve_all_fuel_succ _ root r ih

theorem chainsEndWithin_eq (n : Nat) (M : OTUINode) :
    chainsEndWithin n M = ((List.range M.children.length).all (fun i =>
      chainEndsWithin M n [i]) && chainsEndWithinList n M.children) := by
  cases M
  rw [chainsEndWithin]
  rfl

theorem chainsEndWithinList_get (n : Nat) :
    ∀ (cs : List OTUINode) (i : Nat) (c : OTUINode), chainsEndWithinList n cs = true →
      cs[i]? = some c → chainsEndWithin n c = true := by
  intro cs
  induction cs with
  | nil => intro i c _ h; simp at h
  | cons d ds ih =>
    intro i c h hc
    rw [chainsEndWithinList, Bool.and_eq_true] at h
    cases i with
    | zero =>
      simp only [List.getElem?_cons_zero, Option.some.injEq] at hc
      subst hc
      exact h.1
    | succ i =>
      simp only [List.getElem?_cons_succ] at hc
      exact ih i c h.2 hc

theorem chainsEnd_of_check (n : Nat) :
    ∀ (q : NodePath) (root : OTUINode), chainsEndWithin n root = true →
      ∀ M i, root.get q = some M → chainEndsWithin M n [i] = true := by
  intro q
  induction q with
  | nil =>
    intro root h M i hM
    rw [get_nil] at hM
    cases hM
    rw [chainsEndWithin_eq, Bool.and_eq_true, List.all_eq_true] at h
    by_cases hi : i < root.children.length
    · exact h.1 i (List.mem_range.2 hi)
    · have hb : baseOf root [i] = none := by
        unfold baseOf
        rw [get_cons, List.getElem?_eq_none (by omega)]
      cases n with
      | zero => simp [chainEndsWithin, hb]
      | succ n => rw [chainEndsWithin, hb]
  | cons j q ih =>
    intro root h M i hM
    rw [get_cons] at hM
    cases hc : root.children[j]? with
    | none => rw [hc] at hM; cases hM
    | some c =>
      rw [hc] at hM
      rw [chainsEndWithin_eq, Bool.and_eq_true] at h
      exact ih c (chainsEndWithinList_get n _ j c h.2 hc) M i hM

theorem nodeCountList_get :
    ∀ (cs : List OTUINode) (i : Nat) (c : OTUINode), cs[i]? = some c →
      nodeCount c ≤ nodeCountList cs := by
  intro cs
  induction cs with
  | nil => intro i c h; simp at h
  | cons d ds ih =>
    intro i c h
    rw [nodeCountList]
    cases i with
    | zero =>
      simp only [List.getElem?_cons_zero, Option.some.injEq] at h
      subst h
      omega
    | succ i =>
      simp only [List.getElem?_cons_succ] at h
      have := ih i c h
      omega

theorem depthBelow_nodeCount :
    ∀ (q : NodePath) (root M : OTUINode), root.get q = some M → q.length < nodeCount root := by
  intro q
  induction q with
  | nil =>
    intro root M _
    rw [nodeCount_eq]
    simp
  | cons j q ih =>
    intro root M hM
    rw [get_cons] at hM
    cases hc : root.children[j]? with
    | none => rw [hc] at hM; cases hM
    | some c =>
      rw [hc] at hM
      have h1 := ih c M hM
      have h2 := nodeCountList_get _ j c hc
      rw [nodeCount_eq, List.length_cons]
      omega

/-- The inheritance resolution of a tree without cyclic base-style chain
returns, with every fuel from `n + nodeCount root` on, and with the same tree
for all of them. -/
theorem resolve_all_returns (n : Nat) (root : OTUINode) (h : chainsEndWithin n root = true) :
    ∃ root2, ∀ fuel, n + nodeCount root ≤ fuel →
      otui_resolve_all_inheritance fuel root = some root2 := by
  obtain ⟨root2, h2, -⟩ := resolve_all_total n (n + nodeCount root) (nodeCount root) root
    (fun q M i hM => chainsEnd_of_check n q root h M i hM)
    (fun q M hM => depthBelow_nodeCount q root M hM) (le_refl _)
  exact ⟨root2, fun fuel hf => resolve_all_fuel_mono _ fuel hf root root2 h2⟩

/-- C17 (amended): `Parser::loadFromFile` walks the tree after
`otui_resolve_all_inheritance`, not the parsed tree. For a file that parses to
`root0`: whenever the resolution of `root0` returns a tree `root`, the load
returns a list that holds, in depth-first pre-order, exactly one widget for each
node of `root` that is neither the root nor in the subtree of a root-level node
with a base style and no non-empty `id` (inherited ids count, so a root-level
node that inherits an `id` is not skipped); the parent reference of the widget
of a root-level node is none, that of any other node is the index of the widget
of its parent node, which stands earlier in the list. And
`Parser::instantiateStyle` on a root-level node found by its name, template or
not, returns in the same way one widget for the node and for each of its
descendants. The resolution does return, with one and the same tree for every
fuel from `n + nodeCount root0` on, when no base-style chain of `root0` is
cyclic (every chain ends within `n` links). -/
theorem load_emits_one_widget_per_node (env : Env) (file : Option Str)
    (dataPath : Str) (root0 : OTUINode)
    (hparse : otui_parse_file file = some (Except.ok root0)) :
    (∀ (fuel : Nat) (root : OTUINode), otui_resolve_all_inheritance fuel root0 = some root →
      (∃ ws, loadFromFile fuel env file dataPath = some (Except.ok ws) ∧
        LoadsFor env (makeContext env root dataPath) dataPath ws (emittedNodes root))
      ∧ (∀ (styleName : Str) (i : Nat) (T : OTUINode), trim styleName ≠ [] →
          findStyleNode (trim styleName) root.children 0 = some (i, T) →
          root.get [i] = some T ∧
          ∃ ws, instantiateStyle fuel env file styleName dataPath = some (Except.ok ws) ∧
            LoadsFor env (makeContext env root dataPath) dataPath ws (preorder T [i])))
    ∧ (∀ n : Nat, chainsEndWithin n root0 = true →
        ∃ root, ∀ fuel, n + nodeCount root0 ≤ fuel →
          otui_resolve_all_inheritance fuel root0 = some root ∧
          ∃ ws, loadFromFile fuel env file dataPath = some (Except.ok ws) ∧
            LoadsFor env (makeContext env root dataPath) dataPath ws (emittedNodes root)) := by
  refine ⟨fun fuel root hres => load_of_resolved fuel env file dataPath root0 root hparse hres,
    ?_⟩
  intro n hn
  obtain ⟨root, hroot⟩ := resolve_all_returns n root0 hn
  refine ⟨root, fun fuel hf => ⟨hroot fuel hf, ?_⟩⟩
  exact (load_of_resolved fuel env file dataPath root0 root hparse (hroot fuel hf)).1

theorem load_emits_one_widget_per_node_witness :
    (∃ ws, loadFromFile 8 emptyEnv (some exampleTemplateFile.toList) [] = some (Except.ok ws) ∧
        LoadsFor emptyEnv
          (makeContext emptyEnv (resolvedTree 8 (parsedTree exampleTemplateFile)) []) [] ws
          (emittedNodes (resolvedTree 8 (parsedTree exampleTemplateFile))))
      ∧ (emittedNodes (resolvedTree 8 (parsedTree exampleTemplateFile))).map (fun pn => pn.1)
          = [[1], [1, 0], [1, 0, 0], [1, 1]]
      ∧ loadedIds (loadFromFile 8 emptyEnv (some exampleTemplateFile.toList) [])
          = some ["main".toList, "Button".toList, "Label".toList, "Button".toList]
      ∧ loadedParents (loadFromFile 8 emptyEnv (some exampleTemplateFile.toList) [])
          = some [none, some 0, some 1, some 0]
      ∧ loadedParents (instantiateStyle 8 emptyEnv (some exampleTemplateFile.toList)
          "Panel".toList []) = some [none, some 0]
      ∧ chainsEndWithin 0 (parsedTree exampleInheritedIdFile) = false
      ∧ chainsEndWithin 1 (parsedTree exampleInheritedIdFile) = true
      ∧ 1 + nodeCount (parsedTree exampleInheritedIdFile) = 5
      ∧ (∃ root, ∀ fuel, 1 + nodeCount (parsedTree exampleInheritedIdFile) ≤ fuel →
          otui_resolve_all_inheritance fuel (parsedTree exampleInheritedIdFile) = some root ∧
          ∃ ws, loadFromFile fuel emptyEnv (some exampleInheritedIdFile.toList) []
              = some (Except.ok ws) ∧
            LoadsFor emptyEnv (makeContext emptyEnv root []) [] ws (emittedNodes root))
      ∧ (emittedNodes (resolvedTree 5 (parsedTree exampleInheritedIdFile))).map
          (fun pn => pn.1) = [[0], [1], [1, 0]] :=
  ⟨((load_emits_one_widget_per_node emptyEnv (some exampleTemplateFile.toList) []
      (parsedTree exampleTemplateFile)
      (parse_eq_parsedTree exampleTemplateFile (by decide!))).1 8
      (resolvedTree 8 (parsedTree exampleTemplateFile))
      (resolve_eq_resolvedTree 8 (parsedTree exampleTemplateFile) (by decide!))).1,
    by decide!, by decide!, by decide!, by decide!, by decide!, by decide!, by decide!,
    (load_emits_one_widget_per_node emptyEnv (some exampleInheritedIdFile.toList) []
      (parsedTree exampleInheritedIdFile)
      (parse_eq_parsedTree exampleInheritedIdFile (by decide!))).2 1 (by decide!),
    by decide!⟩

end OTUI
